import Mathlib

/-!
# KoPoolIteratable: an iteratable object pool

A shallow embedding of `KoPoolIteratable.h` / `KoPoolIteratable.cpp` and a verification of
the pool's specification against it.

## Modelling conventions

* `USize` is a 64-bit word (`DIGITS = 64`), represented by a `Nat`; word operations that can
  wrap (`~`, `<<`, `+`, `-`, `*` on data words) carry an explicit `% 2 ^ 64`.
* Node memory (the two words at the start of every slot, and the sentinel `Pool` records of
  the table) is one flat heap `mem : Nat → Nat`, keyed by the byte address of a word.
  `pPrevFreeSkipNodeTail` is the word at offset 0 of a node, `numBytesToTail` (head layout)
  and `pNextFreeSkipNodeHead` (tail layout) are both the word at offset 8.
  The sentinel of sub-pool `i` is `pools[i]`, at address `_pSubPools + 24 * i`
  (`sizeof(Pool) = 24` with `numUsed` present, `pools` is the first member of `SubPools`).
* The other members of `SubPools` (`pointers`, `sortedPointers`, `sortedPointersSize`,
  `numUsed`) and the bitmap word arrays are typed fields, indexed by the array index.
* `AlignedMalloc` is an oracle: its results are arguments (`MallocEnv`), `0` is `nullptr`.
* A failing `__KO_POOL_ITERATABLE_ASSERT_DEV__` (the macro `__KO_POOL_ITERATABLE_DEV__` is
  defined), an out-of-range index into `pools` / `pointers`, a read of the binary search
  outside the `DIGITS - 1` entries of `sortedPointers`, and a dereference of a null table
  make the operation return `none`. `__KO_POOL_ITERATABLE_ASSERT_TEST__` is compiled out
  and is not modelled.
-/

set_option autoImplicit false

namespace KoPool

/-! ## Words -/

/-- The constant `std::numeric_limits<USize>::digits`. -/
def DIGITS : Nat := 64

/-- The constant `SUBPOOLS_CNT`. -/
def SUBPOOLS_CNT : Nat := DIGITS

/-- The constant `SUB_POOL_ID_NONE`. -/
def SUB_POOL_ID_NONE : Nat := SUBPOOLS_CNT

/-- Length of the arrays `pools`, `pointers` and `sortedPointers` (`DIGITS - 1`). -/
def ARRAY_LEN : Nat := DIGITS - 1

/-- The value `std::numeric_limits<USize>::max()`. -/
def USIZE_MAX : Nat := 2 ^ 64 - 1

/-- Size in bytes of `struct Pool` (two pointers and `numUsed`). -/
def SIZEOF_POOL : Nat := 24

/-- Size in bytes of `struct SubPools`. -/
def SIZEOF_SUBPOOLS : Nat := 63 * 24 + 63 * 8 + 63 * 16 + 8

/-- Word addition `a + b` on `USize`. -/
def wadd (a b : Nat) : Nat := (a + b) % 2 ^ 64

/-- Word subtraction `a - b` on `USize`. -/
def wsub (a b : Nat) : Nat := (a + 2 ^ 64 - b % 2 ^ 64) % 2 ^ 64

/-- Word multiplication `a * b` on `USize`. -/
def wmul (a b : Nat) : Nat := (a * b) % 2 ^ 64

/-- Bitwise complement `~x` on `USize`. -/
def bnot (x : Nat) : Nat := (x % 2 ^ 64) ^^^ USIZE_MAX

/-- The word `(USize)1 << i`. -/
def shl1 (i : Nat) : Nat := (1 <<< i) % 2 ^ 64

/-- Loop behind `__builtin_ctzll`: number of trailing zero bits of a non-zero word. -/
def ctzLoop : Nat → Nat → Nat
  | 0, _ => 0
  | fuel + 1, n => if n % 2 = 1 then 0 else 1 + ctzLoop fuel (n / 2)

/-- Loop behind `__builtin_clzll`: number of significant bits of a word. -/
def bitLength : Nat → Nat → Nat
  | 0, _ => 0
  | fuel + 1, n => if n = 0 then 0 else 1 + bitLength fuel (n / 2)

/-- `Count0BitsRight(uint64_t)`. -/
def Count0BitsRight (num : Nat) : Nat :=
  if num ≠ 0 then ctzLoop 64 num else 64

/-- `Count0BitsLeft(uint64_t)`. -/
def Count0BitsLeft (num : Nat) : Nat :=
  if num ≠ 0 then 64 - bitLength 64 num else 64

/-- `IsPowerOf2`. -/
def IsPowerOf2 (num : Nat) : Bool :=
  decide (num ≠ 0) && decide (num &&& (wsub num 1) = 0)

/-- `Log2`. -/
def Log2 (num : Nat) : Nat :=
  if num = 0 then 0 else (DIGITS - 1) - Count0BitsLeft num

/-- `RoundUpToPowerOf2`. -/
def RoundUpToPowerOf2 (num : Nat) : Nat :=
  if num = USIZE_MAX then num
  else if IsPowerOf2 num then num
  else shl1 (DIGITS - Count0BitsLeft num)

/-- `CeilDiv`. -/
def CeilDiv (x y : Nat) : Nat := x / y + (if x % y ≠ 0 then 1 else 0)

/-- `GetSubPoolSize`. -/
def GetSubPoolSize (subPoolID : Nat) : Nat :=
  if subPoolID = 0 then 2 else shl1 subPoolID

/-! ## Data -/

/-- `KoPoolIteratable::Opt`. -/
structure Opt where
  elementSizeInBytes : Nat := 8
  elementAlignment : Nat := 8

/-- `KoPoolIteratable::SortedPointer`. -/
structure SortedPointer where
  pMemory : Nat := 0
  subPoolID : Nat := SUB_POOL_ID_NONE

/-- `KoPoolIteratable::AllocBytesResult`. -/
structure AllocBytesResult where
  subPoolID : Nat := SUB_POOL_ID_NONE
  pMemory : Nat := 0

/-- `KoPoolIteratable::PoolID`. -/
structure PoolID where
  subPoolID : Nat := SUB_POOL_ID_NONE
  id : Nat := 0
  pMemory : Nat := 0

/-- Results of the `AlignedMalloc` calls one `AllocateBytes` can make (`0` is failure). -/
structure MallocEnv where
  table : Nat
  buffer : Nat
  bitmap : Nat

/-- Pointwise update of a map indexed by naturals. -/
def upd {α : Type} (f : Nat → α) (a : Nat) (v : α) : Nat → α :=
  fun x => if x = a then v else f x

/-- The class `KoPoolIteratable` together with the memory it owns. -/
structure Pool where
  _vacantSubPools : Nat := USIZE_MAX
  _subPoolsWhichHaveAtLeastOneElement : Nat := 0
  _subPoolToDeallocate : Nat := SUB_POOL_ID_NONE
  _pSubPools : Nat := 0
  _opt : Opt := {}
  /-- The member `pools[i].pPrevFreeSkipNodeTail`, which stores the bitmap pointer. -/
  poolsPrev : Nat → Nat := fun _ => 0
  /-- The member `pools[i].numUsed`. -/
  numUsed : Nat → Nat := fun _ => 0
  pointers : Nat → Nat := fun _ => 0
  sortedPointers : Nat → SortedPointer := fun _ => {}
  sortedPointersSize : Nat := 0
  /-- Node memory: slot words and the sentinels `pools[i]`. -/
  mem : Nat → Nat := fun _ => 0
  /-- The word array `reinterpret_cast<USize*>(pools[i].pPrevFreeSkipNodeTail)`. -/
  bitmap : Nat → Nat → Nat := fun _ _ => 0

/-- The class `KoPoolIteratorCore`. -/
structure KoPoolIteratorCore where
  _subPoolID : Nat := 0
  _idInSubPool : Nat := USIZE_MAX
  _subPoolsWhichHaveAtLeastOneElement : Nat := 0

namespace Pool

/-- Address of the sentinel `pools[subPoolID]`. -/
def poolAddr (s : Pool) (subPoolID : Nat) : Nat := s._pSubPools + SIZEOF_POOL * subPoolID

/-- The default constructor `KoPoolIteratable()`. -/
def default : Pool := {}

/-- The constructor `KoPoolIteratable(const Opt&)`; its two assertions are
`__KO_POOL_ITERATABLE_ASSERT_DEV__`. -/
def construct (opt : Opt) : Option Pool :=
  if ¬ IsPowerOf2 opt.elementAlignment then none
  else if ¬ opt.elementSizeInBytes ≥ 16 then none
  else some { _opt := { elementSizeInBytes := opt.elementSizeInBytes,
                        elementAlignment := max opt.elementAlignment 8 } }

/-- `IsEmpty`. -/
def IsEmpty (s : Pool) : Bool := s._subPoolsWhichHaveAtLeastOneElement = 0

/-- `PtrToIDInSubPool`. -/
def PtrToIDInSubPool (s : Pool) (pMemory subPoolID : Nat) : Nat :=
  wsub pMemory (s.pointers subPoolID) / s._opt.elementSizeInBytes

/-- `IsPtrInsideSubPool`. -/
def IsPtrInsideSubPool (s : Pool) (pMemory subPoolID : Nat) : Bool :=
  decide (s.pointers subPoolID ≠ 0) &&
  decide (pMemory ≥ s.pointers subPoolID) &&
  decide (pMemory < s.pointers subPoolID + GetSubPoolSize subPoolID * s._opt.elementSizeInBytes)

/-- `IsSkipListNodeByIDInSubPool`. -/
def IsSkipListNodeByIDInSubPool (s : Pool) (idInSubPool subPoolID : Nat) : Bool :=
  let bitID := idInSubPool &&& (DIGITS - 1)
  decide (((s.bitmap subPoolID (idInSubPool / DIGITS)) >>> bitID) &&& 1 = 1)

/-- `IsSkipListNode`. -/
def IsSkipListNode (s : Pool) (pMemory subPoolID : Nat) : Bool :=
  s.IsSkipListNodeByIDInSubPool (s.PtrToIDInSubPool pMemory subPoolID) subPoolID

/-- `SetIsSkipListNode`. -/
def SetIsSkipListNode (s : Pool) (pMemory subPoolID : Nat) (isSkipListNode : Bool) : Pool :=
  let id := s.PtrToIDInSubPool pMemory subPoolID
  let bitID := id &&& (DIGITS - 1)
  let word := s.bitmap subPoolID (id / DIGITS)
  let word' := if isSkipListNode then word ||| shl1 bitID else word &&& bnot (shl1 bitID)
  { s with bitmap := upd s.bitmap subPoolID (upd (s.bitmap subPoolID) (id / DIGITS) word') }

/-- `IsRightSkipListNodeSafe`. -/
def IsRightSkipListNodeSafe (s : Pool) (pMemory subPoolID : Nat) : Bool :=
  let isEnd : Bool := decide (pMemory + s._opt.elementSizeInBytes =
    s.pointers subPoolID + GetSubPoolSize subPoolID * s._opt.elementSizeInBytes)
  !isEnd && s.IsSkipListNode (pMemory + s._opt.elementSizeInBytes) subPoolID

/-- `IsLeftSkipListNodeSafe`. -/
def IsLeftSkipListNodeSafe (s : Pool) (pMemory subPoolID : Nat) : Bool :=
  let isBegin : Bool := decide (pMemory = s.pointers subPoolID)
  !isBegin && s.IsSkipListNode (pMemory - s._opt.elementSizeInBytes) subPoolID

/-- `HeadToTail`, reading node memory `m`. -/
def HeadToTail (m : Nat → Nat) (pHeadNode : Nat) : Nat :=
  pHeadNode + m (pHeadNode + 8)

/-- `TailToHead`, reading node memory `m`. -/
def TailToHead (m : Nat → Nat) (pTailNode : Nat) : Nat :=
  m (m pTailNode + 8)

/-- `HeadNodeSetPrevFreeSkipNodeTail`, as a function on node memory: `m` is the memory at
the time of the call, the result the memory afterwards. The pool `s` provides the buffers
and the bitmap, which the function only reads. -/
def HeadNodeSetPrevFreeSkipNodeTail (s : Pool) (m : Nat → Nat)
    (pHeadNode pTailToSet subPoolID : Nat) : Nat → Nat :=
  if pHeadNode = 0 then m
  else
    let m1 := upd m pHeadNode pTailToSet
    if s.IsRightSkipListNodeSafe pHeadNode subPoolID then
      upd m1 (HeadToTail m1 pHeadNode) pTailToSet
    else m1

/-- `ResetSubPool`. -/
def ResetSubPool (s : Pool) (subPoolID : Nat) : Pool :=
  let size := GetSubPoolSize subPoolID
  let words := CeilDiv size DIGITS
  let bm : Nat → Nat := fun j => if j < words then USIZE_MAX else s.bitmap subPoolID j
  let pHead := s.pointers subPoolID
  let pTail := s.pointers subPoolID + (size - 1) * s._opt.elementSizeInBytes
  let m1 := upd s.mem pHead (s.poolAddr subPoolID)
  let m2 := upd m1 (pHead + 8) (wmul (size - 1) s._opt.elementSizeInBytes)
  let m3 := upd m2 pTail (s.poolAddr subPoolID)
  let m4 := upd m3 (pTail + 8) 0
  let m5 := upd m4 (s.poolAddr subPoolID + 8) pHead
  { s with bitmap := upd s.bitmap subPoolID bm, mem := m5 }

/-- The `while` loop of `InsertSortedPointer`. -/
def insertLoop (sp : Nat → SortedPointer) : Nat → Nat → SortedPointer
  | 0 => sp
  | idx + 1 =>
    if (sp idx).pMemory > (sp (idx + 1)).pMemory then
      insertLoop (upd (upd sp idx (sp (idx + 1))) (idx + 1) (sp idx)) idx
    else sp

/-- `InsertSortedPointer`. -/
def InsertSortedPointer (s : Pool) (subPoolID : Nat) : Pool :=
  let sortedPointer : SortedPointer := { pMemory := s.pointers subPoolID, subPoolID := subPoolID }
  let sp := upd s.sortedPointers s.sortedPointersSize sortedPointer
  { s with sortedPointers := insertLoop sp s.sortedPointersSize,
           sortedPointersSize := s.sortedPointersSize + 1 }

/-- `BinarySearchSortedPointerIDByPointerPow2Impl<NUMBER>`; the first argument bounds the
depth of the template recursion (`NUMBER`, `NUMBER / 2`, ..., `0`). The array
`sortedPointers` has `DIGITS - 1` entries: `none` when the entry the function reads lies
outside of it. -/
def BinarySearchSortedPointerIDByPointerPow2Impl (s : Pool) (pMemory : Nat) :
    Nat → Nat → Nat → Option Nat
  | 0, _, _ => none
  | depth + 1, NUMBER, offset =>
    if NUMBER = 0 then
      if offset < ARRAY_LEN then some offset else none
    else if ¬ offset + NUMBER / 2 < ARRAY_LEN then none
    else if (s.sortedPointers (offset + NUMBER / 2)).pMemory = 0 ∨
        pMemory < (s.sortedPointers (offset + NUMBER / 2)).pMemory then
      BinarySearchSortedPointerIDByPointerPow2Impl s pMemory depth (NUMBER / 2) offset
    else
      BinarySearchSortedPointerIDByPointerPow2Impl s pMemory depth (NUMBER / 2)
        (offset + NUMBER / 2)

/-- `FindSortedPointerIDByPtr`; `none` when the descent reads outside of `sortedPointers`. -/
def FindSortedPointerIDByPtr (s : Pool) (pMemory : Nat) : Option Nat :=
  let sortedPointersSizePow2 := RoundUpToPowerOf2 s.sortedPointersSize
  if sortedPointersSizePow2 = 1 then some 0
  else if sortedPointersSizePow2 = 2 then
    s.BinarySearchSortedPointerIDByPointerPow2Impl pMemory 8 2 0
  else if sortedPointersSizePow2 = 4 then
    s.BinarySearchSortedPointerIDByPointerPow2Impl pMemory 8 4 0
  else if sortedPointersSizePow2 = 8 then
    s.BinarySearchSortedPointerIDByPointerPow2Impl pMemory 8 8 0
  else if sortedPointersSizePow2 = 16 then
    s.BinarySearchSortedPointerIDByPointerPow2Impl pMemory 8 16 0
  else if sortedPointersSizePow2 = 32 then
    s.BinarySearchSortedPointerIDByPointerPow2Impl pMemory 8 32 0
  else if sortedPointersSizePow2 = 64 then
    s.BinarySearchSortedPointerIDByPointerPow2Impl pMemory 8 64 0
  else
    s.BinarySearchSortedPointerIDByPointerPow2Impl pMemory 8 DIGITS 0

/-- `FindSubPoolIDByPtrImpl`; `none` when `FindSortedPointerIDByPtr` is undefined. The
position the search returns is below `DIGITS - 1` (`FindSortedPointerIDByPtr_lt`), so the
entry read here is one of the array. -/
def FindSubPoolIDByPtrImpl (s : Pool) (pMemory : Nat) : Option Nat :=
  match s.FindSortedPointerIDByPtr pMemory with
  | none => none
  | some sortedPointerID => some (s.sortedPointers sortedPointerID).subPoolID

/-- The `while` loop of `RemoveSortedPointer`; the first argument bounds the iterations. -/
def removeLoop (size : Nat) : Nat → (Nat → SortedPointer) → Nat → (Nat → SortedPointer) × Nat
  | 0, sp, idx => (sp, idx)
  | fuel + 1, sp, idx =>
    if idx + 1 < size then
      removeLoop size fuel (upd (upd sp idx (sp (idx + 1))) (idx + 1) (sp idx)) (idx + 1)
    else (sp, idx)

/-- `RemoveSortedPointer`; `none` when `FindSortedPointerIDByPtr` is undefined. -/
def RemoveSortedPointer (s : Pool) (subPoolID : Nat) : Option Pool :=
  match s.FindSortedPointerIDByPtr (s.pointers subPoolID) with
  | none => none
  | some idxToRemove =>
    let r := removeLoop s.sortedPointersSize s.sortedPointersSize s.sortedPointers idxToRemove
    some { s with sortedPointers := upd r.1 r.2 {},
                  sortedPointersSize := wsub s.sortedPointersSize 1 }

/-- `DeallocateSubPoolMemory`. -/
def DeallocateSubPoolMemory (s : Pool) (subPoolID : Nat) : Option Pool :=
  if ¬ subPoolID < ARRAY_LEN then none
  else if s.numUsed subPoolID ≠ 0 then none
  else some { s with pointers := upd s.pointers subPoolID 0,
                     poolsPrev := upd s.poolsPrev subPoolID 0,
                     mem := upd s.mem (s.poolAddr subPoolID + 8) 0,
                     numUsed := upd s.numUsed subPoolID 0 }

/-- `IsSubPoolEmpty`; `none` when its `__KO_POOL_ITERATABLE_ASSERT_DEV__` fails. -/
def IsSubPoolEmpty (s : Pool) (subPoolID : Nat) : Option Bool :=
  let pNext := s.mem (s.poolAddr subPoolID + 8)
  let isEmpty : Bool :=
    s.IsRightSkipListNodeSafe pNext subPoolID &&
    decide (s.mem (pNext + 8) = wmul (GetSubPoolSize subPoolID - 1) s._opt.elementSizeInBytes)
  if isEmpty ∧ s.numUsed subPoolID ≠ 0 then none else some isEmpty

/-- Value-initialisation `new (pSubPools) SubPools{}` of a table placed at `table`. -/
def newTable (s : Pool) (table : Nat) : Pool :=
  { s with _pSubPools := table,
           poolsPrev := fun _ => 0,
           numUsed := fun _ => 0,
           pointers := fun _ => 0,
           sortedPointers := fun _ => {},
           sortedPointersSize := 0,
           mem := fun a => if table ≤ a ∧ a < table + SIZEOF_SUBPOOLS then 0 else s.mem a }

/-- Lines 162-214 of `AllocateBytes`: unlink the first slot of the first free run of
`subPoolID` and clear its free-bit. -/
def allocTakeFirst (s : Pool) (subPoolID : Nat) : Option (Pool × AllocBytesResult) :=
  let size := GetSubPoolSize subPoolID
  let sz := s._opt.elementSizeInBytes
  let pMemory := s.mem (s.poolAddr subPoolID + 8)
  let result : AllocBytesResult := { subPoolID := subPoolID, pMemory := pMemory }
  if ¬ s.IsRightSkipListNodeSafe pMemory subPoolID then
    let m4 := upd s.mem (s.poolAddr subPoolID + 8) (s.mem (pMemory + 8))
    let m5 := s.HeadNodeSetPrevFreeSkipNodeTail m4 (m4 (pMemory + 8)) (s.poolAddr subPoolID)
      subPoolID
    if m5 (pMemory + 8) = 0 then
      if s.numUsed subPoolID ≠ size then none
      else
        let s6 : Pool :=
          { s with mem := m5, _vacantSubPools := s._vacantSubPools &&& bnot (shl1 subPoolID) }
        some (s6.SetIsSkipListNode pMemory subPoolID false, result)
    else
      let s5 : Pool := { s with mem := m5 }
      some (s5.SetIsSkipListNode pMemory subPoolID false, result)
  else
    let pHead := pMemory + sz
    let m1 := upd s.mem pHead (s.mem pMemory)
    let m2 := upd m1 (pHead + 8) (wsub (m1 (pMemory + 8)) sz)
    let m4 := if s.mem (pMemory + 8) ≠ sz then m2 else s.mem
    let s5 : Pool := { s with mem := upd m4 (s.poolAddr subPoolID + 8) pHead }
    some (s5.SetIsSkipListNode pMemory subPoolID false, result)

/-- Lines 150-214 of `AllocateBytes`: count the slot, cancel a deferred release of
`subPoolID`, mark the sub-pool non-empty, then take the first free slot. -/
def allocFromSubPool (s : Pool) (subPoolID : Nat) : Option (Pool × AllocBytesResult) :=
  let s3 : Pool :=
    { s with
      numUsed := upd s.numUsed subPoolID (wadd (s.numUsed subPoolID) 1),
      _subPoolToDeallocate :=
        if s._subPoolToDeallocate = subPoolID then SUB_POOL_ID_NONE else s._subPoolToDeallocate,
      _subPoolsWhichHaveAtLeastOneElement :=
        s._subPoolsWhichHaveAtLeastOneElement ||| shl1 subPoolID }
  s3.allocTakeFirst subPoolID

/-- Lines 116-214 of `AllocateBytes`, reached once the table exists. -/
def allocateWithTable (s : Pool) (env : MallocEnv) : Option (Pool × AllocBytesResult) :=
  let subPoolID := Count0BitsRight s._vacantSubPools
  if ¬ subPoolID < ARRAY_LEN then none
  else if s.pointers subPoolID = 0 then
    if env.buffer = 0 then some (s, {})
    else if env.bitmap = 0 then some (s, {})
    else
      let s1 := { s with pointers := upd s.pointers subPoolID env.buffer,
                         poolsPrev := upd s.poolsPrev subPoolID env.bitmap }
      ((s1.ResetSubPool subPoolID).InsertSortedPointer subPoolID).allocFromSubPool subPoolID
  else s.allocFromSubPool subPoolID

/-- `AllocateBytes`. -/
def AllocateBytes (s : Pool) (env : MallocEnv) : Option (Pool × AllocBytesResult) :=
  if s._pSubPools = 0 then
    if env.table = 0 then some (s, {})
    else (s.newTable env.table).allocateWithTable env
  else s.allocateWithTable env

/-- Lines 269-288 of `DeallocateBytesImpl` (both neighbours free): the node memory after
the left run has been unlinked from the list. -/
def linkBothUnlink (s : Pool) (pMemory subPoolID : Nat) : Nat → Nat :=
  let sz := s._opt.elementSizeInBytes
  let pTailLeft := pMemory - sz
  let m1 := s.HeadNodeSetPrevFreeSkipNodeTail s.mem (s.mem (pTailLeft + 8)) (s.mem pTailLeft)
    subPoolID
  upd m1 (m1 pTailLeft + 8) (m1 (pTailLeft + 8))

/-- Lines 269-303 of `DeallocateBytesImpl`: both neighbours of the freed slot are free. -/
def linkBoth (s : Pool) (pMemory subPoolID : Nat) : Nat → Nat :=
  let sz := s._opt.elementSizeInBytes
  let pTailLeft := pMemory - sz
  let isNextLeftSkipNode := s.IsLeftSkipListNodeSafe (pMemory - sz) subPoolID
  let pHeadLeft := if isNextLeftSkipNode then TailToHead s.mem pTailLeft else pTailLeft
  let pRightBase := pMemory + sz
  let numBytesToTailRight :=
    if s.IsRightSkipListNodeSafe (pMemory + sz) subPoolID then s.mem (pRightBase + 8) else 0
  let m2 := s.linkBothUnlink pMemory subPoolID
  let m3 := upd m2 pTailLeft (m2 pRightBase)
  let m4 := upd m3 (m3 pRightBase + 8) pHeadLeft
  let m5 := upd m4 pHeadLeft (m4 pRightBase)
  if isNextLeftSkipNode then
    upd m5 (pHeadLeft + 8) (wadd (m5 (pHeadLeft + 8)) (wadd (wmul sz 2) numBytesToTailRight))
  else
    upd m4 (pHeadLeft + 8) (wadd (wmul sz 2) numBytesToTailRight)

/-- Lines 308-323 of `DeallocateBytesImpl` (only the left neighbour free): the node memory
after the tail node has been moved to the freed slot and the head's `numBytesToTail` has
been updated. -/
def linkLeftGrow (s : Pool) (pMemory subPoolID : Nat) : Nat → Nat :=
  let sz := s._opt.elementSizeInBytes
  let pTailOld := pMemory - sz
  let pTailNew := pMemory
  let m1 := upd s.mem pTailNew (s.mem pTailOld)
  let m2 := upd m1 (pTailNew + 8) (m1 (pTailOld + 8))
  let pHead := TailToHead m2 pTailOld
  if s.IsLeftSkipListNodeSafe (pMemory - sz) subPoolID then
    upd m2 (pHead + 8) (wadd (m2 (pHead + 8)) sz)
  else
    upd m2 (pTailOld + 8) sz

/-- Lines 308-327 of `DeallocateBytesImpl`: only the left neighbour is free. -/
def linkLeft (s : Pool) (pMemory subPoolID : Nat) : Nat → Nat :=
  let m3 := s.linkLeftGrow pMemory subPoolID
  s.HeadNodeSetPrevFreeSkipNodeTail m3 (m3 (pMemory + 8)) pMemory subPoolID

/-- Lines 332-342 of `DeallocateBytesImpl` (only the right neighbour free): the node memory
after the head node has been written into the freed slot. -/
def linkRightHead (s : Pool) (pMemory subPoolID : Nat) : Nat → Nat :=
  let sz := s._opt.elementSizeInBytes
  let pNodeOld := pMemory + sz
  let pHeadNew := pMemory
  let m1 := upd s.mem pHeadNew (s.mem pNodeOld)
  let m2 := upd m1 (pHeadNew + 8) sz
  if s.IsRightSkipListNodeSafe (pMemory + sz) subPoolID then
    upd m2 (pHeadNew + 8) (wadd (m2 (pHeadNew + 8)) (m2 (pNodeOld + 8)))
  else m2

/-- Lines 332-346 of `DeallocateBytesImpl`: only the right neighbour is free. -/
def linkRight (s : Pool) (pMemory subPoolID : Nat) : Nat → Nat :=
  let m3 := s.linkRightHead pMemory subPoolID
  upd m3 (m3 pMemory + 8) pMemory

/-- Lines 349-355 of `DeallocateBytesImpl` (no neighbour free): the node memory after the
freed slot has been written as a tail node at the front of the list. -/
def linkNoneFront (s : Pool) (pMemory subPoolID : Nat) : Nat → Nat :=
  let pTail := pMemory
  let m1 := upd s.mem pTail (s.poolAddr subPoolID)
  let m2 := upd m1 (pTail + 8) (m1 (s.poolAddr subPoolID + 8))
  upd m2 (s.poolAddr subPoolID + 8) pTail

/-- Lines 349-356 of `DeallocateBytesImpl`: no neighbour of the freed slot is free. -/
def linkNone (s : Pool) (pMemory subPoolID : Nat) : Nat → Nat :=
  let m3 := s.linkNoneFront pMemory subPoolID
  s.HeadNodeSetPrevFreeSkipNodeTail m3 (m3 (pMemory + 8)) pMemory subPoolID

/-- The four linking cases of `DeallocateBytesImpl` (lines 264-357): the node memory after
the freed slot has been linked into the free list. -/
def deallocLink (s : Pool) (pMemory subPoolID : Nat) : Nat → Nat :=
  let isLeftSkipListNode := s.IsLeftSkipListNodeSafe pMemory subPoolID
  let isRightSkipListNode := s.IsRightSkipListNodeSafe pMemory subPoolID
  if isLeftSkipListNode && isRightSkipListNode then s.linkBoth pMemory subPoolID
  else if isLeftSkipListNode then s.linkLeft pMemory subPoolID
  else if isRightSkipListNode then s.linkRight pMemory subPoolID
  else s.linkNone pMemory subPoolID

/-- The `defer` block of `DeallocateBytesImpl` (lines 235-262), run at scope exit. -/
def deallocDefer (s : Pool) (pMemory subPoolID : Nat) : Option Pool :=
  let s1 := s.SetIsSkipListNode pMemory subPoolID true
  match s1.IsSubPoolEmpty subPoolID with
  | none => none
  | some false => some s1
  | some true =>
    let s2 := { s1 with _subPoolsWhichHaveAtLeastOneElement :=
      s1._subPoolsWhichHaveAtLeastOneElement &&& bnot (shl1 subPoolID) }
    if s2._subPoolToDeallocate = SUB_POOL_ID_NONE then
      some { s2 with _subPoolToDeallocate := subPoolID }
    else if subPoolID < s2._subPoolToDeallocate then
      match s2.RemoveSortedPointer s2._subPoolToDeallocate with
      | none => none
      | some s3 =>
        match s3.DeallocateSubPoolMemory s2._subPoolToDeallocate with
        | none => none
        | some s4 => some { s4 with _subPoolToDeallocate := subPoolID }
    else
      match s2.RemoveSortedPointer subPoolID with
      | none => none
      | some s3 => s3.DeallocateSubPoolMemory subPoolID

/-- `DeallocateBytesImpl`. -/
def DeallocateBytesImpl (s : Pool) (pMemory subPoolID : Nat) : Option Pool :=
  if pMemory = 0 then some s
  else if s._pSubPools = 0 then none
  else if ¬ subPoolID < ARRAY_LEN then none
  else
    let s2 : Pool :=
      { s with numUsed := upd s.numUsed subPoolID (wsub (s.numUsed subPoolID) 1),
               _vacantSubPools := s._vacantSubPools ||| shl1 subPoolID,
               mem := s.deallocLink pMemory subPoolID }
    s2.deallocDefer pMemory subPoolID

/-- `DeallocateBytesByPtr`. -/
def DeallocateBytesByPtr (s : Pool) (pMemory : Nat) : Option Pool :=
  if pMemory = 0 then some s
  else if s._pSubPools = 0 then none
  else
    match s.FindSubPoolIDByPtrImpl pMemory with
    | none => none
    | some subPoolID => s.DeallocateBytesImpl pMemory subPoolID

/-- `DeallocateBytesByPtrAndSubPoolID`. -/
def DeallocateBytesByPtrAndSubPoolID (s : Pool) (pMemory subPoolID : Nat) : Option Pool :=
  s.DeallocateBytesImpl pMemory subPoolID

/-- `IDToSubPoolIDImpl`. -/
def IDToSubPoolIDImpl (_s : Pool) (id : Nat) : Nat := Log2 id

/-- `IDToPtrImpl`. -/
def IDToPtrImpl (s : Pool) (id : Nat) : PoolID :=
  let subPoolID := s.IDToSubPoolIDImpl id
  let baseID := if subPoolID = 0 then 0 else shl1 subPoolID
  { subPoolID := subPoolID, id := id,
    pMemory := s.pointers subPoolID + wmul (wsub id baseID) s._opt.elementSizeInBytes }

/-- `PtrToIDImpl`. -/
def PtrToIDImpl (s : Pool) (pMemory subPoolID : Nat) : PoolID :=
  let baseID := if subPoolID = 0 then 0 else shl1 subPoolID
  { subPoolID := subPoolID, id := wadd baseID (s.PtrToIDInSubPool pMemory subPoolID),
    pMemory := 0 }

/-- `DeallocateBytesByID`. -/
def DeallocateBytesByID (s : Pool) (id : Nat) : Option Pool :=
  if s._pSubPools = 0 then none
  else
    let poolID := s.IDToPtrImpl id
    s.DeallocateBytesByPtrAndSubPoolID poolID.pMemory poolID.subPoolID

/-- The loop of `DeallocateBytesAll` over `i = 0 .. pointers.size() - 1`. -/
def deallocAllLoop : Nat → Pool → Option Pool
  | 0, s => some s
  | n + 1, s =>
    match deallocAllLoop n s with
    | none => none
    | some s1 => s1.DeallocateSubPoolMemory n

/-- `DeallocateBytesAll`. -/
def DeallocateBytesAll (s : Pool) : Option Pool :=
  if s._pSubPools = 0 then none
  else
    match deallocAllLoop ARRAY_LEN s with
    | none => none
    | some s1 =>
      some { s1 with _vacantSubPools := USIZE_MAX,
                     _subPoolsWhichHaveAtLeastOneElement := 0,
                     _subPoolToDeallocate := SUB_POOL_ID_NONE,
                     sortedPointersSize := 0,
                     sortedPointers := fun _ => {} }

/-- The loop of `SubPoolsUniquePtrDeleter::operator()` over `i = 0 .. pointers.size() - 1`:
the `__KO_POOL_ITERATABLE_ASSERT_DEV__(ptr->pools[i].numUsed == 0)`, then
`DeallocateSubPoolMemory`. -/
def deleterLoop : Nat → Pool → Option Pool
  | 0, s => some s
  | n + 1, s =>
    match deleterLoop n s with
    | none => none
    | some s1 => if s1.numUsed n ≠ 0 then none else s1.DeallocateSubPoolMemory n

/-- `SubPoolsUniquePtrDeleter::operator()` applied to the table of `s`: `some ()` when it
returns (the table and its buffers are freed, or there is no table), `none` when one of its
`__KO_POOL_ITERATABLE_ASSERT_DEV__` fails. -/
def SubPoolsUniquePtrDeleter (s : Pool) : Option Unit :=
  if s._pSubPools = 0 then some ()
  else
    match deleterLoop ARRAY_LEN s with
    | none => none
    | some _ => some ()

/-- The move constructor `KoPoolIteratable(KoPoolIteratable&& rhs)`: the constructed object
and `rhs` afterwards. Every member of `rhs` is exchanged with its initial value; the fields
that model the content of the table go with the table pointer. -/
def moveConstruct (rhs : Pool) : Pool × Pool := (rhs, {})

/-- The move assignment `operator=(KoPoolIteratable&& rhs)` for `this != &rhs`: `this` and
`rhs` afterwards. Assigning `_pSubPools` runs `SubPoolsUniquePtrDeleter` on the table `this`
had. -/
def moveAssign (this rhs : Pool) : Option (Pool × Pool) :=
  match this.SubPoolsUniquePtrDeleter with
  | none => none
  | some _ => some (rhs, {})

/-- `IDToPtr`. -/
def IDToPtr (s : Pool) (id : Nat) : Nat := (s.IDToPtrImpl id).pMemory

/-- `IDToSubPoolID`. -/
def IDToSubPoolID (s : Pool) (id : Nat) : Nat := s.IDToSubPoolIDImpl id

/-- `PtrToID`. -/
def PtrToID (s : Pool) (pMemory subPoolID : Nat) : Nat := (s.PtrToIDImpl pMemory subPoolID).id

/-- `FindSubPoolIDByPtr`; `none` when the table is null, the search is undefined or one
of its two `__KO_POOL_ITERATABLE_ASSERT_DEV__` fails. -/
def FindSubPoolIDByPtr (s : Pool) (pMemory : Nat) : Option Nat :=
  if s._pSubPools = 0 then none
  else
    match s.FindSubPoolIDByPtrImpl pMemory with
    | none => none
    | some subPoolID =>
      if subPoolID = SUB_POOL_ID_NONE then none
      else if ¬ s.IsPtrInsideSubPool pMemory subPoolID then none
      else some subPoolID

end Pool

namespace KoPoolIteratorCore

/-- The constructor `KoPoolIteratorCore(const KoPoolIteratable&)`. -/
def ofPool (pool : Pool) : KoPoolIteratorCore :=
  { _subPoolsWhichHaveAtLeastOneElement := pool._subPoolsWhichHaveAtLeastOneElement }

/-- The `for (;;)` loop of `Next<T>` (with `sizeof(T) == elementSizeInBytes`). The result is
the returned pointer (`0` for `nullptr`) and the iterator afterwards; `none` when the number
of loop iterations given by the first argument is used up, or when the table, the index
`_subPoolID` or the buffer `pointers[_subPoolID]` cannot be dereferenced. The table is
read for the first time at `subPools.pointers[_subPoolID]`: binding the reference
`subPools` reads nothing. -/
def nextLoop (pool : Pool) : Nat → KoPoolIteratorCore → Option (Nat × KoPoolIteratorCore)
  | 0, _ => none
  | fuel + 1, it =>
    if it._idInSubPool ≥ GetSubPoolSize it._subPoolID ∧
        it._subPoolsWhichHaveAtLeastOneElement = 0 then some (0, it)
    else if pool._pSubPools = 0 then none
    else
      let advance : Bool := decide (it._idInSubPool ≥ GetSubPoolSize it._subPoolID)
      let sp := Count0BitsRight it._subPoolsWhichHaveAtLeastOneElement
      let it1 : KoPoolIteratorCore :=
        { _subPoolID := if advance then sp else it._subPoolID,
          _subPoolsWhichHaveAtLeastOneElement :=
            if advance then it._subPoolsWhichHaveAtLeastOneElement &&& bnot (shl1 sp)
            else it._subPoolsWhichHaveAtLeastOneElement,
          _idInSubPool := if advance then 0 else it._idInSubPool }
      if ¬ it1._subPoolID < ARRAY_LEN then none
      else if pool.pointers it1._subPoolID = 0 then none
      else
        let pMemory := pool.pointers it1._subPoolID
        let sz := pool._opt.elementSizeInBytes
        let size := GetSubPoolSize it1._subPoolID
        if pool.IsSkipListNodeByIDInSubPool it1._idInSubPool it1._subPoolID then
          if it1._idInSubPool + 1 = size then
            nextLoop pool fuel { it1 with _idInSubPool := it1._idInSubPool + 1 }
          else if pool.IsSkipListNodeByIDInSubPool (it1._idInSubPool + 1) it1._subPoolID then
            let sizeToTailInBytes := pool.mem (pMemory + it1._idInSubPool * sz + 8)
            let sizeToSkip := sizeToTailInBytes / sz + 1
            let it2 := { it1 with _idInSubPool := it1._idInSubPool + sizeToSkip }
            if it2._idInSubPool = size then nextLoop pool fuel it2
            else some (pMemory + it2._idInSubPool * sz,
                       { it2 with _idInSubPool := it2._idInSubPool + 1 })
          else
            let it2 := { it1 with _idInSubPool := it1._idInSubPool + 1 }
            some (pMemory + it2._idInSubPool * sz,
                  { it2 with _idInSubPool := it2._idInSubPool + 1 })
        else
          some (pMemory + it1._idInSubPool * sz,
                { it1 with _idInSubPool := it1._idInSubPool + 1 })

/-- `Next<T>`: every loop iteration after the first one enters a new sub-pool or returns,
so `2 * DIGITS + 2` iterations always suffice. -/
def Next (pool : Pool) (it : KoPoolIteratorCore) : Option (Nat × KoPoolIteratorCore) :=
  nextLoop pool (2 * DIGITS + 2) it

/-- `GetFixedIteratorAfterAllocate`. -/
def GetFixedIteratorAfterAllocate (it : KoPoolIteratorCore) (pool : Pool) :
    KoPoolIteratorCore :=
  let mask := bnot (wsub (shl1 it._subPoolID) 1)
  { it with _subPoolsWhichHaveAtLeastOneElement :=
      (pool._subPoolsWhichHaveAtLeastOneElement &&& mask) |||
      (it._subPoolsWhichHaveAtLeastOneElement &&& pool._subPoolsWhichHaveAtLeastOneElement) }

/-- `GetFixedIteratorAfterDeallocate`; `none` when the table or `pointers[_subPoolID]`
cannot be dereferenced or the `__KO_POOL_ITERATABLE_ASSERT_DEV__` fails. -/
def GetFixedIteratorAfterDeallocate (it : KoPoolIteratorCore) (pool : Pool)
    (pDeallocatedMemory : Nat) : Option KoPoolIteratorCore :=
  let sz := pool._opt.elementSizeInBytes
  let mask := bnot (wsub (shl1 it._subPoolID) 1)
  let iterator : KoPoolIteratorCore :=
    { it with _subPoolsWhichHaveAtLeastOneElement :=
        (pool._subPoolsWhichHaveAtLeastOneElement &&& mask) |||
        (it._subPoolsWhichHaveAtLeastOneElement &&& pool._subPoolsWhichHaveAtLeastOneElement) }
  if pool._pSubPools = 0 then none
  else if ¬ it._subPoolID < ARRAY_LEN then none
  else if pool.pointers it._subPoolID = 0 then
    some { iterator with _idInSubPool := GetSubPoolSize it._subPoolID }
  else if ¬ pool.IsPtrInsideSubPool pDeallocatedMemory it._subPoolID then some iterator
  else if ¬ pool.IsSkipListNode pDeallocatedMemory it._subPoolID then none
  else
    let idInSubPool := pool.PtrToIDInSubPool pDeallocatedMemory it._subPoolID
    if idInSubPool = iterator._idInSubPool then
      let isLeftSkipListNode := pool.IsLeftSkipListNodeSafe pDeallocatedMemory it._subPoolID
      let isRightSkipListNode := pool.IsRightSkipListNodeSafe pDeallocatedMemory it._subPoolID
      if isLeftSkipListNode && isRightSkipListNode then
        if pool.IsRightSkipListNodeSafe (pDeallocatedMemory + sz) it._subPoolID then
          let sizeToTailInBytes := pool.mem (pDeallocatedMemory + sz + 8)
          let sizeToSkip := sizeToTailInBytes / sz + 2
          some { iterator with _idInSubPool := iterator._idInSubPool + sizeToSkip }
        else some { iterator with _idInSubPool := iterator._idInSubPool + 2 }
      else if isRightSkipListNode then some iterator
      else if isLeftSkipListNode then
        some { iterator with _idInSubPool := iterator._idInSubPool + 1 }
      else some { iterator with _idInSubPool := iterator._idInSubPool + 1 }
    else if idInSubPool + 1 = iterator._idInSubPool ∧
        pool.IsRightSkipListNodeSafe pDeallocatedMemory it._subPoolID then
      if pool.IsRightSkipListNodeSafe (pDeallocatedMemory + sz) it._subPoolID then
        let sizeToTailInBytes := pool.mem (pDeallocatedMemory + sz + 8)
        let sizeToSkip := sizeToTailInBytes / sz + 1
        some { iterator with _idInSubPool := iterator._idInSubPool + sizeToSkip }
      else some { iterator with _idInSubPool := iterator._idInSubPool + 1 }
    else some iterator

end KoPoolIteratorCore

end KoPool

set_option autoImplicit false

namespace KoPool

/-! ## Specification vocabulary -/

/-- A free run of a sub-pool: index of its first slot and its number of slots. -/
abbrev Run := Nat × Nat

/-- Address of slot `k` in a buffer at `b` with slots of `sz` bytes. -/
def slotAddr (b sz k : Nat) : Nat := b + k * sz

/-- The sentinel node at `S` (16 bytes) lies outside the buffer `[b, b + cap * sz)`. -/
def SentOut (b sz cap S : Nat) : Prop := b + cap * sz ≤ S ∨ S + 16 ≤ b

/-- A node address: the sentinel or a slot of the buffer. -/
def NodeAddr (b sz cap S P : Nat) : Prop := P = S ∨ ∃ q, q < cap ∧ P = slotAddr b sz q

/-- Sum of the lengths of a list of runs. -/
def runsLen : List Run → Nat
  | [] => 0
  | r :: rest => r.2 + runsLen rest

/-- Slot `k` lies in one of the runs. -/
def Covered (rs : List Run) (k : Nat) : Prop := ∃ r ∈ rs, r.1 ≤ k ∧ k < r.1 + r.2

/-- Two runs have at least one slot between them. -/
def RunSep (r r' : Run) : Prop := r.1 + r.2 < r'.1 ∨ r'.1 + r'.2 < r.1

/-- The doubly linked list stored in node memory `m`, starting after the node at address
`prev` (the sentinel or the tail slot of the previous run), consists of the runs `rs` in
this order: the word at `prev + 8` points to the head slot of the first run, head and tail
slot of a run hold `prev` in their first word, the head of a run of two or more slots holds
`numBytesToTail` in its second word, and the last node's second word is null. -/
def Chain (m : Nat → Nat) (b sz : Nat) : Nat → List Run → Prop
  | prev, [] => m (prev + 8) = 0
  | prev, r :: rest =>
    m (prev + 8) = slotAddr b sz r.1 ∧
    m (slotAddr b sz r.1) = prev ∧
    (2 ≤ r.2 → m (slotAddr b sz r.1 + 8) = (r.2 - 1) * sz) ∧
    m (slotAddr b sz (r.1 + r.2 - 1)) = prev ∧
    Chain m b sz (slotAddr b sz (r.1 + r.2 - 1)) rest

/-- An initial segment of a chain: as `Chain`, without the condition on the last node's
second word. -/
def SegP (m : Nat → Nat) (b sz : Nat) : Nat → List Run → Prop
  | _, [] => True
  | prev, r :: rest =>
    m (prev + 8) = slotAddr b sz r.1 ∧
    m (slotAddr b sz r.1) = prev ∧
    (2 ≤ r.2 → m (slotAddr b sz r.1 + 8) = (r.2 - 1) * sz) ∧
    m (slotAddr b sz (r.1 + r.2 - 1)) = prev ∧
    SegP m b sz (slotAddr b sz (r.1 + r.2 - 1)) rest

/-- Address of the last node of a segment that starts after `prev`. -/
def lastTail (b sz : Nat) : Nat → List Run → Nat
  | prev, [] => prev
  | _, r :: rest => lastTail b sz (slotAddr b sz (r.1 + r.2 - 1)) rest

/-- The words a `SegP` speaks about. -/
def footSeg (b sz : Nat) : Nat → List Run → List Nat
  | _, [] => []
  | prev, r :: rest =>
    (prev + 8) :: slotAddr b sz r.1 :: slotAddr b sz (r.1 + r.2 - 1) ::
      ((if 2 ≤ r.2 then [slotAddr b sz r.1 + 8] else []) ++
        footSeg b sz (slotAddr b sz (r.1 + r.2 - 1)) rest)

/-- The words a `Chain` speaks about. -/
def footChain (b sz : Nat) : Nat → List Run → List Nat
  | prev, [] => [prev + 8]
  | prev, r :: rest =>
    (prev + 8) :: slotAddr b sz r.1 :: slotAddr b sz (r.1 + r.2 - 1) ::
      ((if 2 ≤ r.2 then [slotAddr b sz r.1 + 8] else []) ++
        footChain b sz (slotAddr b sz (r.1 + r.2 - 1)) rest)

/-- The runs are non-empty, lie inside a buffer of `cap` slots, and are pairwise separated
(so each one is a maximal range of free slots). -/
structure RunsOK (cap : Nat) (rs : List Run) : Prop where
  bound : ∀ r ∈ rs, 1 ≤ r.2 ∧ r.1 + r.2 ≤ cap
  sep : rs.Pairwise RunSep

/-- Facts about an activated sub-pool `i` that do not depend on node memory: the slot size,
the extent of its buffer and the position of its sentinel. -/
structure SubCtx (s : Pool) (i : Nat) : Prop where
  hi : i < ARRAY_LEN
  hsz : 16 ≤ s._opt.elementSizeInBytes
  hb : s.pointers i ≠ 0
  hlt : s.pointers i + GetSubPoolSize i * s._opt.elementSizeInBytes < 2 ^ 64
  hS : SentOut (s.pointers i) s._opt.elementSizeInBytes (GetSubPoolSize i) (s.poolAddr i)

/-- The state `s'` has the table, the buffers and the sorted index of `s`. -/
structure SameBuffers (s s' : Pool) : Prop where
  opt : s'._opt = s._opt
  table : s'._pSubPools = s._pSubPools
  pointers : s'.pointers = s.pointers
  poolsPrev : s'.poolsPrev = s.poolsPrev
  sortedPointers : s'.sortedPointers = s.sortedPointers
  sortedPointersSize : s'.sortedPointersSize = s.sortedPointersSize

/-- Consistency of one activated sub-pool `i` with its list of free runs `rs`. -/
structure SubInv (s : Pool) (i : Nat) (rs : List Run) : Prop where
  runs : RunsOK (GetSubPoolSize i) rs
  chain : Chain s.mem (s.pointers i) s._opt.elementSizeInBytes (s.poolAddr i) rs
  bits : ∀ k, k < GetSubPoolSize i → (s.IsSkipListNodeByIDInSubPool k i = true ↔ Covered rs k)
  used : s.numUsed i + runsLen rs = GetSubPoolSize i

/-- Number of activated sub-pools with an index below `n`. -/
def activeCount (s : Pool) : Nat → Nat
  | 0 => 0
  | n + 1 => activeCount s n + (if s.pointers n ≠ 0 then 1 else 0)

/-- Pointer `p` is slot `k` of the activated sub-pool `i` and its free-bit is clear. -/
def LiveAt (s : Pool) (i k p : Nat) : Prop :=
  s.pointers i ≠ 0 ∧ k < GetSubPoolSize i ∧
  p = slotAddr (s.pointers i) s._opt.elementSizeInBytes k ∧
  s.IsSkipListNodeByIDInSubPool k i = false

/-- Geometry of the blocks the pool owns: the table and the buffers of the activated
sub-pools lie below `2 ^ 64` and are pairwise disjoint. -/
structure Geo (s : Pool) : Prop where
  sz_ge : 16 ≤ s._opt.elementSizeInBytes
  no_table : s._pSubPools = 0 → ∀ i, s.pointers i = 0
  table_lt : s._pSubPools + SIZEOF_SUBPOOLS < 2 ^ 64
  ptr_hi : ∀ i, ARRAY_LEN ≤ i → s.pointers i = 0
  buf_lt : ∀ i, s.pointers i ≠ 0 →
    s.pointers i + GetSubPoolSize i * s._opt.elementSizeInBytes < 2 ^ 64
  buf_table : ∀ i, s.pointers i ≠ 0 →
    s.pointers i + GetSubPoolSize i * s._opt.elementSizeInBytes ≤ s._pSubPools ∨
    s._pSubPools + SIZEOF_SUBPOOLS ≤ s.pointers i
  buf_disj : ∀ i j, i ≠ j → s.pointers i ≠ 0 → s.pointers j ≠ 0 →
    s.pointers i + GetSubPoolSize i * s._opt.elementSizeInBytes ≤ s.pointers j ∨
    s.pointers j + GetSubPoolSize j * s._opt.elementSizeInBytes ≤ s.pointers i

/-- Every activated sub-pool is consistent with its list of free runs. -/
structure SubsOK (s : Pool) (runs : Nat → List Run) : Prop where
  sub : ∀ i, s.pointers i ≠ 0 → SubInv s i (runs i)
  unused : ∀ i, s.pointers i = 0 → s.numUsed i = 0

/-- The sorted index lists the activated sub-pools by increasing base pointer. -/
structure SortedOK (s : Pool) : Prop where
  sorted_size : s.sortedPointersSize = activeCount s ARRAY_LEN
  sorted_lt : ∀ a c, a < c → c < s.sortedPointersSize →
    (s.sortedPointers a).pMemory < (s.sortedPointers c).pMemory
  sorted_entry : ∀ a, a < s.sortedPointersSize →
    (s.sortedPointers a).pMemory ≠ 0 ∧
    s.pointers (s.sortedPointers a).subPoolID = (s.sortedPointers a).pMemory
  sorted_all : ∀ i, s.pointers i ≠ 0 →
    ∃ a, a < s.sortedPointersSize ∧ (s.sortedPointers a).subPoolID = i
  sorted_rest : ∀ a, s.sortedPointersSize ≤ a →
    (s.sortedPointers a).pMemory = 0 ∧ (s.sortedPointers a).subPoolID = SUB_POOL_ID_NONE

/-- The two masks and the deferred release agree with the sub-pools. -/
structure MasksOK (s : Pool) (runs : Nat → List Run) : Prop where
  vacant_lt : s._vacantSubPools < 2 ^ 64
  vacant : ∀ i, i < 64 →
    (s._vacantSubPools.testBit i = true ↔ (s.pointers i = 0 ∨ runs i ≠ []))
  nonempty : ∀ i,
    (s._subPoolsWhichHaveAtLeastOneElement.testBit i = true ↔
      (s.pointers i ≠ 0 ∧ 0 < s.numUsed i))
  deferred : s._subPoolToDeallocate = SUB_POOL_ID_NONE ∨
    (s.pointers s._subPoolToDeallocate ≠ 0 ∧ s.numUsed s._subPoolToDeallocate = 0)
  active : ∀ i, s.pointers i ≠ 0 → 0 < s.numUsed i ∨ i = s._subPoolToDeallocate

/-- The masks while `AllocateBytes` has activated sub-pool `e` and not yet taken a slot from
it: as `MasksOK`, except that `e` may be activated, unused and not deferred. -/
structure MasksPre (s : Pool) (runs : Nat → List Run) (e : Nat) : Prop where
  vacant_lt : s._vacantSubPools < 2 ^ 64
  vacant : ∀ i, i < 64 →
    (s._vacantSubPools.testBit i = true ↔ (s.pointers i = 0 ∨ runs i ≠ []))
  nonempty : ∀ i,
    (s._subPoolsWhichHaveAtLeastOneElement.testBit i = true ↔
      (s.pointers i ≠ 0 ∧ 0 < s.numUsed i))
  deferred : s._subPoolToDeallocate = SUB_POOL_ID_NONE ∨
    (s.pointers s._subPoolToDeallocate ≠ 0 ∧ s.numUsed s._subPoolToDeallocate = 0)
  active : ∀ i, i ≠ e → s.pointers i ≠ 0 → 0 < s.numUsed i ∨ i = s._subPoolToDeallocate

/-- The list `live` holds exactly the pointers to the slots whose free-bit is clear. -/
structure LiveOK (s : Pool) (live : List Nat) : Prop where
  live_iff : ∀ p, p ∈ live ↔ ∃ i k, LiveAt s i k p
  live_nodup : live.Nodup

/-- The invariant of the pool: `runs i` is the free list of sub-pool `i`, `live` the
pointers handed out and not yet given back. -/
structure Inv (s : Pool) (runs : Nat → List Run) (live : List Nat) extends
  Geo s, SubsOK s runs, SortedOK s, MasksOK s runs, LiveOK s live : Prop

/-- An `AlignedMalloc` result is null or a block that lies below `2 ^ 64` and is disjoint
from every block the pool owns: the table and the buffers of the activated sub-pools.
`table` is the address of the table the call works with. -/
def MallocOK (s : Pool) (env : MallocEnv) : Prop :=
  (s._pSubPools = 0 → env.table ≠ 0 → env.table + SIZEOF_SUBPOOLS < 2 ^ 64) ∧
  (env.buffer ≠ 0 →
    let table := if s._pSubPools = 0 then env.table else s._pSubPools
    let bytes := GetSubPoolSize (Count0BitsRight s._vacantSubPools) * s._opt.elementSizeInBytes
    env.buffer + bytes < 2 ^ 64 ∧
    (env.buffer + bytes ≤ table ∨ table + SIZEOF_SUBPOOLS ≤ env.buffer) ∧
    ∀ j, j < ARRAY_LEN → s.pointers j ≠ 0 →
      env.buffer + bytes ≤ s.pointers j ∨
      s.pointers j + GetSubPoolSize j * s._opt.elementSizeInBytes ≤ env.buffer)

/-- The pool states reachable from a constructed pool by the public mutating operations,
together with the list of live pointers: those returned by `AllocateBytes` and not yet
deallocated. A pointer is deallocated only while it is live. -/
inductive Reachable : Pool → List Nat → Prop
  | construct (opt : Opt) (s : Pool) :
      Pool.construct opt = some s → Reachable s []
  | allocate (s : Pool) (live : List Nat) (env : MallocEnv) (s' : Pool)
      (r : AllocBytesResult) :
      Reachable s live → MallocOK s env → s.AllocateBytes env = some (s', r) →
      Reachable s' (if r.pMemory = 0 then live else r.pMemory :: live)
  | deallocateByPtr (s : Pool) (live : List Nat) (p : Nat) (s' : Pool) :
      Reachable s live → p ∈ live → s.DeallocateBytesByPtr p = some s' →
      Reachable s' (live.erase p)
  | deallocateByPtrAndSubPoolID (s : Pool) (live : List Nat) (p i : Nat) (s' : Pool) :
      Reachable s live → p ∈ live → s.IsPtrInsideSubPool p i = true →
      s.DeallocateBytesByPtrAndSubPoolID p i = some s' →
      Reachable s' (live.erase p)
  | deallocateByID (s : Pool) (live : List Nat) (p i : Nat) (s' : Pool) :
      Reachable s live → p ∈ live → s.IsPtrInsideSubPool p i = true →
      s.DeallocateBytesByID (s.PtrToID p i) = some s' →
      Reachable s' (live.erase p)
  | deallocateAll (s : Pool) (live : List Nat) (s' : Pool) :
      Reachable s live → s.DeallocateBytesAll = some s' →
      Reachable s' []

end KoPool

set_option autoImplicit false
namespace KoPool

/-- Index `j` is the last entry of the sorted index whose base pointer is at most `p`. -/
def IsFloorEntry (s : Pool) (p j : Nat) : Prop :=
  j < s.sortedPointersSize ∧ (s.sortedPointers j).pMemory ≤ p ∧
  ∀ c, j < c → c < s.sortedPointersSize → p < (s.sortedPointers c).pMemory

/-- Address `a` is a word the free list of sub-pool `j` can use: the `next` word of its
sentinel or one of the first two words of a slot of its buffer. -/
def InFoot (s : Pool) (j a : Nat) : Prop :=
  a = s.poolAddr j + 8 ∨
  ∃ q, q < GetSubPoolSize j ∧
    (a = slotAddr (s.pointers j) s._opt.elementSizeInBytes q ∨
     a = slotAddr (s.pointers j) s._opt.elementSizeInBytes q + 8)

/-- What the `defer` block of `DeallocateBytesImpl` does to the buffers, the non-empty mask
and the deferred release when a slot of sub-pool `i` is freed in state `s`, giving `s'`:
nothing when another slot of `i` stays in use; otherwise `i` leaves the non-empty mask and
either becomes the deferred sub-pool (none was deferred), or the larger one of `i` and the
deferred sub-pool is released and the smaller one stays deferred. -/
def DeallocPolicy (s s' : Pool) (i : Nat) : Prop :=
  (1 < s.numUsed i ∧ s'.pointers = s.pointers ∧ s'.poolsPrev = s.poolsPrev ∧
    s'._subPoolsWhichHaveAtLeastOneElement = s._subPoolsWhichHaveAtLeastOneElement ∧
    s'._subPoolToDeallocate = s._subPoolToDeallocate) ∨
  (s.numUsed i = 1 ∧
    s'._subPoolsWhichHaveAtLeastOneElement =
      s._subPoolsWhichHaveAtLeastOneElement &&& bnot (shl1 i) ∧
    ((s._subPoolToDeallocate = SUB_POOL_ID_NONE ∧ s'.pointers = s.pointers ∧
        s'.poolsPrev = s.poolsPrev ∧ s'._subPoolToDeallocate = i) ∨
     (s._subPoolToDeallocate ≠ SUB_POOL_ID_NONE ∧ i < s._subPoolToDeallocate ∧
        s'.pointers = upd s.pointers s._subPoolToDeallocate 0 ∧
        s'.poolsPrev = upd s.poolsPrev s._subPoolToDeallocate 0 ∧
        s'._subPoolToDeallocate = i) ∨
     (s._subPoolToDeallocate ≠ SUB_POOL_ID_NONE ∧ ¬ i < s._subPoolToDeallocate ∧
        s'.pointers = upd s.pointers i 0 ∧ s'.poolsPrev = upd s.poolsPrev i 0 ∧
        s'._subPoolToDeallocate = s._subPoolToDeallocate)))

/-- First dense id of sub-pool `i`: `base_id(0) = 0`, `base_id(i) = 2 ^ i` otherwise. -/
def baseID (i : Nat) : Nat := if i = 0 then 0 else 2 ^ i

end KoPool

set_option autoImplicit false
namespace KoPool
open Pool

/-! ## Readers used to state the specification -/

/-- The free list of sub-pool `i` as the code walks it: starting after the node at `prev`,
follow `pNextFreeSkipNodeHead`; a head whose right neighbour is free carries
`numBytesToTail`, any other head is a run of one slot. The first argument bounds the number
of runs read. -/
def readRuns (s : Pool) (i : Nat) : Nat → Nat → List Run
  | 0, _ => []
  | fuel + 1, prev =>
    let pHead := s.mem (prev + 8)
    if pHead = 0 then []
    else
      let len :=
        if s.IsRightSkipListNodeSafe pHead i then
          s.mem (pHead + 8) / s._opt.elementSizeInBytes + 1
        else 1
      (s.PtrToIDInSubPool pHead i, len) ::
        readRuns s i fuel (pHead + (len - 1) * s._opt.elementSizeInBytes)

/-- The free runs reachable from the sentinel of sub-pool `i`, in list order. -/
def freeRuns (s : Pool) (i : Nat) : List Run :=
  readRuns s i (GetSubPoolSize i) (s.poolAddr i)

/-- Repeats `Next` until it returns `nullptr` and collects the returned pointers; the first
argument bounds the number of calls. -/
def iterate (pool : Pool) : Nat → KoPoolIteratorCore → Option (List Nat)
  | 0, _ => none
  | fuel + 1, it =>
    match KoPoolIteratorCore.Next pool it with
    | none => none
    | some (p, it1) =>
      if p = 0 then some []
      else
        match iterate pool fuel it1 with
        | none => none
        | some ps => some (p :: ps)

/-- The pool states reached from a constructed pool, or from a pool just reset by
`DeallocateBytesAll`, by `n` successful `AllocateBytes` calls and no other call. -/
inductive AllocOnly : Pool → Nat → Prop
  | construct (opt : Opt) (s : Pool) :
      Pool.construct opt = some s → AllocOnly s 0
  | reset (s : Pool) (live : List Nat) (s' : Pool) :
      Reachable s live → s.DeallocateBytesAll = some s' → AllocOnly s' 0
  | allocate (s : Pool) (n : Nat) (env : MallocEnv) (s' : Pool) (r : AllocBytesResult) :
      AllocOnly s n → MallocOK s env → s.AllocateBytes env = some (s', r) →
      r.pMemory ≠ 0 → AllocOnly s' (n + 1)

/-- The sub-pools below `c` are activated and full, those above `c` are not activated, and
sub-pool `c` has handed out its first `k` slots: it is not activated when `k = 0`, and its
free list is the one run of the remaining slots otherwise. -/
def DenseAt (s : Pool) (runs : Nat → List Run) (c k : Nat) : Prop :=
  (∀ j, j < c → s.pointers j ≠ 0 ∧ runs j = []) ∧
  (∀ j, c < j → s.pointers j = 0) ∧
  (k = 0 → s.pointers c = 0) ∧
  (0 < k → s.pointers c ≠ 0 ∧ runs c = [(k, GetSubPoolSize c - k)]) ∧
  k < GetSubPoolSize c

/-- Indices in `[lo, lo + n)` of the slots of sub-pool `i` whose free-bit is clear, in
increasing order. -/
def liveIdx (s : Pool) (i lo n : Nat) : List Nat :=
  (List.range' lo n).filter (fun k => !s.IsSkipListNodeByIDInSubPool k i)

/-- The positions `(sub-pool, slot)` of the live slots of the sub-pools `js`, in the order of
`js` and by increasing slot index. -/
def posOf (s : Pool) : List Nat → List (Nat × Nat)
  | [] => []
  | j :: js => (liveIdx s j 0 (GetSubPoolSize j)).map (fun k => (j, k)) ++ posOf s js

/-- Indices below 64 of the set bits of a word, in increasing order. -/
def maskBits (m : Nat) : List Nat := (List.range' 0 64).filter (fun j => m.testBit j)

/-- The positions an iterator has still to visit: the live slots of its current sub-pool
from its cursor on, then the live slots of the sub-pools of its mask. -/
def remainingPos (s : Pool) (it : KoPoolIteratorCore) : List (Nat × Nat) :=
  (liveIdx s it._subPoolID it._idInSubPool
      (GetSubPoolSize it._subPoolID - it._idInSubPool)).map (fun k => (it._subPoolID, k)) ++
    posOf s (maskBits it._subPoolsWhichHaveAtLeastOneElement)

/-- Address of the slot at a position. -/
def posAddr (s : Pool) (q : Nat × Nat) : Nat :=
  slotAddr (s.pointers q.1) s._opt.elementSizeInBytes q.2

/-- Position `q` comes before position `q'`: in a lower sub-pool, or in the same sub-pool
at a lower slot index. -/
def posLt (q q' : Nat × Nat) : Prop := q.1 < q'.1 ∨ (q.1 = q'.1 ∧ q.2 < q'.2)

/-- An iterator that fits the pool state: its mask names non-empty sub-pools only, and
while its cursor is inside the current sub-pool, this sub-pool is activated, the mask names
higher sub-pools only, and the cursor is at slot 0 or just after a live slot. -/
structure ItOK (s : Pool) (runs : Nat → List Run) (it : KoPoolIteratorCore) : Prop where
  mask_lt : it._subPoolsWhichHaveAtLeastOneElement < 2 ^ 64
  mask_sub : ∀ j, it._subPoolsWhichHaveAtLeastOneElement.testBit j = true →
    s.pointers j ≠ 0 ∧ 0 < s.numUsed j
  inside : it._idInSubPool < GetSubPoolSize it._subPoolID →
    s.pointers it._subPoolID ≠ 0 ∧
    (∀ j, it._subPoolsWhichHaveAtLeastOneElement.testBit j = true → it._subPoolID < j) ∧
    (it._idInSubPool = 0 ∨ ¬ Covered (runs it._subPoolID) (it._idInSubPool - 1))

/-- What a yielding call of `Next` achieves: the pointer of the first remaining position,
and an iterator that fits the pool and has the other positions left. -/
def Yields (s : Pool) (runs : Nat → List Run) (it : KoPoolIteratorCore)
    (res : Option (Nat × KoPoolIteratorCore)) : Prop :=
  ∃ q rest it', remainingPos s it = q :: rest ∧ res = some (posAddr s q, it') ∧
    ItOK s runs it' ∧ remainingPos s it' = rest ∧ LiveAt s q.1 q.2 (posAddr s q)

/-- State after an `AllocateBytes` call (the default pool when the call is undefined). -/
def poolOf (o : Option (Pool × AllocBytesResult)) : Pool :=
  match o with
  | some x => x.1
  | none => {}

/-! ## Example states -/

/-- A constructed pool with 16-byte slots. -/
def ex0 : Pool := (Pool.construct { elementSizeInBytes := 16, elementAlignment := 8 }).getD {}

/-- `AlignedMalloc` results for the table and for sub-pool 0. -/
def env1 : MallocEnv := { table := 4096, buffer := 100000, bitmap := 200000 }

/-- No `AlignedMalloc` call succeeds (none is made when the chosen sub-pool is activated). -/
def noMalloc : MallocEnv := { table := 0, buffer := 0, bitmap := 0 }

/-- The table is allocated at 4096 and the `AlignedMalloc` call for the buffer fails. -/
def envNoBuffer : MallocEnv := { table := 4096, buffer := 0, bitmap := 0 }

/-- `AlignedMalloc` results for sub-pool 1. -/
def env3 : MallocEnv := { table := 0, buffer := 100064, bitmap := 200064 }

/-- One slot allocated: slot 0 of sub-pool 0, at 100000. -/
def ex1 : Pool := poolOf (ex0.AllocateBytes env1)

/-- The pointer of `ex1` deallocated: no live slot, sub-pool 0 is the deferred one. -/
def ex1d : Pool := (ex1.DeallocateBytesByPtr 100000).getD {}

/-- Two slots allocated: sub-pool 0 is full (100000, 100016). -/
def ex2 : Pool := poolOf (ex1.AllocateBytes noMalloc)

/-- Three slots allocated: slot 0 of sub-pool 1, at 100064, is the third one. -/
def ex3 : Pool := poolOf (ex2.AllocateBytes env3)

/-- `AlignedMalloc` results used by `allocs`: the table is placed at 4096 and the buffer of
sub-pool `i`, when the call has to activate it, at `100000 + 1000 * i`. -/
def envOf (t : Pool) : MallocEnv :=
  let i := Count0BitsRight t._vacantSubPools
  { table := if t._pSubPools = 0 then 4096 else 0,
    buffer := if t.pointers i = 0 then 100000 + 1000 * i else 0,
    bitmap := if t.pointers i = 0 then 200000 + 1000 * i else 0 }

/-- The state after `n` calls of `AllocateBytes` on `s`. -/
def allocs : Nat → Pool → Pool
  | 0, s => s
  | n + 1, s => poolOf ((allocs n s).AllocateBytes (envOf (allocs n s)))

/-- Eight slots allocated: sub-pools 0, 1 and 2 are full; sub-pool 2 is at 102000. -/
def ex8 : Pool := allocs 8 ex0

/-- State after `DeallocateBytesByPtr` (the default pool when the call is undefined). -/
def freed (s : Pool) (p : Nat) : Pool := (s.DeallocateBytesByPtr p).getD {}

/-- Slot 1 of sub-pool 2 of `ex8` deallocated. -/
def ex8a : Pool := freed ex8 102016

/-- Then slot 2 of sub-pool 2. -/
def ex8b : Pool := freed ex8a 102032

/-- Then slot 0 of sub-pool 2. -/
def ex8c : Pool := freed ex8b 102000

/-- Then slot 3 of sub-pool 2: the sub-pool is empty. -/
def ex8d : Pool := freed ex8c 102048

/-- The slot of sub-pool 1 of `ex3` deallocated: sub-pool 1 is the deferred one. -/
def ex3a : Pool := freed ex3 100064

/-- Then slot 0 of sub-pool 0. -/
def ex3b : Pool := freed ex3a 100000

/-- Then slot 1 of sub-pool 0: sub-pool 0 is empty, sub-pool 1 is released. -/
def ex3c : Pool := freed ex3b 100016

/-- Slot 1 and then slot 3 of sub-pool 2 of `ex8` deallocated: two runs of one slot. -/
def ex8g : Pool := freed ex8a 102048

/-- Pointer returned by `Next` (`0` also when the call is undefined). -/
def nextPtr (pool : Pool) (it : KoPoolIteratorCore) : Nat :=
  match KoPoolIteratorCore.Next pool it with
  | some x => x.1
  | none => 0

/-- The iterator after `Next` (the default iterator when the call is undefined). -/
def nextIt (pool : Pool) (it : KoPoolIteratorCore) : KoPoolIteratorCore :=
  match KoPoolIteratorCore.Next pool it with
  | some x => x.2
  | none => {}

/-- The iterator over `ex2` after one `Next` call: 100000 has been returned, the cursor is
slot 1 of sub-pool 0. -/
def it2a : KoPoolIteratorCore := nextIt ex2 (KoPoolIteratorCore.ofPool ex2)

/-- The pool `ex2` with slot 1 of sub-pool 0 (100016) deallocated. -/
def ex2f : Pool := freed ex2 100016

end KoPool

set_option autoImplicit false
namespace KoPool
open Pool

/-- The loop `while (p = iterator.Next()) { pool.Deallocate(p); iterator =
iterator.GetFixedIteratorAfterDeallocate(p); }` of `Test_FixedIterator`: the pointers
yielded and the pool afterwards; the first argument bounds the number of calls of `Next`. -/
def drain : Nat → Pool → KoPoolIteratorCore → Option (List Nat × Pool)
  | 0, _, _ => none
  | fuel + 1, s, it =>
    match KoPoolIteratorCore.Next s it with
    | none => none
    | some (p, it1) =>
      if p = 0 then some ([], s)
      else
        match s.DeallocateBytesByPtr p with
        | none => none
        | some s1 =>
          match it1.GetFixedIteratorAfterDeallocate s1 p with
          | none => none
          | some it2 =>
            match drain fuel s1 it2 with
            | none => none
            | some (ps, s2) => some (p :: ps, s2)

/-- An iterator of the draining loop that fits the pool: its mask is the non-empty mask of
the pool, and while its cursor is inside the current sub-pool, this sub-pool is activated,
the cursor is at a live slot, every slot before the cursor is free and every lower sub-pool
is empty. -/
structure DrainOK (s : Pool) (it : KoPoolIteratorCore) : Prop where
  mask_eq : it._subPoolsWhichHaveAtLeastOneElement = s._subPoolsWhichHaveAtLeastOneElement
  inside : it._idInSubPool < GetSubPoolSize it._subPoolID →
    s.pointers it._subPoolID ≠ 0 ∧
    s.IsSkipListNodeByIDInSubPool it._idInSubPool it._subPoolID = false ∧
    (∀ k, k < it._idInSubPool → s.IsSkipListNodeByIDInSubPool k it._subPoolID = true) ∧
    (∀ j, j < it._subPoolID → s._subPoolsWhichHaveAtLeastOneElement.testBit j = false)

end KoPool

set_option autoImplicit false
namespace KoPool
open Pool

/-- The state in which the `defer` block of `DeallocateBytesImpl(pMemory, subPoolID)` calls
`IsSubPoolEmpty`: the slot is counted out, the vacant bit is set, the slot is linked into
the free list and its free-bit is set. -/
def deallocMarked (s : Pool) (pMemory subPoolID : Nat) : Pool :=
  let s2 : Pool :=
    { s with numUsed := upd s.numUsed subPoolID (wsub (s.numUsed subPoolID) 1),
             _vacantSubPools := s._vacantSubPools ||| shl1 subPoolID,
             mem := s.deallocLink pMemory subPoolID }
  s2.SetIsSkipListNode pMemory subPoolID true

/-- Outcome of one iteration of the `for (;;)` loop of `Next<T>`: the loop returns a pointer
(`0` for `nullptr`) and leaves the iterator behind, or goes on (`continue`). -/
inductive PassResult where
  | ret (p : Nat) (it : KoPoolIteratorCore)
  | again (it : KoPoolIteratorCore)

namespace KoPoolIteratorCore

/-- The iterator after the block `if (_idInSubPool >= GetSubPoolSize(_subPoolID))` at the
top of the loop of `Next<T>` (past its `return nullptr`): its cursor is the slot the
iteration examines. -/
def advanceIt (it : KoPoolIteratorCore) : KoPoolIteratorCore :=
  let advance : Bool := decide (it._idInSubPool ≥ GetSubPoolSize it._subPoolID)
  let sp := Count0BitsRight it._subPoolsWhichHaveAtLeastOneElement
  { _subPoolID := if advance then sp else it._subPoolID,
    _subPoolsWhichHaveAtLeastOneElement :=
      if advance then it._subPoolsWhichHaveAtLeastOneElement &&& bnot (shl1 sp)
      else it._subPoolsWhichHaveAtLeastOneElement,
    _idInSubPool := if advance then 0 else it._idInSubPool }

/-- One iteration of the `for (;;)` loop of `Next<T>`: the body of `nextLoop`, with the
`continue` made explicit. -/
def nextPass (pool : Pool) (it : KoPoolIteratorCore) : Option PassResult :=
  if it._idInSubPool ≥ GetSubPoolSize it._subPoolID ∧
      it._subPoolsWhichHaveAtLeastOneElement = 0 then some (PassResult.ret 0 it)
  else if pool._pSubPools = 0 then none
  else
    let it1 := advanceIt it
    if ¬ it1._subPoolID < ARRAY_LEN then none
    else if pool.pointers it1._subPoolID = 0 then none
    else
      let pMemory := pool.pointers it1._subPoolID
      let sz := pool._opt.elementSizeInBytes
      let size := GetSubPoolSize it1._subPoolID
      if pool.IsSkipListNodeByIDInSubPool it1._idInSubPool it1._subPoolID then
        if it1._idInSubPool + 1 = size then
          some (PassResult.again { it1 with _idInSubPool := it1._idInSubPool + 1 })
        else if pool.IsSkipListNodeByIDInSubPool (it1._idInSubPool + 1) it1._subPoolID then
          let sizeToTailInBytes := pool.mem (pMemory + it1._idInSubPool * sz + 8)
          let sizeToSkip := sizeToTailInBytes / sz + 1
          let it2 := { it1 with _idInSubPool := it1._idInSubPool + sizeToSkip }
          if it2._idInSubPool = size then some (PassResult.again it2)
          else some (PassResult.ret (pMemory + it2._idInSubPool * sz)
                       { it2 with _idInSubPool := it2._idInSubPool + 1 })
        else
          let it2 := { it1 with _idInSubPool := it1._idInSubPool + 1 }
          some (PassResult.ret (pMemory + it2._idInSubPool * sz)
                  { it2 with _idInSubPool := it2._idInSubPool + 1 })
      else
        some (PassResult.ret (pMemory + it1._idInSubPool * sz)
                { it1 with _idInSubPool := it1._idInSubPool + 1 })

/-- The loop of `Next<T>` as a sequence of iterations; the first argument bounds their
number. -/
def passLoop (pool : Pool) : Nat → KoPoolIteratorCore → Option (Nat × KoPoolIteratorCore)
  | 0, _ => none
  | fuel + 1, it =>
    match nextPass pool it with
    | none => none
    | some (PassResult.ret p it1) => some (p, it1)
    | some (PassResult.again it1) => passLoop pool fuel it1

/-- Number of iterations of the loop of `Next<T>` that move on to another sub-pool, among
the first iterations of a call; the first argument bounds the iterations counted. -/
def advCount (pool : Pool) : Nat → KoPoolIteratorCore → Nat
  | 0, _ => 0
  | fuel + 1, it =>
    (if it._idInSubPool ≥ GetSubPoolSize it._subPoolID ∧
        it._subPoolsWhichHaveAtLeastOneElement ≠ 0 then 1 else 0) +
    (match nextPass pool it with
      | some (PassResult.again it1) => advCount pool fuel it1
      | _ => 0)

end KoPoolIteratorCore

/-- The iterator states reached from a fresh iterator by calls of `Next`, the pool not
being changed in between. -/
inductive IterReach (pool : Pool) : KoPoolIteratorCore → Prop
  | fresh : IterReach pool (KoPoolIteratorCore.ofPool pool)
  | next (it : KoPoolIteratorCore) (p : Nat) (it1 : KoPoolIteratorCore) :
      IterReach pool it → KoPoolIteratorCore.Next pool it = some (p, it1) →
      IterReach pool it1

/-- The iterator values at the top of the loop during the call of `Next` that starts
with `it0`. -/
inductive LoopTop (pool : Pool) (it0 : KoPoolIteratorCore) : KoPoolIteratorCore → Prop
  | start : LoopTop pool it0 it0
  | again (it it1 : KoPoolIteratorCore) :
      LoopTop pool it0 it →
      KoPoolIteratorCore.nextPass pool it = some (PassResult.again it1) →
      LoopTop pool it0 it1

/-- The iterator over `ex8c` after four calls of `Next` (the slots of the sub-pools 0 and 1
have been returned): the cursor is at the end of sub-pool 1, the mask holds sub-pool 2. -/
def itEx8c : KoPoolIteratorCore := KoPoolIteratorCore.mk 1 2 4

end KoPool

set_option autoImplicit false

namespace KoPool

/-! ## Word arithmetic -/

theorem wsub_eq {a b : Nat} (h1 : b ≤ a) (h2 : a < 2 ^ 64) : wsub a b = a - b := by
  unfold wsub
  have hb : b % 2 ^ 64 = b := Nat.mod_eq_of_lt (by omega)
  rw [hb]
  have : a + 2 ^ 64 - b = (a - b) + 2 ^ 64 := by omega
  rw [this, Nat.add_mod_right]
  exact Nat.mod_eq_of_lt (by omega)

theorem wadd_eq {a b : Nat} (h : a + b < 2 ^ 64) : wadd a b = a + b :=
  Nat.mod_eq_of_lt h

theorem wmul_eq {a b : Nat} (h : a * b < 2 ^ 64) : wmul a b = a * b :=
  Nat.mod_eq_of_lt h

theorem shl1_eq {i : Nat} (h : i < 64) : shl1 i = 2 ^ i := by
  unfold shl1
  rw [Nat.one_shiftLeft]
  exact Nat.mod_eq_of_lt (Nat.pow_lt_pow_right (by decide) h)

theorem shl1_lt (i : Nat) : shl1 i < 2 ^ 64 := Nat.mod_lt _ (by decide)

theorem testBit_shl1 {i j : Nat} (h : i < 64) : (shl1 i).testBit j = decide (i = j) := by
  rw [shl1_eq h, Nat.testBit_two_pow]

theorem testBit_bnot (x j : Nat) :
    (bnot x).testBit j = (decide (j < 64) && !x.testBit j) := by
  unfold bnot USIZE_MAX
  rw [Nat.testBit_xor, Nat.testBit_mod_two_pow, Nat.testBit_two_pow_sub_one]
  by_cases h : j < 64 <;> simp [h]

theorem bnot_lt (x : Nat) : bnot x < 2 ^ 64 := by
  apply Nat.lt_pow_two_of_testBit
  intro i hi
  rw [testBit_bnot]
  simp
  omega

theorem and_lt_of_lt {x y : Nat} (h : x < 2 ^ 64) : x &&& y < 2 ^ 64 :=
  lt_of_le_of_lt Nat.and_le_left h

theorem or_lt_of_lt {x y : Nat} (hx : x < 2 ^ 64) (hy : y < 2 ^ 64) : x ||| y < 2 ^ 64 :=
  Nat.or_lt_two_pow hx hy

/-- The test `((w >> b) & 1) == 1` reads bit `b` of `w`. -/
theorem bitAt_eq (w b : Nat) : decide ((w >>> b) &&& 1 = 1) = w.testBit b := by
  rw [Nat.testBit, Nat.and_comm 1]
  rw [Nat.and_one_is_mod]
  rcases Nat.mod_two_eq_zero_or_one (w >>> b) with h | h <;> simp [h]

theorem and_63 (k : Nat) : k &&& (DIGITS - 1) = k % 64 := by
  have : DIGITS - 1 = 2 ^ 6 - 1 := by decide
  rw [this, Nat.and_pow_two_sub_one_eq_mod]

/-! ## Sub-pool sizes -/

theorem GetSubPoolSize_eq {i : Nat} (h : i < 64) :
    GetSubPoolSize i = if i = 0 then 2 else 2 ^ i := by
  unfold GetSubPoolSize
  rw [shl1_eq h]

theorem GetSubPoolSize_ge {i : Nat} (h : i < 64) : 2 ≤ GetSubPoolSize i := by
  rw [GetSubPoolSize_eq h]
  split
  · exact le_refl _
  · rename_i h0
    calc 2 = 2 ^ 1 := by norm_num
      _ ≤ 2 ^ i := Nat.pow_le_pow_right (by decide) (by omega)

theorem GetSubPoolSize_lt {i : Nat} (h : i < 64) : GetSubPoolSize i < 2 ^ 64 := by
  rw [GetSubPoolSize_eq h]
  split
  · norm_num
  · exact Nat.pow_lt_pow_right (by decide) h

/-! ## Counting zero bits -/

theorem ctzLoop_spec : ∀ (fuel n : Nat), n ≠ 0 → n < 2 ^ fuel →
    ctzLoop fuel n < fuel ∧ n.testBit (ctzLoop fuel n) = true ∧
    ∀ j, j < ctzLoop fuel n → n.testBit j = false
  | 0, n, h0, hlt => by simp at hlt; exact absurd hlt h0
  | fuel + 1, n, h0, hlt => by
    unfold ctzLoop
    by_cases hodd : n % 2 = 1
    · simp only [hodd, if_true]
      refine ⟨by omega, ?_, fun j hj => absurd hj (by omega)⟩
      rw [Nat.testBit_zero]; simp [hodd]
    · simp only [hodd, if_false]
      have hn2 : n / 2 ≠ 0 := by omega
      have hlt2 : n / 2 < 2 ^ fuel := by
        rw [Nat.div_lt_iff_lt_mul (by decide)]
        rw [pow_succ] at hlt; exact hlt
      obtain ⟨h1, h2, h3⟩ := ctzLoop_spec fuel (n / 2) hn2 hlt2
      refine ⟨by omega, ?_, ?_⟩
      · rw [Nat.add_comm, Nat.testBit_succ]; exact h2
      · intro j hj
        cases j with
        | zero => rw [Nat.testBit_zero]; simp; omega
        | succ j => rw [Nat.testBit_succ]; exact h3 j (by omega)

theorem Count0BitsRight_spec {x : Nat} (h0 : x ≠ 0) (hlt : x < 2 ^ 64) :
    Count0BitsRight x < 64 ∧ x.testBit (Count0BitsRight x) = true ∧
    ∀ j, j < Count0BitsRight x → x.testBit j = false := by
  unfold Count0BitsRight
  simp only [ne_eq, h0, not_false_eq_true, if_true]
  exact ctzLoop_spec 64 x h0 hlt

theorem Count0BitsRight_zero : Count0BitsRight 0 = 64 := by
  unfold Count0BitsRight; simp

theorem bitLength_spec : ∀ (fuel n i : Nat), i < fuel → 2 ^ i ≤ n → n < 2 ^ (i + 1) →
    bitLength fuel n = i + 1
  | 0, _, _, h, _, _ => absurd h (by omega)
  | fuel + 1, n, i, hf, hlo, hhi => by
    unfold bitLength
    have hpos : 0 < 2 ^ i := Nat.pow_pos (by decide)
    have hn : n ≠ 0 := by omega
    simp only [hn, if_false]
    cases i with
    | zero =>
      have : n = 1 := by simp at hlo hhi; omega
      subst this
      cases fuel with
      | zero => simp [bitLength]
      | succ f => simp [bitLength]
    | succ i =>
      have h1 : 2 ^ i ≤ n / 2 := by
        rw [Nat.le_div_iff_mul_le (by decide)]
        rw [pow_succ] at hlo; exact hlo
      have h2 : n / 2 < 2 ^ (i + 1) := by
        rw [Nat.div_lt_iff_lt_mul (by decide)]
        rw [pow_succ] at hhi; exact hhi
      rw [bitLength_spec fuel (n / 2) i (by omega) h1 h2]
      omega

theorem Log2_spec {n i : Nat} (hi : i < 64) (hlo : 2 ^ i ≤ n) (hhi : n < 2 ^ (i + 1)) :
    Log2 n = i := by
  unfold Log2 Count0BitsLeft DIGITS
  have hpos : 0 < 2 ^ i := Nat.pow_pos (by decide)
  have hn : n ≠ 0 := by omega
  simp only [hn, if_false, ne_eq, not_false_eq_true, if_true]
  rw [bitLength_spec 64 n i hi hlo hhi]
  omega

theorem Log2_zero : Log2 0 = 0 := by
  unfold Log2; simp

end KoPool

set_option autoImplicit false

namespace KoPool

/-! ## Slot addresses -/

theorem slotAddr_zero (b sz : Nat) : slotAddr b sz 0 = b := by simp [slotAddr]

theorem slotAddr_succ (b sz k : Nat) : slotAddr b sz (k + 1) = slotAddr b sz k + sz := by
  simp [slotAddr, Nat.add_mul, Nat.add_assoc]

theorem slotAddr_pred {b sz k : Nat} (h : 0 < k) :
    slotAddr b sz k - sz = slotAddr b sz (k - 1) := by
  obtain ⟨j, rfl⟩ : ∃ j, k = j + 1 := ⟨k - 1, by omega⟩
  rw [slotAddr_succ]; simp

theorem slotAddr_add (b sz k n : Nat) : slotAddr b sz (k + n) = slotAddr b sz k + n * sz := by
  simp [slotAddr, Nat.add_mul, Nat.add_assoc]

theorem slotAddr_lt_of_lt {b sz k k' : Nat} (h : k < k') :
    slotAddr b sz k + sz ≤ slotAddr b sz k' := by
  unfold slotAddr
  have : (k + 1) * sz ≤ k' * sz := Nat.mul_le_mul_right sz h
  rw [Nat.add_mul, Nat.one_mul] at this
  omega

theorem slotAddr_le_of_le {b sz k k' : Nat} (h : k ≤ k') :
    slotAddr b sz k ≤ slotAddr b sz k' := by
  unfold slotAddr
  have : k * sz ≤ k' * sz := Nat.mul_le_mul_right sz h
  omega

theorem slotAddr_inj {b sz k k' : Nat} (hsz : 16 ≤ sz) :
    slotAddr b sz k = slotAddr b sz k' ↔ k = k' := by
  constructor
  · intro h
    rcases Nat.lt_trichotomy k k' with hlt | heq | hgt
    · have := @slotAddr_lt_of_lt (b) (sz) _ _ hlt; omega
    · exact heq
    · have := @slotAddr_lt_of_lt (b) (sz) _ _ hgt; omega
  · rintro rfl; rfl

theorem slotAddr8_inj {b sz k k' : Nat} (hsz : 16 ≤ sz) :
    slotAddr b sz k + 8 = slotAddr b sz k' + 8 ↔ k = k' := by
  rw [Nat.add_right_cancel_iff, slotAddr_inj hsz]

theorem slotAddr_ne8 {b sz k k' : Nat} (hsz : 16 ≤ sz) :
    slotAddr b sz k = slotAddr b sz k' + 8 ↔ False := by
  constructor
  · intro h
    rcases Nat.lt_or_ge k' k with hlt | hge
    · have := @slotAddr_lt_of_lt (b) (sz) _ _ hlt; omega
    · have := @slotAddr_le_of_le (b) (sz) _ _ hge; omega
  · exact False.elim

theorem slotAddr8_ne {b sz k k' : Nat} (hsz : 16 ≤ sz) :
    slotAddr b sz k + 8 = slotAddr b sz k' ↔ False := by
  constructor
  · intro h; exact (@slotAddr_ne8 b _ k' k hsz).1 h.symm
  · exact False.elim

theorem slotAddr_lt_end {b sz k cap : Nat} (h : k < cap) :
    slotAddr b sz k + sz ≤ b + cap * sz := by
  have := @slotAddr_lt_of_lt (b) (sz) _ _ h
  simpa [slotAddr] using this

theorem slotAddr_ge (b sz k : Nat) : b ≤ slotAddr b sz k := by
  unfold slotAddr; omega

theorem sent_ne {b sz cap S k : Nat} (hS : SentOut b sz cap S) (hsz : 16 ≤ sz) (hk : k < cap) :
    S ≠ slotAddr b sz k ∧ S + 8 ≠ slotAddr b sz k ∧ S ≠ slotAddr b sz k + 8 ∧
    S + 8 ≠ slotAddr b sz k + 8 := by
  have h1 := @slotAddr_lt_end (b) (sz) _ _ hk
  have h2 := slotAddr_ge b sz k
  rcases hS with h | h <;> refine ⟨?_, ?_, ?_, ?_⟩ <;> omega

theorem NodeAddr.next_ne_slot {b sz cap S P k : Nat} (hP : NodeAddr b sz cap S P)
    (hS : SentOut b sz cap S) (hsz : 16 ≤ sz) (hk : k < cap) :
    P + 8 ≠ slotAddr b sz k := by
  rcases hP with rfl | ⟨q, _, rfl⟩
  · exact (sent_ne hS hsz hk).2.1
  · intro h; exact (slotAddr8_ne hsz).1 h

theorem NodeAddr.next_eq_iff {b sz cap S P k : Nat} (_hP : NodeAddr b sz cap S P) :
    P + 8 = slotAddr b sz k + 8 ↔ P = slotAddr b sz k := by
  omega

/-! ## Memory updates -/

@[simp] theorem upd_same {α : Type} (f : Nat → α) (a : Nat) (v : α) : upd f a v a = v := by
  simp [upd]

theorem upd_other {α : Type} (f : Nat → α) {a x : Nat} (v : α) (h : x ≠ a) :
    upd f a v x = f x := by
  simp [upd, h]

theorem upd_apply {α : Type} (f : Nat → α) (a x : Nat) (v : α) :
    upd f a v x = if x = a then v else f x := rfl

end KoPool

set_option autoImplicit false

namespace KoPool

/-! ## Chains of free runs -/

section
variable {m m' : Nat → Nat} {b sz : Nat}

theorem Chain_append : ∀ (xs ys : List Run) (prev : Nat),
    Chain m b sz prev (xs ++ ys) ↔
      SegP m b sz prev xs ∧ Chain m b sz (lastTail b sz prev xs) ys
  | [], ys, prev => by simp [SegP, lastTail]
  | r :: xs, ys, prev => by
    have ih := Chain_append xs ys (slotAddr b sz (r.1 + r.2 - 1))
    show Chain m b sz prev (r :: (xs ++ ys)) ↔ _
    simp only [Chain, SegP, lastTail, ih]
    tauto

theorem SegP_append : ∀ (xs ys : List Run) (prev : Nat),
    SegP m b sz prev (xs ++ ys) ↔
      SegP m b sz prev xs ∧ SegP m b sz (lastTail b sz prev xs) ys
  | [], ys, prev => by simp [SegP, lastTail]
  | r :: xs, ys, prev => by
    have ih := SegP_append xs ys (slotAddr b sz (r.1 + r.2 - 1))
    show SegP m b sz prev (r :: (xs ++ ys)) ↔ _
    simp only [SegP, lastTail, ih]
    tauto

theorem lastTail_append : ∀ (xs ys : List Run) (prev : Nat),
    lastTail b sz prev (xs ++ ys) = lastTail b sz (lastTail b sz prev xs) ys
  | [], _, _ => rfl
  | r :: xs, ys, prev => by
    show lastTail b sz prev (r :: (xs ++ ys)) = _
    simp only [lastTail]
    exact lastTail_append xs ys _

theorem SegP_congr : ∀ (xs : List Run) (prev : Nat),
    (∀ a ∈ footSeg b sz prev xs, m' a = m a) → SegP m b sz prev xs → SegP m' b sz prev xs
  | [], _, _, _ => trivial
  | r :: xs, prev, h, hs => by
    simp only [SegP] at hs ⊢
    simp only [footSeg, List.mem_cons, List.mem_append] at h
    obtain ⟨h1, h2, h3, h4, h5⟩ := hs
    refine ⟨?_, ?_, ?_, ?_, ?_⟩
    · rw [h _ (Or.inl rfl)]; exact h1
    · rw [h _ (Or.inr (Or.inl rfl))]; exact h2
    · intro hl
      rw [h _ (Or.inr (Or.inr (Or.inr (Or.inl (by simp [hl])))))]; exact h3 hl
    · rw [h _ (Or.inr (Or.inr (Or.inl rfl)))]; exact h4
    · exact SegP_congr xs _ (fun a ha => h a (Or.inr (Or.inr (Or.inr (Or.inr ha))))) h5

theorem Chain_congr : ∀ (xs : List Run) (prev : Nat),
    (∀ a ∈ footChain b sz prev xs, m' a = m a) → Chain m b sz prev xs → Chain m' b sz prev xs
  | [], prev, h, hs => by
    simp only [Chain] at hs ⊢
    rw [h _ (by simp [footChain])]; exact hs
  | r :: xs, prev, h, hs => by
    simp only [Chain] at hs ⊢
    simp only [footChain, List.mem_cons, List.mem_append] at h
    obtain ⟨h1, h2, h3, h4, h5⟩ := hs
    refine ⟨?_, ?_, ?_, ?_, ?_⟩
    · rw [h _ (Or.inl rfl)]; exact h1
    · rw [h _ (Or.inr (Or.inl rfl))]; exact h2
    · intro hl
      rw [h _ (Or.inr (Or.inr (Or.inr (Or.inl (by simp [hl])))))]; exact h3 hl
    · rw [h _ (Or.inr (Or.inr (Or.inl rfl)))]; exact h4
    · exact Chain_congr xs _ (fun a ha => h a (Or.inr (Or.inr (Or.inr (Or.inr ha))))) h5

/-- Every word of a segment's footprint is the `next` word of the starting node or a word
of a boundary slot of one of its runs. -/
theorem mem_footSeg : ∀ (xs : List Run) (prev a : Nat), a ∈ footSeg b sz prev xs →
    a = prev + 8 ∨ ∃ r ∈ xs, ∃ q, (q = r.1 ∨ q = r.1 + r.2 - 1) ∧
      (a = slotAddr b sz q ∨ a = slotAddr b sz q + 8)
  | [], _, _, h => by simp [footSeg] at h
  | r :: xs, prev, a, h => by
    simp only [footSeg, List.mem_cons, List.mem_append] at h
    rcases h with h | h | h | h | h
    · exact Or.inl h
    · exact Or.inr ⟨r, List.mem_cons_self _ _, r.1, Or.inl rfl, Or.inl h⟩
    · exact Or.inr ⟨r, List.mem_cons_self _ _, _, Or.inr rfl, Or.inl h⟩
    · split at h
      · simp only [List.mem_singleton] at h
        exact Or.inr ⟨r, List.mem_cons_self _ _, r.1, Or.inl rfl, Or.inr h⟩
      · simp at h
    · rcases mem_footSeg xs _ a h with h | ⟨x, hx, q, hq, ha⟩
      · exact Or.inr ⟨r, List.mem_cons_self _ _, _, Or.inr rfl, Or.inr h⟩
      · exact Or.inr ⟨x, List.mem_cons_of_mem _ hx, q, hq, ha⟩

theorem mem_footChain : ∀ (xs : List Run) (prev a : Nat), a ∈ footChain b sz prev xs →
    a = prev + 8 ∨ ∃ r ∈ xs, ∃ q, (q = r.1 ∨ q = r.1 + r.2 - 1) ∧
      (a = slotAddr b sz q ∨ a = slotAddr b sz q + 8)
  | [], _, _, h => by simp [footChain] at h; exact Or.inl h
  | r :: xs, prev, a, h => by
    simp only [footChain, List.mem_cons, List.mem_append] at h
    rcases h with h | h | h | h | h
    · exact Or.inl h
    · exact Or.inr ⟨r, List.mem_cons_self _ _, r.1, Or.inl rfl, Or.inl h⟩
    · exact Or.inr ⟨r, List.mem_cons_self _ _, _, Or.inr rfl, Or.inl h⟩
    · split at h
      · simp only [List.mem_singleton] at h
        exact Or.inr ⟨r, List.mem_cons_self _ _, r.1, Or.inl rfl, Or.inr h⟩
      · simp at h
    · rcases mem_footChain xs _ a h with h | ⟨x, hx, q, hq, ha⟩
      · exact Or.inr ⟨r, List.mem_cons_self _ _, _, Or.inr rfl, Or.inr h⟩
      · exact Or.inr ⟨x, List.mem_cons_of_mem _ hx, q, hq, ha⟩

theorem lastTail_mem : ∀ (xs : List Run) (prev : Nat),
    lastTail b sz prev xs = prev ∨
      ∃ r ∈ xs, lastTail b sz prev xs = slotAddr b sz (r.1 + r.2 - 1)
  | [], _ => Or.inl rfl
  | r :: xs, prev => by
    simp only [lastTail]
    rcases lastTail_mem xs (slotAddr b sz (r.1 + r.2 - 1)) with h | ⟨x, hx, h⟩
    · exact Or.inr ⟨r, List.mem_cons_self _ _, h⟩
    · exact Or.inr ⟨x, List.mem_cons_of_mem _ hx, h⟩

end

/-! ## Separation of runs -/

theorem RunSep.symm {r r' : Run} (h : RunSep r r') : RunSep r' r := Or.symm h

theorem RunsOK.nil (cap : Nat) : RunsOK cap [] :=
  ⟨by simp, List.Pairwise.nil⟩

theorem RunsOK.of_cons {cap : Nat} {r : Run} {rs : List Run} (h : RunsOK cap (r :: rs)) :
    RunsOK cap rs :=
  ⟨fun x hx => h.bound x (List.mem_cons_of_mem _ hx), (List.pairwise_cons.1 h.sep).2⟩

theorem RunsOK.head {cap : Nat} {r : Run} {rs : List Run} (h : RunsOK cap (r :: rs)) :
    1 ≤ r.2 ∧ r.1 + r.2 ≤ cap := h.bound r (List.mem_cons_self _ _)

theorem RunsOK.head_sep {cap : Nat} {r : Run} {rs : List Run} (h : RunsOK cap (r :: rs)) :
    ∀ x ∈ rs, RunSep r x := (List.pairwise_cons.1 h.sep).1

theorem RunsOK.of_append_left {cap : Nat} {xs ys : List Run} (h : RunsOK cap (xs ++ ys)) :
    RunsOK cap xs :=
  ⟨fun x hx => h.bound x (List.mem_append_left _ hx), (List.pairwise_append.1 h.sep).1⟩

theorem RunsOK.of_append_right {cap : Nat} {xs ys : List Run} (h : RunsOK cap (xs ++ ys)) :
    RunsOK cap ys :=
  ⟨fun x hx => h.bound x (List.mem_append_right _ hx), (List.pairwise_append.1 h.sep).2.1⟩

theorem RunsOK.sep_append {cap : Nat} {xs ys : List Run} (h : RunsOK cap (xs ++ ys)) :
    ∀ x ∈ xs, ∀ y ∈ ys, RunSep x y := (List.pairwise_append.1 h.sep).2.2

/-- Two members of a valid list of runs are equal or separated. -/
theorem RunsOK.eq_or_sep {cap : Nat} : ∀ {rs : List Run}, RunsOK cap rs →
    ∀ x ∈ rs, ∀ y ∈ rs, x = y ∨ RunSep x y
  | [], _, x, hx, _, _ => by simp at hx
  | r :: rs, h, x, hx, y, hy => by
    rcases List.mem_cons.1 hx with rfl | hx' <;> rcases List.mem_cons.1 hy with rfl | hy'
    · exact Or.inl rfl
    · exact Or.inr (h.head_sep y hy')
    · exact Or.inr (h.head_sep x hx').symm
    · exact h.of_cons.eq_or_sep x hx' y hy'

end KoPool

set_option autoImplicit false

namespace KoPool

section
variable {m m' : Nat → Nat} {b sz : Nat}

theorem notin_footSeg_of_slot (hsz : 16 ≤ sz) {xs : List Run} {prev u q : Nat}
    (hu : u = slotAddr b sz q ∨ u = slotAddr b sz q + 8) (hprev : u ≠ prev + 8)
    (hq : ∀ r ∈ xs, q ≠ r.1 ∧ q ≠ r.1 + r.2 - 1) : u ∉ footSeg b sz prev xs := by
  intro h
  rcases mem_footSeg xs prev u h with h | ⟨r, hr, q', hq', ha⟩
  · exact hprev h
  · have hne : q ≠ q' := by
      rcases hq' with rfl | rfl
      · exact (hq r hr).1
      · exact (hq r hr).2
    rcases hu with rfl | rfl <;> rcases ha with ha | ha
    · exact hne ((slotAddr_inj hsz).1 ha)
    · exact (slotAddr_ne8 hsz).1 ha
    · exact (slotAddr8_ne hsz).1 ha
    · exact hne ((slotAddr8_inj hsz).1 ha)

theorem notin_footChain_of_slot (hsz : 16 ≤ sz) {xs : List Run} {prev u q : Nat}
    (hu : u = slotAddr b sz q ∨ u = slotAddr b sz q + 8) (hprev : u ≠ prev + 8)
    (hq : ∀ r ∈ xs, q ≠ r.1 ∧ q ≠ r.1 + r.2 - 1) : u ∉ footChain b sz prev xs := by
  intro h
  rcases mem_footChain xs prev u h with h | ⟨r, hr, q', hq', ha⟩
  · exact hprev h
  · have hne : q ≠ q' := by
      rcases hq' with rfl | rfl
      · exact (hq r hr).1
      · exact (hq r hr).2
    rcases hu with rfl | rfl <;> rcases ha with ha | ha
    · exact hne ((slotAddr_inj hsz).1 ha)
    · exact (slotAddr_ne8 hsz).1 ha
    · exact (slotAddr8_ne hsz).1 ha
    · exact hne ((slotAddr8_inj hsz).1 ha)

theorem sent_notin_footSeg {cap S : Nat} (hsz : 16 ≤ sz) (hS : SentOut b sz cap S)
    {xs : List Run} {prev : Nat} (hok : ∀ r ∈ xs, 1 ≤ r.2 ∧ r.1 + r.2 ≤ cap)
    (hprev : S + 8 ≠ prev + 8) : S + 8 ∉ footSeg b sz prev xs := by
  intro h
  rcases mem_footSeg xs prev _ h with h | ⟨r, hr, q', hq', ha⟩
  · exact hprev h
  · have hb := hok r hr
    have hq : q' < cap := by rcases hq' with rfl | rfl <;> omega
    have := sent_ne hS hsz hq
    rcases ha with ha | ha
    · exact this.2.1 ha
    · exact this.2.2.2 ha

theorem sent_notin_footChain {cap S : Nat} (hsz : 16 ≤ sz) (hS : SentOut b sz cap S)
    {xs : List Run} {prev : Nat} (hok : ∀ r ∈ xs, 1 ≤ r.2 ∧ r.1 + r.2 ≤ cap)
    (hprev : S + 8 ≠ prev + 8) : S + 8 ∉ footChain b sz prev xs := by
  intro h
  rcases mem_footChain xs prev _ h with h | ⟨r, hr, q', hq', ha⟩
  · exact hprev h
  · have hb := hok r hr
    have hq : q' < cap := by rcases hq' with rfl | rfl <;> omega
    have := sent_ne hS hsz hq
    rcases ha with ha | ha
    · exact this.2.1 ha
    · exact this.2.2.2 ha

/-- The `next` word of the last node of a segment is not part of the segment's footprint. -/
theorem lastTail_next_notin (hsz : 16 ≤ sz) : ∀ (xs : List Run) (prev : Nat),
    (∀ r ∈ xs, 1 ≤ r.2) → xs.Pairwise RunSep →
    (∀ r ∈ xs, prev ≠ slotAddr b sz (r.1 + r.2 - 1)) →
    lastTail b sz prev xs + 8 ∉ footSeg b sz prev xs
  | [], _, _, _, _ => by simp [footSeg]
  | r :: xs, prev, hlen, hsep, hprev => by
    have hsep' := List.pairwise_cons.1 hsep
    have hr1 := hlen r (List.mem_cons_self _ _)
    simp only [lastTail, footSeg, List.mem_cons, List.mem_append, not_or]
    -- the last node is a tail slot of `r` or of a later run
    have hL : ∃ x ∈ r :: xs, lastTail b sz (slotAddr b sz (r.1 + r.2 - 1)) xs =
        slotAddr b sz (x.1 + x.2 - 1) := by
      rcases @lastTail_mem b sz xs (slotAddr b sz (r.1 + r.2 - 1)) with h | ⟨x, hx, h⟩
      · exact ⟨r, List.mem_cons_self _ _, h⟩
      · exact ⟨x, List.mem_cons_of_mem _ hx, h⟩
    obtain ⟨x, hx, hLx⟩ := hL
    rw [hLx]
    refine ⟨?_, ?_, ?_, ?_, ?_⟩
    · intro h
      exact hprev x hx (by omega)
    · intro h; exact (slotAddr8_ne hsz).1 h
    · intro h; exact (slotAddr8_ne hsz).1 h
    · split
      · rename_i h2
        simp only [List.mem_singleton]
        intro h
        have := (slotAddr8_inj hsz).1 h
        rcases List.mem_cons.1 hx with rfl | hx'
        · omega
        · have hs := hsep'.1 x hx'
          have hx1 := hlen x (List.mem_cons_of_mem _ hx')
          rcases hs with hs | hs <;> omega
      · simp
    · rw [← hLx]
      apply lastTail_next_notin hsz xs _ (fun y hy => hlen y (List.mem_cons_of_mem _ hy))
        hsep'.2
      intro y hy h
      have := (slotAddr_inj hsz).1 h
      have hs := hsep'.1 y hy
      have hy1 := hlen y (List.mem_cons_of_mem _ hy)
      rcases hs with hs | hs <;> omega

/-- Replacing the middle part of a chain: the new middle is a segment starting after the
same node, its last node takes over the old `next` word, the successor run points back to
it, and the words of the rest keep their value. -/
theorem Chain_splice {S : Nat} (xs mid mid' ys : List Run)
    (hch : Chain m b sz S (xs ++ (mid ++ ys)))
    (hxs : ∀ a ∈ footSeg b sz S xs, m' a = m a)
    (hmid : SegP m' b sz (lastTail b sz S xs) mid')
    (hlink : m' (lastTail b sz (lastTail b sz S xs) mid' + 8) =
      m (lastTail b sz (lastTail b sz S xs) mid + 8))
    (hsucc : ∀ y ys', ys = y :: ys' →
      m' (slotAddr b sz y.1) = lastTail b sz (lastTail b sz S xs) mid' ∧
      m' (slotAddr b sz (y.1 + y.2 - 1)) = lastTail b sz (lastTail b sz S xs) mid' ∧
      (2 ≤ y.2 → m' (slotAddr b sz y.1 + 8) = m (slotAddr b sz y.1 + 8)) ∧
      ∀ a ∈ footChain b sz (slotAddr b sz (y.1 + y.2 - 1)) ys', m' a = m a) :
    Chain m' b sz S (xs ++ (mid' ++ ys)) := by
  rw [Chain_append, Chain_append] at hch ⊢
  obtain ⟨h1, _, h3⟩ := hch
  refine ⟨SegP_congr xs S hxs h1, hmid, ?_⟩
  cases ys with
  | nil =>
    simp only [Chain] at h3 ⊢
    rw [hlink]; exact h3
  | cons y ys' =>
    obtain ⟨e1, e2, e3, e4⟩ := hsucc y ys' rfl
    simp only [Chain] at h3 ⊢
    obtain ⟨c1, _, c3, _, c5⟩ := h3
    refine ⟨?_, e1, ?_, e2, Chain_congr ys' _ e4 c5⟩
    · rw [hlink]; exact c1
    · intro hl; rw [e3 hl]; exact c3 hl

end

end KoPool

set_option autoImplicit false

namespace KoPool

open Pool

/-! ## Slots seen through the pool's accessors -/

theorem SubCtx.cap_ge {s : Pool} {i : Nat} (c : SubCtx s i) : 2 ≤ GetSubPoolSize i :=
  GetSubPoolSize_ge (by have := c.hi; unfold ARRAY_LEN DIGITS at this; omega)

theorem SubCtx.slot_lt {s : Pool} {i k : Nat} (c : SubCtx s i) (hk : k ≤ GetSubPoolSize i) :
    slotAddr (s.pointers i) s._opt.elementSizeInBytes k < 2 ^ 64 := by
  have h1 := @slotAddr_le_of_le (s.pointers i) (s._opt.elementSizeInBytes) _ _ hk
  have h2 := c.hlt
  unfold slotAddr at *
  omega

theorem PtrToIDInSubPool_slot {s : Pool} {i k : Nat} (c : SubCtx s i)
    (hk : k ≤ GetSubPoolSize i) :
    s.PtrToIDInSubPool (slotAddr (s.pointers i) s._opt.elementSizeInBytes k) i = k := by
  unfold Pool.PtrToIDInSubPool
  rw [wsub_eq (slotAddr_ge _ _ _) (c.slot_lt hk)]
  unfold slotAddr
  rw [Nat.add_sub_cancel_left]
  exact Nat.mul_div_cancel _ (by have := c.hsz; omega)

theorem IsSkipListNode_slot {s : Pool} {i k : Nat} (c : SubCtx s i)
    (hk : k ≤ GetSubPoolSize i) :
    s.IsSkipListNode (slotAddr (s.pointers i) s._opt.elementSizeInBytes k) i =
      s.IsSkipListNodeByIDInSubPool k i := by
  unfold Pool.IsSkipListNode
  rw [PtrToIDInSubPool_slot c hk]

theorem IsRight_slot {s : Pool} {i k : Nat} (c : SubCtx s i) (hk : k < GetSubPoolSize i) :
    s.IsRightSkipListNodeSafe (slotAddr (s.pointers i) s._opt.elementSizeInBytes k) i =
      (decide (k + 1 < GetSubPoolSize i) && s.IsSkipListNodeByIDInSubPool (k + 1) i) := by
  unfold Pool.IsRightSkipListNodeSafe
  simp only
  rw [← slotAddr_succ, IsSkipListNode_slot c (by omega)]
  have hend : s.pointers i + GetSubPoolSize i * s._opt.elementSizeInBytes =
      slotAddr (s.pointers i) s._opt.elementSizeInBytes (GetSubPoolSize i) := rfl
  rw [hend]
  have := @slotAddr_inj (s.pointers i) _ (k + 1) (GetSubPoolSize i) c.hsz
  by_cases h : k + 1 = GetSubPoolSize i
  · simp [h]
  · have h' : k + 1 < GetSubPoolSize i := by omega
    simp [this, h, h']

theorem IsLeft_slot {s : Pool} {i k : Nat} (c : SubCtx s i) (hk : k < GetSubPoolSize i) :
    s.IsLeftSkipListNodeSafe (slotAddr (s.pointers i) s._opt.elementSizeInBytes k) i =
      (decide (0 < k) && s.IsSkipListNodeByIDInSubPool (k - 1) i) := by
  unfold Pool.IsLeftSkipListNodeSafe
  simp only
  have hb : s.pointers i = slotAddr (s.pointers i) s._opt.elementSizeInBytes 0 :=
    (slotAddr_zero _ _).symm
  by_cases h : k = 0
  · subst h
    simp [slotAddr_zero]
  · have h0 : 0 < k := by omega
    rw [slotAddr_pred h0, IsSkipListNode_slot c (by omega)]
    have : ¬ slotAddr (s.pointers i) s._opt.elementSizeInBytes k = s.pointers i := by
      intro e
      have e' : slotAddr (s.pointers i) s._opt.elementSizeInBytes k =
          slotAddr (s.pointers i) s._opt.elementSizeInBytes 0 := by
        rw [slotAddr_zero]; exact e
      have := (slotAddr_inj c.hsz).1 e'
      omega
    simp [this, h0]

/-! ## Free-bits and runs -/

theorem Covered_cons {r : Run} {rs : List Run} {k : Nat} :
    Covered (r :: rs) k ↔ (r.1 ≤ k ∧ k < r.1 + r.2) ∨ Covered rs k := by
  simp [Covered]

theorem Covered_nil {k : Nat} : ¬ Covered [] k := by simp [Covered]

theorem Covered_append {xs ys : List Run} {k : Nat} :
    Covered (xs ++ ys) k ↔ Covered xs k ∨ Covered ys k := by
  simp only [Covered, List.mem_append]
  constructor
  · rintro ⟨r, hr | hr, h⟩
    · exact Or.inl ⟨r, hr, h⟩
    · exact Or.inr ⟨r, hr, h⟩
  · rintro (⟨r, hr, h⟩ | ⟨r, hr, h⟩)
    · exact ⟨r, Or.inl hr, h⟩
    · exact ⟨r, Or.inr hr, h⟩

/-- In a valid list of runs, the slot after a run is not covered. -/
theorem RunsOK.after_not_covered {cap : Nat} {rs : List Run} (h : RunsOK cap rs)
    {r : Run} (hr : r ∈ rs) : ¬ Covered rs (r.1 + r.2) := by
  rintro ⟨x, hx, h1, h2⟩
  rcases h.eq_or_sep r hr x hx with rfl | hs
  · omega
  · rcases hs with hs | hs <;> omega

/-- In a valid list of runs, the slot before a run is not covered. -/
theorem RunsOK.before_not_covered {cap : Nat} {rs : List Run} (h : RunsOK cap rs)
    {r : Run} (hr : r ∈ rs) (h0 : 0 < r.1) : ¬ Covered rs (r.1 - 1) := by
  rintro ⟨x, hx, h1, h2⟩
  rcases h.eq_or_sep r hr x hx with rfl | hs
  · omega
  · rcases hs with hs | hs <;> omega

/-- A covered slot whose successor is not covered is the last slot of its run. -/
theorem RunsOK.run_ending_at {cap : Nat} {rs : List Run} (_h : RunsOK cap rs) {k : Nat}
    (hk : Covered rs k) (hn : ¬ Covered rs (k + 1)) : ∃ r ∈ rs, r.1 + r.2 = k + 1 := by
  obtain ⟨r, hr, h1, h2⟩ := hk
  refine ⟨r, hr, ?_⟩
  by_contra hne
  exact hn ⟨r, hr, by omega, by omega⟩

/-- A covered slot whose predecessor is not covered is the first slot of its run. -/
theorem RunsOK.run_starting_at {cap : Nat} {rs : List Run} (_h : RunsOK cap rs) {k : Nat}
    (hk : Covered rs (k + 1)) (hn : ¬ Covered rs k) : ∃ r ∈ rs, r.1 = k + 1 := by
  obtain ⟨r, hr, h1, h2⟩ := hk
  refine ⟨r, hr, ?_⟩
  by_contra hne
  exact hn ⟨r, hr, by omega, by omega⟩

theorem mem_split_run {rs : List Run} {r : Run} (h : r ∈ rs) :
    ∃ xs ys, rs = xs ++ r :: ys := List.append_of_mem h

end KoPool

set_option autoImplicit false

namespace KoPool

open Pool

/-! ## The free-bit bitmap -/

theorem IsSkip_eq_testBit (s : Pool) (i k : Nat) :
    s.IsSkipListNodeByIDInSubPool k i = (s.bitmap i (k / 64)).testBit (k % 64) := by
  unfold Pool.IsSkipListNodeByIDInSubPool
  simp only [and_63, bitAt_eq]
  rfl

theorem testBit_or_shl1 (w b c : Nat) (hb : b < 64) :
    (w ||| shl1 b).testBit c = (w.testBit c || decide (c = b)) := by
  rw [Nat.testBit_or, testBit_shl1 hb]
  congr 1
  exact decide_eq_decide.2 eq_comm

theorem testBit_and_bnot_shl1 (w b c : Nat) (hb : b < 64) (hc : c < 64) :
    (w &&& bnot (shl1 b)).testBit c = (w.testBit c && !decide (c = b)) := by
  rw [Nat.testBit_and, testBit_bnot, testBit_shl1 hb]
  have : decide (b = c) = decide (c = b) := decide_eq_decide.2 eq_comm
  simp [hc, this]

theorem SetIsSkipListNode_bits {s : Pool} {i k : Nat} (c : SubCtx s i)
    (hk : k < GetSubPoolSize i) (v : Bool) (k' j : Nat) :
    (s.SetIsSkipListNode (slotAddr (s.pointers i) s._opt.elementSizeInBytes k) i v
      ).IsSkipListNodeByIDInSubPool k' j =
    if j = i ∧ k' = k then v else s.IsSkipListNodeByIDInSubPool k' j := by
  rw [IsSkip_eq_testBit, IsSkip_eq_testBit]
  unfold Pool.SetIsSkipListNode
  have hD : DIGITS = 64 := rfl
  simp only [PtrToIDInSubPool_slot c (le_of_lt hk), and_63]
  simp only [hD]
  by_cases hj : j = i
  · subst hj
    simp only [upd_same, true_and]
    by_cases hw : k' / 64 = k / 64
    · rw [hw, upd_same]
      have hb : k % 64 < 64 := Nat.mod_lt _ (by decide)
      have hc : k' % 64 < 64 := Nat.mod_lt _ (by decide)
      have hiff : k' % 64 = k % 64 ↔ k' = k := by omega
      cases v
      · simp only [Bool.false_eq_true, if_false]
        rw [testBit_and_bnot_shl1 _ _ _ hb hc]
        by_cases hkk : k' = k
        · simp [hkk]
        · have : ¬ k' % 64 = k % 64 := fun e => hkk (hiff.1 e)
          simp [hkk, this]
      · simp only [if_true]
        rw [testBit_or_shl1 _ _ _ hb]
        by_cases hkk : k' = k
        · simp [hkk]
        · have : ¬ k' % 64 = k % 64 := fun e => hkk (hiff.1 e)
          simp [hkk, this]
    · rw [upd_other _ _ hw]
      have : ¬ k' = k := fun e => hw (by rw [e])
      simp [this]
  · rw [upd_other _ _ hj]
    simp [hj]

@[simp] theorem SetIsSkipListNode_mem (s : Pool) (p i : Nat) (v : Bool) :
    (s.SetIsSkipListNode p i v).mem = s.mem := rfl

@[simp] theorem SetIsSkipListNode_pointers (s : Pool) (p i : Nat) (v : Bool) :
    (s.SetIsSkipListNode p i v).pointers = s.pointers := rfl

@[simp] theorem SetIsSkipListNode_opt (s : Pool) (p i : Nat) (v : Bool) :
    (s.SetIsSkipListNode p i v)._opt = s._opt := rfl

@[simp] theorem SetIsSkipListNode_table (s : Pool) (p i : Nat) (v : Bool) :
    (s.SetIsSkipListNode p i v)._pSubPools = s._pSubPools := rfl

@[simp] theorem SetIsSkipListNode_numUsed (s : Pool) (p i : Nat) (v : Bool) :
    (s.SetIsSkipListNode p i v).numUsed = s.numUsed := rfl

/-- After `memset`, the words that hold the bits of a sub-pool are all ones. -/
theorem testBit_USIZE_MAX {c : Nat} (hc : c < 64) : USIZE_MAX.testBit c = true := by
  unfold USIZE_MAX
  rw [Nat.testBit_two_pow_sub_one]
  simp [hc]

theorem lt_CeilDiv {k n : Nat} (h : k < n) : k / 64 < CeilDiv n DIGITS := by
  unfold CeilDiv DIGITS
  by_cases hm : n % 64 = 0
  · simp only [hm, ne_eq, not_true_eq_false, if_false, Nat.add_zero]
    omega
  · simp only [hm, ne_eq, not_false_eq_true, if_true]
    omega

end KoPool

set_option autoImplicit false

namespace KoPool

open Pool

/-! ## Runs seen through the pool's accessors -/

section
variable {s : Pool} {i : Nat} {rs : List Run}

theorem isRight_of_run (c : SubCtx s i) (hok : RunsOK (GetSubPoolSize i) rs)
    (hbits : ∀ k, k < GetSubPoolSize i →
      (s.IsSkipListNodeByIDInSubPool k i = true ↔ Covered rs k))
    {r : Run} (hr : r ∈ rs) :
    s.IsRightSkipListNodeSafe (slotAddr (s.pointers i) s._opt.elementSizeInBytes r.1) i =
      decide (2 ≤ r.2) := by
  have hb := hok.bound r hr
  rw [IsRight_slot c (by omega)]
  by_cases h2 : 2 ≤ r.2
  · have hc : Covered rs (r.1 + 1) := ⟨r, hr, by omega, by omega⟩
    have := (hbits (r.1 + 1) (by omega)).2 hc
    simp [this, h2]
    omega
  · have h1 : r.2 = 1 := by omega
    by_cases hlt : r.1 + 1 < GetSubPoolSize i
    · have hn : ¬ Covered rs (r.1 + 1) := by
        have := hok.after_not_covered hr
        rwa [h1] at this
      have : s.IsSkipListNodeByIDInSubPool (r.1 + 1) i = false := by
        cases hv : s.IsSkipListNodeByIDInSubPool (r.1 + 1) i
        · rfl
        · exact absurd ((hbits _ hlt).1 hv) hn
      simp [this, h2]
    · simp [hlt, h2]

theorem isLeft_of_run (c : SubCtx s i) (hok : RunsOK (GetSubPoolSize i) rs)
    (hbits : ∀ k, k < GetSubPoolSize i →
      (s.IsSkipListNodeByIDInSubPool k i = true ↔ Covered rs k))
    {r : Run} (hr : r ∈ rs) :
    s.IsLeftSkipListNodeSafe
      (slotAddr (s.pointers i) s._opt.elementSizeInBytes (r.1 + r.2 - 1)) i =
      decide (2 ≤ r.2) := by
  have hb := hok.bound r hr
  rw [IsLeft_slot c (by omega)]
  by_cases h2 : 2 ≤ r.2
  · have hc : Covered rs (r.1 + r.2 - 1 - 1) := ⟨r, hr, by omega, by omega⟩
    have := (hbits _ (by omega)).2 hc
    simp [this, h2]
    omega
  · have h1 : r.2 = 1 := by omega
    by_cases h0 : 0 < r.1
    · have hn : ¬ Covered rs (r.1 - 1) := hok.before_not_covered hr h0
      have he : r.1 + r.2 - 1 - 1 = r.1 - 1 := by omega
      have : s.IsSkipListNodeByIDInSubPool (r.1 + r.2 - 1 - 1) i = false := by
        rw [he]
        cases hv : s.IsSkipListNodeByIDInSubPool (r.1 - 1) i
        · rfl
        · exact absurd ((hbits _ (by omega)).1 hv) hn
      simp [this, h2]
    · have : r.1 + r.2 - 1 = 0 := by omega
      simp [this, h2]

end

/-! ## `HeadNodeSetPrevFreeSkipNodeTail` -/

theorem HNSP_null (s : Pool) (m : Nat → Nat) (P i : Nat) :
    s.HeadNodeSetPrevFreeSkipNodeTail m 0 P i = m := by
  simp [Pool.HeadNodeSetPrevFreeSkipNodeTail]

/-- Applied to the head slot of a free run, the function stores the new `prev` pointer in
the head slot and in the tail slot of the run. -/
theorem HNSP_run {s : Pool} {i : Nat} (c : SubCtx s i) {m : Nat → Nat} {y : Run}
    (hy1 : 1 ≤ y.2)
    (hR : s.IsRightSkipListNodeSafe
      (slotAddr (s.pointers i) s._opt.elementSizeInBytes y.1) i = decide (2 ≤ y.2))
    (hnbt : 2 ≤ y.2 → m (slotAddr (s.pointers i) s._opt.elementSizeInBytes y.1 + 8) =
      (y.2 - 1) * s._opt.elementSizeInBytes) (P : Nat) :
    s.HeadNodeSetPrevFreeSkipNodeTail m
        (slotAddr (s.pointers i) s._opt.elementSizeInBytes y.1) P i =
      upd (upd m (slotAddr (s.pointers i) s._opt.elementSizeInBytes y.1) P)
        (slotAddr (s.pointers i) s._opt.elementSizeInBytes (y.1 + y.2 - 1)) P := by
  have hne : slotAddr (s.pointers i) s._opt.elementSizeInBytes y.1 ≠ 0 := by
    have := slotAddr_ge (s.pointers i) s._opt.elementSizeInBytes y.1
    have := c.hb
    omega
  unfold Pool.HeadNodeSetPrevFreeSkipNodeTail
  simp only [hne, if_false]
  rw [hR]
  by_cases h2 : 2 ≤ y.2
  · simp only [h2, decide_True, if_true]
    unfold Pool.HeadToTail
    have h8 : slotAddr (s.pointers i) s._opt.elementSizeInBytes y.1 + 8 ≠
        slotAddr (s.pointers i) s._opt.elementSizeInBytes y.1 := by omega
    rw [upd_other _ _ h8, hnbt h2]
    have : y.1 + y.2 - 1 = y.1 + (y.2 - 1) := by omega
    rw [this, slotAddr_add]
  · have h1 : y.1 + y.2 - 1 = y.1 := by omega
    simp only [h2, decide_False, Bool.false_eq_true, if_false, h1]
    funext a
    simp only [upd]
    split <;> rfl

/-! ## Transport of the context along changes that keep the buffers -/

theorem SubCtx.congr_ctx {s s' : Pool} {i : Nat} (c : SubCtx s i)
    (h1 : s'._opt = s._opt) (h2 : s'.pointers = s.pointers) (h3 : s'._pSubPools = s._pSubPools) :
    SubCtx s' i := by
  refine ⟨c.hi, ?_, ?_, ?_, ?_⟩
  · rw [h1]; exact c.hsz
  · rw [h2]; exact c.hb
  · rw [h1, h2]; exact c.hlt
  · have : s'.poolAddr i = s.poolAddr i := by unfold Pool.poolAddr; rw [h3]
    rw [h1, h2, this]; exact c.hS

end KoPool

set_option autoImplicit false
namespace KoPool

theorem RunSep.slot_ne {r x : Run} (h : RunSep r x) (hx : 1 ≤ x.2) {q : Nat}
    (h1 : r.1 ≤ q) (h2 : q < r.1 + r.2) : q ≠ x.1 ∧ q ≠ x.1 + x.2 - 1 := by
  rcases h with h | h <;> constructor <;> omega

section
variable {m m' : Nat → Nat} {b sz cap S : Nat}

/-- The last node of an initial segment is the sentinel or the tail slot of one of its
runs. -/
theorem lastTail_node (xs : List Run) :
    lastTail b sz S xs = S ∨ ∃ x ∈ xs, lastTail b sz S xs = slotAddr b sz (x.1 + x.2 - 1) :=
  lastTail_mem xs S

/-- The `next` word of the last node of `xs` differs from the words of a slot that lies in
no run of `xs`. -/
theorem lastTail_next_ne_slot (hsz : 16 ≤ sz) (hS : SentOut b sz cap S) (xs : List Run)
    {q : Nat} (hq : q < cap) (hne : ∀ x ∈ xs, q ≠ x.1 + x.2 - 1) :
    lastTail b sz S xs + 8 ≠ slotAddr b sz q ∧ lastTail b sz S xs + 8 ≠ slotAddr b sz q + 8 := by
  rcases @lastTail_node b sz S xs with h | ⟨x, hx, h⟩
  · rw [h]; exact ⟨(sent_ne hS hsz hq).2.1, (sent_ne hS hsz hq).2.2.2⟩
  · rw [h]
    refine ⟨fun e => (slotAddr8_ne hsz).1 e, fun e => ?_⟩
    exact hne x hx ((slotAddr8_inj hsz).1 e).symm

/-- Words of the footprint of an initial segment keep their value when memory changes only
at the `next` word of the segment's last node and at words of slots outside its runs. -/
theorem frame_footSeg (hsz : 16 ≤ sz) (hS : SentOut b sz cap S) {xs : List Run}
    (hok : RunsOK cap xs) {Q : Nat → Prop} (hQ : ∀ q, Q q → q < cap)
    (hQx : ∀ x ∈ xs, ∀ q, Q q → q ≠ x.1 ∧ q ≠ x.1 + x.2 - 1)
    (hfr : ∀ a, a ≠ lastTail b sz S xs + 8 →
      (∀ q, Q q → a ≠ slotAddr b sz q ∧ a ≠ slotAddr b sz q + 8) → m' a = m a) :
    ∀ a ∈ footSeg b sz S xs, m' a = m a := by
  intro a ha
  apply hfr
  · rintro rfl
    refine lastTail_next_notin hsz xs S (fun x hx => (hok.bound x hx).1) hok.sep ?_ ha
    intro x hx
    have := hok.bound x hx
    exact (sent_ne hS hsz (by omega)).1
  · intro q hq
    constructor
    · rintro rfl
      exact notin_footSeg_of_slot hsz (q := q) (Or.inl rfl)
        (fun e => (sent_ne hS hsz (hQ q hq)).2.1 e.symm) (fun x hx => hQx x hx q hq) ha
    · rintro rfl
      exact notin_footSeg_of_slot hsz (q := q) (Or.inr rfl)
        (fun e => (sent_ne hS hsz (hQ q hq)).2.2.2 e.symm) (fun x hx => hQx x hx q hq) ha

/-- Words of the footprint of the chain after the run `y` keep their value when memory
changes only at a `next` word of a node before `y`, at the first words of the boundary
slots of `y`, and at words of slots outside the runs after `y`. -/
theorem frame_footChain (hsz : 16 ≤ sz) (hS : SentOut b sz cap S) {xs : List Run} {y : Run}
    {ys : List Run} (hok : RunsOK cap (xs ++ y :: ys)) {Q : Nat → Prop}
    (hQ : ∀ q, Q q → q < cap)
    (hQx : ∀ x ∈ ys, ∀ q, Q q → q ≠ x.1 ∧ q ≠ x.1 + x.2 - 1)
    (hQy : ∀ q, Q q → q ≠ y.1 + y.2 - 1)
    (hfr : ∀ a, a ≠ lastTail b sz S xs + 8 →
      (∀ q, Q q → a ≠ slotAddr b sz q ∧ a ≠ slotAddr b sz q + 8) →
      a ≠ slotAddr b sz y.1 → a ≠ slotAddr b sz (y.1 + y.2 - 1) → m' a = m a) :
    ∀ a ∈ footChain b sz (slotAddr b sz (y.1 + y.2 - 1)) ys, m' a = m a := by
  have hyb : 1 ≤ y.2 ∧ y.1 + y.2 ≤ cap := hok.bound y (by simp)
  have hoky : RunsOK cap (y :: ys) := hok.of_append_right
  have hysb : ∀ x ∈ ys, 1 ≤ x.2 ∧ x.1 + x.2 ≤ cap := fun x hx => hoky.of_cons.bound x hx
  intro a ha
  apply hfr
  · rintro rfl
    rcases @lastTail_node b sz S xs with h | ⟨x, hx, h⟩
    · rw [h] at ha
      exact sent_notin_footChain hsz hS hysb
        (fun e => (sent_ne hS hsz (by omega : y.1 + y.2 - 1 < cap)).2.2.2 e) ha
    · rw [h] at ha
      have hxb := hok.bound x (by simp [hx])
      have hxy : RunSep x y := hok.sep_append x hx y (by simp)
      refine notin_footChain_of_slot hsz (q := x.1 + x.2 - 1) (Or.inr rfl) ?_ ?_ ha
      · intro e
        have := (slotAddr8_inj hsz).1 e
        rcases hxy with h' | h' <;> omega
      · intro z hz
        have hxz : RunSep x z := hok.sep_append x hx z (by simp [hz])
        exact hxz.slot_ne (hysb z hz).1 (by omega) (by omega)
  · intro q hq
    constructor
    · rintro rfl
      exact notin_footChain_of_slot hsz (q := q) (Or.inl rfl)
        (fun e => (slotAddr_ne8 hsz).1 e) (fun x hx => hQx x hx q hq) ha
    · rintro rfl
      exact notin_footChain_of_slot hsz (q := q) (Or.inr rfl)
        (fun e => hQy q hq ((slotAddr8_inj hsz).1 e)) (fun x hx => hQx x hx q hq) ha
  · rintro rfl
    refine notin_footChain_of_slot hsz (q := y.1) (Or.inl rfl)
      (fun e => (slotAddr_ne8 hsz).1 e) ?_ ha
    intro x hx
    exact (hoky.head_sep x hx).slot_ne (hysb x hx).1 (le_refl _) (by omega)
  · rintro rfl
    refine notin_footChain_of_slot hsz (q := y.1 + y.2 - 1) (Or.inl rfl)
      (fun e => (slotAddr_ne8 hsz).1 e) ?_ ha
    intro x hx
    exact (hoky.head_sep x hx).slot_ne (hysb x hx).1 (by omega) (by omega)

end
end KoPool

set_option autoImplicit false
namespace KoPool

theorem RunsOK.remove_mid {cap : Nat} {xs : List Run} {r : Run} {ys : List Run}
    (h : RunsOK cap (xs ++ r :: ys)) : RunsOK cap (xs ++ ys) := by
  refine ⟨fun x hx => h.bound x ?_, ?_⟩
  · rcases List.mem_append.1 hx with hx | hx
    · exact List.mem_append_left _ hx
    · exact List.mem_append_right _ (List.mem_cons_of_mem _ hx)
  · refine h.sep.sublist ?_
    exact List.Sublist.append (List.Sublist.refl xs) (List.sublist_cons_self r ys)

theorem RunsOK.mid_sep {cap : Nat} {xs : List Run} {r : Run} {ys : List Run}
    (h : RunsOK cap (xs ++ r :: ys)) : ∀ x ∈ xs ++ ys, RunSep r x := by
  intro x hx
  rcases List.mem_append.1 hx with hx | hx
  · exact (h.sep_append x hx r (by simp)).symm
  · exact h.of_append_right.head_sep x hx

theorem RunsOK.mid_bound {cap : Nat} {xs : List Run} {r : Run} {ys : List Run}
    (h : RunsOK cap (xs ++ r :: ys)) : 1 ≤ r.2 ∧ r.1 + r.2 ≤ cap := h.bound r (by simp)

section
variable {m m' : Nat → Nat} {b sz cap S : Nat}

/-- Unlinking the run `r`: the `next` word of its predecessor takes over `r`'s `next`
pointer and the successor run points back to the predecessor. -/
theorem Chain_unlink (hsz : 16 ≤ sz) (hS : SentOut b sz cap S) {xs : List Run} {r : Run}
    {ys : List Run} (hok : RunsOK cap (xs ++ r :: ys))
    (hch : Chain m b sz S (xs ++ r :: ys))
    (hP8 : m' (lastTail b sz S xs + 8) = m (slotAddr b sz (r.1 + r.2 - 1) + 8))
    (hy : ∀ y ys', ys = y :: ys' → m' (slotAddr b sz y.1) = lastTail b sz S xs ∧
      m' (slotAddr b sz (y.1 + y.2 - 1)) = lastTail b sz S xs)
    (hfr : ∀ a, a ≠ lastTail b sz S xs + 8 →
      (∀ y ys', ys = y :: ys' → a ≠ slotAddr b sz y.1 ∧ a ≠ slotAddr b sz (y.1 + y.2 - 1)) →
      m' a = m a) :
    Chain m' b sz S (xs ++ ys) := by
  have hok2 := hok.remove_mid
  have key := @Chain_splice m m' b sz S xs [r] [] ys
    (by simpa using hch)
  simp only [List.nil_append, lastTail] at key
  apply key
  · refine frame_footSeg hsz hS hok.of_append_left
      (Q := fun q => ∃ y ys', ys = y :: ys' ∧ (q = y.1 ∨ q = y.1 + y.2 - 1)) ?_ ?_ ?_
    · rintro q ⟨y, ys', rfl, hq⟩
      have := hok2.bound y (by simp)
      rcases hq with rfl | rfl <;> omega
    · rintro x hx q ⟨y, ys', rfl, hq⟩
      have hxy : RunSep y x := (hok2.sep_append x hx y (by simp)).symm
      have hyb := hok2.bound y (by simp)
      have hxb := hok2.bound x (by simp [hx])
      rcases hq with rfl | rfl
      · exact hxy.slot_ne hxb.1 (le_refl _) (by omega)
      · exact hxy.slot_ne hxb.1 (by omega) (by omega)
    · intro a h1 h2
      apply hfr a h1
      intro y ys' h
      exact ⟨(h2 y.1 ⟨y, ys', h, Or.inl rfl⟩).1, (h2 _ ⟨y, ys', h, Or.inr rfl⟩).1⟩
  · trivial
  · exact hP8
  · intro y ys' hys
    subst hys
    obtain ⟨e1, e2⟩ := hy y ys' rfl
    have hyb := hok2.bound y (by simp)
    refine ⟨e1, e2, ?_, ?_⟩
    · intro _
      apply hfr
      · have := lastTail_next_ne_slot (S := S) hsz hS xs (q := y.1) (by omega) ?_
        · exact fun e => this.2 e.symm
        · intro x hx
          have hxy : RunSep y x := (hok2.sep_append x hx y (by simp)).symm
          exact (hxy.slot_ne (hok2.bound x (by simp [hx])).1 (le_refl _) (by omega)).2
      · intro y' ys'' h
        cases h
        exact ⟨fun e => (slotAddr8_ne hsz).1 e, fun e => (slotAddr8_ne hsz).1 e⟩
    · refine frame_footChain hsz hS hok2 (Q := fun _ => False) (by simp) (by simp) (by simp) ?_
      intro a h1 _ h3 h4
      apply hfr a h1
      intro y' ys'' h
      cases h
      exact ⟨h3, h4⟩

/-- Putting the run `r'` in the place of the middle part `mid` of a chain. -/
theorem Chain_put (hsz : 16 ≤ sz) (hS : SentOut b sz cap S) {xs mid ys : List Run} {r' : Run}
    (hok' : RunsOK cap (xs ++ r' :: ys))
    (hch : Chain m b sz S (xs ++ (mid ++ ys)))
    (h1 : m' (lastTail b sz S xs + 8) = slotAddr b sz r'.1)
    (h2 : m' (slotAddr b sz r'.1) = lastTail b sz S xs)
    (h3 : 2 ≤ r'.2 → m' (slotAddr b sz r'.1 + 8) = (r'.2 - 1) * sz)
    (h4 : m' (slotAddr b sz (r'.1 + r'.2 - 1)) = lastTail b sz S xs)
    (h5 : m' (slotAddr b sz (r'.1 + r'.2 - 1) + 8) =
      m (lastTail b sz (lastTail b sz S xs) mid + 8))
    (hy : ∀ y ys', ys = y :: ys' →
      m' (slotAddr b sz y.1) = slotAddr b sz (r'.1 + r'.2 - 1) ∧
      m' (slotAddr b sz (y.1 + y.2 - 1)) = slotAddr b sz (r'.1 + r'.2 - 1))
    (hfr : ∀ a, a ≠ lastTail b sz S xs + 8 →
      (∀ q, r'.1 ≤ q → q < r'.1 + r'.2 → a ≠ slotAddr b sz q ∧ a ≠ slotAddr b sz q + 8) →
      (∀ y ys', ys = y :: ys' → a ≠ slotAddr b sz y.1 ∧ a ≠ slotAddr b sz (y.1 + y.2 - 1)) →
      m' a = m a) :
    Chain m' b sz S (xs ++ r' :: ys) := by
  have hok2 := hok'.remove_mid
  have hrb := hok'.mid_bound
  have hrs := hok'.mid_sep
  have key := @Chain_splice m m' b sz S xs mid [r'] ys hch
  simp only [List.singleton_append, lastTail, SegP, and_true] at key
  apply key
  · refine frame_footSeg hsz hS hok'.of_append_left
      (Q := fun q => (r'.1 ≤ q ∧ q < r'.1 + r'.2) ∨
        ∃ y ys', ys = y :: ys' ∧ (q = y.1 ∨ q = y.1 + y.2 - 1)) ?_ ?_ ?_
    · rintro q (hq | ⟨y, ys', rfl, hq⟩)
      · omega
      · have := hok2.bound y (by simp)
        rcases hq with rfl | rfl <;> omega
    · rintro x hx q (hq | ⟨y, ys', rfl, hq⟩)
      · exact (hrs x (by simp [hx])).slot_ne (hok2.bound x (by simp [hx])).1 hq.1 hq.2
      · have hxy : RunSep y x := (hok2.sep_append x hx y (by simp)).symm
        have hyb := hok2.bound y (by simp)
        have hxb := hok2.bound x (by simp [hx])
        rcases hq with rfl | rfl
        · exact hxy.slot_ne hxb.1 (le_refl _) (by omega)
        · exact hxy.slot_ne hxb.1 (by omega) (by omega)
    · intro a h1' h2'
      apply hfr a h1'
      · intro q hq1 hq2
        exact h2' q (Or.inl ⟨hq1, hq2⟩)
      · intro y ys' h
        exact ⟨(h2' y.1 (Or.inr ⟨y, ys', h, Or.inl rfl⟩)).1,
          (h2' _ (Or.inr ⟨y, ys', h, Or.inr rfl⟩)).1⟩
  · exact ⟨h1, h2, h3, h4⟩
  · exact h5
  · intro y ys' hys
    subst hys
    obtain ⟨e1, e2⟩ := hy y ys' rfl
    have hyb := hok2.bound y (by simp)
    have hry : RunSep r' y := hrs y (by simp)
    refine ⟨e1, e2, ?_, ?_⟩
    · intro _
      apply hfr
      · have := lastTail_next_ne_slot (S := S) hsz hS xs (q := y.1) (by omega) ?_
        · exact fun e => this.2 e.symm
        · intro x hx
          have hxy : RunSep y x := (hok2.sep_append x hx y (by simp)).symm
          exact (hxy.slot_ne (hok2.bound x (by simp [hx])).1 (le_refl _) (by omega)).2
      · intro q hq1 hq2
        refine ⟨fun e => (slotAddr8_ne hsz).1 e, fun e => ?_⟩
        have := (slotAddr8_inj hsz).1 e
        exact (hry.slot_ne hyb.1 hq1 hq2).1 this.symm
      · intro y' ys'' h
        cases h
        exact ⟨fun e => (slotAddr8_ne hsz).1 e, fun e => (slotAddr8_ne hsz).1 e⟩
    · refine frame_footChain hsz hS hok2 (Q := fun q => r'.1 ≤ q ∧ q < r'.1 + r'.2)
        ?_ ?_ ?_ ?_
      · intro q hq; omega
      · intro x hx q hq
        exact (hrs x (by simp [hx])).slot_ne (hok2.bound x (by simp [hx])).1 hq.1 hq.2
      · intro q hq
        exact (hry.slot_ne hyb.1 hq.1 hq.2).2
      · intro a h1' h2' h3' h4'
        apply hfr a h1'
        · intro q hq1 hq2
          exact h2' q ⟨hq1, hq2⟩
        · intro y' ys'' h
          cases h
          exact ⟨h3', h4'⟩

end
end KoPool

set_option autoImplicit false
namespace KoPool

/-! ## Lists of runs under the four ways of freeing a slot -/

theorem runsLen_append (xs ys : List Run) : runsLen (xs ++ ys) = runsLen xs + runsLen ys := by
  induction xs with
  | nil => simp [runsLen]
  | cons x xs ih =>
    show runsLen (x :: (xs ++ ys)) = _
    simp only [runsLen, ih]; omega

theorem RunsOK.replace_mid {cap : Nat} {xs ys : List Run} {r r' : Run}
    (h : RunsOK cap (xs ++ r :: ys)) (hb : 1 ≤ r'.2 ∧ r'.1 + r'.2 ≤ cap)
    (hs : ∀ x ∈ xs ++ ys, RunSep r' x) : RunsOK cap (xs ++ r' :: ys) := by
  refine ⟨?_, ?_⟩
  · intro x hx
    rcases List.mem_append.1 hx with hx | hx
    · exact h.bound x (List.mem_append_left _ hx)
    · rcases List.mem_cons.1 hx with rfl | hx
      · exact hb
      · exact h.bound x (List.mem_append_right _ (List.mem_cons_of_mem _ hx))
  · have hsep := h.sep
    rw [List.pairwise_append] at hsep ⊢
    obtain ⟨s1, s2, s3⟩ := hsep
    rw [List.pairwise_cons] at s2 ⊢
    refine ⟨s1, ⟨fun x hx => hs x (List.mem_append_right _ hx), s2.2⟩, ?_⟩
    intro x hx y hy
    rcases List.mem_cons.1 hy with rfl | hy
    · exact (hs x (List.mem_append_left _ hx)).symm
    · exact s3 x hx y (List.mem_cons_of_mem _ hy)

theorem RunsOK.insert_mid {cap : Nat} {xs ys : List Run} {r' : Run}
    (h : RunsOK cap (xs ++ ys)) (hb : 1 ≤ r'.2 ∧ r'.1 + r'.2 ≤ cap)
    (hs : ∀ x ∈ xs ++ ys, RunSep r' x) : RunsOK cap (xs ++ r' :: ys) := by
  refine ⟨?_, ?_⟩
  · intro x hx
    rcases List.mem_append.1 hx with hx | hx
    · exact h.bound x (List.mem_append_left _ hx)
    · rcases List.mem_cons.1 hx with rfl | hx
      · exact hb
      · exact h.bound x (List.mem_append_right _ hx)
  · have hsep := h.sep
    rw [List.pairwise_append] at hsep ⊢
    obtain ⟨s1, s2, s3⟩ := hsep
    rw [List.pairwise_cons]
    refine ⟨s1, ⟨fun x hx => hs x (List.mem_append_right _ hx), s2⟩, ?_⟩
    intro x hx y hy
    rcases List.mem_cons.1 hy with rfl | hy
    · exact (hs x (List.mem_append_left _ hx)).symm
    · exact s3 x hx y hy

/-- A run that is separated from the run `l` and does not start right after it is
separated from `l` grown by one slot. -/
theorem sep_grow_right {l x : Run} {k : Nat} (hl : l.1 + l.2 = k) (hx : 1 ≤ x.2)
    (h : RunSep l x) (hk : x.1 ≠ k + 1) (hk' : ¬ (x.1 ≤ k ∧ k < x.1 + x.2)) :
    RunSep (l.1, l.2 + 1) x := by
  unfold RunSep at *
  simp only
  omega

theorem sep_grow_left {r x : Run} {k : Nat} (hr : r.1 = k + 1) (hx : 1 ≤ x.2)
    (h : RunSep r x) (hk : x.1 + x.2 ≠ k) (hk' : ¬ (x.1 ≤ k ∧ k < x.1 + x.2)) :
    RunSep (k, r.2 + 1) x := by
  unfold RunSep at *
  simp only
  omega

theorem sep_merge {l r x : Run} {k : Nat} (hl : l.1 + l.2 = k) (hr : r.1 = k + 1)
    (hx : 1 ≤ x.2) (h1 : RunSep l x) (h2 : RunSep r x) (hr1 : 1 ≤ r.2) (hl1 : 1 ≤ l.2) :
    RunSep (l.1, l.2 + 1 + r.2) x := by
  unfold RunSep at *
  simp only
  omega

theorem sep_single {x : Run} {k : Nat} (hx : 1 ≤ x.2)
    (h1 : x.1 + x.2 ≠ k) (h2 : x.1 ≠ k + 1) (h3 : ¬ (x.1 ≤ k ∧ k < x.1 + x.2)) :
    RunSep (k, 1) x := by
  unfold RunSep
  simp only
  omega

/-- In a valid list no run ends right before an uncovered slot whose predecessor is not
covered. -/
theorem RunsOK.not_end_at {cap : Nat} {rs : List Run} (h : RunsOK cap rs) {k : Nat}
    (hl : k = 0 ∨ ¬ Covered rs (k - 1)) : ∀ x ∈ rs, x.1 + x.2 ≠ k := by
  intro x hx e
  have hb := h.bound x hx
  rcases hl with hl | hl
  · omega
  · exact hl ⟨x, hx, by omega, by omega⟩

theorem RunsOK.not_start_at {cap : Nat} {rs : List Run} (h : RunsOK cap rs) {k : Nat}
    (hr : k + 1 = cap ∨ ¬ Covered rs (k + 1)) : ∀ x ∈ rs, x.1 ≠ k + 1 := by
  intro x hx e
  have hb := h.bound x hx
  rcases hr with hr | hr
  · omega
  · exact hr ⟨x, hx, by omega, by omega⟩

theorem not_covered_run {rs : List Run} {k : Nat} (h : ¬ Covered rs k) :
    ∀ x ∈ rs, ¬ (x.1 ≤ k ∧ k < x.1 + x.2) :=
  fun x hx hc => h ⟨x, hx, hc⟩

theorem mem_mid_of_mem {xs ys : List Run} {r x : Run} (h : x ∈ xs ++ ys) :
    x ∈ xs ++ r :: ys := by
  rcases List.mem_append.1 h with h | h
  · exact List.mem_append_left _ h
  · exact List.mem_append_right _ (List.mem_cons_of_mem _ h)

theorem Covered_mid {xs ys : List Run} {r : Run} {k : Nat} :
    Covered (xs ++ r :: ys) k ↔ (r.1 ≤ k ∧ k < r.1 + r.2) ∨ Covered (xs ++ ys) k := by
  rw [Covered_append, Covered_cons, Covered_append]
  tauto

theorem runsLen_mid (xs ys : List Run) (r : Run) :
    runsLen (xs ++ r :: ys) = r.2 + runsLen (xs ++ ys) := by
  rw [runsLen_append, runsLen_append]
  simp only [runsLen]
  omega

/-- Freeing slot `k` next to no free slot. -/
theorem RunsOK.push_single {cap : Nat} {rs : List Run} (h : RunsOK cap rs) {k : Nat}
    (hk : k < cap) (hlive : ¬ Covered rs k) (hl : k = 0 ∨ ¬ Covered rs (k - 1))
    (hr : k + 1 = cap ∨ ¬ Covered rs (k + 1)) : RunsOK cap ((k, 1) :: rs) := by
  have := @RunsOK.insert_mid _ [] rs (k, 1) (by simpa using h)
    ⟨le_refl _, hk⟩ (by
      intro x hx
      have hx' : x ∈ rs := by simpa using hx
      exact sep_single (h.bound x hx').1 (h.not_end_at hl x hx') (h.not_start_at hr x hx')
        (not_covered_run hlive x hx'))
  simpa using this

/-- Freeing slot `k` right after the run `l`, with no free slot after `k`. -/
theorem RunsOK.grow_right {cap : Nat} {xs ys : List Run} {l : Run}
    (h : RunsOK cap (xs ++ l :: ys)) {k : Nat} (hk : k < cap) (hl : l.1 + l.2 = k)
    (hlive : ¬ Covered (xs ++ l :: ys) k)
    (hr : k + 1 = cap ∨ ¬ Covered (xs ++ l :: ys) (k + 1)) :
    RunsOK cap (xs ++ (l.1, l.2 + 1) :: ys) := by
  have hlb := h.bound l (by simp)
  refine h.replace_mid ⟨by simp, by simp only; omega⟩ ?_
  intro x hx
  have hx' : x ∈ xs ++ l :: ys := mem_mid_of_mem hx
  exact sep_grow_right hl (h.bound x hx').1 (h.mid_sep x hx) (h.not_start_at hr x hx')
    (not_covered_run hlive x hx')

/-- Freeing slot `k` right before the run `r`, with no free slot before `k`. -/
theorem RunsOK.grow_left {cap : Nat} {xs ys : List Run} {r : Run}
    (h : RunsOK cap (xs ++ r :: ys)) {k : Nat} (hr : r.1 = k + 1)
    (hlive : ¬ Covered (xs ++ r :: ys) k)
    (hl : k = 0 ∨ ¬ Covered (xs ++ r :: ys) (k - 1)) :
    RunsOK cap (xs ++ (k, r.2 + 1) :: ys) := by
  have hrb := h.bound r (by simp)
  refine h.replace_mid ⟨by simp, by simp only; omega⟩ ?_
  intro x hx
  have hx' : x ∈ xs ++ r :: ys := mem_mid_of_mem hx
  exact sep_grow_left hr (h.bound x hx').1 (h.mid_sep x hx) (h.not_end_at hl x hx')
    (not_covered_run hlive x hx')

theorem Covered_push_single {rs : List Run} {k k' : Nat} :
    Covered ((k, 1) :: rs) k' ↔ Covered rs k' ∨ k' = k := by
  rw [Covered_cons]
  simp only
  constructor
  · rintro (h | h)
    · right; omega
    · left; exact h
  · rintro (h | h)
    · right; exact h
    · left; omega

theorem Covered_grow_right {xs ys : List Run} {l : Run} {k k' : Nat} (hl : l.1 + l.2 = k) :
    Covered (xs ++ (l.1, l.2 + 1) :: ys) k' ↔ Covered (xs ++ l :: ys) k' ∨ k' = k := by
  rw [Covered_mid, Covered_mid]
  simp only
  constructor
  · rintro (h | h)
    · by_cases e : k' = k
      · right; exact e
      · left; left; omega
    · left; right; exact h
  · rintro ((h | h) | h)
    · left; omega
    · right; exact h
    · left; omega

theorem Covered_grow_left {xs ys : List Run} {r : Run} {k k' : Nat} (hr : r.1 = k + 1) :
    Covered (xs ++ (k, r.2 + 1) :: ys) k' ↔ Covered (xs ++ r :: ys) k' ∨ k' = k := by
  rw [Covered_mid, Covered_mid]
  simp only
  constructor
  · rintro (h | h)
    · by_cases e : k' = k
      · right; exact e
      · left; left; omega
    · left; right; exact h
  · rintro ((h | h) | h)
    · left; omega
    · right; exact h
    · left; omega

end KoPool

set_option autoImplicit false
namespace KoPool

theorem mem_of_split {us vs ps qs : List Run} {l r x : Run}
    (hsplit : us ++ vs = ps ++ r :: qs) (hx : x ∈ ps ++ qs) : x ∈ us ++ vs := by
  rw [hsplit]
  exact mem_mid_of_mem hx

/-- Freeing slot `k` between the run `l` that ends before it and the run `r` that starts
after it: `l` leaves the list and the merged run takes the place of `r`. -/
theorem RunsOK.merge {cap : Nat} {us vs ps qs : List Run} {l r : Run} {k : Nat}
    (h : RunsOK cap (us ++ l :: vs)) (hsplit : us ++ vs = ps ++ r :: qs)
    (hl : l.1 + l.2 = k) (hr : r.1 = k + 1) :
    RunsOK cap (ps ++ (l.1, l.2 + 1 + r.2) :: qs) := by
  have h2 : RunsOK cap (ps ++ r :: qs) := hsplit ▸ h.remove_mid
  have hlb := h.mid_bound
  have hrb := h2.mid_bound
  refine h2.replace_mid ⟨by simp only; omega, by simp only; omega⟩ ?_
  intro x hx
  have hx' : x ∈ us ++ vs := mem_of_split (l := l) hsplit hx
  have hxb := h2.bound x (mem_mid_of_mem hx)
  exact sep_merge hl hr hxb.1 (h.mid_sep x hx') (h2.mid_sep x hx) hrb.1 hlb.1

theorem Covered_merge {us vs ps qs : List Run} {l r : Run} {k k' : Nat}
    (hsplit : us ++ vs = ps ++ r :: qs) (hl : l.1 + l.2 = k) (hr : r.1 = k + 1) :
    Covered (ps ++ (l.1, l.2 + 1 + r.2) :: qs) k' ↔
      Covered (us ++ l :: vs) k' ∨ k' = k := by
  have e : Covered (us ++ vs) k' ↔ (r.1 ≤ k' ∧ k' < r.1 + r.2) ∨ Covered (ps ++ qs) k' := by
    rw [hsplit, Covered_mid]
  rw [Covered_mid, Covered_mid, e]
  simp only
  constructor
  · rintro (h | h)
    · by_cases e1 : k' = k
      · right; exact e1
      · by_cases e2 : k' < k
        · left; left; omega
        · left; right; left; omega
    · left; right; right; exact h
  · rintro ((h | h | h) | h)
    · left; omega
    · left; omega
    · right; exact h
    · left; omega

theorem runsLen_merge {us vs ps qs : List Run} {l r : Run}
    (hsplit : us ++ vs = ps ++ r :: qs) :
    runsLen (ps ++ (l.1, l.2 + 1 + r.2) :: qs) = runsLen (us ++ l :: vs) + 1 := by
  have e : runsLen (us ++ vs) = r.2 + runsLen (ps ++ qs) := by
    rw [hsplit, runsLen_mid]
  rw [runsLen_mid, runsLen_mid, e]
  simp only
  omega

/-- The run that starts after slot `k` is a member of the list without `l`. -/
theorem split_of_mem {us vs : List Run} {l r : Run} (hr : r ∈ us ++ l :: vs) (hne : r ≠ l) :
    ∃ ps qs, us ++ vs = ps ++ r :: qs := by
  have : r ∈ us ++ vs := by
    rcases List.mem_append.1 hr with h | h
    · exact List.mem_append_left _ h
    · rcases List.mem_cons.1 h with h | h
      · exact (hne h).elim
      · exact List.mem_append_right _ h
  exact List.append_of_mem this

/-- A slot of a run separated from every run of `ps` is the tail slot of none of them. -/
theorem tail_ne_of_sep {ps : List Run} {l : Run} (hs : ∀ x ∈ ps, RunSep l x)
    (hb : ∀ x ∈ ps, 1 ≤ x.2) {q : Nat} (h1 : l.1 ≤ q) (h2 : q < l.1 + l.2) :
    ∀ x ∈ ps, q ≠ x.1 + x.2 - 1 :=
  fun x hx => ((hs x hx).slot_ne (hb x hx) h1 h2).2

theorem RunsOK.front_tail_ne {cap : Nat} {xs ys : List Run} (h : RunsOK cap (xs ++ ys))
    {y : Run} (hy : y ∈ ys) {q : Nat} (h1 : y.1 ≤ q) (h2 : q < y.1 + y.2) :
    ∀ x ∈ xs, q ≠ x.1 + x.2 - 1 :=
  fun x hx => ((h.sep_append x hx y hy).symm.slot_ne
    (h.bound x (List.mem_append_left _ hx)).1 h1 h2).2

/-- A head slot of a run of length at least two is the tail slot of no run. -/
theorem RunsOK.head_not_tail {cap : Nat} {rs : List Run} (h : RunsOK cap rs) {r : Run}
    (hr : r ∈ rs) (h2 : 2 ≤ r.2) : ∀ x ∈ rs, r.1 ≠ x.1 + x.2 - 1 := by
  intro x hx
  have hxb := h.bound x hx
  rcases h.eq_or_sep x hx r hr with e | e
  · subst e; omega
  · exact (e.symm.slot_ne hxb.1 (le_refl _) (by omega)).2

end KoPool

set_option autoImplicit false
namespace KoPool

open Classical in
/-- The slots below `cap` covered by a valid list of runs are as many as the runs are long. -/
theorem RunsOK.card_covered {cap : Nat} : ∀ {rs : List Run}, RunsOK cap rs →
    ((Finset.range cap).filter (fun k => Covered rs k)).card = runsLen rs
  | [], _ => by
    simp [runsLen, Covered_nil]
  | r :: rs, h => by
    have ih := RunsOK.card_covered h.of_cons
    have hb := h.head
    have hset : (Finset.range cap).filter (fun k => Covered (r :: rs) k) =
        Finset.Ico r.1 (r.1 + r.2) ∪ (Finset.range cap).filter (fun k => Covered rs k) := by
      ext k
      simp only [Finset.mem_filter, Finset.mem_range, Finset.mem_union, Finset.mem_Ico,
        Covered_cons]
      constructor
      · rintro ⟨_, h1 | h1⟩
        · exact Or.inl h1
        · exact Or.inr ⟨by assumption, h1⟩
      · rintro (h1 | ⟨h1, h2⟩)
        · exact ⟨by omega, Or.inl h1⟩
        · exact ⟨h1, Or.inr h2⟩
    have hdisj : Disjoint (Finset.Ico r.1 (r.1 + r.2))
        ((Finset.range cap).filter (fun k => Covered rs k)) := by
      rw [Finset.disjoint_left]
      intro k hk hk'
      simp only [Finset.mem_Ico] at hk
      simp only [Finset.mem_filter] at hk'
      obtain ⟨x, hx, h1, h2⟩ := hk'.2
      have := h.head_sep x hx
      unfold RunSep at this
      omega
    rw [hset, Finset.card_union_of_disjoint hdisj, ih, Nat.card_Ico]
    simp only [runsLen]
    omega

theorem RunsOK.runsLen_le {cap : Nat} {rs : List Run} (h : RunsOK cap rs) :
    runsLen rs ≤ cap := by
  classical
  rw [← h.card_covered]
  calc _ ≤ (Finset.range cap).card := Finset.card_filter_le _ _
    _ = cap := Finset.card_range cap

/-- A valid list of runs leaves a slot uncovered exactly when the runs are shorter than the
buffer. -/
theorem RunsOK.exists_uncovered_iff {cap : Nat} {rs : List Run} (h : RunsOK cap rs) :
    (∃ k, k < cap ∧ ¬ Covered rs k) ↔ runsLen rs < cap := by
  classical
  have hc := h.card_covered
  constructor
  · rintro ⟨k, hk, hn⟩
    by_contra hge
    have hle := h.runsLen_le
    have heq : ((Finset.range cap).filter (fun k => Covered rs k)).card =
        (Finset.range cap).card := by
      rw [hc, Finset.card_range]; omega
    have := (Finset.card_filter_eq_iff.1 heq) k (Finset.mem_range.2 hk)
    exact hn this
  · intro hlt
    by_contra hall
    have hall' : ∀ k ∈ Finset.range cap, Covered rs k := by
      intro k hk
      by_contra hn
      exact hall ⟨k, Finset.mem_range.1 hk, hn⟩
    have := Finset.card_filter_eq_iff.2 hall'
    rw [hc, Finset.card_range] at this
    omega

/-- A valid list of runs whose lengths add up to the size of the buffer is the single run
that covers the buffer. -/
theorem RunsOK.full {cap : Nat} {rs : List Run} (h : RunsOK cap rs) (hcap : 1 ≤ cap)
    (hlen : runsLen rs = cap) : rs = [(0, cap)] := by
  have hall : ∀ k, k < cap → Covered rs k := by
    intro k hk
    by_contra hn
    have := h.exists_uncovered_iff.1 ⟨k, hk, hn⟩
    omega
  obtain ⟨r0, hr0, h1, h2⟩ := hall 0 hcap
  have hb0 := h.bound r0 hr0
  have hend : r0.1 + r0.2 = cap := by
    by_contra hne
    exact h.after_not_covered hr0 (hall _ (by omega))
  have hmem : ∀ x ∈ rs, x = r0 := by
    intro x hx
    rcases h.eq_or_sep x hx r0 hr0 with e | e
    · exact e
    · have hbx := h.bound x hx
      unfold RunSep at e
      omega
  have hr0eq : r0 = (0, cap) := by
    apply Prod.ext <;> simp only <;> omega
  cases rs with
  | nil => simp at hr0
  | cons x xs =>
    have hx := hmem x (by simp)
    cases xs with
    | nil => rw [hx, hr0eq]
    | cons y ys =>
      exfalso
      have hy := hmem y (by simp)
      have := h.head_sep y (by simp)
      rw [hx, hy] at this
      unfold RunSep at this
      omega

end KoPool

set_option autoImplicit false
namespace KoPool

/-- The list of runs after the first slot of its first run has been taken. -/
theorem RunsOK.take_first {cap : Nat} {r : Run} {rest : List Run}
    (h : RunsOK cap (r :: rest)) :
    RunsOK cap (if r.2 = 1 then rest else (r.1 + 1, r.2 - 1) :: rest) := by
  have hb := h.head
  split_ifs with h1
  · exact h.of_cons
  · have := @RunsOK.replace_mid _ [] rest r (r.1 + 1, r.2 - 1)
      (by simpa using h) ⟨by simp only; omega, by simp only; omega⟩ (by
        intro x hx
        have hx' : x ∈ rest := by simpa using hx
        have hs := h.head_sep x hx'
        unfold RunSep at hs ⊢
        simp only
        omega)
    simpa using this

theorem Covered_take_first {r : Run} {rest : List Run} {cap : Nat}
    (h : RunsOK cap (r :: rest)) (k : Nat) :
    Covered (if r.2 = 1 then rest else (r.1 + 1, r.2 - 1) :: rest) k ↔
      (Covered (r :: rest) k ∧ k ≠ r.1) := by
  have hb := h.head
  have hrest : Covered rest k → k ≠ r.1 := by
    rintro ⟨x, hx, h1, h2⟩ e
    have hs := h.head_sep x hx
    unfold RunSep at hs
    omega
  split_ifs with h1
  · rw [Covered_cons]
    constructor
    · intro hc; exact ⟨Or.inr hc, hrest hc⟩
    · rintro ⟨hc | hc, hne⟩
      · omega
      · exact hc
  · rw [Covered_cons, Covered_cons]
    simp only
    constructor
    · rintro (hc | hc)
      · exact ⟨Or.inl (by omega), by omega⟩
      · exact ⟨Or.inr hc, hrest hc⟩
    · rintro ⟨hc | hc, hne⟩
      · left; omega
      · right; exact hc

theorem runsLen_take_first {r : Run} {rest : List Run} (h1 : 1 ≤ r.2) :
    runsLen (if r.2 = 1 then rest else (r.1 + 1, r.2 - 1) :: rest) + 1 =
      runsLen (r :: rest) := by
  split_ifs with h
  · simp only [runsLen]; omega
  · simp only [runsLen]; omega

theorem take_first_eq_nil {r : Run} {rest : List Run} :
    (if r.2 = 1 then rest else (r.1 + 1, r.2 - 1) :: rest) = [] ↔ (r.2 = 1 ∧ rest = []) := by
  split_ifs with h
  · simp [h]
  · simp [h]

end KoPool

set_option autoImplicit false
namespace KoPool
open Pool

/-- `allocTakeFirst` on a sub-pool whose free list is `r :: rest`: it returns the first slot
of `r`; afterwards the list is `rest` when `r` was a single slot and otherwise `r` without
its first slot. -/
theorem allocTakeFirst_mem {s : Pool} {i : Nat} {r : Run} {rest : List Run}
    (c : SubCtx s i) (hok : RunsOK (GetSubPoolSize i) (r :: rest))
    (hch : Chain s.mem (s.pointers i) s._opt.elementSizeInBytes (s.poolAddr i) (r :: rest))
    (hbits : ∀ k, k < GetSubPoolSize i →
      (s.IsSkipListNodeByIDInSubPool k i = true ↔ Covered (r :: rest) k))
    (hused : s.numUsed i + runsLen (r :: rest) = GetSubPoolSize i + 1) :
    ∃ m' v', s.allocTakeFirst i =
        some (Pool.SetIsSkipListNode { s with mem := m', _vacantSubPools := v' }
          (slotAddr (s.pointers i) s._opt.elementSizeInBytes r.1) i false,
          AllocBytesResult.mk i (slotAddr (s.pointers i) s._opt.elementSizeInBytes r.1)) ∧
      v' = (if r.2 = 1 ∧ rest = [] then s._vacantSubPools &&& bnot (shl1 i)
            else s._vacantSubPools) ∧
      Chain m' (s.pointers i) s._opt.elementSizeInBytes (s.poolAddr i)
        (if r.2 = 1 then rest else (r.1 + 1, r.2 - 1) :: rest) ∧
      (∀ a, a ≠ s.poolAddr i + 8 →
        (∀ q, q < GetSubPoolSize i →
          a ≠ slotAddr (s.pointers i) s._opt.elementSizeInBytes q ∧
          a ≠ slotAddr (s.pointers i) s._opt.elementSizeInBytes q + 8) →
        m' a = s.mem a) := by
  have hsz := c.hsz
  have hS := c.hS
  have hch' := hch
  simp only [Chain] at hch'
  obtain ⟨h1, h2, h3, h4, h5⟩ := hch'
  have hR := isRight_of_run c hok hbits (List.mem_cons_self r rest)
  have hrb := hok.head
  have hr1lt : r.1 < GetSubPoolSize i := by omega
  have hne := sent_ne hS hsz hr1lt
  unfold Pool.allocTakeFirst
  simp only [h1, hR]
  by_cases hlen : r.2 = 1
  · -- the first run is a single slot: unlink it
    have hnot : ¬ (2 ≤ r.2) := by omega
    have hrt : r.1 + r.2 - 1 = r.1 := by omega
    rw [hrt] at h5
    simp only [hnot, decide_False, Bool.false_eq_true, not_false_eq_true, if_true, hlen]
    have hm4 : upd s.mem (s.poolAddr i + 8)
        (s.mem (slotAddr (s.pointers i) s._opt.elementSizeInBytes r.1 + 8))
        (slotAddr (s.pointers i) s._opt.elementSizeInBytes r.1 + 8) =
        s.mem (slotAddr (s.pointers i) s._opt.elementSizeInBytes r.1 + 8) :=
      upd_other _ _ (fun e => hne.2.2.2 e.symm)
    rw [hm4]
    cases rest with
    | nil =>
      simp only [Chain] at h5
      rw [h5, HNSP_null]
      have : upd s.mem (s.poolAddr i + 8) 0
          (slotAddr (s.pointers i) s._opt.elementSizeInBytes r.1 + 8) = 0 := by
        rw [upd_other _ _ (fun e => hne.2.2.2 e.symm)]; exact h5
      have hnu : s.numUsed i = GetSubPoolSize i := by
        simp only [runsLen] at hused; omega
      simp only [this, if_true, hnu, ne_eq, not_true_eq_false, if_false]
      refine ⟨_, _, rfl, by simp, ?_, ?_⟩
      · simp [Chain]
      · intro a ha _
        exact upd_other _ _ ha
    | cons y ys =>
      have h5' := h5
      simp only [Chain] at h5'
      obtain ⟨g1, g2, g3, g4, g5⟩ := h5'
      have hyb := hok.of_cons.head
      have hy1lt : y.1 < GetSubPoolSize i := by omega
      have hytlt : y.1 + y.2 - 1 < GetSubPoolSize i := by omega
      have hney := sent_ne hS hsz hy1lt
      have hneyt := sent_ne hS hsz hytlt
      have hRy := isRight_of_run c hok hbits (List.mem_cons_of_mem r (List.mem_cons_self y ys))
      rw [g1]
      rw [HNSP_run c hyb.1 hRy (by
        intro h2y
        rw [upd_other _ _ (fun e => hney.2.2.2 e.symm)]
        exact g3 h2y)]
      have hN : upd (upd (upd s.mem (s.poolAddr i + 8)
            (slotAddr (s.pointers i) s._opt.elementSizeInBytes y.1))
            (slotAddr (s.pointers i) s._opt.elementSizeInBytes y.1) (s.poolAddr i))
            (slotAddr (s.pointers i) s._opt.elementSizeInBytes (y.1 + y.2 - 1)) (s.poolAddr i)
          (slotAddr (s.pointers i) s._opt.elementSizeInBytes r.1 + 8) =
          slotAddr (s.pointers i) s._opt.elementSizeInBytes y.1 := by
        rw [upd_other _ _ (fun e => (slotAddr8_ne hsz).1 e),
          upd_other _ _ (fun e => (slotAddr8_ne hsz).1 e),
          upd_other _ _ (fun e => hne.2.2.2 e.symm)]
        exact g1
      have hy0 : slotAddr (s.pointers i) s._opt.elementSizeInBytes y.1 ≠ 0 := by
        have := slotAddr_ge (s.pointers i) s._opt.elementSizeInBytes y.1
        have := c.hb
        omega
      simp only [hN, hy0, if_false]
      refine ⟨_, _, rfl, by simp, ?_, ?_⟩
      · have := @Chain_unlink s.mem
          (upd (upd (upd s.mem (s.poolAddr i + 8)
            (slotAddr (s.pointers i) s._opt.elementSizeInBytes y.1))
            (slotAddr (s.pointers i) s._opt.elementSizeInBytes y.1) (s.poolAddr i))
            (slotAddr (s.pointers i) s._opt.elementSizeInBytes (y.1 + y.2 - 1)) (s.poolAddr i))
          _ _ _ _ hsz hS [] r (y :: ys)
          (by simpa using hok) (by simpa using hch)
        simp only [List.nil_append, lastTail] at this
        apply this
        · rw [hrt, g1, upd_other _ _ (fun e => hneyt.2.1 e), upd_other _ _ (fun e => hney.2.1 e),
            upd_same]
        · intro y' ys' h
          cases h
          constructor
          · simp only [upd]
            split
            · rfl
            · simp
          · simp [upd]
        · intro a ha hb
          obtain ⟨hb1, hb2⟩ := hb y ys rfl
          rw [upd_other _ _ hb2, upd_other _ _ hb1, upd_other _ _ ha]
      · intro a ha hq
        rw [upd_other _ _ (hq _ hytlt).1, upd_other _ _ (hq _ hy1lt).1, upd_other _ _ ha]
  · -- the first run has two or more slots: its second slot becomes the head
    have h2r : 2 ≤ r.2 := by omega
    have hnbt := h3 h2r
    have hr1' : r.1 + 1 < GetSubPoolSize i := by omega
    have hne' := sent_ne hS hsz hr1'
    have hcond : r.2 = 1 ∧ rest = [] ↔ False := by constructor <;> simp [hlen]
    simp only [h2r, decide_True, not_true_eq_false, if_false, hlen, hcond, h2, hnbt,
      ← slotAddr_succ]
    have hwsub : wsub (upd s.mem (slotAddr (s.pointers i) s._opt.elementSizeInBytes (r.1 + 1))
          (s.poolAddr i) (slotAddr (s.pointers i) s._opt.elementSizeInBytes r.1 + 8))
        s._opt.elementSizeInBytes = (r.2 - 2) * s._opt.elementSizeInBytes := by
      rw [upd_other _ _ (fun e => (slotAddr8_ne hsz).1 e), hnbt]
      have hle : (r.2 - 1) * s._opt.elementSizeInBytes < 2 ^ 64 := by
        have := c.hlt
        have : (r.2 - 1) * s._opt.elementSizeInBytes ≤
            GetSubPoolSize i * s._opt.elementSizeInBytes :=
          Nat.mul_le_mul_right _ (by omega)
        omega
      have h1le : s._opt.elementSizeInBytes ≤ (r.2 - 1) * s._opt.elementSizeInBytes :=
        Nat.le_mul_of_pos_left _ (by omega)
      rw [wsub_eq h1le hle]
      have : r.2 - 1 = (r.2 - 2) + 1 := by omega
      rw [this, Nat.add_mul, Nat.one_mul, Nat.add_sub_cancel]
    rw [hwsub]
    refine ⟨_, _, rfl, rfl, ?_, ?_⟩
    · have hok' : RunsOK (GetSubPoolSize i) ([] ++ (r.1 + 1, r.2 - 1) :: rest) := by
        refine ⟨?_, ?_⟩
        · intro x hx
          rcases List.mem_cons.1 hx with rfl | hx
          · simp only; omega
          · exact hok.of_cons.bound x hx
        · simp only [List.nil_append]
          refine List.pairwise_cons.2 ⟨?_, hok.of_cons.sep⟩
          intro x hx
          have := hok.head_sep x hx
          rcases this with h | h
          · left; simp only; omega
          · right; simp only; omega
      have ht' : r.1 + 1 + (r.2 - 1) - 1 = r.1 + r.2 - 1 := by omega
      by_cases h22 : r.2 = 2
      · -- the run shrinks to a single slot: no node is written
        have hcond2 : ¬ ((r.2 - 1) * s._opt.elementSizeInBytes ≠ s._opt.elementSizeInBytes) := by
          simp [h22]
        simp only [hcond2, if_false]
        have hte : r.1 + r.2 - 1 = r.1 + 1 := by omega
        rw [hte] at h4 h5
        apply @Chain_put s.mem _ _ _ _ _ hsz hS ([]) ([r]) (rest) _ hok'
          (by simpa using hch)
        · simp [lastTail]
        · simp only [lastTail]
          rw [upd_other _ _ (fun e => hne'.2.1 e.symm)]; exact h4
        · intro h; simp only at h; omega
        · simp only [lastTail, ht', hte]
          rw [upd_other _ _ (fun e => hne'.2.1 e.symm)]; exact h4
        · simp only [lastTail, ht', hte]
          rw [upd_other _ _ (fun e => hne'.2.2.2 e.symm)]
        · intro y ys hys
          subst hys
          simp only [Chain] at h5
          have hyb := hok.of_cons.head
          have hy1lt : y.1 < GetSubPoolSize i := by omega
          have hytlt : y.1 + y.2 - 1 < GetSubPoolSize i := by omega
          simp only [ht', hte]
          rw [upd_other _ _ (fun e => (sent_ne hS hsz hy1lt).2.1 e.symm),
            upd_other _ _ (fun e => (sent_ne hS hsz hytlt).2.1 e.symm)]
          exact ⟨h5.2.1, h5.2.2.2.1⟩
        · intro a ha _ _
          simp only [lastTail] at ha
          exact upd_other _ _ ha
      · have hcond2 : (r.2 - 1) * s._opt.elementSizeInBytes ≠ s._opt.elementSizeInBytes := by
          intro e
          have : (r.2 - 1) * s._opt.elementSizeInBytes = 1 * s._opt.elementSizeInBytes := by
            rw [Nat.one_mul]; exact e
          have := Nat.eq_of_mul_eq_mul_right (by omega : 0 < s._opt.elementSizeInBytes) this
          omega
        simp only [hcond2, ne_eq, not_false_eq_true, if_true]
        have hneq : r.1 + r.2 - 1 ≠ r.1 + 1 := by omega
        apply @Chain_put s.mem _ _ _ _ _ hsz hS ([]) ([r]) (rest) _ hok'
          (by simpa using hch)
        · simp [lastTail]
        · simp only [lastTail]
          rw [upd_other _ _ (fun e => hne'.2.1 e.symm),
            upd_other _ _ (fun e => (slotAddr_ne8 hsz).1 e), upd_same]
        · intro _
          simp only
          rw [upd_other _ _ (fun e => hne'.2.2.2 e.symm), upd_same]
          rfl
        · simp only [lastTail, ht']
          rw [upd_other _ _ (fun e => (sent_ne hS hsz (by omega : r.1 + r.2 - 1 <
              GetSubPoolSize i)).2.1 e.symm),
            upd_other _ _ (fun e => (slotAddr_ne8 hsz).1 e),
            upd_other _ _ (fun e => hneq ((slotAddr_inj hsz).1 e))]
          exact h4
        · simp only [lastTail, ht']
          rw [upd_other _ _ (fun e => (sent_ne hS hsz (by omega : r.1 + r.2 - 1 <
              GetSubPoolSize i)).2.2.2 e.symm),
            upd_other _ _ (fun e => hneq ((slotAddr8_inj hsz).1 e)),
            upd_other _ _ (fun e => (slotAddr8_ne hsz).1 e)]
        · intro y ys hys
          subst hys
          simp only [Chain] at h5
          have hyb := hok.of_cons.head
          have hy1lt : y.1 < GetSubPoolSize i := by omega
          have hytlt : y.1 + y.2 - 1 < GetSubPoolSize i := by omega
          have hsep := hok.head_sep y (List.mem_cons_self _ _)
          have hs1 := hsep.slot_ne hyb.1 (q := r.1 + 1) (by omega) (by omega)
          simp only [ht']
          rw [upd_other _ _ (fun e => (sent_ne hS hsz hy1lt).2.1 e.symm),
            upd_other _ _ (fun e => (slotAddr_ne8 hsz).1 e),
            upd_other _ _ (fun e => hs1.1 ((slotAddr_inj hsz).1 e).symm),
            upd_other _ _ (fun e => (sent_ne hS hsz hytlt).2.1 e.symm),
            upd_other _ _ (fun e => (slotAddr_ne8 hsz).1 e),
            upd_other _ _ (fun e => hs1.2 ((slotAddr_inj hsz).1 e).symm)]
          exact ⟨h5.2.1, h5.2.2.2.1⟩
        · intro a ha hq _
          simp only [lastTail] at ha
          have := hq (r.1 + 1) (by simp) (by simp only; omega)
          rw [upd_other _ _ ha, upd_other _ _ this.2, upd_other _ _ this.1]
    · intro a ha hq
      have := hq (r.1 + 1) hr1'
      rw [upd_other _ _ ha]
      split
      · rw [upd_other _ _ this.2, upd_other _ _ this.1]
      · rfl

end KoPool

set_option autoImplicit false
namespace KoPool
open Pool

/-- The free-bit of a slot, read through the run list. -/
theorem free_of_covered {s : Pool} {i : Nat} {rs : List Run}
    (hbits : ∀ k, k < GetSubPoolSize i →
      (s.IsSkipListNodeByIDInSubPool k i = true ↔ Covered rs k))
    {k : Nat} (hk : k < GetSubPoolSize i) (h : Covered rs k) :
    s.IsSkipListNodeByIDInSubPool k i = true := (hbits k hk).2 h

theorem not_free_of_not_covered {s : Pool} {i : Nat} {rs : List Run}
    (hbits : ∀ k, k < GetSubPoolSize i →
      (s.IsSkipListNodeByIDInSubPool k i = true ↔ Covered rs k))
    {k : Nat} (hk : k < GetSubPoolSize i) (h : ¬ Covered rs k) :
    s.IsSkipListNodeByIDInSubPool k i = false := by
  cases hv : s.IsSkipListNodeByIDInSubPool k i
  · rfl
  · exact absurd ((hbits k hk).1 hv) h

theorem sent_simp {b sz cap S k : Nat} (hS : SentOut b sz cap S) (hsz : 16 ≤ sz)
    (hk : k < cap) :
    (S + 8 = slotAddr b sz k ↔ False) ∧ (slotAddr b sz k = S + 8 ↔ False) ∧
    (S + 8 = slotAddr b sz k + 8 ↔ False) ∧ (slotAddr b sz k + 8 = S + 8 ↔ False) ∧
    (S = slotAddr b sz k ↔ False) ∧ (slotAddr b sz k = S ↔ False) := by
  have := sent_ne hS hsz hk
  refine ⟨?_, ?_, ?_, ?_, ?_, ?_⟩ <;> constructor <;> intro h <;> first | omega | exact h.elim

section
variable {s : Pool} {i k : Nat} {rs : List Run}

/-- `deallocLink` when neither neighbour of the freed slot is free: the slot becomes a
single-slot run at the front of the list. -/
theorem deallocLink_none (c : SubCtx s i) (hok : RunsOK (GetSubPoolSize i) rs)
    (hch : Chain s.mem (s.pointers i) s._opt.elementSizeInBytes (s.poolAddr i) rs)
    (hbits : ∀ k, k < GetSubPoolSize i →
      (s.IsSkipListNodeByIDInSubPool k i = true ↔ Covered rs k))
    (hk : k < GetSubPoolSize i) (hlive : ¬ Covered rs k)
    (hl : k = 0 ∨ ¬ Covered rs (k - 1)) (hr : k + 1 = GetSubPoolSize i ∨ ¬ Covered rs (k + 1)) :
    Chain (s.deallocLink (slotAddr (s.pointers i) s._opt.elementSizeInBytes k) i)
      (s.pointers i) s._opt.elementSizeInBytes (s.poolAddr i) ((k, 1) :: rs) ∧
    (∀ a, a ≠ s.poolAddr i + 8 →
      (∀ q, q < GetSubPoolSize i →
        a ≠ slotAddr (s.pointers i) s._opt.elementSizeInBytes q ∧
        a ≠ slotAddr (s.pointers i) s._opt.elementSizeInBytes q + 8) →
      s.deallocLink (slotAddr (s.pointers i) s._opt.elementSizeInBytes k) i a = s.mem a) := by
  have hsz := c.hsz
  have hS := c.hS
  have hL : s.IsLeftSkipListNodeSafe (slotAddr (s.pointers i) s._opt.elementSizeInBytes k) i
      = false := by
    rw [IsLeft_slot c hk]
    rcases hl with rfl | hl
    · simp
    · rw [not_free_of_not_covered hbits (by omega) hl]; simp
  have hR : s.IsRightSkipListNodeSafe (slotAddr (s.pointers i) s._opt.elementSizeInBytes k) i
      = false := by
    rw [IsRight_slot c hk]
    rcases hr with hr | hr
    · simp; omega
    · by_cases hlt : k + 1 < GetSubPoolSize i
      · rw [not_free_of_not_covered hbits hlt hr]; simp
      · simp [hlt]
  have hsk := sent_simp hS hsz hk
  unfold Pool.deallocLink
  simp only [hL, hR, Bool.and_self, Bool.false_eq_true, if_false]
  unfold Pool.linkNone
  simp only
  have hm3 : s.linkNoneFront (slotAddr (s.pointers i) s._opt.elementSizeInBytes k) i
        (slotAddr (s.pointers i) s._opt.elementSizeInBytes k + 8) = s.mem (s.poolAddr i + 8) := by
    simp [Pool.linkNoneFront, upd, hsk]
  rw [hm3]
  have hok' : RunsOK (GetSubPoolSize i) ([] ++ (k, 1) :: rs) := by
    refine ⟨?_, ?_⟩
    · intro x hx
      rcases List.mem_cons.1 hx with rfl | hx
      · simp only; omega
      · exact hok.bound x hx
    · simp only [List.nil_append]
      refine List.pairwise_cons.2 ⟨?_, hok.sep⟩
      intro x hx
      have hxb := hok.bound x hx
      unfold RunSep
      simp only
      by_contra hcon
      have hcon' : ¬ (k + 1 < x.1) ∧ ¬ (x.1 + x.2 < k) := by
        constructor <;> intro h <;> apply hcon <;> omega
      by_cases h1 : x.1 + x.2 = k
      · rcases hl with rfl | hl
        · omega
        · exact hl ⟨x, hx, by omega, by omega⟩
      · by_cases h2 : x.1 = k + 1
        · rcases hr with hr | hr
          · omega
          · exact hr ⟨x, hx, by omega, by omega⟩
        · exact hlive ⟨x, hx, by omega, by omega⟩
  cases rs with
  | nil =>
    simp only [Chain] at hch
    rw [hch, HNSP_null]
    constructor
    · simp only [Chain]
      simp [Pool.linkNoneFront, upd, hsk, slotAddr_ne8 hsz, slotAddr8_ne hsz, hch]
    · intro a ha hq
      have := hq k hk
      simp [Pool.linkNoneFront, upd, ha, this]
  | cons y ys =>
    have hch' := hch
    simp only [Chain] at hch'
    obtain ⟨g1, g2, g3, g4, g5⟩ := hch'
    have hyb := hok.head
    have hy1 : y.1 < GetSubPoolSize i := by omega
    have hyt : y.1 + y.2 - 1 < GetSubPoolSize i := by omega
    have hsy := sent_simp hS hsz hy1
    have hst := sent_simp hS hsz hyt
    have hRy := isRight_of_run c hok hbits (List.mem_cons_self y ys)
    have hky : RunSep (k, 1) y := hok'.head_sep y (List.mem_cons_self _ _)
    have hk1 : ¬ k = y.1 := by rcases hky with h | h <;> simp only at h <;> omega
    have hk2 : ¬ k = y.1 + y.2 - 1 := by rcases hky with h | h <;> simp only at h <;> omega
    have hk1' : ¬ y.1 = k := fun e => hk1 e.symm
    have hk2' : ¬ y.1 + y.2 - 1 = k := fun e => hk2 e.symm
    rw [g1]
    rw [HNSP_run c hyb.1 hRy (by
      intro h2y
      rw [← g3 h2y]
      simp [Pool.linkNoneFront, upd, hsy, hsk, slotAddr_ne8 hsz, slotAddr8_ne hsz,
        slotAddr8_inj hsz, hk1, hk1'])]
    constructor
    · apply @Chain_put s.mem _ _ _ _ _ hsz hS ([]) ([]) (y :: ys) _ hok'
        (by simpa using hch)
      · simp [Pool.linkNoneFront, lastTail, upd, hsy, hst, hsk, slotAddr_ne8 hsz, slotAddr8_ne hsz]
      · simp [Pool.linkNoneFront, lastTail, upd, hsy, hst, hsk, slotAddr_ne8 hsz, slotAddr8_ne hsz,
          slotAddr_inj hsz, hk1, hk2]
      · intro h; simp only at h; omega
      · simp [Pool.linkNoneFront, lastTail, upd, hsy, hst, hsk, slotAddr_ne8 hsz, slotAddr8_ne hsz,
          slotAddr_inj hsz, hk1, hk2]
      · simp [Pool.linkNoneFront, lastTail, upd, hsy, hst, hsk, slotAddr_ne8 hsz, slotAddr8_ne hsz,
          slotAddr_inj hsz, hk1, hk2]
      · intro y' ys' h
        cases h
        constructor
        · simp only [upd]
          split
          · simp
          · simp
        · simp [upd]
      · intro a ha hq hyy
        simp only [lastTail] at ha
        have hq' := hq k (le_refl _) (by simp)
        obtain ⟨e1, e2⟩ := hyy y ys rfl
        simp [Pool.linkNoneFront, upd, ha, hq', e1, e2]
    · intro a ha hq
      have h1 := hq k hk
      have h2 := hq y.1 hy1
      have h3 := hq _ hyt
      simp [Pool.linkNoneFront, upd, ha, h1, h2, h3]

end
end KoPool

set_option autoImplicit false
namespace KoPool
open Pool

theorem Chain_mid {m : Nat → Nat} {b sz S : Nat} {xs : List Run} {r : Run} {ys : List Run}
    (h : Chain m b sz S (xs ++ r :: ys)) :
    m (lastTail b sz S xs + 8) = slotAddr b sz r.1 ∧
    m (slotAddr b sz r.1) = lastTail b sz S xs ∧
    (2 ≤ r.2 → m (slotAddr b sz r.1 + 8) = (r.2 - 1) * sz) ∧
    m (slotAddr b sz (r.1 + r.2 - 1)) = lastTail b sz S xs ∧
    Chain m b sz (slotAddr b sz (r.1 + r.2 - 1)) ys := by
  rw [Chain_append] at h
  exact h.2

theorem P_simp {b sz cap S : Nat} (hsz : 16 ≤ sz) (hS : SentOut b sz cap S) (xs : List Run)
    {q : Nat} (hq : q < cap) (hne : ∀ x ∈ xs, q ≠ x.1 + x.2 - 1) :
    (lastTail b sz S xs + 8 = slotAddr b sz q ↔ False) ∧
    (slotAddr b sz q = lastTail b sz S xs + 8 ↔ False) ∧
    (lastTail b sz S xs + 8 = slotAddr b sz q + 8 ↔ False) ∧
    (slotAddr b sz q + 8 = lastTail b sz S xs + 8 ↔ False) ∧
    (lastTail b sz S xs = slotAddr b sz q ↔ False) ∧
    (slotAddr b sz q = lastTail b sz S xs ↔ False) := by
  have := lastTail_next_ne_slot (S := S) hsz hS xs hq hne
  refine ⟨?_, ?_, ?_, ?_, ?_, ?_⟩ <;> constructor <;> intro h <;>
    first | omega | exact h.elim

/-- A slot that is not the tail slot of any run in `xs`, given separation from a run or
non-coverage. -/
theorem not_tail_of_not_covered {cap : Nat} {rs : List Run} (hok : RunsOK cap rs) {q : Nat}
    (h : ¬ Covered rs q) : ∀ x ∈ rs, q ≠ x.1 + x.2 - 1 := by
  intro x hx e
  have := hok.bound x hx
  exact h ⟨x, hx, by omega, by omega⟩

theorem mul_sz_lt {s : Pool} {i n : Nat} (c : SubCtx s i) (hn : n ≤ GetSubPoolSize i) :
    n * s._opt.elementSizeInBytes < 2 ^ 64 := by
  have := c.hlt
  have : n * s._opt.elementSizeInBytes ≤ GetSubPoolSize i * s._opt.elementSizeInBytes :=
    Nat.mul_le_mul_right _ hn
  omega

section
variable {s : Pool} {i k : Nat} {xs ys : List Run}

set_option maxHeartbeats 1000000 in
/-- `deallocLink` when only the left neighbour of the freed slot is free: the run `l` that
ends before the slot grows by one slot, in its place in the list. -/
theorem deallocLink_left {l : Run} (c : SubCtx s i)
    (hok : RunsOK (GetSubPoolSize i) (xs ++ l :: ys))
    (hch : Chain s.mem (s.pointers i) s._opt.elementSizeInBytes (s.poolAddr i)
      (xs ++ l :: ys))
    (hbits : ∀ k, k < GetSubPoolSize i →
      (s.IsSkipListNodeByIDInSubPool k i = true ↔ Covered (xs ++ l :: ys) k))
    (hk : k < GetSubPoolSize i) (hlive : ¬ Covered (xs ++ l :: ys) k)
    (hl : l.1 + l.2 = k)
    (hr : k + 1 = GetSubPoolSize i ∨ ¬ Covered (xs ++ l :: ys) (k + 1)) :
    Chain (s.deallocLink (slotAddr (s.pointers i) s._opt.elementSizeInBytes k) i)
      (s.pointers i) s._opt.elementSizeInBytes (s.poolAddr i)
      (xs ++ (l.1, l.2 + 1) :: ys) ∧
    (∀ a, a ≠ s.poolAddr i + 8 →
      (∀ q, q < GetSubPoolSize i →
        a ≠ slotAddr (s.pointers i) s._opt.elementSizeInBytes q ∧
        a ≠ slotAddr (s.pointers i) s._opt.elementSizeInBytes q + 8) →
      s.deallocLink (slotAddr (s.pointers i) s._opt.elementSizeInBytes k) i a = s.mem a) := by
  have hsz := c.hsz
  have hS := c.hS
  have hlmem : l ∈ xs ++ l :: ys := by simp
  have hlb := hok.mid_bound
  have hok' := hok.grow_right hk hl hlive hr
  -- index arithmetic
  have hk0 : 0 < k := by omega
  have htl : l.1 + l.2 - 1 = k - 1 := by omega
  have hk1 : k - 1 < GetSubPoolSize i := by omega
  have hl1 : l.1 < GetSubPoolSize i := by omega
  have hkl : ¬ k = l.1 := by omega
  have hkl' : ¬ l.1 = k := by omega
  have hkk : ¬ k - 1 = k := by omega
  have hkk' : ¬ k = k - 1 := by omega
  have hl21 : ¬ 2 ≤ l.2 → l.2 = 1 ∧ k - 1 = l.1 := by intro h; omega
  have hkm : k - 1 < l.1 + l.2 ∧ l.1 ≤ k - 1 := by omega
  have hwadd : wadd ((l.2 - 1) * s._opt.elementSizeInBytes) s._opt.elementSizeInBytes =
      l.2 * s._opt.elementSizeInBytes := by
    have : (l.2 - 1) * s._opt.elementSizeInBytes + s._opt.elementSizeInBytes =
        l.2 * s._opt.elementSizeInBytes := by
      have : l.2 = (l.2 - 1) + 1 := by omega
      conv_rhs => rw [this, Nat.add_mul, Nat.one_mul]
    rw [wadd_eq (by rw [this]; exact mul_sz_lt c (by omega)), this]
  have hsucc : ∀ y ys', ys = y :: ys' →
      y.1 < GetSubPoolSize i ∧ y.1 + y.2 - 1 < GetSubPoolSize i ∧ 1 ≤ y.2 ∧
      ¬ k = y.1 ∧ ¬ k = y.1 + y.2 - 1 ∧ ¬ y.1 = k ∧ ¬ y.1 + y.2 - 1 = k ∧
      ¬ l.1 = y.1 ∧ ¬ l.1 = y.1 + y.2 - 1 ∧ ¬ y.1 = l.1 ∧ ¬ y.1 + y.2 - 1 = l.1 ∧
      (∀ x ∈ xs, y.1 ≠ x.1 + x.2 - 1) ∧ (∀ x ∈ xs, y.1 + y.2 - 1 ≠ x.1 + x.2 - 1) := by
    intro y ys' e
    subst e
    have hyb := hok.bound y (by simp)
    have hsy : RunSep (l.1, l.2 + 1) y := hok'.mid_sep y (by simp)
    have t1 := hok.front_tail_ne (y := y) (by simp) (le_refl _) (by omega)
    have t2 := hok.front_tail_ne (y := y) (by simp) (q := y.1 + y.2 - 1) (by omega)
      (by omega)
    unfold RunSep at hsy
    simp only at hsy
    refine ⟨?_, ?_, ?_, ?_, ?_, ?_, ?_, ?_, ?_, ?_, ?_, t1, t2⟩ <;> omega
  have hidx : l.1 + (l.2 + 1) - 1 = k := by omega
  have hrg : l.1 < l.1 + (l.2 + 1) ∧ l.1 ≤ k ∧ k < l.1 + (l.2 + 1) := by omega
  have tl := hok.front_tail_ne (y := l) (by simp) (q := l.1) (le_refl _) (by omega)
  -- the bits
  have hL : s.IsLeftSkipListNodeSafe (slotAddr (s.pointers i) s._opt.elementSizeInBytes k) i
      = true := by
    rw [IsLeft_slot c hk, free_of_covered hbits hk1 ⟨l, hlmem, hkm.2, hkm.1⟩]
    simp [hk0]
  have hR : s.IsRightSkipListNodeSafe (slotAddr (s.pointers i) s._opt.elementSizeInBytes k) i
      = false := by
    rw [IsRight_slot c hk]
    rcases hr with hr | hr
    · simp [hr]
    · by_cases hlt : k + 1 < GetSubPoolSize i
      · rw [not_free_of_not_covered hbits hlt hr]; simp
      · simp [hlt]
  have hLL := isLeft_of_run c hok hbits hlmem
  rw [htl] at hLL
  obtain ⟨e1, e2, e3, e4, e5⟩ := Chain_mid hch
  rw [htl] at e4 e5
  have hPk := P_simp hsz hS xs hk (fun x hx =>
    not_tail_of_not_covered hok hlive x (List.mem_append_left _ hx))
  have hPl := P_simp hsz hS xs hl1 tl
  have hgrow : ∀ a, s.linkLeftGrow (slotAddr (s.pointers i) s._opt.elementSizeInBytes k) i a =
      if a = slotAddr (s.pointers i) s._opt.elementSizeInBytes l.1 + 8 then
        l.2 * s._opt.elementSizeInBytes
      else if a = slotAddr (s.pointers i) s._opt.elementSizeInBytes k + 8 then
        s.mem (slotAddr (s.pointers i) s._opt.elementSizeInBytes (k - 1) + 8)
      else if a = slotAddr (s.pointers i) s._opt.elementSizeInBytes k then
        lastTail (s.pointers i) s._opt.elementSizeInBytes (s.poolAddr i) xs
      else s.mem a := by
    intro a
    unfold Pool.linkLeftGrow
    simp only [slotAddr_pred hk0, hLL, Pool.TailToHead]
    by_cases h2 : 2 ≤ l.2
    · have e3' := e3 h2
      simp only [h2, decide_True, if_true]
      simp only [upd, slotAddr_inj hsz, slotAddr8_inj hsz, slotAddr_ne8 hsz, slotAddr8_ne hsz,
        hkk, hkk', if_false, e4, hPk, e1, hkl, hkl', e3', hwadd]
    · obtain ⟨hl2, hl1'⟩ := hl21 h2
      simp only [h2, decide_False, Bool.false_eq_true, if_false]
      simp only [upd, slotAddr_inj hsz, slotAddr8_inj hsz, slotAddr_ne8 hsz, slotAddr8_ne hsz,
        hkk, hkk', if_false, e4, hl1', hl2, Nat.one_mul]
      split_ifs <;> first | rfl | exact e2 | (rw [← hl1']; exact e4)
  unfold Pool.deallocLink
  simp only [hL, hR, Bool.and_false, Bool.false_eq_true, if_false, if_true]
  unfold Pool.linkLeft
  simp only
  have hN : s.linkLeftGrow (slotAddr (s.pointers i) s._opt.elementSizeInBytes k) i
      (slotAddr (s.pointers i) s._opt.elementSizeInBytes k + 8) =
      s.mem (slotAddr (s.pointers i) s._opt.elementSizeInBytes (k - 1) + 8) := by
    rw [hgrow]
    simp only [slotAddr8_inj hsz, hkl, if_false, if_true]
  rw [hN]
  have hfr0 : ∀ a, a ≠ s.poolAddr i + 8 →
      (∀ q, q < GetSubPoolSize i →
        a ≠ slotAddr (s.pointers i) s._opt.elementSizeInBytes q ∧
        a ≠ slotAddr (s.pointers i) s._opt.elementSizeInBytes q + 8) →
      s.linkLeftGrow (slotAddr (s.pointers i) s._opt.elementSizeInBytes k) i a = s.mem a := by
    intro a _ hq
    rw [hgrow]
    simp [(hq l.1 hl1).2, (hq k hk).1, (hq k hk).2]
  cases ys with
  | nil =>
    simp only [Chain] at e5
    rw [e5, HNSP_null]
    refine ⟨?_, hfr0⟩
    apply @Chain_put s.mem _ _ _ _ _ hsz hS (xs) ([l]) ([]) _ hok'
      (by simpa using hch)
    · rw [hgrow]; simp only [hPl, hPk, if_false]; exact e1
    · rw [hgrow]; simp only [slotAddr_ne8 hsz, slotAddr_inj hsz, hkl', if_false]; exact e2
    · intro _
      rw [hgrow]; simp
    · simp only [hidx]
      rw [hgrow]; simp [slotAddr_ne8 hsz]
    · simp only [hidx, lastTail, htl]
      rw [hgrow]; simp only [slotAddr8_inj hsz, hkl, if_false, if_true]
    · intro y ys' h; cases h
    · intro a ha hq _
      rw [hgrow]
      have h1 := hq l.1 (le_refl _) hrg.1
      have h2 := hq k hrg.2.1 hrg.2.2
      simp [h1.2, h2.1, h2.2]
  | cons y ys' =>
    obtain ⟨hy1, hyt, hy2, f1, f2, f3, f4, f5, f6, f7, f8, u1, u2⟩ := hsucc y ys' rfl
    have e5' := e5
    simp only [Chain] at e5'
    obtain ⟨g1, g2, g3, g4, g5⟩ := e5'
    have hRy := isRight_of_run c hok hbits (r := y) (by simp)
    rw [g1]
    rw [HNSP_run c hy2 hRy (by
      intro h2y
      rw [hgrow, ← g3 h2y]
      simp only [slotAddr8_inj hsz, slotAddr8_ne hsz, f7, f3, if_false])]
    have hPy := P_simp hsz hS xs hy1 u1
    have hPt := P_simp hsz hS xs hyt u2
    constructor
    · apply @Chain_put s.mem _ _ _ _ _ hsz hS (xs) ([l]) (y :: ys') _ hok'
        (by simpa using hch)
      · simp only [upd, hPy, hPt, if_false]
        rw [hgrow]; simp only [hPl, hPk, if_false]; exact e1
      · simp only [upd, slotAddr_inj hsz, f5, f6, if_false]
        rw [hgrow]; simp only [slotAddr_ne8 hsz, slotAddr_inj hsz, hkl', if_false]; exact e2
      · intro _
        simp only [upd, slotAddr8_ne hsz, if_false]
        rw [hgrow]; simp
      · simp only [hidx, upd, slotAddr_inj hsz, f1, f2, if_false]
        rw [hgrow]; simp [slotAddr_ne8 hsz]
      · simp only [hidx, lastTail, htl, upd, slotAddr8_ne hsz, if_false]
        rw [hgrow]; simp only [slotAddr8_inj hsz, hkl, if_false, if_true]
      · intro y' ys'' h
        cases h
        simp only [hidx]
        constructor
        · simp only [upd]
          split
          · rfl
          · simp
        · simp [upd]
      · intro a ha hq hyy
        obtain ⟨n1, n2⟩ := hyy y ys' rfl
        have h1 := hq l.1 (le_refl _) hrg.1
        have h2 := hq k hrg.2.1 hrg.2.2
        simp only [upd, n1, n2, if_false]
        rw [hgrow]
        simp [h1.2, h2.1, h2.2]
    · intro a ha hq
      simp only [upd, (hq y.1 hy1).1, (hq _ hyt).1, if_false]
      exact hfr0 a ha hq

end
end KoPool

set_option autoImplicit false
namespace KoPool
open Pool

section
variable {s : Pool} {i k : Nat} {xs ys : List Run}

set_option maxHeartbeats 1000000 in
/-- `deallocLink` when only the right neighbour of the freed slot is free: the run `r` that
starts after the slot grows by one slot to the left, in its place in the list. -/
theorem deallocLink_right {r : Run} (c : SubCtx s i)
    (hok : RunsOK (GetSubPoolSize i) (xs ++ r :: ys))
    (hch : Chain s.mem (s.pointers i) s._opt.elementSizeInBytes (s.poolAddr i)
      (xs ++ r :: ys))
    (hbits : ∀ k, k < GetSubPoolSize i →
      (s.IsSkipListNodeByIDInSubPool k i = true ↔ Covered (xs ++ r :: ys) k))
    (hlive : ¬ Covered (xs ++ r :: ys) k)
    (hr : r.1 = k + 1)
    (hl : k = 0 ∨ ¬ Covered (xs ++ r :: ys) (k - 1)) :
    Chain (s.deallocLink (slotAddr (s.pointers i) s._opt.elementSizeInBytes k) i)
      (s.pointers i) s._opt.elementSizeInBytes (s.poolAddr i)
      (xs ++ (k, r.2 + 1) :: ys) ∧
    (∀ a, a ≠ s.poolAddr i + 8 →
      (∀ q, q < GetSubPoolSize i →
        a ≠ slotAddr (s.pointers i) s._opt.elementSizeInBytes q ∧
        a ≠ slotAddr (s.pointers i) s._opt.elementSizeInBytes q + 8) →
      s.deallocLink (slotAddr (s.pointers i) s._opt.elementSizeInBytes k) i a = s.mem a) ∧
    s.deallocLink (slotAddr (s.pointers i) s._opt.elementSizeInBytes k) i
        (slotAddr (s.pointers i) s._opt.elementSizeInBytes (k + 1) + 8) =
      s.mem (slotAddr (s.pointers i) s._opt.elementSizeInBytes (k + 1) + 8) := by
  have hsz := c.hsz
  have hS := c.hS
  have hrmem : r ∈ xs ++ r :: ys := by simp
  have hrb := hok.mid_bound
  have hok' := hok.grow_left hr hlive hl
  have hk : k < GetSubPoolSize i := by omega
  have hk1 : k + 1 < GetSubPoolSize i := by omega
  have hrc : r.1 ≤ k + 1 ∧ k + 1 < r.1 + r.2 := by omega
  have htr : k + (r.2 + 1) - 1 = r.1 + r.2 - 1 := by omega
  have ht : r.1 + r.2 - 1 < GetSubPoolSize i := by omega
  have hkt : ¬ k = r.1 + r.2 - 1 := by omega
  have hkt' : ¬ r.1 + r.2 - 1 = k := by omega
  have hkk : ¬ k + 1 = k := by omega
  have hkk' : ¬ k = k + 1 := by omega
  have hwadd : wadd s._opt.elementSizeInBytes ((r.2 - 1) * s._opt.elementSizeInBytes) =
      r.2 * s._opt.elementSizeInBytes := by
    have : s._opt.elementSizeInBytes + (r.2 - 1) * s._opt.elementSizeInBytes =
        r.2 * s._opt.elementSizeInBytes := by
      have : r.2 = (r.2 - 1) + 1 := by omega
      conv_rhs => rw [this, Nat.add_mul, Nat.one_mul]
      omega
    rw [wadd_eq (by rw [this]; exact mul_sz_lt c (by omega)), this]
  have hr21 : ¬ 2 ≤ r.2 → r.2 = 1 := by intro h; omega
  have hsucc : ∀ y ys', ys = y :: ys' →
      ¬ k = y.1 ∧ ¬ k = y.1 + y.2 - 1 ∧ ¬ y.1 = k ∧ ¬ y.1 + y.2 - 1 = k := by
    intro y ys' e
    subst e
    have hyb := hok.bound y (by simp)
    have hsy : RunSep (k, r.2 + 1) y := hok'.mid_sep y (by simp)
    unfold RunSep at hsy
    simp only at hsy
    omega
  have hL : s.IsLeftSkipListNodeSafe (slotAddr (s.pointers i) s._opt.elementSizeInBytes k) i
      = false := by
    rw [IsLeft_slot c hk]
    rcases hl with hl | hl
    · simp [hl]
    · by_cases h0 : 0 < k
      · rw [not_free_of_not_covered hbits (by omega) hl]; simp
      · simp [h0]
  have hR : s.IsRightSkipListNodeSafe (slotAddr (s.pointers i) s._opt.elementSizeInBytes k) i
      = true := by
    rw [IsRight_slot c hk, free_of_covered hbits hk1 ⟨r, hrmem, hrc⟩]
    simp [hk1]
  have hRR := isRight_of_run c hok hbits hrmem
  rw [hr] at hRR
  obtain ⟨e1, e2, e3, e4, e5⟩ := Chain_mid hch
  rw [hr] at e1 e2 e3
  have hPk := P_simp hsz hS xs hk (fun x hx =>
    not_tail_of_not_covered hok hlive x (List.mem_append_left _ hx))
  have hPt := P_simp hsz hS xs ht (fun x hx =>
    ((hok.mid_sep x (List.mem_append_left _ hx)).slot_ne
      (hok.bound x (List.mem_append_left _ hx)).1 (q := r.1 + r.2 - 1) (by omega)
        (by omega)).2)
  have hlink : ∀ a, s.linkRight (slotAddr (s.pointers i) s._opt.elementSizeInBytes k) i a =
      if a = lastTail (s.pointers i) s._opt.elementSizeInBytes (s.poolAddr i) xs + 8 then
        slotAddr (s.pointers i) s._opt.elementSizeInBytes k
      else if a = slotAddr (s.pointers i) s._opt.elementSizeInBytes k + 8 then
        r.2 * s._opt.elementSizeInBytes
      else if a = slotAddr (s.pointers i) s._opt.elementSizeInBytes k then
        lastTail (s.pointers i) s._opt.elementSizeInBytes (s.poolAddr i) xs
      else s.mem a := by
    intro a
    unfold Pool.linkRight Pool.linkRightHead
    simp only [← slotAddr_succ, hRR]
    by_cases h2 : 2 ≤ r.2
    · have e3' := e3 h2
      simp only [h2, decide_True, if_true]
      simp only [upd, slotAddr_inj hsz, slotAddr8_inj hsz, slotAddr_ne8 hsz, slotAddr8_ne hsz,
        hkk, hkk', if_false, if_true, e2, e3', hwadd]
      split_ifs <;> rfl
    · have h1 := hr21 h2
      simp only [h2, decide_False, Bool.false_eq_true, if_false]
      simp only [upd, slotAddr_inj hsz, slotAddr8_inj hsz, slotAddr_ne8 hsz, slotAddr8_ne hsz,
        hkk, hkk', if_false, if_true, e2, h1, Nat.one_mul]
  have hPk1 := P_simp hsz hS xs hk1 (fun x hx =>
    ((hok.mid_sep x (List.mem_append_left _ hx)).slot_ne
      (hok.bound x (List.mem_append_left _ hx)).1 (q := k + 1) (by omega) (by omega)).2)
  unfold Pool.deallocLink
  simp only [hL, hR, Bool.false_and, Bool.false_eq_true, if_false, if_true]
  refine ⟨?_, ?_, ?_⟩
  · apply @Chain_put s.mem _ _ _ _ _ hsz hS (xs) ([r]) (ys) _ hok'
      (by simpa using hch)
    · rw [hlink]; simp
    · rw [hlink]; simp only [hPk, if_false, slotAddr_ne8 hsz, if_true]
    · intro _
      rw [hlink]; simp only [hPk, if_false, if_true]
      simp
    · simp only [htr]
      rw [hlink]; simp only [hPt, slotAddr_ne8 hsz, slotAddr_inj hsz, hkt', if_false]
      exact e4
    · simp only [htr, lastTail]
      rw [hlink]; simp only [hPt, slotAddr8_inj hsz, slotAddr8_ne hsz, hkt', if_false]
    · intro y ys' h
      obtain ⟨f1, f2, f3, f4⟩ := hsucc y ys' h
      subst h
      have hyb := hok.bound y (by simp)
      have e5' := e5
      simp only [Chain] at e5'
      obtain ⟨g1, g2, g3, g4, g5⟩ := e5'
      have hPy := P_simp hsz hS xs (q := y.1) (by omega) (fun x hx =>
        ((hok.sep_append x hx y (by simp)).symm.slot_ne
          (hok.bound x (List.mem_append_left _ hx)).1 (le_refl _) (by omega)).2)
      have hPy' := P_simp hsz hS xs (q := y.1 + y.2 - 1) (by omega) (fun x hx =>
        ((hok.sep_append x hx y (by simp)).symm.slot_ne
          (hok.bound x (List.mem_append_left _ hx)).1 (q := y.1 + y.2 - 1) (by omega)
            (by omega)).2)
      simp only [htr]
      constructor
      · rw [hlink]; simp only [hPy, slotAddr_ne8 hsz, slotAddr_inj hsz, f3, if_false]
        exact g2
      · rw [hlink]; simp only [hPy', slotAddr_ne8 hsz, slotAddr_inj hsz, f4, if_false]
        exact g4
    · intro a ha hq _
      rw [hlink]
      have h2 := hq k (le_refl _) (by simp)
      simp [ha, h2.1, h2.2]
  · intro a ha hq
    rw [hlink]
    have hne : a ≠ lastTail (s.pointers i) s._opt.elementSizeInBytes (s.poolAddr i) xs + 8 := by
      intro e
      rcases @lastTail_node (s.pointers i) s._opt.elementSizeInBytes
        (s.poolAddr i) xs with h | ⟨x, hx, h⟩
      · rw [h] at e; exact ha e
      · rw [h] at e
        have hxb := hok.bound x (List.mem_append_left _ hx)
        exact (hq (x.1 + x.2 - 1) (by omega)).2 e
    simp [hne, (hq k hk).1, (hq k hk).2]
  · rw [hlink]
    simp only [hPk1, slotAddr8_inj hsz, slotAddr8_ne hsz, hkk, if_false]

end
end KoPool

set_option autoImplicit false
namespace KoPool
open Pool

section
variable {s : Pool} {i k : Nat} {us vs : List Run}

set_option maxHeartbeats 1000000 in
/-- First half of the case "both neighbours free": the run `l` that ends before the freed
slot is unlinked from the list. -/
theorem linkBothUnlink_spec {l : Run} (c : SubCtx s i)
    (hok : RunsOK (GetSubPoolSize i) (us ++ l :: vs))
    (hch : Chain s.mem (s.pointers i) s._opt.elementSizeInBytes (s.poolAddr i)
      (us ++ l :: vs))
    (hbits : ∀ k, k < GetSubPoolSize i →
      (s.IsSkipListNodeByIDInSubPool k i = true ↔ Covered (us ++ l :: vs) k))
    (hl : l.1 + l.2 = k) :
    Chain (s.linkBothUnlink (slotAddr (s.pointers i) s._opt.elementSizeInBytes k) i)
      (s.pointers i) s._opt.elementSizeInBytes (s.poolAddr i) (us ++ vs) ∧
    (∀ a, a ≠ lastTail (s.pointers i) s._opt.elementSizeInBytes (s.poolAddr i) us + 8 →
      (∀ y ys', vs = y :: ys' →
        a ≠ slotAddr (s.pointers i) s._opt.elementSizeInBytes y.1 ∧
        a ≠ slotAddr (s.pointers i) s._opt.elementSizeInBytes (y.1 + y.2 - 1)) →
      s.linkBothUnlink (slotAddr (s.pointers i) s._opt.elementSizeInBytes k) i a = s.mem a) := by
  have hsz := c.hsz
  have hS := c.hS
  have hlb := hok.mid_bound
  have hk0 : 0 < k := by omega
  have htl : l.1 + l.2 - 1 = k - 1 := by omega
  have hk1 : k - 1 < GetSubPoolSize i := by omega
  have hsucc : ∀ y ys', vs = y :: ys' →
      y.1 < GetSubPoolSize i ∧ y.1 + y.2 - 1 < GetSubPoolSize i ∧ 1 ≤ y.2 ∧
      ¬ k - 1 = y.1 ∧ ¬ k - 1 = y.1 + y.2 - 1 ∧ ¬ y.1 = k - 1 ∧ ¬ y.1 + y.2 - 1 = k - 1 := by
    intro y ys' e
    subst e
    have hyb := hok.bound y (by simp)
    have hsy : RunSep l y := hok.mid_sep y (by simp)
    unfold RunSep at hsy
    omega
  obtain ⟨e1, e2, e3, e4, e5⟩ := Chain_mid hch
  rw [htl] at e4 e5
  have hPt := P_simp hsz hS us hk1 (fun x hx =>
    ((hok.mid_sep x (List.mem_append_left _ hx)).slot_ne
      (hok.bound x (List.mem_append_left _ hx)).1 (q := k - 1) (by omega) (by omega)).2)
  cases vs with
  | nil =>
    have hm : ∀ a, s.linkBothUnlink (slotAddr (s.pointers i) s._opt.elementSizeInBytes k) i a =
        upd s.mem (lastTail (s.pointers i) s._opt.elementSizeInBytes (s.poolAddr i) us + 8)
          0 a := by
      intro a
      simp only [Chain] at e5
      unfold Pool.linkBothUnlink
      simp only [slotAddr_pred hk0, e5, HNSP_null, e4]
    constructor
    · apply Chain_unlink (m := s.mem) hsz hS hok hch
      · rw [hm, htl]; simp only [Chain] at e5; simp [e5]
      · intro y ys' h; cases h
      · intro a ha _
        rw [hm, upd_other _ _ ha]
    · intro a ha _
      rw [hm, upd_other _ _ ha]
  | cons y ys' =>
    obtain ⟨hy1, hyt, hy2, f1, f2, f3, f4⟩ := hsucc y ys' rfl
    have e5' := e5
    simp only [Chain] at e5'
    obtain ⟨g1, g2, g3, g4, g5⟩ := e5'
    have hRy := isRight_of_run c hok hbits (r := y) (by simp)
    have hPy := P_simp hsz hS us hy1 (fun x hx =>
      ((hok.sep_append x hx y (by simp)).symm.slot_ne
        (hok.bound x (List.mem_append_left _ hx)).1 (le_refl _) (by omega)).2)
    have hPy' := P_simp hsz hS us hyt (fun x hx =>
      ((hok.sep_append x hx y (by simp)).symm.slot_ne
        (hok.bound x (List.mem_append_left _ hx)).1 (q := y.1 + y.2 - 1) (by omega)
          (by omega)).2)
    have hm : ∀ a, s.linkBothUnlink (slotAddr (s.pointers i) s._opt.elementSizeInBytes k) i a =
        upd (upd (upd s.mem (slotAddr (s.pointers i) s._opt.elementSizeInBytes y.1)
          (lastTail (s.pointers i) s._opt.elementSizeInBytes (s.poolAddr i) us))
          (slotAddr (s.pointers i) s._opt.elementSizeInBytes (y.1 + y.2 - 1))
          (lastTail (s.pointers i) s._opt.elementSizeInBytes (s.poolAddr i) us))
          (lastTail (s.pointers i) s._opt.elementSizeInBytes (s.poolAddr i) us + 8)
          (slotAddr (s.pointers i) s._opt.elementSizeInBytes y.1) a := by
      intro a
      unfold Pool.linkBothUnlink
      simp only [slotAddr_pred hk0, g1, e4]
      rw [HNSP_run c hy2 hRy g3]
      simp only [upd, slotAddr_inj hsz, slotAddr8_ne hsz, f1, f2, f3, f4, if_false, e4, g1]
    constructor
    · apply Chain_unlink (m := s.mem) hsz hS hok hch
      · rw [hm, htl]; simp [g1]
      · intro y0 ys0 h
        cases h
        constructor
        · rw [hm]; simp only [upd, hPy, if_false]
          split_ifs <;> rfl
        · rw [hm]; simp only [upd, hPy', if_false, if_true]
      · intro a ha hq
        obtain ⟨n1, n2⟩ := hq y ys' rfl
        rw [hm]; simp only [upd, ha, n1, n2, if_false]
    · intro a ha hq
      obtain ⟨n1, n2⟩ := hq y ys' rfl
      rw [hm]; simp only [upd, ha, n1, n2, if_false]

theorem lastTail_next_ne_frame {b sz cap S : Nat} {rs : List Run} (hok : RunsOK cap rs)
    (xs : List Run) (hsub : ∀ x ∈ xs, x ∈ rs) {a : Nat} (ha : a ≠ S + 8)
    (hq : ∀ q, q < cap → a ≠ slotAddr b sz q ∧ a ≠ slotAddr b sz q + 8) :
    a ≠ lastTail b sz S xs + 8 := by
  intro e
  rcases @lastTail_node b sz S xs with h | ⟨x, hx, h⟩
  · rw [h] at e; exact ha e
  · rw [h] at e
    have hxb := hok.bound x (hsub x hx)
    exact (hq (x.1 + x.2 - 1) (by omega)).2 e

theorem merge_bytes {s : Pool} {i : Nat} (c : SubCtx s i) {a b : Nat} (ha : 1 ≤ a)
    (hb : 1 ≤ b) (hab : a + 1 + b ≤ GetSubPoolSize i) :
    wadd (wmul s._opt.elementSizeInBytes 2) ((b - 1) * s._opt.elementSizeInBytes) =
      (b + 1) * s._opt.elementSizeInBytes ∧
    wadd ((a - 1) * s._opt.elementSizeInBytes) ((b + 1) * s._opt.elementSizeInBytes) =
      (a + b) * s._opt.elementSizeInBytes := by
  have h1 : s._opt.elementSizeInBytes * 2 + (b - 1) * s._opt.elementSizeInBytes =
      (b + 1) * s._opt.elementSizeInBytes := by
    have : b + 1 = 2 + (b - 1) := by omega
    rw [this, Nat.add_mul, Nat.mul_comm]
  have h2 : (a - 1) * s._opt.elementSizeInBytes + (b + 1) * s._opt.elementSizeInBytes =
      (a + b) * s._opt.elementSizeInBytes := by
    rw [← Nat.add_mul]
    congr 1
    omega
  have l1 := mul_sz_lt c (n := 2) (by omega)
  have l2 := mul_sz_lt c (n := b + 1) (by omega)
  have l3 := mul_sz_lt c (n := a + b) (by omega)
  constructor
  · rw [wmul_eq (by rw [Nat.mul_comm]; exact l1), wadd_eq (by rw [h1]; exact l2), h1]
  · rw [wadd_eq (by rw [h2]; exact l3), h2]

end
end KoPool

set_option autoImplicit false
namespace KoPool
open Pool

section
variable {s : Pool} {i k : Nat} {us vs ps qs : List Run}

set_option maxHeartbeats 2000000 in
/-- `deallocLink` when both neighbours of the freed slot are free: the run `l` that ends
before the slot leaves the list, and the merged run takes the place of the run `r` that
starts after the slot. -/
theorem deallocLink_both {l r : Run} (c : SubCtx s i)
    (hok : RunsOK (GetSubPoolSize i) (us ++ l :: vs))
    (hch : Chain s.mem (s.pointers i) s._opt.elementSizeInBytes (s.poolAddr i)
      (us ++ l :: vs))
    (hbits : ∀ k, k < GetSubPoolSize i →
      (s.IsSkipListNodeByIDInSubPool k i = true ↔ Covered (us ++ l :: vs) k))
    (hsplit : us ++ vs = ps ++ r :: qs)
    (hl : l.1 + l.2 = k) (hr : r.1 = k + 1) :
    Chain (s.deallocLink (slotAddr (s.pointers i) s._opt.elementSizeInBytes k) i)
      (s.pointers i) s._opt.elementSizeInBytes (s.poolAddr i)
      (ps ++ (l.1, l.2 + 1 + r.2) :: qs) ∧
    (∀ a, a ≠ s.poolAddr i + 8 →
      (∀ q, q < GetSubPoolSize i →
        a ≠ slotAddr (s.pointers i) s._opt.elementSizeInBytes q ∧
        a ≠ slotAddr (s.pointers i) s._opt.elementSizeInBytes q + 8) →
      s.deallocLink (slotAddr (s.pointers i) s._opt.elementSizeInBytes k) i a = s.mem a) ∧
    (2 ≤ r.2 →
      s.deallocLink (slotAddr (s.pointers i) s._opt.elementSizeInBytes k) i
          (slotAddr (s.pointers i) s._opt.elementSizeInBytes (k + 1) + 8) =
        s.mem (slotAddr (s.pointers i) s._opt.elementSizeInBytes (k + 1) + 8)) := by
  have hsz := c.hsz
  have hS := c.hS
  have hok' := hok.merge hsplit hl hr
  have hok2 : RunsOK (GetSubPoolSize i) (ps ++ r :: qs) := hsplit ▸ hok.remove_mid
  have hlb := hok.mid_bound
  have hrb := hok2.mid_bound
  have hrmem : r ∈ us ++ l :: vs := mem_mid_of_mem (hsplit ▸ (by simp : r ∈ ps ++ r :: qs))
  have hlr : RunSep l r := hok.mid_sep r (hsplit ▸ (by simp : r ∈ ps ++ r :: qs))
  -- index arithmetic
  have hk : k < GetSubPoolSize i := by omega
  have hk0 : 0 < k := by omega
  have hk1 : k + 1 < GetSubPoolSize i := by omega
  have hkm : k - 1 < GetSubPoolSize i := by omega
  have hl1 : l.1 < GetSubPoolSize i := by omega
  have htl : l.1 + l.2 - 1 = k - 1 := by omega
  have ht : r.1 + r.2 - 1 < GetSubPoolSize i := by omega
  have hidx : l.1 + (l.2 + 1 + r.2) - 1 = r.1 + r.2 - 1 := by omega
  have hidx2 : l.2 + 1 + r.2 - 1 = l.2 + r.2 := by omega
  have hkc : k - 1 < l.1 + l.2 ∧ l.1 ≤ k - 1 := by omega
  have hrc : r.1 ≤ k + 1 ∧ k + 1 < r.1 + r.2 := by omega
  have hl21 : ¬ 2 ≤ l.2 → l.2 = 1 ∧ k - 1 = l.1 := by intro h; omega
  have hr21 : ¬ 2 ≤ r.2 → r.2 = 1 := by intro h; omega
  have n1 : ¬ k + 1 = k - 1 := by omega
  have n2 : ¬ k + 1 = l.1 := by omega
  have n3 : ¬ r.1 + r.2 - 1 = l.1 := by omega
  have n4 : ¬ r.1 + r.2 - 1 = k - 1 := by omega
  have n5 : ¬ l.1 = k + 1 := by omega
  have n6 : ¬ k - 1 = k + 1 := by omega
  have hrange : l.1 ≤ k - 1 ∧ k - 1 < l.1 + (l.2 + 1 + r.2) := by omega
  have hbytes := merge_bytes c hlb.1 hrb.1 (by omega)
  have hsucc : ∀ y ys', qs = y :: ys' →
      y.1 < GetSubPoolSize i ∧ y.1 + y.2 - 1 < GetSubPoolSize i ∧ 1 ≤ y.2 ∧
      ¬ y.1 = l.1 ∧ ¬ y.1 + y.2 - 1 = l.1 ∧ ¬ y.1 = k - 1 ∧ ¬ y.1 + y.2 - 1 = k - 1 ∧
      (∀ x ∈ ps, y.1 ≠ x.1 + x.2 - 1) ∧ (∀ x ∈ ps, y.1 + y.2 - 1 ≠ x.1 + x.2 - 1) := by
    intro y ys' e
    subst e
    have hyb := hok2.bound y (by simp)
    have hsy : RunSep (l.1, l.2 + 1 + r.2) y := hok'.mid_sep y (by simp)
    have t1 := hok2.front_tail_ne (y := y) (by simp) (le_refl _) (by omega)
    have t2 := hok2.front_tail_ne (y := y) (by simp) (q := y.1 + y.2 - 1) (by omega)
      (by omega)
    unfold RunSep at hsy
    simp only at hsy
    refine ⟨?_, ?_, ?_, ?_, ?_, ?_, ?_, t1, t2⟩ <;> omega
  have hsuccv : ∀ y ys', vs = y :: ys' →
      y.1 < GetSubPoolSize i ∧ y.1 + y.2 - 1 < GetSubPoolSize i := by
    intro y ys' e
    subst e
    have hyb := hok.bound y (by simp)
    omega
  -- tails of the runs before `r` and before `l`
  have hsepl : ∀ x ∈ ps, RunSep l x := fun x hx =>
    hok.mid_sep x (hsplit ▸ List.mem_append_left _ hx)
  have hsepr : ∀ x ∈ ps, RunSep r x := fun x hx =>
    hok2.mid_sep x (List.mem_append_left _ hx)
  have hbp : ∀ x ∈ ps, 1 ≤ x.2 := fun x hx => (hok2.bound x (List.mem_append_left _ hx)).1
  have t1 := tail_ne_of_sep hsepl hbp (q := l.1) (le_refl _) (by omega)
  have t2 := tail_ne_of_sep hsepl hbp (q := k - 1) (by omega) (by omega)
  have t3 := tail_ne_of_sep hsepr hbp (q := k + 1) (by omega) (by omega)
  have t4 := tail_ne_of_sep hsepr hbp (q := r.1 + r.2 - 1) (by omega) (by omega)
  have t5 := hok.front_tail_ne (y := l) (by simp) (q := l.1) (le_refl _) (by omega)
  have t6 : 2 ≤ r.2 → ∀ x ∈ us, r.1 ≠ x.1 + x.2 - 1 := fun h2 x hx =>
    hok.head_not_tail hrmem h2 x (List.mem_append_left _ hx)
  have hr1 : r.1 < GetSubPoolSize i := by omega
  have hlast : l.1 < l.1 + (l.2 + 1 + r.2) := by omega
  have hQl := P_simp hsz hS ps hl1 t1
  have hQk := P_simp hsz hS ps hkm t2
  have hQr := P_simp hsz hS ps hk1 t3
  have hQt := P_simp hsz hS ps ht t4
  have hPl := P_simp hsz hS us hl1 t5
  obtain ⟨hch2, hfr2⟩ := linkBothUnlink_spec c hok hch hbits hl
  rw [hsplit] at hch2
  obtain ⟨d1, d2, d3, d4, d5⟩ := Chain_mid hch2
  rw [hr] at d2
  obtain ⟨e1, e2, e3, e4, e5⟩ := Chain_mid hch
  rw [htl] at e4
  have hLL := isLeft_of_run c hok hbits (r := l) (by simp)
  rw [htl] at hLL
  have hRR := isRight_of_run c hok hbits hrmem
  rw [hr] at hRR
  have hL : s.IsLeftSkipListNodeSafe (slotAddr (s.pointers i) s._opt.elementSizeInBytes k) i
      = true := by
    rw [IsLeft_slot c hk, free_of_covered hbits hkm ⟨l, by simp, hkc.2, hkc.1⟩]
    simp [hk0]
  have hR : s.IsRightSkipListNodeSafe (slotAddr (s.pointers i) s._opt.elementSizeInBytes k) i
      = true := by
    rw [IsRight_slot c hk, free_of_covered hbits hk1 ⟨r, hrmem, hrc⟩]
    simp [hk1]
  -- the bytes-to-tail word of the head of `l` survives the unlinking
  have hl8 : 2 ≤ l.2 →
      s.linkBothUnlink (slotAddr (s.pointers i) s._opt.elementSizeInBytes k) i
        (slotAddr (s.pointers i) s._opt.elementSizeInBytes l.1 + 8) =
      (l.2 - 1) * s._opt.elementSizeInBytes := by
    intro h2
    rw [hfr2, e3 h2]
    · simp only [ne_eq, hPl, not_false_eq_true]
    · intro y ys' _
      simp only [ne_eq, slotAddr8_ne hsz, not_false_eq_true, and_self]
  have hnbt : (if s.IsRightSkipListNodeSafe
        (slotAddr (s.pointers i) s._opt.elementSizeInBytes (k + 1)) i = true then
        s.mem (slotAddr (s.pointers i) s._opt.elementSizeInBytes (k + 1) + 8) else 0) =
      (r.2 - 1) * s._opt.elementSizeInBytes := by
    rw [hRR]
    by_cases h2 : 2 ≤ r.2
    · simp only [h2, decide_True, if_true]
      have hne8 : slotAddr (s.pointers i) s._opt.elementSizeInBytes r.1 + 8 ≠
          lastTail (s.pointers i) s._opt.elementSizeInBytes (s.poolAddr i) us + 8 := by
        have := P_simp hsz hS us hr1 (t6 h2)
        simp only [ne_eq, this, not_false_eq_true]
      have := hfr2 _ hne8 (by
        intro y ys' _
        simp only [ne_eq, slotAddr8_ne hsz, not_false_eq_true, and_self])
      rw [← hr, ← this]
      exact d3 h2
    · have h1 := hr21 h2
      simp [h1]
  have hF : ∀ a, s.linkBoth (slotAddr (s.pointers i) s._opt.elementSizeInBytes k) i a =
      if a = slotAddr (s.pointers i) s._opt.elementSizeInBytes l.1 + 8 then
        (l.2 + r.2) * s._opt.elementSizeInBytes
      else if a = slotAddr (s.pointers i) s._opt.elementSizeInBytes l.1 then
        lastTail (s.pointers i) s._opt.elementSizeInBytes (s.poolAddr i) ps
      else if a = lastTail (s.pointers i) s._opt.elementSizeInBytes (s.poolAddr i) ps + 8 then
        slotAddr (s.pointers i) s._opt.elementSizeInBytes l.1
      else if a = slotAddr (s.pointers i) s._opt.elementSizeInBytes (k - 1) then
        lastTail (s.pointers i) s._opt.elementSizeInBytes (s.poolAddr i) ps
      else s.linkBothUnlink (slotAddr (s.pointers i) s._opt.elementSizeInBytes k) i a := by
    intro a
    unfold Pool.linkBoth
    simp only [slotAddr_pred hk0, ← slotAddr_succ, hLL, hnbt, Pool.TailToHead, e4, e1]
    by_cases h2 : 2 ≤ l.2
    · have hl8' := hl8 h2
      simp only [h2, decide_True, if_true]
      simp only [upd, slotAddr_inj hsz, slotAddr8_inj hsz, slotAddr_ne8 hsz, slotAddr8_ne hsz,
        n1, n2, n5, n6, if_false, if_true, d2, hQl, hQk, hQr, hl8', hbytes]
    · obtain ⟨hl2, hl1'⟩ := hl21 h2
      have hb1 := hbytes.1
      simp only [h2, decide_False, Bool.false_eq_true, if_false]
      simp only [upd, slotAddr_inj hsz, slotAddr8_inj hsz, slotAddr_ne8 hsz, slotAddr8_ne hsz,
        n1, n2, n5, n6, if_false, if_true, d2, hQl, hQk, hQr, hl1', hl2, hb1]
      rw [Nat.add_comm 1 r.2]
      have hQne : ¬ lastTail (s.pointers i) s._opt.elementSizeInBytes (s.poolAddr i) ps + 8 =
          slotAddr (s.pointers i) s._opt.elementSizeInBytes l.1 := by
        simp only [hQl, not_false_eq_true]
      split_ifs <;> first | rfl | (rename_i c2 c3; exact absurd (c2.symm.trans c3) hQne)
  unfold Pool.deallocLink
  simp only [hL, hR, Bool.and_self, if_true]
  refine ⟨?_, ?_, ?_⟩
  · apply @Chain_put (s.linkBothUnlink (slotAddr (s.pointers i) s._opt.elementSizeInBytes k) i)
      _ _ _ _ _ hsz hS ps [r] qs _ hok' (by simpa using hch2)
    · rw [hF]; simp only [hQl, if_false, if_true]
    · rw [hF]; simp only [slotAddr_ne8 hsz, if_false, if_true]
    · intro _
      rw [hF]; simp only [if_true, hidx2]
    · simp only [hidx]
      rw [hF]; simp only [slotAddr_ne8 hsz, slotAddr_inj hsz, n3, n4, hQt, if_false]
      exact d4
    · simp only [hidx, lastTail]
      rw [hF]; simp only [slotAddr8_ne hsz, slotAddr8_inj hsz, n3, hQt, if_false]
    · intro y ys' h
      obtain ⟨hy1, hyt, hy2, f1, f2, f3, f4, u1, u2⟩ := hsucc y ys' h
      subst h
      have d5' := d5
      simp only [Chain] at d5'
      obtain ⟨g1, g2, g3, g4, g5⟩ := d5'
      have hQy := P_simp hsz hS ps hy1 u1
      have hQy' := P_simp hsz hS ps hyt u2
      simp only [hidx]
      constructor
      · rw [hF]; simp only [slotAddr_ne8 hsz, slotAddr_inj hsz, f1, f3, hQy, if_false]
        exact g2
      · rw [hF]; simp only [slotAddr_ne8 hsz, slotAddr_inj hsz, f2, f4, hQy', if_false]
        exact g4
    · intro a ha hq _
      rw [hF]
      have h1 := hq l.1 (le_refl _) hlast
      have h2 := hq (k - 1) hrange.1 hrange.2
      simp only [h1.1, h1.2, h2.1, ha, if_false]
  · intro a ha hq
    rw [hF]
    have hneQ := @lastTail_next_ne_frame (s.pointers i) s._opt.elementSizeInBytes _ _ _
      hok2 ps (fun x hx => List.mem_append_left _ hx) _ ha hq
    have hneP := @lastTail_next_ne_frame (s.pointers i) s._opt.elementSizeInBytes _ _ _
      hok us (fun x hx => List.mem_append_left _ hx) _ ha hq
    simp only [(hq l.1 hl1).1, (hq l.1 hl1).2, (hq (k - 1) hkm).1, hneQ, if_false]
    apply hfr2 a hneP
    intro y ys' h
    obtain ⟨b1, b2⟩ := hsuccv y ys' h
    exact ⟨(hq y.1 b1).1, (hq (y.1 + y.2 - 1) b2).1⟩
  · intro h2
    rw [hF]
    simp only [hQr, slotAddr8_inj hsz, slotAddr8_ne hsz, n2, if_false]
    have hne8 : slotAddr (s.pointers i) s._opt.elementSizeInBytes (k + 1) + 8 ≠
        lastTail (s.pointers i) s._opt.elementSizeInBytes (s.poolAddr i) us + 8 := by
      have := P_simp hsz hS us hr1 (t6 h2)
      rw [hr] at this
      simp only [ne_eq, this, not_false_eq_true]
    exact hfr2 _ hne8 (by
      intro y ys' _
      simp only [ne_eq, slotAddr8_ne hsz, not_false_eq_true, and_self])

end
end KoPool

set_option autoImplicit false
namespace KoPool
open Pool

section
variable {s : Pool} {i k : Nat} {rs : List Run}

/-- The linking step of `DeallocateBytesImpl` on a live slot `k`: the new free list is a
valid list of runs that covers the old free slots and `k`. -/
theorem deallocLink_spec (c : SubCtx s i) (hok : RunsOK (GetSubPoolSize i) rs)
    (hch : Chain s.mem (s.pointers i) s._opt.elementSizeInBytes (s.poolAddr i) rs)
    (hbits : ∀ k, k < GetSubPoolSize i →
      (s.IsSkipListNodeByIDInSubPool k i = true ↔ Covered rs k))
    (hk : k < GetSubPoolSize i) (hlive : ¬ Covered rs k) :
    ∃ rs', RunsOK (GetSubPoolSize i) rs' ∧
      Chain (s.deallocLink (slotAddr (s.pointers i) s._opt.elementSizeInBytes k) i)
        (s.pointers i) s._opt.elementSizeInBytes (s.poolAddr i) rs' ∧
      (∀ k', Covered rs' k' ↔ (Covered rs k' ∨ k' = k)) ∧
      runsLen rs' = runsLen rs + 1 ∧
      (∀ a, a ≠ s.poolAddr i + 8 →
        (∀ q, q < GetSubPoolSize i →
          a ≠ slotAddr (s.pointers i) s._opt.elementSizeInBytes q ∧
          a ≠ slotAddr (s.pointers i) s._opt.elementSizeInBytes q + 8) →
        s.deallocLink (slotAddr (s.pointers i) s._opt.elementSizeInBytes k) i a = s.mem a) := by
  by_cases hL : 0 < k ∧ Covered rs (k - 1)
  · obtain ⟨hk0, hcL⟩ := hL
    have hnk : ¬ Covered rs (k - 1 + 1) := by
      rw [Nat.sub_add_cancel hk0]; exact hlive
    obtain ⟨l, hlm, hl⟩ := hok.run_ending_at hcL hnk
    rw [Nat.sub_add_cancel hk0] at hl
    obtain ⟨us, vs, rfl⟩ := mem_split_run hlm
    by_cases hR : k + 1 < GetSubPoolSize i ∧ Covered (us ++ l :: vs) (k + 1)
    · obtain ⟨_, hcR⟩ := hR
      obtain ⟨r, hrm, hr⟩ := hok.run_starting_at hcR hlive
      have hne : r ≠ l := by
        rintro rfl
        have := (hok.bound r hrm).1
        omega
      obtain ⟨ps, qs, hsplit⟩ := split_of_mem hrm hne
      obtain ⟨h1, h2, _⟩ := deallocLink_both c hok hch hbits hsplit hl hr
      exact ⟨_, hok.merge hsplit hl hr, h1, fun k' => Covered_merge hsplit hl hr,
        runsLen_merge hsplit, h2⟩
    · have hr : k + 1 = GetSubPoolSize i ∨ ¬ Covered (us ++ l :: vs) (k + 1) := by
        by_cases h : k + 1 < GetSubPoolSize i
        · exact Or.inr (fun hc => hR ⟨h, hc⟩)
        · left; omega
      obtain ⟨h1, h2⟩ := deallocLink_left c hok hch hbits hk hlive hl hr
      refine ⟨_, hok.grow_right hk hl hlive hr, h1, fun k' => Covered_grow_right hl, ?_, h2⟩
      rw [runsLen_mid, runsLen_mid]
      simp only
      omega
  · have hl : k = 0 ∨ ¬ Covered rs (k - 1) := by
      by_cases h : 0 < k
      · exact Or.inr (fun hc => hL ⟨h, hc⟩)
      · left; omega
    by_cases hR : k + 1 < GetSubPoolSize i ∧ Covered rs (k + 1)
    · obtain ⟨_, hcR⟩ := hR
      obtain ⟨r, hrm, hr⟩ := hok.run_starting_at hcR hlive
      obtain ⟨us, vs, rfl⟩ := mem_split_run hrm
      obtain ⟨h1, h2, _⟩ := deallocLink_right c hok hch hbits hlive hr hl
      refine ⟨_, hok.grow_left hr hlive hl, h1, fun k' => Covered_grow_left hr, ?_, h2⟩
      rw [runsLen_mid, runsLen_mid]
      simp only
      omega
    · have hr : k + 1 = GetSubPoolSize i ∨ ¬ Covered rs (k + 1) := by
        by_cases h : k + 1 < GetSubPoolSize i
        · exact Or.inr (fun hc => hR ⟨h, hc⟩)
        · left; omega
      obtain ⟨h1, h2⟩ := deallocLink_none c hok hch hbits hk hlive hl hr
      refine ⟨_, hok.push_single hk hlive hl hr, h1, fun k' => Covered_push_single, ?_, h2⟩
      simp only [runsLen]
      omega

/-- The linking step of `DeallocateBytesImpl` leaves the second word of the slot after the
freed slot as it is, when this slot is the head of a run of two or more slots: the merged
run keeps the stale `numBytesToTail` of the run it has swallowed. -/
theorem deallocLink_stale (c : SubCtx s i) (hok : RunsOK (GetSubPoolSize i) rs)
    (hch : Chain s.mem (s.pointers i) s._opt.elementSizeInBytes (s.poolAddr i) rs)
    (hbits : ∀ k, k < GetSubPoolSize i →
      (s.IsSkipListNodeByIDInSubPool k i = true ↔ Covered rs k))
    (hlive : ¬ Covered rs k) {r : Run} (hrm : r ∈ rs) (hr : r.1 = k + 1) (h2 : 2 ≤ r.2) :
    s.deallocLink (slotAddr (s.pointers i) s._opt.elementSizeInBytes k) i
        (slotAddr (s.pointers i) s._opt.elementSizeInBytes (k + 1) + 8) =
      s.mem (slotAddr (s.pointers i) s._opt.elementSizeInBytes (k + 1) + 8) := by
  by_cases hL : 0 < k ∧ Covered rs (k - 1)
  · obtain ⟨hk0, hcL⟩ := hL
    have hnk : ¬ Covered rs (k - 1 + 1) := by
      rw [Nat.sub_add_cancel hk0]; exact hlive
    obtain ⟨l, hlm, hl⟩ := hok.run_ending_at hcL hnk
    rw [Nat.sub_add_cancel hk0] at hl
    obtain ⟨us, vs, rfl⟩ := mem_split_run hlm
    have hne : r ≠ l := by
      rintro rfl
      have := (hok.bound r hrm).1
      omega
    obtain ⟨ps, qs, hsplit⟩ := split_of_mem hrm hne
    exact (deallocLink_both c hok hch hbits hsplit hl hr).2.2 h2
  · have hl : k = 0 ∨ ¬ Covered rs (k - 1) := by
      by_cases h : 0 < k
      · exact Or.inr (fun hc => hL ⟨h, hc⟩)
      · left; omega
    obtain ⟨us, vs, rfl⟩ := mem_split_run hrm
    exact (deallocLink_right c hok hch hbits hlive hr hl).2.2

end
end KoPool

set_option autoImplicit false
namespace KoPool
open Pool

section
variable {s : Pool} {p : Nat}

/-- A position that `BinarySearchSortedPointerIDByPointerPow2Impl` returns is a position of
the array `sortedPointers`. -/
theorem bsearch_lt : ∀ (depth NUMBER offset j : Nat),
    s.BinarySearchSortedPointerIDByPointerPow2Impl p depth NUMBER offset = some j →
    j < ARRAY_LEN
  | 0, _, _, _, h => by
    rw [Pool.BinarySearchSortedPointerIDByPointerPow2Impl] at h
    cases h
  | depth + 1, NUMBER, offset, j, h => by
    rw [Pool.BinarySearchSortedPointerIDByPointerPow2Impl] at h
    split_ifs at h with h0 h1 h2 h3
    · cases h; exact h1
    · exact bsearch_lt depth _ _ j h
    · exact bsearch_lt depth _ _ j h

/-- A position that `FindSortedPointerIDByPtr` returns is a position of the array
`sortedPointers`. -/
theorem FindSortedPointerIDByPtr_lt {j : Nat} (h : s.FindSortedPointerIDByPtr p = some j) :
    j < ARRAY_LEN := by
  unfold Pool.FindSortedPointerIDByPtr at h
  simp only at h
  split_ifs at h
  · cases h; decide
  all_goals exact bsearch_lt _ _ _ _ h

/-- The descent of `BinarySearchSortedPointerIDByPointerPow2Impl` over a window of `2 ^ d`
entries inside the first 64 positions that starts at an entry not above `p` reads only
entries of the array, when at most 62 of them are in use, and ends at the floor entry of
`p`. -/
theorem bsearch_floor
    (hlt : ∀ a c, a < c → c < s.sortedPointersSize →
      (s.sortedPointers a).pMemory < (s.sortedPointers c).pMemory)
    (hrest : ∀ a, s.sortedPointersSize ≤ a → (s.sortedPointers a).pMemory = 0)
    (h62 : s.sortedPointersSize ≤ 62) :
    ∀ d depth offset, d + 1 < depth → offset < s.sortedPointersSize →
      offset + 2 ^ d ≤ 64 →
      (s.sortedPointers offset).pMemory ≤ p →
      (∀ c, offset + 2 ^ d ≤ c → c < s.sortedPointersSize →
        p < (s.sortedPointers c).pMemory) →
      ∃ j, s.BinarySearchSortedPointerIDByPointerPow2Impl p depth (2 ^ d) offset = some j ∧
        IsFloorEntry s p j := by
  intro d
  induction d with
  | zero =>
    intro depth offset hd ho hw hp hc
    obtain ⟨depth', rfl⟩ : ∃ k, depth = k + 2 := ⟨depth - 2, by omega⟩
    have hoff : offset < ARRAY_LEN := by simp only [ARRAY_LEN, DIGITS]; omega
    have h0 : s.BinarySearchSortedPointerIDByPointerPow2Impl p (depth' + 1) 0 offset
        = some offset := by
      simp only [Pool.BinarySearchSortedPointerIDByPointerPow2Impl, if_true, hoff]
    have : s.BinarySearchSortedPointerIDByPointerPow2Impl p (depth' + 2) (2 ^ 0) offset
        = some offset := by
      rw [Pool.BinarySearchSortedPointerIDByPointerPow2Impl]
      simp only [pow_zero, Nat.one_ne_zero, if_false, Nat.reduceDiv, Nat.add_zero, h0, hoff,
        not_true_eq_false, ite_self]
    rw [this]
    exact ⟨offset, rfl, ho, hp, fun c h1 h2 => hc c (by simpa using h1) h2⟩
  | succ d ih =>
    intro depth offset hd ho hw hp hc
    obtain ⟨depth', rfl⟩ : ∃ k, depth = k + 1 := ⟨depth - 1, by omega⟩
    have hhalf : 2 ^ (d + 1) / 2 = 2 ^ d := by
      rw [pow_succ]; exact Nat.mul_div_cancel _ (by decide)
    have hpos : 2 ^ (d + 1) ≠ 0 := by positivity
    have hp2 : 0 < 2 ^ d := Nat.pow_pos (by decide)
    have hw2 : offset + 2 ^ d + 2 ^ d ≤ 64 := by
      have : 2 ^ (d + 1) = 2 ^ d + 2 ^ d := by rw [pow_succ]; omega
      omega
    have hrd : offset + 2 ^ d < ARRAY_LEN := by simp only [ARRAY_LEN, DIGITS]; omega
    rw [Pool.BinarySearchSortedPointerIDByPointerPow2Impl]
    simp only [hpos, if_false, hhalf, hrd, not_true_eq_false]
    split_ifs with hbr
    · apply ih depth' offset (by omega) ho (by omega) hp
      intro c h1 h2
      by_cases hm : offset + 2 ^ d < s.sortedPointersSize
      · rcases hbr with hbr | hbr
        · have hpos2 : 0 < offset + 2 ^ d := by omega
          have := hlt 0 _ hpos2 hm
          omega
        · rcases Nat.eq_or_lt_of_le h1 with e | e
          · rw [← e]; exact hbr
          · exact lt_trans hbr (hlt _ _ e h2)
      · omega
    · have hbr' : (s.sortedPointers (offset + 2 ^ d)).pMemory ≠ 0 ∧
          (s.sortedPointers (offset + 2 ^ d)).pMemory ≤ p := by
        constructor
        · intro h; exact hbr (Or.inl h)
        · by_contra h; exact hbr (Or.inr (by omega))
      have hm : offset + 2 ^ d < s.sortedPointersSize := by
        by_contra h
        exact hbr'.1 (hrest _ (by omega))
      apply ih depth' (offset + 2 ^ d) (by omega) hm hw2 hbr'.2
      intro c h1 h2
      apply hc c _ h2
      rw [pow_succ]; omega

end
end KoPool

set_option autoImplicit false
namespace KoPool
open Pool

theorem RoundUpToPowerOf2_small (n : Nat) (h1 : 1 ≤ n) (h2 : n ≤ 64) :
    ∃ d, d ≤ 6 ∧ RoundUpToPowerOf2 n = 2 ^ d ∧ n ≤ 2 ^ d := by
  have key : ∀ m : Fin 65, 1 ≤ m.val →
      (RoundUpToPowerOf2 m.val = 1 ∨ RoundUpToPowerOf2 m.val = 2 ∨
       RoundUpToPowerOf2 m.val = 4 ∨ RoundUpToPowerOf2 m.val = 8 ∨
       RoundUpToPowerOf2 m.val = 16 ∨ RoundUpToPowerOf2 m.val = 32 ∨
       RoundUpToPowerOf2 m.val = 64) ∧ m.val ≤ RoundUpToPowerOf2 m.val := by
    decide
  obtain ⟨hk, hle⟩ := key ⟨n, by omega⟩ h1
  simp only at hk hle
  rcases hk with h | h | h | h | h | h | h
  · exact ⟨0, by omega, by rw [h]; rfl, by omega⟩
  · exact ⟨1, by omega, by rw [h]; rfl, by omega⟩
  · exact ⟨2, by omega, by rw [h]; rfl, by omega⟩
  · exact ⟨3, by omega, by rw [h]; rfl, by omega⟩
  · exact ⟨4, by omega, by rw [h]; rfl, by omega⟩
  · exact ⟨5, by omega, by rw [h]; rfl, by omega⟩
  · exact ⟨6, by omega, by rw [h]; rfl, by omega⟩

section
variable {s : Pool} {p : Nat}

/-- `FindSortedPointerIDByPtr` reads only entries of the array and returns the floor entry
of `p`, in a sorted index of at most 62 entries whose first entry is not above `p`. -/
theorem FindSortedPointerIDByPtr_floor
    (hlt : ∀ a c, a < c → c < s.sortedPointersSize →
      (s.sortedPointers a).pMemory < (s.sortedPointers c).pMemory)
    (hrest : ∀ a, s.sortedPointersSize ≤ a → (s.sortedPointers a).pMemory = 0)
    (h1 : 1 ≤ s.sortedPointersSize) (h2 : s.sortedPointersSize ≤ 62)
    (hp : (s.sortedPointers 0).pMemory ≤ p) :
    ∃ j, s.FindSortedPointerIDByPtr p = some j ∧ IsFloorEntry s p j := by
  obtain ⟨d, hd, hr, hle⟩ := RoundUpToPowerOf2_small _ h1 (by omega)
  have hd' : d = 0 ∨ d = 1 ∨ d = 2 ∨ d = 3 ∨ d = 4 ∨ d = 5 ∨ d = 6 := by omega
  have hpw : 2 ^ d ≤ 64 := by
    rcases hd' with rfl | rfl | rfl | rfl | rfl | rfl | rfl <;> decide
  have key := bsearch_floor (p := p) hlt hrest h2 d 8 0 (by omega) (by omega) (by omega) hp
    (by intro c hc hc'; omega)
  unfold Pool.FindSortedPointerIDByPtr
  simp only [hr]
  rcases hd' with rfl | rfl | rfl | rfl | rfl | rfl | rfl
  · simp only [pow_zero, if_true]
    refine ⟨0, rfl, by omega, hp, ?_⟩
    intro c hc hc'
    simp only [pow_zero] at hle
    omega
  all_goals simpa [DIGITS] using key

end
end KoPool

set_option autoImplicit false
namespace KoPool
open Pool

theorem activeCount_le (s : Pool) (n : Nat) : activeCount s n ≤ n := by
  induction n with
  | zero => simp [activeCount]
  | succ n ih =>
    simp only [activeCount]
    split_ifs <;> omega

section
variable {s : Pool}

theorem SortedOK.sorted_le (h : SortedOK s) : s.sortedPointersSize ≤ ARRAY_LEN := by
  rw [h.sorted_size]; exact activeCount_le s ARRAY_LEN

/-- Sub-pool 62 is never activated: its buffer would not fit below `2 ^ 64`. -/
theorem Geo.ptr_top (g : Geo s) : s.pointers 62 = 0 := by
  by_contra hb
  have h1 := g.buf_lt 62 hb
  have h2 : GetSubPoolSize 62 = 2 ^ 62 := by
    rw [GetSubPoolSize_eq (by decide)]
    simp
  have h3 := g.sz_ge
  rw [h2] at h1
  have h4 : (2 : Nat) ^ 62 * 16 ≤ 2 ^ 62 * s._opt.elementSizeInBytes :=
    Nat.mul_le_mul_left _ h3
  omega

/-- The sorted index of a pool never holds more than 62 entries, one less than the array
`sortedPointers` has. -/
theorem SortedOK.sorted_le_top (h : SortedOK s) (g : Geo s) : s.sortedPointersSize ≤ 62 := by
  rw [h.sorted_size]
  have e : activeCount s ARRAY_LEN
      = activeCount s 62 + (if s.pointers 62 ≠ 0 then 1 else 0) := rfl
  rw [e, g.ptr_top]
  have := activeCount_le s 62
  simpa using this

/-- The entry of the sorted index found for a pointer inside the buffer of the activated
sub-pool `i` is the entry of `i`. -/
theorem SortedOK.find_sorted (h : SortedOK s) (g : Geo s) {i p : Nat}
    (hb : s.pointers i ≠ 0)
    (h1 : s.pointers i ≤ p)
    (h2 : p < s.pointers i + GetSubPoolSize i * s._opt.elementSizeInBytes) :
    ∃ j, s.FindSortedPointerIDByPtr p = some j ∧ j < s.sortedPointersSize ∧
      (s.sortedPointers j).subPoolID = i ∧
      (s.sortedPointers j).pMemory = s.pointers i := by
  obtain ⟨a, ha, hai⟩ := h.sorted_all i hb
  have hap : (s.sortedPointers a).pMemory = s.pointers i := by
    rw [← (h.sorted_entry a ha).2, hai]
  have hle := h.sorted_le_top g
  have h0 : (s.sortedPointers 0).pMemory ≤ p := by
    rcases Nat.eq_zero_or_pos a with rfl | hpos
    · omega
    · have := h.sorted_lt 0 a hpos ha
      omega
  obtain ⟨j, hfind, hfl⟩ := FindSortedPointerIDByPtr_floor (p := p) h.sorted_lt
    (fun a ha => (h.sorted_rest a ha).1)
    (by omega) hle h0
  obtain ⟨hj, hjp, hjc⟩ := hfl
  have hja : j = a := by
    rcases Nat.lt_trichotomy j a with hlt | heq | hgt
    · have := hjc a hlt ha
      omega
    · exact heq
    · exfalso
      have hlt := h.sorted_lt a _ hgt hj
      obtain ⟨hne, hent⟩ := h.sorted_entry _ hj
      have hne' : s.pointers (s.sortedPointers j).subPoolID ≠ 0 := by
        rw [hent]; exact hne
      have hij : i ≠ (s.sortedPointers j).subPoolID := by
        intro e
        rw [← e] at hent
        omega
      rcases g.buf_disj i _ hij hb hne' with hd | hd
      · rw [hent] at hd; omega
      · rw [hent] at hd
        have := Nat.le_add_right (s.sortedPointers j).pMemory
          (GetSubPoolSize (s.sortedPointers j).subPoolID *
            s._opt.elementSizeInBytes)
        omega
  subst hja
  exact ⟨j, hfind, ha, hai, hap⟩

/-- `FindSubPoolIDByPtrImpl` finds the sub-pool whose buffer holds the pointer. -/
theorem SortedOK.find_subpool (h : SortedOK s) (g : Geo s) {i p : Nat}
    (hb : s.pointers i ≠ 0)
    (h1 : s.pointers i ≤ p)
    (h2 : p < s.pointers i + GetSubPoolSize i * s._opt.elementSizeInBytes) :
    s.FindSubPoolIDByPtrImpl p = some i := by
  obtain ⟨j, hfind, _, hid, _⟩ := h.find_sorted g hb h1 h2
  unfold Pool.FindSubPoolIDByPtrImpl
  rw [hfind]
  simp only [hid]

end
end KoPool

set_option autoImplicit false
namespace KoPool
open Pool

/-- The loop of `InsertSortedPointer`: with the new entry `x` at position `idx` of the
window `[0, n]`, the other entries sorted and those after `idx` above `x`, the loop leaves
the window sorted and keeps its entries. -/
theorem insertLoop_spec (x : SortedPointer) (n : Nat) :
    ∀ (idx : Nat) (f : Nat → SortedPointer), idx ≤ n → f idx = x →
      (∀ a c, a < c → c ≤ n → a ≠ idx → c ≠ idx → (f a).pMemory < (f c).pMemory) →
      (∀ c, idx < c → c ≤ n → x.pMemory < (f c).pMemory) →
      (∀ a, a ≤ n → a ≠ idx → (f a).pMemory ≠ x.pMemory) →
      (∀ a c, a < c → c ≤ n → (insertLoop f idx a).pMemory < (insertLoop f idx c).pMemory) ∧
      (∀ a, a ≤ n → ∃ c, c ≤ n ∧ insertLoop f idx a = f c) ∧
      (∀ c, c ≤ n → ∃ a, a ≤ n ∧ insertLoop f idx a = f c) ∧
      (∀ a, n < a → insertLoop f idx a = f a) := by
  intro idx
  induction idx with
  | zero =>
    intro f _ hx hs hgt _
    have e : insertLoop f 0 = f := rfl
    rw [e]
    refine ⟨?_, fun a ha => ⟨a, ha, rfl⟩, fun c hc => ⟨c, hc, rfl⟩, fun a _ => rfl⟩
    intro a c hac hc
    rcases Nat.eq_zero_or_pos a with rfl | ha
    · rw [hx]; exact hgt c hac hc
    · exact hs a c hac hc (by omega) (by omega)
  | succ idx ih =>
    intro f hidx hx hs hgt hd
    have e : insertLoop f (idx + 1) = if (f idx).pMemory > (f (idx + 1)).pMemory then
        insertLoop (upd (upd f idx (f (idx + 1))) (idx + 1) (f idx)) idx else f := rfl
    rw [e]
    split_ifs with hcmp
    · rw [hx] at hcmp
      have key := ih (upd (upd f idx (f (idx + 1))) (idx + 1) (f idx)) (by omega)
        (by simp [upd, hx]) ?_ ?_ ?_
      · obtain ⟨k1, k2, k3, k4⟩ := key
        refine ⟨k1, ?_, ?_, ?_⟩
        · intro a ha
          obtain ⟨c, hc, e⟩ := k2 a ha
          rw [e]
          simp only [upd]
          split_ifs with e1 e2
          · exact ⟨idx, by omega, rfl⟩
          · exact ⟨idx + 1, by omega, rfl⟩
          · exact ⟨c, hc, rfl⟩
        · intro c hc
          by_cases e1 : c = idx + 1
          · obtain ⟨a, ha, e⟩ := k3 idx (by omega)
            refine ⟨a, ha, ?_⟩
            rw [e, e1]; simp [upd]
          · by_cases e2 : c = idx
            · obtain ⟨a, ha, e⟩ := k3 (idx + 1) (by omega)
              refine ⟨a, ha, ?_⟩
              rw [e, e2]; simp [upd]
            · obtain ⟨a, ha, e⟩ := k3 c hc
              refine ⟨a, ha, ?_⟩
              rw [e]; simp [upd, e1, e2]
        · intro a ha
          rw [k4 a ha]
          simp only [upd]
          rw [if_neg (by omega), if_neg (by omega)]
      · intro a c hac hc ha hc'
        simp only [upd]
        by_cases c1 : c = idx + 1
        · rw [if_pos c1, if_neg (by omega), if_neg ha]
          exact hs a idx (by omega) (by omega) (by omega) (by omega)
        · rw [if_neg c1, if_neg hc']
          by_cases a1 : a = idx + 1
          · rw [if_pos a1]
            exact hs idx c (by omega) hc (by omega) c1
          · rw [if_neg a1, if_neg ha]
            exact hs a c hac hc a1 c1
      · intro c hic hc
        simp only [upd]
        by_cases c1 : c = idx + 1
        · rw [if_pos c1]; exact hcmp
        · rw [if_neg c1, if_neg (by omega)]
          exact hgt c (by omega) hc
      · intro a ha hai
        simp only [upd]
        by_cases a1 : a = idx + 1
        · rw [if_pos a1]
          exact hd idx (by omega) (by omega)
        · rw [if_neg a1, if_neg hai]
          exact hd a ha a1
    · refine ⟨?_, fun a ha => ⟨a, ha, rfl⟩, fun c hc => ⟨c, hc, rfl⟩, fun a _ => rfl⟩
      rw [hx] at hcmp
      have hlt : (f idx).pMemory < x.pMemory := by
        have := hd idx (by omega) (by omega)
        omega
      intro a c hac hc
      by_cases c1 : c = idx + 1
      · rw [c1, hx]
        rcases Nat.eq_or_lt_of_le (show a ≤ idx by omega) with e | e
        · rw [e]; exact hlt
        · exact lt_trans (hs a idx e (by omega) (by omega) (by omega)) hlt
      · by_cases a1 : a = idx + 1
        · rw [a1, hx]
          exact hgt c (by omega) hc
        · exact hs a c hac hc a1 c1

end KoPool

set_option autoImplicit false
namespace KoPool
open Pool

/-- The loop of `RemoveSortedPointer` moves the entry at `idx` to the end of the window
`[0, n)` and shifts the entries after it one position down. -/
theorem removeLoop_spec (n : Nat) :
    ∀ (fuel : Nat) (f : Nat → SortedPointer) (idx : Nat), idx < n → n ≤ fuel + idx + 1 →
      (removeLoop n fuel f idx).2 = n - 1 ∧
      ∀ a, (removeLoop n fuel f idx).1 a =
        if a < idx then f a else if a < n - 1 then f (a + 1)
        else if a = n - 1 then f idx else f a := by
  intro fuel
  induction fuel with
  | zero =>
    intro f idx h1 h2
    have e : removeLoop n 0 f idx = (f, idx) := rfl
    rw [e]
    refine ⟨by simp only; omega, ?_⟩
    intro a
    simp only
    split_ifs with c1 c2 c3
    · rfl
    · omega
    · rw [c3]; congr 1; omega
    · rfl
  | succ fuel ih =>
    intro f idx h1 h2
    have e : removeLoop n (fuel + 1) f idx = if idx + 1 < n then
        removeLoop n fuel (upd (upd f idx (f (idx + 1))) (idx + 1) (f idx)) (idx + 1)
        else (f, idx) := rfl
    rw [e]
    split_ifs with hlt
    · obtain ⟨k1, k2⟩ := ih (upd (upd f idx (f (idx + 1))) (idx + 1) (f idx)) (idx + 1) hlt
        (by omega)
      refine ⟨k1, ?_⟩
      intro a
      rw [k2 a]
      simp only [upd]
      by_cases c1 : a < idx
      · rw [if_pos (by omega), if_neg (by omega), if_neg (by omega), if_pos c1]
      · rw [if_neg c1]
        by_cases c0 : a = idx
        · rw [if_pos (by omega), if_neg (by omega), if_pos c0, if_pos (by omega), c0]
        · rw [if_neg (by omega)]
          by_cases c2 : a < n - 1
          · rw [if_pos c2, if_pos c2, if_neg (by omega), if_neg (by omega)]
          · rw [if_neg c2, if_neg c2]
            by_cases c3 : a = n - 1
            · rw [if_pos c3, if_pos c3]; simp
            · rw [if_neg c3, if_neg c3, if_neg (by omega), if_neg c0]
    · refine ⟨by simp only; omega, ?_⟩
      intro a
      simp only
      split_ifs with c1 c2 c3
      · rfl
      · omega
      · rw [c3]; congr 1; omega
      · rfl

end KoPool

set_option autoImplicit false
namespace KoPool
open Pool

section
variable {s s' : Pool}

theorem footChain_InFoot {j : Nat} {rs : List Run} (hok : RunsOK (GetSubPoolSize j) rs)
    {a : Nat}
    (ha : a ∈ footChain (s.pointers j) s._opt.elementSizeInBytes (s.poolAddr j) rs) :
    InFoot s j a := by
  rcases mem_footChain rs _ a ha with h | ⟨r, hr, q, hq, h⟩
  · exact Or.inl h
  · have hb := hok.bound r hr
    exact Or.inr ⟨q, by rcases hq with rfl | rfl <;> omega, h⟩

/-- A sub-pool keeps its invariant when the words of its free list, its bitmap and its
counters are not changed. -/
theorem SubInv.frame {j : Nat} {rs : List Run} (h : SubInv s j rs)
    (hopt : s'._opt = s._opt) (htab : s'._pSubPools = s._pSubPools)
    (hptr : s'.pointers j = s.pointers j) (hbm : s'.bitmap j = s.bitmap j)
    (hnu : s'.numUsed j = s.numUsed j)
    (hmem : ∀ a, InFoot s j a → s'.mem a = s.mem a) : SubInv s' j rs := by
  have hpa : s'.poolAddr j = s.poolAddr j := by simp [Pool.poolAddr, htab]
  refine ⟨h.runs, ?_, ?_, ?_⟩
  · rw [hptr, hopt, hpa]
    exact Chain_congr rs _ (fun a ha => hmem a (footChain_InFoot h.runs ha)) h.chain
  · intro k hk
    rw [← h.bits k hk]
    simp [Pool.IsSkipListNodeByIDInSubPool, hbm]
  · rw [hnu]; exact h.used

theorem poolAddr_bounds (s : Pool) {j : Nat} (hj : j < ARRAY_LEN) :
    s._pSubPools ≤ s.poolAddr j ∧ s.poolAddr j + 24 ≤ s._pSubPools + SIZEOF_SUBPOOLS := by
  simp only [Pool.poolAddr, SIZEOF_POOL, SIZEOF_SUBPOOLS, ARRAY_LEN, DIGITS] at *
  omega

/-- The facts about an activated sub-pool that the list lemmas need. -/
theorem Geo.ctx (h : Geo s) {i : Nat} (hb : s.pointers i ≠ 0) : SubCtx s i := by
  have hi : i < ARRAY_LEN := by
    by_contra hc
    exact hb (h.ptr_hi i (by omega))
  refine ⟨hi, h.sz_ge, hb, h.buf_lt i hb, ?_⟩
  have := poolAddr_bounds s hi
  unfold SentOut
  rcases h.buf_table i hb with ht | ht
  · left; omega
  · right; omega

theorem InFoot_range {j a : Nat} (hsz : 16 ≤ s._opt.elementSizeInBytes)
    (h : ∃ q, q < GetSubPoolSize j ∧
      (a = slotAddr (s.pointers j) s._opt.elementSizeInBytes q ∨
       a = slotAddr (s.pointers j) s._opt.elementSizeInBytes q + 8)) :
    s.pointers j ≤ a ∧
    a + 8 ≤ s.pointers j + GetSubPoolSize j * s._opt.elementSizeInBytes := by
  obtain ⟨q, hq, ha⟩ := h
  have h1 := @slotAddr_lt_end (s.pointers j) (s._opt.elementSizeInBytes) _ _ hq
  have h2 := slotAddr_ge (s.pointers j) s._opt.elementSizeInBytes q
  rcases ha with rfl | rfl <;> omega

/-- The list words of two different activated sub-pools are different. -/
theorem Geo.foot_disj (h : Geo s) {i j : Nat} (hij : i ≠ j)
    (hi : s.pointers i ≠ 0) (hj : s.pointers j ≠ 0) {a : Nat} (ha : InFoot s j a) :
    ¬ InFoot s i a := by
  have ci := h.ctx hi
  have cj := h.ctx hj
  have pi := poolAddr_bounds s ci.hi
  have pj := poolAddr_bounds s cj.hi
  have hsz := h.sz_ge
  intro hai
  rcases ha with ha | ha
  · rcases hai with hai | hai
    · simp only [Pool.poolAddr, SIZEOF_POOL] at ha hai
      omega
    · have r := InFoot_range hsz hai
      rcases h.buf_table i hi with ht | ht <;> omega
  · have r := InFoot_range hsz ha
    rcases hai with hai | hai
    · rcases h.buf_table j hj with ht | ht <;> omega
    · have r' := InFoot_range hsz hai
      rcases h.buf_disj i j hij hi hj with hd | hd <;> omega

end
end KoPool

set_option autoImplicit false
namespace KoPool
open Pool

theorem not_InFoot {s : Pool} {i a : Nat} (h : ¬ InFoot s i a) :
    a ≠ s.poolAddr i + 8 ∧
    ∀ q, q < GetSubPoolSize i →
      a ≠ slotAddr (s.pointers i) s._opt.elementSizeInBytes q ∧
      a ≠ slotAddr (s.pointers i) s._opt.elementSizeInBytes q + 8 := by
  refine ⟨fun e => h (Or.inl e), fun q hq => ⟨fun e => h ?_, fun e => h ?_⟩⟩
  · exact Or.inr ⟨q, hq, Or.inl e⟩
  · exact Or.inr ⟨q, hq, Or.inr e⟩

theorem SubCtx.cap_lt {s : Pool} {i : Nat} (c : SubCtx s i) : GetSubPoolSize i < 2 ^ 64 := by
  have h1 := c.hlt
  have h2 := c.hsz
  have : GetSubPoolSize i * 1 ≤ GetSubPoolSize i * s._opt.elementSizeInBytes :=
    Nat.mul_le_mul_left _ (by omega)
  omega

section
variable {s : Pool} {i k : Nat} {rs : List Run}

/-- The state of `DeallocateBytesImpl` after the slot has been linked into the free list
and its free-bit has been set (line 237): the sub-pool is consistent with a list of runs
that covers the old free slots and the freed slot. -/
theorem dealloc_mark (c : SubCtx s i) (hs : SubInv s i rs) (hk : k < GetSubPoolSize i)
    (hfree : ¬ Covered rs k) (s2 t : Pool)
    (h2 : s2 = { s with numUsed := upd s.numUsed i (wsub (s.numUsed i) 1),
                        _vacantSubPools := s._vacantSubPools ||| shl1 i,
                        mem := s.deallocLink
                          (slotAddr (s.pointers i) s._opt.elementSizeInBytes k) i })
    (ht : t = s2.SetIsSkipListNode (slotAddr (s.pointers i) s._opt.elementSizeInBytes k) i
      true) :
    ∃ rs', SubInv t i rs' ∧ (∀ k', Covered rs' k' ↔ (Covered rs k' ∨ k' = k)) ∧
      t.numUsed i + 1 = s.numUsed i ∧
      (∀ a, ¬ InFoot s i a → t.mem a = s.mem a) ∧
      (∀ k' j, t.IsSkipListNodeByIDInSubPool k' j =
        if j = i ∧ k' = k then true else s.IsSkipListNodeByIDInSubPool k' j) := by
  obtain ⟨rs', hok', hch', hcov, hlen, hfr⟩ :=
    deallocLink_spec c hs.runs hs.chain hs.bits hk hfree
  have hle := hok'.runsLen_le
  have hu := hs.used
  have hcap := c.cap_lt
  have hnu : wsub (s.numUsed i) 1 = s.numUsed i - 1 := wsub_eq (by omega) (by omega)
  have c2 : SubCtx s2 i := by subst h2; exact c.congr_ctx rfl rfl rfl
  have hbits := SetIsSkipListNode_bits c2 hk true
  have e1 : s2.pointers = s.pointers := by subst h2; rfl
  have e2 : s2._opt = s._opt := by subst h2; rfl
  rw [e1, e2] at hbits
  have hbits' : ∀ k' j, s2.IsSkipListNodeByIDInSubPool k' j =
      s.IsSkipListNodeByIDInSubPool k' j := by
    intro k' j; subst h2; rfl
  simp only [hbits'] at hbits
  subst ht
  subst h2
  refine ⟨rs', ⟨hok', hch', ?_, ?_⟩, hcov, ?_, ?_, ?_⟩
  · intro k' hk'
    rw [hbits k' i, hcov k']
    by_cases e : k' = k
    · simp [e]
    · simp only [e, and_false, if_false, or_false]
      exact hs.bits k' hk'
  · show upd s.numUsed i (wsub (s.numUsed i) 1) i + runsLen rs' = GetSubPoolSize i
    rw [upd_same, hnu, hlen]; omega
  · show upd s.numUsed i (wsub (s.numUsed i) 1) i + 1 = s.numUsed i
    rw [upd_same, hnu]; omega
  · intro a ha
    obtain ⟨h1, h2⟩ := not_InFoot ha
    exact hfr a h1 h2
  · intro k' j
    exact hbits k' j

/-- With a non-empty free list, `IsSubPoolEmpty` passes its assertion and tells whether no
slot of the sub-pool is in use. -/
theorem IsSubPoolEmpty_spec (c : SubCtx s i) (hs : SubInv s i rs) (hne : rs ≠ []) :
    s.IsSubPoolEmpty i = some (decide (s.numUsed i = 0)) := by
  obtain ⟨r0, rest, rfl⟩ : ∃ r0 rest, rs = r0 :: rest := by
    cases rs with
    | nil => exact absurd rfl hne
    | cons r0 rest => exact ⟨r0, rest, rfl⟩
  have hch := hs.chain
  simp only [Chain] at hch
  obtain ⟨h1, _, h3, _, _⟩ := hch
  have hR := isRight_of_run c hs.runs hs.bits (List.mem_cons_self r0 rest)
  have hb := hs.runs.head
  have hu := hs.used
  have hcap := c.cap_ge
  have hszpos : 0 < s._opt.elementSizeInBytes := by have := c.hsz; omega
  have hlen : runsLen (r0 :: rest) = r0.2 + runsLen rest := rfl
  have hfull : s.numUsed i = 0 → r0.2 = GetSubPoolSize i := by
    intro h0
    have := hs.runs.full (by omega) (by omega)
    simp only [List.cons.injEq] at this
    rw [this.1]
  have hw : wmul (GetSubPoolSize i - 1) s._opt.elementSizeInBytes =
      (GetSubPoolSize i - 1) * s._opt.elementSizeInBytes :=
    wmul_eq (mul_sz_lt c (by omega))
  unfold Pool.IsSubPoolEmpty
  simp only [h1, hR, hw]
  by_cases h2 : 2 ≤ r0.2
  · rw [h3 h2]
    by_cases hc : r0.2 = GetSubPoolSize i
    · have h0 : s.numUsed i = 0 := by omega
      simp [hc, h0, hcap]
    · have hn0 : s.numUsed i ≠ 0 := fun h0 => hc (hfull h0)
      have hmul : ¬ (r0.2 - 1) * s._opt.elementSizeInBytes =
          (GetSubPoolSize i - 1) * s._opt.elementSizeInBytes := by
        intro e
        have := Nat.eq_of_mul_eq_mul_right hszpos e
        omega
      simp [h2, hmul, hn0]
  · have hn0 : s.numUsed i ≠ 0 := fun h0 => by
      have := hfull h0
      omega
    simp [h2, hn0]

end
end KoPool

set_option autoImplicit false
namespace KoPool
open Pool

theorem activeCount_of_lt {s s' : Pool} {j : Nat} {v : Nat}
    (hp : s'.pointers = upd s.pointers j v) :
    ∀ n, n ≤ j → activeCount s' n = activeCount s n := by
  intro n
  induction n with
  | zero => intro _; rfl
  | succ n ih =>
    intro hn
    have hnj : ¬ n = j := by omega
    simp only [activeCount, ih (by omega), hp, upd, hnj, if_false]

theorem activeCount_release {s s' : Pool} {j : Nat}
    (hp : s'.pointers = upd s.pointers j 0) (hj : s.pointers j ≠ 0) :
    ∀ n, j < n → activeCount s' n + 1 = activeCount s n := by
  intro n
  induction n with
  | zero => intro h; omega
  | succ n ih =>
    intro hn
    simp only [activeCount]
    rcases Nat.eq_or_lt_of_le (Nat.lt_succ_iff.1 hn) with e | e
    · subst e
      rw [activeCount_of_lt hp j (le_refl _), hp]
      simp [upd, hj]
    · have := ih e
      have hnj : ¬ n = j := by omega
      rw [hp]
      simp only [upd, hnj, if_false]
      omega

theorem activeCount_activate {s s' : Pool} {j v : Nat}
    (hp : s'.pointers = upd s.pointers j v) (hj : s.pointers j = 0) (hv : v ≠ 0) :
    ∀ n, j < n → activeCount s' n = activeCount s n + 1 := by
  intro n
  induction n with
  | zero => intro h; omega
  | succ n ih =>
    intro hn
    simp only [activeCount]
    rcases Nat.eq_or_lt_of_le (Nat.lt_succ_iff.1 hn) with e | e
    · subst e
      rw [activeCount_of_lt hp j (le_refl _), hp]
      simp [upd, hj, hv]
    · have := ih e
      have hnj : ¬ n = j := by omega
      rw [hp]
      simp only [upd, hnj, if_false]
      omega

section
variable {s : Pool}

/-- Two entries of the sorted index with the same sub-pool are the same entry. -/
theorem SortedOK.entry_inj (h : SortedOK s) {a c : Nat} (ha : a < s.sortedPointersSize)
    (hc : c < s.sortedPointersSize)
    (e : (s.sortedPointers a).subPoolID = (s.sortedPointers c).subPoolID) : a = c := by
  have h1 := (h.sorted_entry a ha).2
  have h2 := (h.sorted_entry c hc).2
  rw [e, h2] at h1
  rcases Nat.lt_trichotomy a c with hlt | heq | hgt
  · have := h.sorted_lt a c hlt hc; omega
  · exact heq
  · have := h.sorted_lt c a hgt ha; omega

/-- `RemoveSortedPointer` returns whatever state follows once its search has returned. -/
theorem RemoveSortedPointer_eq {j idx : Nat}
    (hf : s.FindSortedPointerIDByPtr (s.pointers j) = some idx) :
    s.RemoveSortedPointer j = some { s with
      sortedPointers :=
        upd (removeLoop s.sortedPointersSize s.sortedPointersSize s.sortedPointers idx).1
          (removeLoop s.sortedPointersSize s.sortedPointersSize s.sortedPointers idx).2 {},
      sortedPointersSize := wsub s.sortedPointersSize 1 } := by
  unfold Pool.RemoveSortedPointer
  rw [hf]

/-- `RemoveSortedPointer` changes the sorted index only. -/
theorem RemoveSortedPointer_frame {r : Pool} {j : Nat} (h : s.RemoveSortedPointer j = some r) :
    r = { s with sortedPointers := r.sortedPointers,
                 sortedPointersSize := r.sortedPointersSize } := by
  unfold Pool.RemoveSortedPointer at h
  split at h
  · cases h
  · cases h
    rfl

/-- `RemoveSortedPointer` on an activated sub-pool returns and changes the sorted index
only; followed by setting the data pointer of the sub-pool to null, it keeps the sorted
index consistent. -/
theorem SortedOK.remove (h : SortedOK s) (g : Geo s) {j : Nat} (hj : s.pointers j ≠ 0) :
    ∃ r, s.RemoveSortedPointer j = some r ∧
      r = { s with sortedPointers := r.sortedPointers,
                   sortedPointersSize := r.sortedPointersSize } ∧
      ∀ s' : Pool, s'.pointers = upd s.pointers j 0 →
        s'.sortedPointers = r.sortedPointers →
        s'.sortedPointersSize = r.sortedPointersSize → SortedOK s' := by
  have c := g.ctx hj
  have hcap := c.cap_ge
  have hszp := c.hsz
  have hpos : 0 < GetSubPoolSize j * s._opt.elementSizeInBytes := Nat.mul_pos (by omega) (by omega)
  obtain ⟨idx, hfind, hi0, hid, hpm⟩ := h.find_sorted g hj (le_refl _) (by omega)
  refine ⟨_, RemoveSortedPointer_eq hfind, rfl, ?_⟩
  intro s' hp hsp hsz
  have hn := h.sorted_le
  have hloop := removeLoop_spec s.sortedPointersSize s.sortedPointersSize s.sortedPointers
    idx hi0 (by omega)
  obtain ⟨l1, l2⟩ := hloop
  have hsize : s'.sortedPointersSize = s.sortedPointersSize - 1 := by
    rw [hsz]
    show wsub s.sortedPointersSize 1 = _
    exact wsub_eq (by omega) (by simp only [ARRAY_LEN, DIGITS] at hn; omega)
  have hval : ∀ a, s'.sortedPointers a =
      if a = s.sortedPointersSize - 1 then {}
      else if a < idx then s.sortedPointers a
      else if a < s.sortedPointersSize - 1 then s.sortedPointers (a + 1)
      else s.sortedPointers a := by
    intro a
    rw [hsp]
    show upd _ _ _ a = _
    rw [l1]
    simp only [upd]
    by_cases e : a = s.sortedPointersSize - 1
    · rw [if_pos e, if_pos e]
    · rw [if_neg e, if_neg e, l2 a, if_neg e]
  have hlow : ∀ a, a < s.sortedPointersSize - 1 →
      ∃ c, c < s.sortedPointersSize ∧ c ≠ idx ∧
        s'.sortedPointers a = s.sortedPointers c ∧
        (c = a ∨ c = a + 1) ∧ (a < idx ↔ c = a) := by
    intro a ha
    rw [hval a, if_neg (by omega)]
    by_cases e : a < idx
    · rw [if_pos e]
      exact ⟨a, by omega, by omega, rfl, Or.inl rfl, by simp [e]⟩
    · rw [if_neg e, if_pos ha]
      exact ⟨a + 1, by omega, by omega, rfl, Or.inr rfl, by simp [e]⟩
  refine ⟨?_, ?_, ?_, ?_, ?_⟩
  · rw [hsize, h.sorted_size]
    have := activeCount_release hp hj ARRAY_LEN c.hi
    omega
  · intro a c' hac hc'
    rw [hsize] at hc'
    obtain ⟨x, hx, _, ex, hxa, hxi⟩ := hlow a (by omega)
    obtain ⟨y, hy, _, ey, hya, hyi⟩ := hlow c' hc'
    rw [ex, ey]
    apply h.sorted_lt x y _ hy
    rcases hxa with rfl | rfl
    · omega
    · rcases hya with rfl | rfl
      · have := hxi.not.1 (by omega)
        have := hyi.2 rfl
        omega
      · omega
  · intro a ha
    rw [hsize] at ha
    obtain ⟨x, hx, hxne, ex, _, _⟩ := hlow a ha
    rw [ex]
    obtain ⟨e1, e2⟩ := h.sorted_entry x hx
    refine ⟨e1, ?_⟩
    rw [hp]
    simp only [upd]
    rw [if_neg, e2]
    intro e
    apply hxne
    exact h.entry_inj hx hi0 (by rw [e, hid])
  · intro i hi
    rw [hp] at hi
    simp only [upd] at hi
    have hij : i ≠ j := by
      intro e; rw [if_pos e] at hi; exact hi rfl
    rw [if_neg hij] at hi
    obtain ⟨a, ha, hai⟩ := h.sorted_all i hi
    have hane : a ≠ idx := by
      intro e; rw [e, hid] at hai; exact hij hai.symm
    rw [hsize]
    by_cases e : a < idx
    · refine ⟨a, by omega, ?_⟩
      rw [hval a, if_neg (by omega), if_pos e, hai]
    · refine ⟨a - 1, by omega, ?_⟩
      rw [hval (a - 1), if_neg (by omega), if_neg (by omega), if_pos (by omega)]
      rw [Nat.sub_add_cancel (by omega), hai]
  · intro a ha
    rw [hsize] at ha
    rw [hval a]
    by_cases e : a = s.sortedPointersSize - 1
    · rw [if_pos e]; exact ⟨rfl, rfl⟩
    · rw [if_neg e, if_neg (by omega), if_neg (by omega)]
      exact h.sorted_rest a (by omega)

end
end KoPool

set_option autoImplicit false
namespace KoPool
open Pool

section
variable {s s' : Pool}

theorem upd_zero_ne {f : Nat → Nat} {j i : Nat} (h : upd f j 0 i ≠ 0) :
    i ≠ j ∧ upd f j 0 i = f i ∧ f i ≠ 0 := by
  simp only [upd] at h ⊢
  by_cases e : i = j
  · rw [if_pos e] at h; exact absurd rfl h
  · rw [if_neg e] at h ⊢; exact ⟨e, rfl, h⟩

/-- Releasing a buffer keeps the geometry. -/
theorem Geo.release_geo (g : Geo s) {j : Nat} (hopt : s'._opt = s._opt)
    (htab : s'._pSubPools = s._pSubPools) (hp : s'.pointers = upd s.pointers j 0) :
    Geo s' := by
  refine ⟨?_, ?_, ?_, ?_, ?_, ?_, ?_⟩
  · rw [hopt]; exact g.sz_ge
  · intro h i
    rw [hp]; simp only [upd]
    split_ifs
    · rfl
    · exact g.no_table (htab ▸ h) i
  · rw [htab]; exact g.table_lt
  · intro i hi
    rw [hp]; simp only [upd]
    split_ifs
    · rfl
    · exact g.ptr_hi i hi
  · intro i hi
    rw [hp] at hi ⊢
    obtain ⟨_, e, h⟩ := upd_zero_ne hi
    rw [e, hopt]; exact g.buf_lt i h
  · intro i hi
    rw [hp] at hi ⊢
    obtain ⟨_, e, h⟩ := upd_zero_ne hi
    rw [e, hopt, htab]; exact g.buf_table i h
  · intro i k hik hi hk
    rw [hp] at hi hk ⊢
    obtain ⟨_, e, h⟩ := upd_zero_ne hi
    obtain ⟨_, e', h'⟩ := upd_zero_ne hk
    rw [e, e', hopt]; exact g.buf_disj i k hik h h'

/-- Releasing a sub-pool with no slot in use keeps the other sub-pools consistent. -/
theorem SubsOK.release_subs {runs : Nat → List Run} (h : SubsOK s runs) (g : Geo s) {j : Nat}
    (hj : s.pointers j ≠ 0) (hopt : s'._opt = s._opt) (htab : s'._pSubPools = s._pSubPools)
    (hp : s'.pointers = upd s.pointers j 0) (hbm : s'.bitmap = s.bitmap)
    (hnu : s'.numUsed = upd s.numUsed j 0)
    (hmem : s'.mem = upd s.mem (s.poolAddr j + 8) 0) : SubsOK s' runs := by
  constructor
  · intro i hi
    rw [hp] at hi
    obtain ⟨hij, _, hi'⟩ := upd_zero_ne hi
    apply (h.sub i hi').frame hopt htab
    · rw [hp]; simp [upd, hij]
    · rw [hbm]
    · rw [hnu]; simp [upd, hij]
    · intro a ha
      rw [hmem]
      apply upd_other
      intro e
      exact g.foot_disj (Ne.symm hij) hj hi' ha (Or.inl e)
  · intro i hi
    rw [hnu]
    simp only [upd]
    split_ifs with e
    · rfl
    · rw [hp] at hi
      simp only [upd, e, if_false] at hi
      exact h.unused i hi

/-- `RemoveSortedPointer` and `DeallocateSubPoolMemory` on an activated sub-pool with no
slot in use succeed. -/
theorem release_spec {runs : Nat → List Run} (g : Geo s) (x : SortedOK s)
    (h : SubsOK s runs) {j : Nat} (hj : s.pointers j ≠ 0) (hnu : s.numUsed j = 0) :
    ∃ r t, s.RemoveSortedPointer j = some r ∧ r.DeallocateSubPoolMemory j = some t ∧
      Geo t ∧ SortedOK t ∧ SubsOK t runs ∧
      t.pointers = upd s.pointers j 0 ∧ t.poolsPrev = upd s.poolsPrev j 0 ∧
      t.numUsed = s.numUsed ∧
      t._opt = s._opt ∧ t._pSubPools = s._pSubPools ∧ t.bitmap = s.bitmap ∧
      t._vacantSubPools = s._vacantSubPools ∧
      t._subPoolsWhichHaveAtLeastOneElement = s._subPoolsWhichHaveAtLeastOneElement ∧
      t._subPoolToDeallocate = s._subPoolToDeallocate := by
  have c := g.ctx hj
  obtain ⟨r, hr, hre, hso⟩ := x.remove g hj
  have f1 : r.numUsed = s.numUsed := by rw [hre]
  have f2 : r.pointers = s.pointers := by rw [hre]
  have f3 : r.poolsPrev = s.poolsPrev := by rw [hre]
  have f4 : r.mem = s.mem := by rw [hre]
  have f5 : r._opt = s._opt := by rw [hre]
  have f6 : r._pSubPools = s._pSubPools := by rw [hre]
  have f7 : r.bitmap = s.bitmap := by rw [hre]
  have f8 : r._vacantSubPools = s._vacantSubPools := by rw [hre]
  have f9 : r._subPoolsWhichHaveAtLeastOneElement = s._subPoolsWhichHaveAtLeastOneElement := by
    rw [hre]
  have f10 : r._subPoolToDeallocate = s._subPoolToDeallocate := by
    rw [hre]
  have f11 : r.poolAddr j = s.poolAddr j := by
    unfold Pool.poolAddr
    rw [f6]
  have hnum : r.numUsed j = 0 := by rw [f1]; exact hnu
  have hd : r.DeallocateSubPoolMemory j = some { r with
      pointers := upd r.pointers j 0, poolsPrev := upd r.poolsPrev j 0,
      mem := upd r.mem (r.poolAddr j + 8) 0, numUsed := upd r.numUsed j 0 } := by
    unfold Pool.DeallocateSubPoolMemory
    simp only [c.hi, not_true_eq_false, if_false, hnum, ne_eq]
  refine ⟨r, _, hr, hd, ?_, ?_, ?_, ?_, ?_, ?_, f5, f6, f7, f8, f9, f10⟩
  · exact g.release_geo f5 f6 (by show upd r.pointers j 0 = _; rw [f2])
  · exact hso _ (by show upd r.pointers j 0 = _; rw [f2]) rfl rfl
  · exact h.release_subs g hj f5 f6 (by show upd r.pointers j 0 = _; rw [f2]) f7
      (by show upd r.numUsed j 0 = _; rw [f1])
      (by show upd r.mem (r.poolAddr j + 8) 0 = _; rw [f4, f11])
  · show upd r.pointers j 0 = _; rw [f2]
  · show upd r.poolsPrev j 0 = _; rw [f3]
  · show upd r.numUsed j 0 = s.numUsed
    rw [f1]
    funext i
    simp only [upd]
    split_ifs with e
    · rw [e, hnu]
    · rfl

end
end KoPool

set_option autoImplicit false
namespace KoPool
open Pool

section
variable {s s' : Pool}

theorem Geo.congr_geo (g : Geo s) (hopt : s'._opt = s._opt) (htab : s'._pSubPools = s._pSubPools)
    (hp : s'.pointers = s.pointers) : Geo s' := by
  refine ⟨?_, ?_, ?_, ?_, ?_, ?_, ?_⟩
  · rw [hopt]; exact g.sz_ge
  · rw [htab, hp]; exact g.no_table
  · rw [htab]; exact g.table_lt
  · rw [hp]; exact g.ptr_hi
  · rw [hp, hopt]; exact g.buf_lt
  · rw [hp, hopt, htab]; exact g.buf_table
  · rw [hp, hopt]; exact g.buf_disj

theorem activeCount_congr (hp : s'.pointers = s.pointers) (n : Nat) :
    activeCount s' n = activeCount s n := by
  induction n with
  | zero => rfl
  | succ n ih => simp only [activeCount, ih, hp]

theorem SortedOK.congr_sorted (x : SortedOK s) (hp : s'.pointers = s.pointers)
    (hsp : s'.sortedPointers = s.sortedPointers)
    (hsz : s'.sortedPointersSize = s.sortedPointersSize) : SortedOK s' := by
  refine ⟨?_, ?_, ?_, ?_, ?_⟩
  · rw [hsz, activeCount_congr hp]; exact x.sorted_size
  · rw [hsz, hsp]; exact x.sorted_lt
  · rw [hsz, hsp, hp]; exact x.sorted_entry
  · rw [hsz, hsp, hp]; exact x.sorted_all
  · rw [hsz, hsp]; exact x.sorted_rest

/-- A slot address determines the sub-pool and the slot. -/
theorem Geo.slot_unique (g : Geo s) {i j k k' : Nat} (hi : s.pointers i ≠ 0)
    (hj : s.pointers j ≠ 0) (hk : k < GetSubPoolSize i) (hk' : k' < GetSubPoolSize j)
    (e : slotAddr (s.pointers i) s._opt.elementSizeInBytes k =
      slotAddr (s.pointers j) s._opt.elementSizeInBytes k') : i = j ∧ k = k' := by
  have hsz := g.sz_ge
  by_cases hij : i = j
  · subst hij
    exact ⟨rfl, (slotAddr_inj hsz).1 e⟩
  · exfalso
    have r1 := InFoot_range (s := s) (j := i) hsz ⟨k, hk, Or.inl rfl⟩
    have r2 := InFoot_range (s := s) (j := j) hsz ⟨k', hk', Or.inl rfl⟩
    rcases g.buf_disj i j hij hi hj with hd | hd <;> omega

theorem LiveAt.unique (g : Geo s) {i j k k' p : Nat} (h1 : LiveAt s i k p)
    (h2 : LiveAt s j k' p) : i = j ∧ k = k' := by
  obtain ⟨a1, a2, a3, _⟩ := h1
  obtain ⟨b1, b2, b3, _⟩ := h2
  exact g.slot_unique a1 b1 a2 b2 (a3 ▸ b3)

theorem LiveAt.ne_zero {i k p : Nat} (h : LiveAt s i k p) : p ≠ 0 := by
  obtain ⟨a1, _, a3, _⟩ := h
  have := slotAddr_ge (s.pointers i) s._opt.elementSizeInBytes k
  omega

theorem LiveAt.inside {i k p : Nat} (hsz : 16 ≤ s._opt.elementSizeInBytes)
    (h : LiveAt s i k p) :
    s.pointers i ≤ p ∧
    p + 16 ≤ s.pointers i + GetSubPoolSize i * s._opt.elementSizeInBytes := by
  obtain ⟨_, a2, a3, _⟩ := h
  have h1 := slotAddr_ge (s.pointers i) s._opt.elementSizeInBytes k
  have h2 := @slotAddr_lt_end (s.pointers i) (s._opt.elementSizeInBytes) _ _ a2
  subst a3
  exact ⟨h1, by omega⟩

end
end KoPool

set_option autoImplicit false
namespace KoPool
open Pool

section
variable {s : Pool} {runs : Nat → List Run} {live : List Nat}

theorem LiveAt.not_covered (h : SubsOK s runs) {i k p : Nat} (hl : LiveAt s i k p) :
    ¬ Covered (runs i) k := by
  obtain ⟨a1, a2, _, a4⟩ := hl
  intro hc
  have := ((h.sub i a1).bits k a2).2 hc
  rw [a4] at this
  exact Bool.false_ne_true this

/-- The state of `DeallocateBytesImpl` after line 237, for a live pointer: geometry, sorted
index and sub-pools are consistent, and the pointer has left the live set. -/
theorem dealloc_groups (h : Inv s runs live) {i k p : Nat} (hl : LiveAt s i k p)
    (s2 t : Pool)
    (h2 : s2 = { s with numUsed := upd s.numUsed i (wsub (s.numUsed i) 1),
                        _vacantSubPools := s._vacantSubPools ||| shl1 i,
                        mem := s.deallocLink p i })
    (ht : t = s2.SetIsSkipListNode p i true) :
    ∃ rs', rs' ≠ [] ∧ RunsOK (GetSubPoolSize i) rs' ∧
      (∀ k', Covered rs' k' ↔ (Covered (runs i) k' ∨ k' = k)) ∧
      Geo t ∧ SortedOK t ∧ SubsOK t (upd runs i rs') ∧ LiveOK t (live.erase p) ∧
      t.numUsed i + 1 = s.numUsed i ∧ (∀ j, j ≠ i → t.numUsed j = s.numUsed j) := by
  have hl' := hl
  obtain ⟨hb, hk, hp, hbit⟩ := hl'
  have c := h.toGeo.ctx hb
  have hfree := hl.not_covered h.toSubsOK
  subst hp
  obtain ⟨rs', hsub, hcov, hnu, hfr, hbits⟩ := dealloc_mark c (h.sub i hb) hk hfree s2 t h2 ht
  have e_opt : t._opt = s._opt := by subst ht; subst h2; rfl
  have e_tab : t._pSubPools = s._pSubPools := by subst ht; subst h2; rfl
  have e_ptr : t.pointers = s.pointers := by subst ht; subst h2; rfl
  have e_sp : t.sortedPointers = s.sortedPointers := by subst ht; subst h2; rfl
  have e_sz : t.sortedPointersSize = s.sortedPointersSize := by subst ht; subst h2; rfl
  have e_nu : ∀ j, j ≠ i → t.numUsed j = s.numUsed j := by
    intro j hj; subst ht; subst h2
    show upd s.numUsed i _ j = _
    exact upd_other _ _ hj
  have e_bm : ∀ j, j ≠ i → t.bitmap j = s.bitmap j := by
    intro j hj; subst ht; subst h2
    show upd s.bitmap i _ j = _
    exact upd_other _ _ hj
  have hne : rs' ≠ [] := by
    intro e
    have := (hcov k).2 (Or.inr rfl)
    rw [e] at this
    exact Covered_nil this
  refine ⟨rs', hne, hsub.runs, hcov, h.toGeo.congr_geo e_opt e_tab e_ptr,
    h.toSortedOK.congr_sorted e_ptr e_sp e_sz, ⟨?_, ?_⟩, ⟨?_, ?_⟩, hnu, e_nu⟩
  · intro j hj
    rw [e_ptr] at hj
    by_cases hji : j = i
    · subst hji
      rw [upd_same]; exact hsub
    · rw [upd_other _ _ hji]
      apply (h.sub j hj).frame e_opt e_tab (by rw [e_ptr]) (e_bm j hji) (e_nu j hji)
      intro a ha
      exact hfr a (h.toGeo.foot_disj (Ne.symm hji) hb hj ha)
  · intro j hj
    rw [e_ptr] at hj
    have hji : j ≠ i := fun e => hb (e ▸ hj)
    rw [e_nu j hji]; exact h.unused j hj
  · intro q
    have hlive : ∀ j k', LiveAt t j k' q ↔ (LiveAt s j k' q ∧ ¬ (j = i ∧ k' = k)) := by
      intro j k'
      unfold LiveAt
      rw [e_ptr, e_opt, hbits k' j]
      by_cases e : j = i ∧ k' = k
      · simp [e]
      · simp [e]
    rw [List.Nodup.mem_erase_iff h.live_nodup, h.live_iff q]
    constructor
    · rintro ⟨hq, j, k', hjk⟩
      refine ⟨j, k', (hlive j k').2 ⟨hjk, ?_⟩⟩
      rintro ⟨rfl, rfl⟩
      exact hq (hjk.2.2.1)
    · rintro ⟨j, k', hjk⟩
      obtain ⟨h1, h2'⟩ := (hlive j k').1 hjk
      refine ⟨?_, j, k', h1⟩
      intro e
      subst e
      exact h2' (LiveAt.unique h.toGeo h1 hl)
  · exact h.live_nodup.erase _

end
end KoPool

set_option autoImplicit false
namespace KoPool
open Pool

section
variable {s s' : Pool} {runs : Nat → List Run} {live : List Nat}

theorem SubsOK.congr_subs (h : SubsOK s runs) (hopt : s'._opt = s._opt)
    (htab : s'._pSubPools = s._pSubPools) (hp : s'.pointers = s.pointers)
    (hbm : s'.bitmap = s.bitmap) (hnu : s'.numUsed = s.numUsed) (hmem : s'.mem = s.mem) :
    SubsOK s' runs := by
  constructor
  · intro i hi
    rw [hp] at hi
    exact (h.sub i hi).frame hopt htab (by rw [hp]) (by rw [hbm]) (by rw [hnu])
      (fun a _ => by rw [hmem])
  · intro i hi
    rw [hp] at hi
    rw [hnu]; exact h.unused i hi

theorem LiveAt.congr_at (hopt : s'._opt = s._opt) (hp : s'.pointers = s.pointers)
    (hbm : s'.bitmap = s.bitmap) (i k p : Nat) : LiveAt s' i k p ↔ LiveAt s i k p := by
  unfold LiveAt Pool.IsSkipListNodeByIDInSubPool
  rw [hopt, hp, hbm]

theorem LiveOK.congr_live (h : LiveOK s live) (hopt : s'._opt = s._opt)
    (hp : s'.pointers = s.pointers) (hbm : s'.bitmap = s.bitmap) : LiveOK s' live := by
  refine ⟨fun p => ?_, h.live_nodup⟩
  rw [h.live_iff p]
  simp only [LiveAt.congr_at hopt hp hbm]

/-- A sub-pool with no slot in use has no live slot. -/
theorem SubInv.no_live {j : Nat} {rs : List Run} (h : SubInv s j rs) (hnu : s.numUsed j = 0)
    {k p : Nat} : ¬ LiveAt s j k p := by
  rintro ⟨_, a2, _, a4⟩
  have hu := h.used
  have hall : ¬ ∃ k, k < GetSubPoolSize j ∧ ¬ Covered rs k := by
    rw [h.runs.exists_uncovered_iff]; omega
  apply hall
  refine ⟨k, a2, fun hc => ?_⟩
  have := (h.bits k a2).2 hc
  rw [a4] at this
  exact Bool.false_ne_true this

/-- A sub-pool with a slot in use has a live slot. -/
theorem SubInv.exists_live {j : Nat} {rs : List Run} (h : SubInv s j rs) (hb : s.pointers j ≠ 0)
    (hnu : 0 < s.numUsed j) :
    ∃ k, LiveAt s j k (slotAddr (s.pointers j) s._opt.elementSizeInBytes k) := by
  have hu := h.used
  obtain ⟨k, hk, hn⟩ := h.runs.exists_uncovered_iff.2 (by omega)
  exact ⟨k, hb, hk, rfl, not_free_of_not_covered h.bits hk hn⟩

/-- Releasing a sub-pool with no slot in use keeps the live set. -/
theorem LiveOK.release_live (h : LiveOK s live) (hs : SubsOK s runs) {j : Nat}
    (hj : s.pointers j ≠ 0) (hnu : s.numUsed j = 0) (hopt : s'._opt = s._opt)
    (hp : s'.pointers = upd s.pointers j 0) (hbm : s'.bitmap = s.bitmap) :
    LiveOK s' live := by
  refine ⟨fun p => ?_, h.live_nodup⟩
  rw [h.live_iff p]
  have key : ∀ i k, LiveAt s' i k p ↔ LiveAt s i k p := by
    intro i k
    by_cases hij : i = j
    · subst hij
      constructor
      · rintro ⟨a1, _⟩
        rw [hp, upd_same] at a1
        exact absurd rfl a1
      · intro hl
        exact absurd hl ((hs.sub i hj).no_live hnu)
    · unfold LiveAt Pool.IsSkipListNodeByIDInSubPool
      rw [hopt, hp, hbm, upd_other _ _ hij]
  simp only [key]

end
end KoPool

set_option autoImplicit false
namespace KoPool
open Pool

section
variable {s s' : Pool} {runs : Nat → List Run} {live : List Nat}

/-- A deferred sub-pool has a non-empty free list. -/
theorem SubInv.runs_ne_nil {j : Nat} {rs : List Run} (h : SubInv s j rs) (c : SubCtx s j)
    (hnu : s.numUsed j = 0) : rs ≠ [] := by
  intro e
  have hu := h.used
  have := c.cap_ge
  rw [e, hnu] at hu
  simp only [runsLen] at hu
  omega

theorem Inv.nonempty_hi (h : Inv s runs live) {j : Nat} (hj : 64 ≤ j) :
    s._subPoolsWhichHaveAtLeastOneElement.testBit j = false := by
  cases hv : s._subPoolsWhichHaveAtLeastOneElement.testBit j
  · rfl
  · have := ((h.nonempty j).1 hv).1
    exact absurd (h.ptr_hi j (by simp only [ARRAY_LEN, DIGITS]; omega)) this

/-- The masks after `DeallocateBytesImpl`, from the policy of its `defer` block. -/
theorem masks_dealloc (h : Inv s runs live) {i : Nat} {rs' : List Run}
    (hb : s.pointers i ≠ 0) (hone : 1 ≤ s.numUsed i) (hrs : rs' ≠ [])
    (hvac : s'._vacantSubPools = s._vacantSubPools ||| shl1 i)
    (hnu : s'.numUsed = upd s.numUsed i (s.numUsed i - 1))
    (hpol : DeallocPolicy s s' i) : MasksOK s' (upd runs i rs') := by
  have c := h.toGeo.ctx hb
  have hi64 : i < 64 := by have := c.hi; simp only [ARRAY_LEN, DIGITS] at this; omega
  have hdi : s._subPoolToDeallocate ≠ i := by
    intro e
    rcases h.deferred with hd | hd
    · rw [e] at hd; simp only [SUB_POOL_ID_NONE, SUBPOOLS_CNT, DIGITS] at hd; omega
    · rw [e] at hd; omega
  have hdrel : s._subPoolToDeallocate ≠ SUB_POOL_ID_NONE →
      s.pointers s._subPoolToDeallocate ≠ 0 ∧ s.numUsed s._subPoolToDeallocate = 0 ∧
      runs s._subPoolToDeallocate ≠ [] := by
    intro hd
    rcases h.deferred with hd' | hd'
    · exact absurd hd' hd
    · exact ⟨hd'.1, hd'.2, (h.sub _ hd'.1).runs_ne_nil (h.toGeo.ctx hd'.1) hd'.2⟩
  have hnone : ∀ j, s.pointers j ≠ 0 → j ≠ SUB_POOL_ID_NONE := by
    intro j hj e
    have := (h.toGeo.ctx hj).hi
    rw [e] at this
    simp only [SUB_POOL_ID_NONE, SUBPOOLS_CNT, ARRAY_LEN, DIGITS] at this
    omega
  have hvbit : ∀ j, s'._vacantSubPools.testBit j =
      (s._vacantSubPools.testBit j || decide (j = i)) := by
    intro j; rw [hvac, testBit_or_shl1 _ _ _ hi64]
  have hnuj : ∀ j, s'.numUsed j = if j = i then s.numUsed i - 1 else s.numUsed j := by
    intro j; rw [hnu]; rfl
  refine ⟨?_, ?_, ?_, ?_, ?_⟩
  · rw [hvac]
    exact or_lt_of_lt h.vacant_lt (shl1_lt i)
  · intro j hj
    rw [hvbit j]
    by_cases hji : j = i
    · subst hji
      simp [upd_same, hrs]
    · rw [upd_other _ _ hji]
      simp only [hji, decide_False, Bool.or_false]
      rw [h.vacant j hj]
      rcases hpol with ⟨_, hp, _, _, _⟩ | ⟨_, _, ⟨_, hp, _, _⟩ | ⟨hd, _, hp, _, _⟩ | ⟨_, _, hp, _, _⟩⟩
      · rw [hp]
      · rw [hp]
      · rw [hp]
        by_cases hjd : j = s._subPoolToDeallocate
        · have := (hdrel hd).2.2
          rw [hjd]
          simp [this]
        · rw [upd_other _ _ hjd]
      · rw [hp, upd_other _ _ hji]
  · intro j
    rw [hnuj j]
    rcases hpol with ⟨h1, hp, _, hm, _⟩ | ⟨h1, hm, hp⟩
    · rw [hm, hp, h.nonempty j]
      by_cases hji : j = i
      · subst hji; simp [hb]; omega
      · simp [hji]
    · have hbit : (s._subPoolsWhichHaveAtLeastOneElement &&& bnot (shl1 i)).testBit j =
          (s._subPoolsWhichHaveAtLeastOneElement.testBit j && !decide (j = i)) := by
        by_cases hj : j < 64
        · exact testBit_and_bnot_shl1 _ _ _ hi64 hj
        · rw [Nat.testBit_and, h.nonempty_hi (by omega)]; simp
      rw [hm, hbit]
      by_cases hji : j = i
      · subst hji; simp [h1]
      · simp only [hji, decide_False, Bool.not_false, Bool.and_true, if_false]
        rw [h.nonempty j]
        rcases hp with ⟨_, hp, _, _⟩ | ⟨hd, _, hp, _, _⟩ | ⟨_, _, hp, _, _⟩
        · rw [hp]
        · rw [hp]
          by_cases hjd : j = s._subPoolToDeallocate
          · have := (hdrel hd).2.1
            rw [hjd]; simp [this]
          · rw [upd_other _ _ hjd]
        · rw [hp, upd_other _ _ hji]
  · rcases hpol with ⟨h1, hp, _, _, hd⟩ | ⟨h1, _, ⟨hd0, hp, _, hd⟩ | ⟨hd0, hlt, hp, _, hd⟩ | ⟨hd0, hlt, hp, _, hd⟩⟩
    · rw [hd, hp, hnuj, if_neg hdi]
      exact h.deferred
    · right
      rw [hd, hp, hnuj, if_pos rfl]
      exact ⟨hb, by omega⟩
    · right
      rw [hd, hp, hnuj, if_pos rfl, upd_other _ _ (Ne.symm hdi)]
      exact ⟨hb, by omega⟩
    · right
      rw [hd, hp, hnuj, if_neg hdi, upd_other _ _ hdi]
      exact ⟨(hdrel hd0).1, (hdrel hd0).2.1⟩
  · intro j hj
    rw [hnuj j]
    rcases hpol with ⟨h1, hp, _, _, hd⟩ | ⟨h1, _, ⟨hd0, hp, _, hd⟩ | ⟨hd0, hlt, hp, _, hd⟩ | ⟨hd0, hlt, hp, _, hd⟩⟩
    · rw [hp] at hj
      rw [hd]
      by_cases hji : j = i
      · left; rw [if_pos hji]; omega
      · rw [if_neg hji]; exact h.active j hj
    · rw [hp] at hj
      rw [hd]
      by_cases hji : j = i
      · right; exact hji
      · left
        rw [if_neg hji]
        rcases h.active j hj with ha | ha
        · exact ha
        · exact absurd (ha.symm ▸ hd0) (hnone j hj)
    · rw [hp] at hj
      obtain ⟨hjd, _, hj'⟩ := upd_zero_ne hj
      rw [hd]
      by_cases hji : j = i
      · right; exact hji
      · left
        rw [if_neg hji]
        rcases h.active j hj' with ha | ha
        · exact ha
        · exact absurd ha hjd
    · rw [hp] at hj
      obtain ⟨hji, _, hj'⟩ := upd_zero_ne hj
      rw [hd, if_neg hji]
      exact h.active j hj'

end
end KoPool

set_option autoImplicit false
namespace KoPool
open Pool

section
variable {s : Pool} {runs : Nat → List Run} {live : List Nat}

set_option maxHeartbeats 1000000 in
/-- The `defer` block of `DeallocateBytesImpl` after the slot has been linked: it succeeds,
follows the release policy and re-establishes the invariant. -/
theorem deallocDefer_inv (h : Inv s runs live) {i k p : Nat} (hl : LiveAt s i k p)
    (s2 : Pool)
    (h2 : s2 = { s with numUsed := upd s.numUsed i (wsub (s.numUsed i) 1),
                        _vacantSubPools := s._vacantSubPools ||| shl1 i,
                        mem := s.deallocLink p i }) :
    ∃ s' rs', s2.deallocDefer p i = some s' ∧
      RunsOK (GetSubPoolSize i) rs' ∧
      (∀ k', Covered rs' k' ↔ (Covered (runs i) k' ∨ k' = k)) ∧
      Inv s' (upd runs i rs') (live.erase p) ∧ DeallocPolicy s s' i ∧
      s'.numUsed = upd s.numUsed i (s.numUsed i - 1) := by
  obtain ⟨rs', hne, hok', hcov, gT, xT, sT, lT, hnuT, hnuO⟩ :=
    dealloc_groups h hl s2 (s2.SetIsSkipListNode p i true) h2 rfl
  have hb := hl.1
  have c := h.toGeo.ctx hb
  have e_opt : (s2.SetIsSkipListNode p i true)._opt = s._opt := by subst h2; rfl
  have e_tab : (s2.SetIsSkipListNode p i true)._pSubPools = s._pSubPools := by subst h2; rfl
  have e_ptr : (s2.SetIsSkipListNode p i true).pointers = s.pointers := by subst h2; rfl
  have e_pp : (s2.SetIsSkipListNode p i true).poolsPrev = s.poolsPrev := by subst h2; rfl
  have e_vac : (s2.SetIsSkipListNode p i true)._vacantSubPools =
      s._vacantSubPools ||| shl1 i := by subst h2; rfl
  have e_ne : (s2.SetIsSkipListNode p i true)._subPoolsWhichHaveAtLeastOneElement =
      s._subPoolsWhichHaveAtLeastOneElement := by subst h2; rfl
  have e_def : (s2.SetIsSkipListNode p i true)._subPoolToDeallocate =
      s._subPoolToDeallocate := by subst h2; rfl
  have e_nu : (s2.SetIsSkipListNode p i true).numUsed = upd s.numUsed i (s.numUsed i - 1) := by
    funext j
    by_cases hj : j = i
    · subst hj; rw [upd_same]; omega
    · rw [hnuO j hj, upd_other _ _ hj]
  have cT : SubCtx (s2.SetIsSkipListNode p i true) i := c.congr_ctx e_opt e_ptr e_tab
  have hsubT := sT.sub i (by rw [e_ptr]; exact hb)
  rw [upd_same] at hsubT
  have hemp := IsSubPoolEmpty_spec cT hsubT hne
  have hone : 1 ≤ s.numUsed i := by omega
  unfold Pool.deallocDefer
  simp only [hemp]
  generalize ht : s2.SetIsSkipListNode p i true = t at *
  by_cases h0 : t.numUsed i = 0
  · -- the sub-pool became empty
    have h1 : s.numUsed i = 1 := by omega
    simp only [h0, decide_True]
    by_cases hd : s._subPoolToDeallocate = SUB_POOL_ID_NONE
    · have hdT : t._subPoolToDeallocate = SUB_POOL_ID_NONE := by rw [e_def]; exact hd
      simp only [hdT, if_true]
      have hpol : DeallocPolicy s
          ({ t with
              _subPoolsWhichHaveAtLeastOneElement :=
                t._subPoolsWhichHaveAtLeastOneElement &&& bnot (shl1 i),
              _subPoolToDeallocate := i } : Pool) i :=
        Or.inr ⟨h1, by rw [← e_ne], Or.inl ⟨hd, e_ptr, e_pp, rfl⟩⟩
      exact ⟨_, rs', rfl, hok', hcov,
        ⟨gT.congr_geo rfl rfl rfl, sT.congr_subs rfl rfl rfl rfl rfl rfl, xT.congr_sorted rfl rfl rfl,
          masks_dealloc h hb hone hne e_vac e_nu hpol, lT.congr_live rfl rfl rfl⟩, hpol, e_nu⟩
    · have hdrel : s.pointers s._subPoolToDeallocate ≠ 0 ∧
          s.numUsed s._subPoolToDeallocate = 0 := by
        rcases h.deferred with hd' | hd'
        · exact absurd hd' hd
        · exact hd'
      have hdi : s._subPoolToDeallocate ≠ i := by
        intro e; rw [e] at hdrel; omega
      have hdT : ¬ t._subPoolToDeallocate = SUB_POOL_ID_NONE := by rw [e_def]; exact hd
      simp only [hdT, if_false]
      by_cases hlt : i < s._subPoolToDeallocate
      · have hltT : i < t._subPoolToDeallocate := by rw [e_def]; exact hlt
        simp only [hltT, if_true]
        obtain ⟨r3, t3, hrm, hrel, g3, x3, s3, p3, pp3, n3, o3, tb3, b3, v3, m3, d3⟩ :=
          @release_spec
            ({ t with
              _subPoolsWhichHaveAtLeastOneElement :=
                t._subPoolsWhichHaveAtLeastOneElement &&& bnot (shl1 i) } : Pool)
            (upd runs i rs')
            (gT.congr_geo rfl rfl rfl) (xT.congr_sorted rfl rfl rfl) (sT.congr_subs rfl rfl rfl rfl rfl rfl)
            t._subPoolToDeallocate
            (by show t.pointers _ ≠ 0; rw [e_ptr, e_def]; exact hdrel.1)
            (by show t.numUsed _ = 0; rw [e_def, hnuO _ hdi]; exact hdrel.2)
        rw [hrm]
        simp only
        rw [hrel]
        have p3' : t3.pointers = upd s.pointers s._subPoolToDeallocate 0 := by
          rw [p3]; show upd t.pointers _ _ = _; rw [e_ptr, e_def]
        have pp3' : t3.poolsPrev = upd s.poolsPrev s._subPoolToDeallocate 0 := by
          rw [pp3]; show upd t.poolsPrev _ _ = _; rw [e_pp, e_def]
        have n3' : t3.numUsed = upd s.numUsed i (s.numUsed i - 1) := by
          rw [n3]; exact e_nu
        have hpol : DeallocPolicy s ({ t3 with _subPoolToDeallocate := i } : Pool) i :=
          Or.inr ⟨h1, by rw [← e_ne]; exact m3, Or.inr (Or.inl ⟨hd, hlt, p3', pp3', rfl⟩)⟩
        have hL : LiveOK t3 (live.erase p) :=
          @LiveOK.release_live _ t3 _ _ lT sT t._subPoolToDeallocate
            (by rw [e_ptr, e_def]; exact hdrel.1) (by rw [e_def, hnuO _ hdi]; exact hdrel.2)
            o3 p3 b3
        exact ⟨_, rs', rfl, hok', hcov,
          ⟨g3.congr_geo rfl rfl rfl, s3.congr_subs rfl rfl rfl rfl rfl rfl, x3.congr_sorted rfl rfl rfl,
            masks_dealloc h hb hone hne (by show t3._vacantSubPools = _; rw [v3]; exact e_vac)
              n3' hpol, hL.congr_live rfl rfl rfl⟩, hpol, n3'⟩
      · have hltT : ¬ i < t._subPoolToDeallocate := by rw [e_def]; exact hlt
        simp only [hltT, if_false]
        obtain ⟨r3, t3, hrm, hrel, g3, x3, s3, p3, pp3, n3, o3, tb3, b3, v3, m3, d3⟩ :=
          @release_spec
            ({ t with
              _subPoolsWhichHaveAtLeastOneElement :=
                t._subPoolsWhichHaveAtLeastOneElement &&& bnot (shl1 i) } : Pool)
            (upd runs i rs')
            (gT.congr_geo rfl rfl rfl) (xT.congr_sorted rfl rfl rfl) (sT.congr_subs rfl rfl rfl rfl rfl rfl)
            i
            (by show t.pointers _ ≠ 0; rw [e_ptr]; exact hb)
            (by show t.numUsed _ = 0; exact h0)
        rw [hrm]
        simp only
        rw [hrel]
        have p3' : t3.pointers = upd s.pointers i 0 := by
          rw [p3]; show upd t.pointers _ _ = _; rw [e_ptr]
        have pp3' : t3.poolsPrev = upd s.poolsPrev i 0 := by
          rw [pp3]; show upd t.poolsPrev _ _ = _; rw [e_pp]
        have n3' : t3.numUsed = upd s.numUsed i (s.numUsed i - 1) := by
          rw [n3]; exact e_nu
        have hpol : DeallocPolicy s t3 i :=
          Or.inr ⟨h1, by rw [← e_ne]; exact m3,
            Or.inr (Or.inr ⟨hd, hlt, p3', pp3', by rw [d3]; exact e_def⟩)⟩
        have hL : LiveOK t3 (live.erase p) :=
          @LiveOK.release_live _ t3 _ _ lT sT i (by rw [e_ptr]; exact hb) h0 o3 p3 b3
        exact ⟨_, rs', rfl, hok', hcov,
          ⟨g3, s3, x3,
            masks_dealloc h hb hone hne (by rw [v3]; exact e_vac) n3' hpol, hL⟩, hpol, n3'⟩
  · -- another slot of the sub-pool is still in use
    simp only [h0, decide_False]
    have hpol : DeallocPolicy s t i := Or.inl ⟨by omega, e_ptr, e_pp, e_ne, e_def⟩
    exact ⟨_, rs', rfl, hok', hcov,
      ⟨gT, sT, xT, masks_dealloc h hb hone hne e_vac e_nu hpol, lT⟩, hpol, e_nu⟩

end
end KoPool

set_option autoImplicit false
namespace KoPool
open Pool

section
variable {s : Pool} {i k : Nat}

theorem baseID_add_lt (hi : i < ARRAY_LEN) (hk : k < GetSubPoolSize i) :
    baseID i + k < 2 ^ 63 ∧ (i ≠ 0 → 2 ^ i ≤ baseID i + k ∧ baseID i + k < 2 ^ (i + 1)) ∧
    (i = 0 → baseID i + k < 2) := by
  have hi64 : i < 64 := by simp only [ARRAY_LEN, DIGITS] at hi; omega
  rw [GetSubPoolSize_eq hi64] at hk
  unfold baseID
  by_cases h0 : i = 0
  · simp only [h0, if_true] at hk ⊢
    refine ⟨by omega, fun h => absurd rfl h, fun _ => by omega⟩
  · simp only [h0, if_false] at hk ⊢
    have h1 : 2 ^ (i + 1) ≤ 2 ^ 63 :=
      Nat.pow_le_pow_right (by decide) (by simp only [ARRAY_LEN, DIGITS] at hi; omega)
    have h2 : 2 ^ (i + 1) = 2 * 2 ^ i := by rw [pow_succ]; omega
    exact ⟨by omega, fun _ => ⟨by omega, by omega⟩, fun h => h.elim⟩

theorem baseID_eq_code (hi : i < ARRAY_LEN) : (if i = 0 then 0 else shl1 i) = baseID i := by
  unfold baseID
  by_cases h0 : i = 0
  · simp [h0]
  · simp only [h0, if_false]
    exact shl1_eq (by simp only [ARRAY_LEN, DIGITS] at hi; omega)

/-- `PtrToID` of slot `k` of sub-pool `i`. -/
theorem PtrToID_slot (c : SubCtx s i) (hk : k < GetSubPoolSize i) :
    s.PtrToID (slotAddr (s.pointers i) s._opt.elementSizeInBytes k) i = baseID i + k := by
  unfold Pool.PtrToID Pool.PtrToIDImpl
  simp only [PtrToIDInSubPool_slot c (le_of_lt hk), baseID_eq_code c.hi]
  exact wadd_eq (by have := (baseID_add_lt c.hi hk).1; omega)

/-- `IDToSubPoolID` of the id of slot `k` of sub-pool `i`. -/
theorem IDToSubPoolID_slot (hi : i < ARRAY_LEN) (hk : k < GetSubPoolSize i) :
    s.IDToSubPoolID (baseID i + k) = i := by
  unfold Pool.IDToSubPoolID Pool.IDToSubPoolIDImpl
  obtain ⟨_, h1, h2⟩ := baseID_add_lt hi hk
  by_cases h0 : i = 0
  · have := h2 h0
    rcases Nat.eq_zero_or_pos (baseID i + k) with e | e
    · rw [e, Log2_zero, h0]
    · rw [Log2_spec (i := 0) (by decide) (by omega : 2 ^ 0 ≤ baseID i + k)
        (by omega : baseID i + k < 2 ^ (0 + 1)), h0]
  · exact Log2_spec (by simp only [ARRAY_LEN, DIGITS] at hi; omega) (h1 h0).1 (h1 h0).2

/-- `IDToPtr` of the id of slot `k` of sub-pool `i`. -/
theorem IDToPtr_slot (c : SubCtx s i) (hk : k < GetSubPoolSize i) :
    s.IDToPtr (baseID i + k) = slotAddr (s.pointers i) s._opt.elementSizeInBytes k := by
  have hsub := IDToSubPoolID_slot (s := s) c.hi hk
  unfold Pool.IDToSubPoolID at hsub
  unfold Pool.IDToPtr Pool.IDToPtrImpl
  simp only [hsub, baseID_eq_code c.hi]
  have h1 := (baseID_add_lt c.hi hk).1
  rw [wsub_eq (Nat.le_add_right _ _) (by omega), Nat.add_sub_cancel_left,
    wmul_eq (mul_sz_lt c (le_of_lt hk))]
  rfl

theorem IDToPtrImpl_slot (c : SubCtx s i) (hk : k < GetSubPoolSize i) :
    (s.IDToPtrImpl (baseID i + k)).pMemory =
      slotAddr (s.pointers i) s._opt.elementSizeInBytes k ∧
    (s.IDToPtrImpl (baseID i + k)).subPoolID = i :=
  ⟨IDToPtr_slot c hk, IDToSubPoolID_slot (s := s) c.hi hk⟩

end
end KoPool

set_option autoImplicit false
namespace KoPool
open Pool

section
variable {s : Pool} {runs : Nat → List Run} {live : List Nat}

theorem Geo.table_ne (g : Geo s) {i : Nat} (hb : s.pointers i ≠ 0) : s._pSubPools ≠ 0 :=
  fun e => hb (g.no_table e i)

/-- `DeallocateBytesImpl` on a live slot succeeds, follows the release policy and keeps the
invariant. -/
theorem DeallocateBytesImpl_inv (h : Inv s runs live) {i k p : Nat} (hl : LiveAt s i k p) :
    ∃ s' rs', s.DeallocateBytesImpl p i = some s' ∧
      RunsOK (GetSubPoolSize i) rs' ∧
      (∀ k', Covered rs' k' ↔ (Covered (runs i) k' ∨ k' = k)) ∧
      Inv s' (upd runs i rs') (live.erase p) ∧ DeallocPolicy s s' i ∧
      s'.numUsed = upd s.numUsed i (s.numUsed i - 1) := by
  have hp := hl.ne_zero
  have ht := h.toGeo.table_ne hl.1
  have hi := (h.toGeo.ctx hl.1).hi
  unfold Pool.DeallocateBytesImpl
  simp only [hp, ht, hi, not_true_eq_false, if_false]
  exact deallocDefer_inv h hl _ rfl

/-- A live pointer lies inside the buffer of its sub-pool only. -/
theorem LiveAt.inside_unique (g : Geo s) {i k p j : Nat} (hl : LiveAt s i k p)
    (hj : s.IsPtrInsideSubPool p j = true) : j = i := by
  unfold Pool.IsPtrInsideSubPool at hj
  simp only [Bool.and_eq_true, decide_eq_true_eq] at hj
  obtain ⟨⟨h1, h2⟩, h3⟩ := hj
  obtain ⟨a1, a2⟩ := hl.inside g.sz_ge
  by_contra hne
  rcases g.buf_disj j i hne h1 hl.1 with hd | hd <;> omega

theorem DeallocateBytesByPtr_inv (h : Inv s runs live) {i k p : Nat} (hl : LiveAt s i k p) :
    ∃ s' rs', s.DeallocateBytesByPtr p = some s' ∧
      RunsOK (GetSubPoolSize i) rs' ∧
      (∀ k', Covered rs' k' ↔ (Covered (runs i) k' ∨ k' = k)) ∧
      Inv s' (upd runs i rs') (live.erase p) ∧ DeallocPolicy s s' i ∧
      s'.numUsed = upd s.numUsed i (s.numUsed i - 1) := by
  have hp := hl.ne_zero
  have ht := h.toGeo.table_ne hl.1
  obtain ⟨a1, a2⟩ := hl.inside h.sz_ge
  have hfind := h.toSortedOK.find_subpool h.toGeo hl.1 a1 (by omega)
  unfold Pool.DeallocateBytesByPtr
  simp only [hp, ht, if_false, hfind]
  exact DeallocateBytesImpl_inv h hl

theorem DeallocateBytesByPtrAndSubPoolID_inv (h : Inv s runs live) {i k p j : Nat}
    (hl : LiveAt s i k p) (hj : s.IsPtrInsideSubPool p j = true) :
    ∃ s' rs', s.DeallocateBytesByPtrAndSubPoolID p j = some s' ∧
      RunsOK (GetSubPoolSize i) rs' ∧
      (∀ k', Covered rs' k' ↔ (Covered (runs i) k' ∨ k' = k)) ∧
      Inv s' (upd runs i rs') (live.erase p) ∧ DeallocPolicy s s' i ∧
      s'.numUsed = upd s.numUsed i (s.numUsed i - 1) := by
  rw [hl.inside_unique h.toGeo hj]
  exact DeallocateBytesImpl_inv h hl

theorem DeallocateBytesByID_inv (h : Inv s runs live) {i k p j : Nat}
    (hl : LiveAt s i k p) (hj : s.IsPtrInsideSubPool p j = true) :
    ∃ s' rs', s.DeallocateBytesByID (s.PtrToID p j) = some s' ∧
      RunsOK (GetSubPoolSize i) rs' ∧
      (∀ k', Covered rs' k' ↔ (Covered (runs i) k' ∨ k' = k)) ∧
      Inv s' (upd runs i rs') (live.erase p) ∧ DeallocPolicy s s' i ∧
      s'.numUsed = upd s.numUsed i (s.numUsed i - 1) := by
  rw [hl.inside_unique h.toGeo hj]
  have c := h.toGeo.ctx hl.1
  have ht := h.toGeo.table_ne hl.1
  have hp := hl.2.2.1
  have hid := IDToPtrImpl_slot c hl.2.1
  unfold Pool.DeallocateBytesByID
  simp only [ht, if_false]
  rw [hp, PtrToID_slot c hl.2.1, hid.1, hid.2, ← hp]
  exact DeallocateBytesByPtrAndSubPoolID_inv h hl (by
    unfold Pool.IsPtrInsideSubPool
    obtain ⟨a1, a2⟩ := hl.inside h.sz_ge
    simp only [Bool.and_eq_true, decide_eq_true_eq]
    exact ⟨⟨hl.1, a1⟩, by omega⟩)

end
end KoPool

set_option autoImplicit false
namespace KoPool
open Pool

section
variable {t : Pool} {runs : Nat → List Run} {live : List Nat}

theorem MasksOK.pre {s : Pool} (m : MasksOK s runs) (e : Nat) : MasksPre s runs e :=
  ⟨m.vacant_lt, m.vacant, m.nonempty, m.deferred, fun i _ hi => m.active i hi⟩

theorem MasksPre.nonempty_hi_pre {e : Nat} (m : MasksPre t runs e) (g : Geo t) {j : Nat}
    (hj : 64 ≤ j) : t._subPoolsWhichHaveAtLeastOneElement.testBit j = false := by
  cases hv : t._subPoolsWhichHaveAtLeastOneElement.testBit j
  · rfl
  · have := ((m.nonempty j).1 hv).1
    exact absurd (g.ptr_hi j (by simp only [ARRAY_LEN, DIGITS]; omega)) this

set_option maxHeartbeats 1000000 in
/-- Lines 150-214 of `AllocateBytes` on an activated sub-pool with a free run: the first
slot of the first run is returned and the invariant holds afterwards. -/
theorem allocFromSubPool_inv (g : Geo t) (hs : SubsOK t runs) (x : SortedOK t) {i : Nat}
    (m : MasksPre t runs i) (l : LiveOK t live) (hb : t.pointers i ≠ 0) {r : Run}
    {rest : List Run} (hr : runs i = r :: rest) :
    ∃ t', t.allocFromSubPool i = some (t', AllocBytesResult.mk i
        (slotAddr (t.pointers i) t._opt.elementSizeInBytes r.1)) ∧
      Inv t' (upd runs i (if r.2 = 1 then rest else (r.1 + 1, r.2 - 1) :: rest))
        (slotAddr (t.pointers i) t._opt.elementSizeInBytes r.1 :: live) ∧
      t'.pointers = t.pointers ∧ t'._opt = t._opt ∧ t'._pSubPools = t._pSubPools ∧
      t'.sortedPointers = t.sortedPointers ∧ t'.sortedPointersSize = t.sortedPointersSize ∧
      t'.numUsed = upd t.numUsed i (t.numUsed i + 1) ∧
      (∀ k' j, t'.IsSkipListNodeByIDInSubPool k' j =
        if j = i ∧ k' = r.1 then false else t.IsSkipListNodeByIDInSubPool k' j) := by
  have c := g.ctx hb
  have hsub := hs.sub i hb
  rw [hr] at hsub
  have hrb := hsub.runs.head
  have hr1 : r.1 < GetSubPoolSize i := by omega
  have hi64 : i < 64 := by have := c.hi; simp only [ARRAY_LEN, DIGITS] at this; omega
  have hcap := c.cap_lt
  have hu := hsub.used
  have hle := hsub.runs.runsLen_le
  have hlen : runsLen (r :: rest) = r.2 + runsLen rest := rfl
  have hwadd : wadd (t.numUsed i) 1 = t.numUsed i + 1 := wadd_eq (by omega)
  obtain ⟨s3, h3⟩ : ∃ s3 : Pool, s3 =
      { t with
        numUsed := upd t.numUsed i (wadd (t.numUsed i) 1),
        _subPoolToDeallocate :=
          if t._subPoolToDeallocate = i then SUB_POOL_ID_NONE else t._subPoolToDeallocate,
        _subPoolsWhichHaveAtLeastOneElement :=
          t._subPoolsWhichHaveAtLeastOneElement ||| shl1 i } := ⟨_, rfl⟩
  have c3 : SubCtx s3 i := by subst h3; exact c.congr_ctx rfl rfl rfl
  have e3n : s3.numUsed i = t.numUsed i + 1 := by
    subst h3; show upd t.numUsed i _ i = _; rw [upd_same, hwadd]
  have hch3 : Chain s3.mem (s3.pointers i) s3._opt.elementSizeInBytes (s3.poolAddr i)
      (r :: rest) := by subst h3; exact hsub.chain
  have hbits3 : ∀ k, k < GetSubPoolSize i →
      (s3.IsSkipListNodeByIDInSubPool k i = true ↔ Covered (r :: rest) k) := by
    subst h3; exact hsub.bits
  obtain ⟨m', v', hres, hv', hch', hfr'⟩ :=
    allocTakeFirst_mem c3 hsub.runs hch3 hbits3 (by rw [e3n]; omega)
  have e3p : s3.pointers = t.pointers := by subst h3; rfl
  have e3o : s3._opt = t._opt := by subst h3; rfl
  have e3t : s3._pSubPools = t._pSubPools := by subst h3; rfl
  have e3v : s3._vacantSubPools = t._vacantSubPools := by subst h3; rfl
  have e3b : s3.bitmap = t.bitmap := by subst h3; rfl
  have e3m : s3.mem = t.mem := by subst h3; rfl
  have e3pa : s3.poolAddr i = t.poolAddr i := by subst h3; rfl
  have hbitsS : ∀ k' j,
      (Pool.SetIsSkipListNode { s3 with mem := m', _vacantSubPools := v' }
        (slotAddr (s3.pointers i) s3._opt.elementSizeInBytes r.1) i
        false).IsSkipListNodeByIDInSubPool k' j =
      if j = i ∧ k' = r.1 then false else s3.IsSkipListNodeByIDInSubPool k' j :=
    fun k' j => SetIsSkipListNode_bits
      (s := ({ s3 with mem := m', _vacantSubPools := v' } : Pool)) (c3.congr_ctx rfl rfl rfl) hr1
      false k' j
  have hall : t.allocFromSubPool i = s3.allocTakeFirst i := by subst h3; rfl
  generalize htt : Pool.SetIsSkipListNode { s3 with mem := m', _vacantSubPools := v' }
      (slotAddr (s3.pointers i) s3._opt.elementSizeInBytes r.1) i false = t' at hres hbitsS
  rw [e3p, e3o] at hres
  have hbitsS' : ∀ k' j, t'.IsSkipListNodeByIDInSubPool k' j =
      if j = i ∧ k' = r.1 then false else t.IsSkipListNodeByIDInSubPool k' j := by
    intro k' j
    rw [hbitsS k' j]
    simp only [Pool.IsSkipListNodeByIDInSubPool, e3b]
  have f_ptr : t'.pointers = t.pointers := by rw [← htt]; exact e3p
  have f_opt : t'._opt = t._opt := by rw [← htt]; exact e3o
  have f_tab : t'._pSubPools = t._pSubPools := by rw [← htt]; exact e3t
  have f_sp : t'.sortedPointers = t.sortedPointers := by rw [← htt, h3]; rfl
  have f_sz : t'.sortedPointersSize = t.sortedPointersSize := by rw [← htt, h3]; rfl
  have f_mem : t'.mem = m' := by rw [← htt]; rfl
  have f_vac : t'._vacantSubPools = v' := by rw [← htt]; rfl
  have f_nu : t'.numUsed = upd t.numUsed i (t.numUsed i + 1) := by
    rw [← htt, h3, ← hwadd]; rfl
  have f_ne : t'._subPoolsWhichHaveAtLeastOneElement =
      t._subPoolsWhichHaveAtLeastOneElement ||| shl1 i := by rw [← htt, h3]; rfl
  have f_def : t'._subPoolToDeallocate =
      if t._subPoolToDeallocate = i then SUB_POOL_ID_NONE else t._subPoolToDeallocate := by
    rw [← htt, h3]; rfl
  have f_bm : ∀ j, j ≠ i → t'.bitmap j = t.bitmap j := by
    intro j hj
    rw [← htt, h3]
    show upd _ i _ j = _
    exact upd_other _ _ hj
  have hfree : t.IsSkipListNodeByIDInSubPool r.1 i = true :=
    (hsub.bits r.1 hr1).2 ⟨r, List.mem_cons_self _ _, le_refl _, by omega⟩
  refine ⟨t', by rw [hall]; exact hres, ⟨g.congr_geo f_opt f_tab f_ptr, ⟨?_, ?_⟩, x.congr_sorted f_ptr f_sp f_sz,
    ⟨?_, ?_, ?_, ?_, ?_⟩, ⟨?_, ?_⟩⟩, f_ptr, f_opt, f_tab, f_sp, f_sz, f_nu, hbitsS'⟩
  · -- sub-pools
    intro j hj
    rw [f_ptr] at hj
    by_cases hji : j = i
    · subst hji
      rw [upd_same]
      refine ⟨hsub.runs.take_first, ?_, ?_, ?_⟩
      · rw [f_ptr, f_opt, f_mem]
        have : t'.poolAddr j = t.poolAddr j := by simp [Pool.poolAddr, f_tab]
        rw [this]
        simpa only [e3p, e3o, e3pa] using hch'
      · intro k' hk'
        rw [hbitsS' k' j, Covered_take_first hsub.runs k']
        by_cases e : k' = r.1
        · simp [e]
        · simp only [e, and_false, if_false, ne_eq, not_false_eq_true, and_true]
          exact hsub.bits k' hk'
      · rw [f_nu, upd_same]
        have := @runsLen_take_first r rest hrb.1
        omega
    · rw [upd_other _ _ hji]
      apply (hs.sub j hj).frame f_opt f_tab (by rw [f_ptr]) (f_bm j hji)
        (by rw [f_nu, upd_other _ _ hji])
      intro a ha
      rw [f_mem]
      have hn := g.foot_disj (Ne.symm hji) hb hj ha
      obtain ⟨n1, n2⟩ := not_InFoot hn
      have := hfr' a (by rw [e3pa]; exact n1) (by rw [e3p, e3o]; exact n2)
      rw [this, e3m]
  · intro j hj
    rw [f_ptr] at hj
    have hji : j ≠ i := fun e => hb (e ▸ hj)
    rw [f_nu, upd_other _ _ hji]; exact hs.unused j hj
  · -- vacant mask
    rw [f_vac, hv', e3v]
    split_ifs
    · exact and_lt_of_lt m.vacant_lt
    · exact m.vacant_lt
  · intro j hj
    rw [f_vac, hv', e3v, f_ptr]
    by_cases hji : j = i
    · subst hji
      rw [upd_same, ne_eq, take_first_eq_nil]
      by_cases hlast : r.2 = 1 ∧ rest = []
      · rw [if_pos hlast, testBit_and_bnot_shl1 _ _ _ hi64 hj]
        simp [hlast, hb]
      · rw [if_neg hlast]
        have := (m.vacant j hj).2 (Or.inr (by rw [hr]; simp))
        simp [this, hlast]
    · rw [upd_other _ _ hji]
      split_ifs
      · rw [testBit_and_bnot_shl1 _ _ _ hi64 hj]
        simp only [hji, decide_False, Bool.not_false, Bool.and_true]
        exact m.vacant j hj
      · exact m.vacant j hj
  · intro j
    rw [f_ne, testBit_or_shl1 _ _ _ hi64, f_ptr, f_nu]
    by_cases hji : j = i
    · subst hji
      simp [upd_same, hb]
    · rw [upd_other _ _ hji]
      simp only [hji, decide_False, Bool.or_false]
      exact m.nonempty j
  · rw [f_def, f_ptr, f_nu]
    split_ifs with hd
    · left; rfl
    · rw [upd_other _ _ hd]
      exact m.deferred
  · intro j hj
    rw [f_ptr] at hj
    rw [f_def, f_nu]
    by_cases hji : j = i
    · left; rw [hji, upd_same]; omega
    · rw [upd_other _ _ hji]
      rcases m.active j hji hj with ha | ha
      · exact Or.inl ha
      · right
        rw [if_neg (by rw [← ha]; exact hji)]
        exact ha
  · -- live set
    intro q
    have hlive : ∀ j k', LiveAt t' j k' q ↔
        (LiveAt t j k' q ∨ (j = i ∧ k' = r.1 ∧
          q = slotAddr (t.pointers i) t._opt.elementSizeInBytes r.1)) := by
      intro j k'
      unfold LiveAt
      rw [f_ptr, f_opt, hbitsS' k' j]
      by_cases e : j = i ∧ k' = r.1
      · obtain ⟨rfl, rfl⟩ := e
        simp [hb, hr1, hfree]
      · simp only [e, if_false]
        constructor
        · intro hh; exact Or.inl hh
        · rintro (hh | ⟨e1, e2, _⟩)
          · exact hh
          · exact absurd ⟨e1, e2⟩ e
    rw [List.mem_cons, l.live_iff q]
    constructor
    · rintro (e | ⟨j, k', hjk⟩)
      · exact ⟨i, r.1, (hlive i r.1).2 (Or.inr ⟨rfl, rfl, e⟩)⟩
      · exact ⟨j, k', (hlive j k').2 (Or.inl hjk)⟩
    · rintro ⟨j, k', hjk⟩
      rcases (hlive j k').1 hjk with hh | ⟨_, _, e⟩
      · exact Or.inr ⟨j, k', hh⟩
      · exact Or.inl e
  · rw [List.nodup_cons]
    refine ⟨?_, l.live_nodup⟩
    intro hmem
    obtain ⟨j, k', hjk⟩ := (l.live_iff _).1 hmem
    have hjk' := hjk
    obtain ⟨a1, a2, a3, a4⟩ := hjk'
    obtain ⟨e1, e2⟩ := g.slot_unique hb a1 hr1 a2 a3
    subst e1; subst e2
    rw [hfree] at a4
    exact Bool.noConfusion a4

end
end KoPool

set_option autoImplicit false
namespace KoPool
open Pool

section
variable {s : Pool} {i : Nat}

/-- `ResetSubPool` leaves one free run that covers the whole buffer. -/
theorem ResetSubPool_spec (c : SubCtx s i) (hnu : s.numUsed i = 0) :
    SubInv (s.ResetSubPool i) i [(0, GetSubPoolSize i)] ∧
    (∀ a, ¬ InFoot s i a → (s.ResetSubPool i).mem a = s.mem a) ∧
    (∀ j, j ≠ i → (s.ResetSubPool i).bitmap j = s.bitmap j) := by
  have hsz := c.hsz
  have hS := c.hS
  have hcap := c.cap_ge
  have h0 : 0 < GetSubPoolSize i := by omega
  have hl : GetSubPoolSize i - 1 < GetSubPoolSize i := by omega
  have hne : ¬ GetSubPoolSize i - 1 = 0 := by omega
  have hne' : ¬ 0 = GetSubPoolSize i - 1 := by omega
  have hidx : 0 + GetSubPoolSize i - 1 = GetSubPoolSize i - 1 := by omega
  have hw : wmul (GetSubPoolSize i - 1) s._opt.elementSizeInBytes =
      (GetSubPoolSize i - 1) * s._opt.elementSizeInBytes := wmul_eq (mul_sz_lt c (by omega))
  have s0 := sent_simp hS hsz h0
  have sl := sent_simp hS hsz hl
  have hhead : s.pointers i = slotAddr (s.pointers i) s._opt.elementSizeInBytes 0 :=
    (slotAddr_zero _ _).symm
  have htail : s.pointers i + (GetSubPoolSize i - 1) * s._opt.elementSizeInBytes =
      slotAddr (s.pointers i) s._opt.elementSizeInBytes (GetSubPoolSize i - 1) := rfl
  have hmem : ∀ a, (s.ResetSubPool i).mem a =
      if a = s.poolAddr i + 8 then slotAddr (s.pointers i) s._opt.elementSizeInBytes 0
      else if a = slotAddr (s.pointers i) s._opt.elementSizeInBytes (GetSubPoolSize i - 1) + 8
        then 0
      else if a = slotAddr (s.pointers i) s._opt.elementSizeInBytes (GetSubPoolSize i - 1)
        then s.poolAddr i
      else if a = slotAddr (s.pointers i) s._opt.elementSizeInBytes 0 + 8
        then (GetSubPoolSize i - 1) * s._opt.elementSizeInBytes
      else if a = slotAddr (s.pointers i) s._opt.elementSizeInBytes 0 then s.poolAddr i
      else s.mem a := by
    intro a
    show upd _ _ _ a = _
    rw [htail, hw]
    simp only [upd, slotAddr_zero]
  refine ⟨⟨?_, ?_, ?_, ?_⟩, ?_, ?_⟩
  · refine ⟨?_, List.pairwise_singleton _ _⟩
    intro r hr
    simp only [List.mem_singleton] at hr
    subst hr
    exact ⟨by simp only; omega, by simp only; omega⟩
  · show Chain (s.ResetSubPool i).mem (s.pointers i) s._opt.elementSizeInBytes (s.poolAddr i) _
    simp only [Chain, hidx]
    refine ⟨?_, ?_, ?_, ?_, ?_⟩
    · rw [hmem]; simp only [if_true]
    · rw [hmem]; simp only [s0, slotAddr_ne8 hsz, slotAddr_inj hsz, hne', if_false, if_true]
    · intro _
      rw [hmem]; simp only [s0, slotAddr8_inj hsz, slotAddr8_ne hsz, hne', if_false, if_true]
    · rw [hmem]; simp only [sl, slotAddr_ne8 hsz, if_false, if_true]
    · rw [hmem]; simp only [sl, if_false, if_true]
  · intro k hk
    have hbit : (s.ResetSubPool i).IsSkipListNodeByIDInSubPool k i = true := by
      rw [IsSkip_eq_testBit]
      show (upd s.bitmap i _ i (k / 64)).testBit (k % 64) = true
      rw [upd_same]
      simp only [lt_CeilDiv hk, if_true]
      exact testBit_USIZE_MAX (Nat.mod_lt _ (by decide))
    rw [hbit]
    simp only [true_iff]
    exact ⟨_, List.mem_singleton_self _, Nat.zero_le _, by simp only; omega⟩
  · show s.numUsed i + runsLen [(0, GetSubPoolSize i)] = _
    rw [hnu]; simp [runsLen]
  · intro a ha
    obtain ⟨n1, n2⟩ := not_InFoot ha
    rw [hmem]
    simp only [n1, (n2 0 h0).1, (n2 0 h0).2, (n2 _ hl).1, (n2 _ hl).2, if_false]
  · intro j hj
    show upd s.bitmap i _ j = _
    exact upd_other _ _ hj

end

section
variable {s t : Pool}

/-- `InsertSortedPointer` for a newly activated sub-pool keeps the sorted index consistent. -/
theorem SortedOK.insert (x : SortedOK s) (g : Geo t) {i b : Nat} (hi : i < ARRAY_LEN)
    (hp0 : s.pointers i = 0) (hb : b ≠ 0)
    (hopt : t._opt = s._opt) (hp : t.pointers = upd s.pointers i b)
    (hsp : t.sortedPointers = insertLoop
      (upd s.sortedPointers s.sortedPointersSize { pMemory := b, subPoolID := i })
      s.sortedPointersSize)
    (hsz : t.sortedPointersSize = s.sortedPointersSize + 1) : SortedOK t := by
  have hti : t.pointers i = b := by rw [hp, upd_same]
  have htj : ∀ j, j ≠ i → t.pointers j = s.pointers j := fun j hj => by
    rw [hp, upd_other _ _ hj]
  have hsid : ∀ a, a < s.sortedPointersSize → (s.sortedPointers a).subPoolID ≠ i := by
    intro a ha e
    obtain ⟨e1, e2⟩ := x.sorted_entry a ha
    rw [e, hp0] at e2
    exact e1 e2.symm
  have hdist : ∀ a, a < s.sortedPointersSize → (s.sortedPointers a).pMemory ≠ b := by
    intro a ha e
    obtain ⟨e1, e2⟩ := x.sorted_entry a ha
    have hne := hsid a ha
    have hj : t.pointers (s.sortedPointers a).subPoolID ≠ 0 := by
      rw [htj _ hne, e2]; exact e1
    have hib : t.pointers i ≠ 0 := by rw [hti]; exact hb
    have ci := g.ctx hib
    have cj := g.ctx hj
    have := g.buf_disj i _ (Ne.symm hne) hib hj
    rw [hti, htj _ hne, e2, e] at this
    have h1 : 0 < GetSubPoolSize i * t._opt.elementSizeInBytes :=
      Nat.mul_pos (by have := ci.cap_ge; omega) (by have := ci.hsz; omega)
    have h2 : 0 < GetSubPoolSize (s.sortedPointers a).subPoolID * t._opt.elementSizeInBytes :=
      Nat.mul_pos (by have := cj.cap_ge; omega) (by have := cj.hsz; omega)
    omega
  obtain ⟨k1, k2, k3, k4⟩ := insertLoop_spec { pMemory := b, subPoolID := i }
    s.sortedPointersSize s.sortedPointersSize
    (upd s.sortedPointers s.sortedPointersSize { pMemory := b, subPoolID := i })
    (le_refl _) (upd_same _ _ _) (by
      intro a c hac hc ha hc'
      rw [upd_other _ _ ha, upd_other _ _ hc']
      exact x.sorted_lt a c hac (by omega)) (by
      intro c h1 h2; omega) (by
      intro a ha hne
      rw [upd_other _ _ hne]
      exact hdist a (by omega))
  have hval : ∀ c, c ≤ s.sortedPointersSize →
      (upd s.sortedPointers s.sortedPointersSize { pMemory := b, subPoolID := i } c =
        { pMemory := b, subPoolID := i } ∧ c = s.sortedPointersSize) ∨
      (upd s.sortedPointers s.sortedPointersSize { pMemory := b, subPoolID := i } c =
        s.sortedPointers c ∧ c < s.sortedPointersSize) := by
    intro c hc
    by_cases e : c = s.sortedPointersSize
    · left; rw [e, upd_same]; exact ⟨rfl, rfl⟩
    · right; rw [upd_other _ _ e]; exact ⟨rfl, by omega⟩
  refine ⟨?_, ?_, ?_, ?_, ?_⟩
  · rw [hsz, x.sorted_size, activeCount_activate hp hp0 hb ARRAY_LEN hi]
  · intro a c hac hc
    rw [hsp]
    exact k1 a c hac (by omega)
  · intro a ha
    rw [hsp]
    obtain ⟨c, hc, e⟩ := k2 a (by omega)
    rw [e]
    rcases hval c hc with ⟨e', _⟩ | ⟨e', hlt⟩
    · rw [e']; exact ⟨hb, hti⟩
    · rw [e']
      obtain ⟨e1, e2⟩ := x.sorted_entry c hlt
      exact ⟨e1, by rw [htj _ (hsid c hlt), e2]⟩
  · intro j hj
    rw [hsp, hsz]
    by_cases hji : j = i
    · obtain ⟨a, ha, e⟩ := k3 s.sortedPointersSize (le_refl _)
      refine ⟨a, by omega, ?_⟩
      rw [e, upd_same, hji]
    · rw [htj j hji] at hj
      obtain ⟨c, hc, hcj⟩ := x.sorted_all j hj
      obtain ⟨a, ha, e⟩ := k3 c (by omega)
      refine ⟨a, by omega, ?_⟩
      rw [e, upd_other _ _ (by omega), hcj]
  · intro a ha
    rw [hsp, k4 a (by omega), upd_other _ _ (by omega)]
    exact x.sorted_rest a (by omega)

end
end KoPool

set_option autoImplicit false
namespace KoPool
open Pool

section
variable {s t : Pool} {runs : Nat → List Run} {live : List Nat}

theorem upd_ne_cases {f : Nat → Nat} {i j b : Nat} (h : upd f i b j ≠ 0) :
    (j = i ∧ upd f i b j = b) ∨ (j ≠ i ∧ upd f i b j = f j ∧ f j ≠ 0) := by
  simp only [upd] at h ⊢
  by_cases e : j = i
  · left; rw [if_pos e]; exact ⟨e, rfl⟩
  · right; rw [if_neg e] at h ⊢; exact ⟨e, rfl, h⟩

/-- Activating a sub-pool on a block that `AlignedMalloc` returned keeps the geometry. -/
theorem Geo.activate (g : Geo s) {i b : Nat} (hi : i < ARRAY_LEN) (htab : s._pSubPools ≠ 0)
    (hlt : b + GetSubPoolSize i * s._opt.elementSizeInBytes < 2 ^ 64)
    (htb : b + GetSubPoolSize i * s._opt.elementSizeInBytes ≤ s._pSubPools ∨
      s._pSubPools + SIZEOF_SUBPOOLS ≤ b)
    (hdisj : ∀ j, s.pointers j ≠ 0 →
      b + GetSubPoolSize i * s._opt.elementSizeInBytes ≤ s.pointers j ∨
      s.pointers j + GetSubPoolSize j * s._opt.elementSizeInBytes ≤ b)
    (hopt : t._opt = s._opt) (ht : t._pSubPools = s._pSubPools)
    (hp : t.pointers = upd s.pointers i b) : Geo t := by
  refine ⟨?_, ?_, ?_, ?_, ?_, ?_, ?_⟩
  · rw [hopt]; exact g.sz_ge
  · intro h; rw [ht] at h; exact absurd h htab
  · rw [ht]; exact g.table_lt
  · intro j hj
    rw [hp, upd_other _ _ (by omega)]
    exact g.ptr_hi j hj
  · intro j hj
    rw [hp] at hj ⊢
    rcases upd_ne_cases hj with ⟨e, e'⟩ | ⟨_, e', h'⟩
    · rw [e', e, hopt]; exact hlt
    · rw [e', hopt]; exact g.buf_lt j h'
  · intro j hj
    rw [hp] at hj ⊢
    rcases upd_ne_cases hj with ⟨e, e'⟩ | ⟨_, e', h'⟩
    · rw [e', e, hopt, ht]; exact htb
    · rw [e', hopt, ht]; exact g.buf_table j h'
  · intro j k hjk hj hk
    rw [hp] at hj hk ⊢
    rcases upd_ne_cases hj with ⟨e, e'⟩ | ⟨ej, e', h'⟩
    · rcases upd_ne_cases hk with ⟨f, _⟩ | ⟨_, f', h''⟩
      · exact absurd (e.trans f.symm) hjk
      · rw [e', f', e, hopt]; exact hdisj k h''
    · rcases upd_ne_cases hk with ⟨f, f'⟩ | ⟨_, f', h''⟩
      · rw [e', f', f, hopt]; exact (hdisj j h').symm
      · rw [e', f', hopt]; exact g.buf_disj j k hjk h' h''

theorem InFoot_congr {j a : Nat} (hopt : t._opt = s._opt) (ht : t._pSubPools = s._pSubPools)
    (hp : t.pointers j = s.pointers j) : InFoot t j a ↔ InFoot s j a := by
  unfold InFoot Pool.poolAddr
  rw [hopt, ht, hp]

set_option maxHeartbeats 1000000 in
/-- Lines 122-148 of `AllocateBytes`: the state after a sub-pool has been activated. -/
theorem activate_groups (h : Inv s runs live) {i b bm : Nat} (hi : i < ARRAY_LEN)
    (htab : s._pSubPools ≠ 0) (hp0 : s.pointers i = 0) (hb : b ≠ 0)
    (hlt : b + GetSubPoolSize i * s._opt.elementSizeInBytes < 2 ^ 64)
    (htb : b + GetSubPoolSize i * s._opt.elementSizeInBytes ≤ s._pSubPools ∨
      s._pSubPools + SIZEOF_SUBPOOLS ≤ b)
    (hdisj : ∀ j, s.pointers j ≠ 0 →
      b + GetSubPoolSize i * s._opt.elementSizeInBytes ≤ s.pointers j ∨
      s.pointers j + GetSubPoolSize j * s._opt.elementSizeInBytes ≤ b)
    (s1 : Pool)
    (h1 : s1 = { s with pointers := upd s.pointers i b, poolsPrev := upd s.poolsPrev i bm })
    (ht : t = (s1.ResetSubPool i).InsertSortedPointer i) :
    Geo t ∧ SubsOK t (upd runs i [(0, GetSubPoolSize i)]) ∧ SortedOK t ∧
    MasksPre t (upd runs i [(0, GetSubPoolSize i)]) i ∧ LiveOK t live ∧
    t.pointers = upd s.pointers i b ∧ t._opt = s._opt ∧ t._pSubPools = s._pSubPools ∧
    t.numUsed = s.numUsed := by
  have e1o : s1._opt = s._opt := by subst h1; rfl
  have e1t : s1._pSubPools = s._pSubPools := by subst h1; rfl
  have e1p : s1.pointers = upd s.pointers i b := by subst h1; rfl
  have e1n : s1.numUsed = s.numUsed := by subst h1; rfl
  have e1m : s1.mem = s.mem := by subst h1; rfl
  have e1b : s1.bitmap = s.bitmap := by subst h1; rfl
  have g1 : Geo s1 := h.toGeo.activate hi htab hlt htb hdisj e1o e1t e1p
  have hb1 : s1.pointers i ≠ 0 := by rw [e1p, upd_same]; exact hb
  have c1 := g1.ctx hb1
  have hnu0 : s.numUsed i = 0 := h.unused i hp0
  obtain ⟨hsub, hfr, hbm⟩ := ResetSubPool_spec c1 (by rw [e1n]; exact hnu0)
  have e_opt : t._opt = s._opt := by rw [ht]; exact e1o
  have e_tab : t._pSubPools = s._pSubPools := by rw [ht]; exact e1t
  have e_ptr : t.pointers = upd s.pointers i b := by rw [ht]; exact e1p
  have e_nu : t.numUsed = s.numUsed := by rw [ht]; exact e1n
  have e_mem : t.mem = (s1.ResetSubPool i).mem := by rw [ht]; rfl
  have e_bm : t.bitmap = (s1.ResetSubPool i).bitmap := by rw [ht]; rfl
  have e_vac : t._vacantSubPools = s._vacantSubPools := by rw [ht, h1]; rfl
  have e_ne : t._subPoolsWhichHaveAtLeastOneElement =
      s._subPoolsWhichHaveAtLeastOneElement := by rw [ht, h1]; rfl
  have e_def : t._subPoolToDeallocate = s._subPoolToDeallocate := by rw [ht, h1]; rfl
  have e_sp : t.sortedPointers = insertLoop
      (upd s.sortedPointers s.sortedPointersSize { pMemory := b, subPoolID := i })
      s.sortedPointersSize := by
    rw [ht, h1]
    show insertLoop (upd s.sortedPointers s.sortedPointersSize
      { pMemory := upd s.pointers i b i, subPoolID := i }) _ = _
    rw [upd_same]
    rfl
  have e_sz : t.sortedPointersSize = s.sortedPointersSize + 1 := by rw [ht, h1]; rfl
  have gT : Geo t := g1.congr_geo (by rw [e_opt, e1o]) (by rw [e_tab, e1t]) (by rw [e_ptr, e1p])
  have hti : t.pointers i ≠ 0 := by rw [e_ptr, upd_same]; exact hb
  have htj : ∀ j, j ≠ i → t.pointers j = s.pointers j := fun j hj => by
    rw [e_ptr, upd_other _ _ hj]
  have hbit_other : ∀ k j, j ≠ i →
      t.IsSkipListNodeByIDInSubPool k j = s.IsSkipListNodeByIDInSubPool k j := by
    intro k j hj
    simp only [Pool.IsSkipListNodeByIDInSubPool, e_bm, hbm j hj, e1b]
  refine ⟨gT, ⟨?_, ?_⟩, h.toSortedOK.insert gT hi hp0 hb e_opt e_ptr e_sp e_sz,
    ⟨?_, ?_, ?_, ?_, ?_⟩, ⟨?_, h.live_nodup⟩, e_ptr, e_opt, e_tab, e_nu⟩
  · intro j hj
    by_cases hji : j = i
    · subst hji
      rw [upd_same]
      exact hsub.frame (by rw [e_opt, ← e1o]; rfl) (by rw [e_tab, ← e1t]; rfl)
        (by rw [e_ptr, ← e1p]; rfl) (by rw [e_bm]) (by rw [e_nu, ← e1n]; rfl)
        (fun a _ => by rw [e_mem])
    · rw [upd_other _ _ hji]
      have hj' : s.pointers j ≠ 0 := by rw [← htj j hji]; exact hj
      apply (h.sub j hj').frame e_opt e_tab (htj j hji) (by rw [e_bm, hbm j hji, e1b])
        (by rw [e_nu])
      intro a ha
      rw [e_mem, hfr a, e1m]
      have haT : InFoot t j a := (InFoot_congr e_opt e_tab (htj j hji)).2 ha
      have := gT.foot_disj (Ne.symm hji) hti hj haT
      intro hc
      apply this
      unfold InFoot Pool.poolAddr at hc ⊢
      rw [e_opt, e_tab, e_ptr, ← e1o, ← e1t, ← e1p]
      exact hc
  · intro j hj
    rw [e_nu]
    by_cases hji : j = i
    · rw [hji]; exact hnu0
    · rw [htj j hji] at hj; exact h.unused j hj
  · rw [e_vac]; exact h.vacant_lt
  · intro j hj
    rw [e_vac, h.vacant j hj]
    by_cases hji : j = i
    · subst hji
      rw [upd_same]
      simp [hp0]
    · rw [upd_other _ _ hji, htj j hji]
  · intro j
    rw [e_ne, h.nonempty j, e_nu]
    by_cases hji : j = i
    · subst hji
      simp [hp0, hnu0]
    · rw [htj j hji]
  · rw [e_def, e_nu]
    rcases h.deferred with hd | hd
    · exact Or.inl hd
    · right
      have hdi : s._subPoolToDeallocate ≠ i := fun e => hd.1 (e ▸ hp0)
      rw [htj _ hdi]; exact hd
  · intro j hji hj
    rw [e_nu, e_def]
    rw [htj j hji] at hj
    exact h.active j hj
  · intro q
    rw [h.live_iff q]
    have key : ∀ j k, LiveAt t j k q ↔ LiveAt s j k q := by
      intro j k
      by_cases hji : j = i
      · subst hji
        constructor
        · rintro ⟨_, a2, _, a4⟩
          have hfrm : SubInv t j [(0, GetSubPoolSize j)] :=
            hsub.frame (by rw [e_opt, ← e1o]; rfl) (by rw [e_tab, ← e1t]; rfl)
              (by rw [e_ptr, ← e1p]; rfl) (by rw [e_bm]) (by rw [e_nu, ← e1n]; rfl)
              (fun a _ => by rw [e_mem])
          have := (hfrm.bits k a2).2 ⟨_, List.mem_singleton_self _, Nat.zero_le _,
            by simp only; omega⟩
          rw [a4] at this
          exact Bool.noConfusion this
        · rintro ⟨a1, _⟩
          exact absurd hp0 a1
      · unfold LiveAt
        rw [e_opt, htj j hji, hbit_other k j hji]
    simp only [key]

end
end KoPool

set_option autoImplicit false
namespace KoPool
open Pool

section
variable {s t : Pool} {runs : Nat → List Run} {live : List Nat}

theorem Inv.no_table_live (h : Inv s runs live) (htab : s._pSubPools = 0) : live = [] := by
  apply List.eq_nil_iff_forall_not_mem.2
  intro p hp
  obtain ⟨i, k, hl⟩ := (h.live_iff p).1 hp
  exact hl.1 (h.no_table htab i)

/-- Value-initialising a new table keeps the invariant of a pool that had no table. -/
theorem newTable_inv (h : Inv s runs live) (htab : s._pSubPools = 0) {tb : Nat}
    (hlt : tb + SIZEOF_SUBPOOLS < 2 ^ 64) : Inv (s.newTable tb) runs live := by
  have hp : ∀ i, s.pointers i = 0 := h.no_table htab
  have hpT : ∀ i, (s.newTable tb).pointers i = 0 := fun _ => rfl
  have hac : ∀ n, activeCount (s.newTable tb) n = 0 := by
    intro n
    induction n with
    | zero => rfl
    | succ n ih => simp [activeCount, ih, hpT]
  refine ⟨⟨h.sz_ge, fun _ i => rfl, hlt, fun i _ => rfl, ?_, ?_, ?_⟩, ⟨?_, fun i _ => rfl⟩,
    ⟨?_, ?_, ?_, ?_, ?_⟩, ⟨h.vacant_lt, ?_, ?_, ?_, ?_⟩, ⟨?_, h.live_nodup⟩⟩
  · intro i hi; exact absurd (hpT i) hi
  · intro i hi; exact absurd (hpT i) hi
  · intro i j _ hi; exact absurd (hpT i) hi
  · intro i hi; exact absurd (hpT i) hi
  · rw [hac]; rfl
  · intro a c _ hc; exact absurd hc (Nat.not_lt_zero _)
  · intro a ha; exact absurd ha (Nat.not_lt_zero _)
  · intro i hi; exact absurd (hpT i) hi
  · intro a _; exact ⟨rfl, rfl⟩
  · intro i hi
    have := h.vacant i hi
    rw [hp i] at this
    show s._vacantSubPools.testBit i = true ↔ _
    rw [this, hpT i]
  · intro i
    have := h.nonempty i
    rw [hp i] at this
    show s._subPoolsWhichHaveAtLeastOneElement.testBit i = true ↔ _
    rw [this, hpT i]
    simp
  · left
    rcases h.deferred with hd | hd
    · exact hd
    · exact absurd (hp _) hd.1
  · intro i hi; exact absurd (hpT i) hi
  · intro q
    rw [h.live_iff q]
    constructor
    · rintro ⟨i, k, hl⟩; exact absurd (hp i) hl.1
    · rintro ⟨i, k, hl⟩; exact absurd (hpT i) hl.1

/-- Lines 116-214 of `AllocateBytes` on a pool with a table. A failed `AlignedMalloc` gives
the failure value and leaves the state as it is; otherwise the first slot of the first free
run of the lowest vacant sub-pool (activated first when it has no buffer) is returned, and
the invariant holds afterwards. -/
theorem allocateWithTable_inv (h : Inv t runs live) (htab : t._pSubPools ≠ 0)
    {env : MallocEnv}
    (hbuf : env.buffer ≠ 0 →
      env.buffer + GetSubPoolSize (Count0BitsRight t._vacantSubPools) *
        t._opt.elementSizeInBytes < 2 ^ 64 ∧
      (env.buffer + GetSubPoolSize (Count0BitsRight t._vacantSubPools) *
          t._opt.elementSizeInBytes ≤ t._pSubPools ∨
        t._pSubPools + SIZEOF_SUBPOOLS ≤ env.buffer) ∧
      ∀ j, t.pointers j ≠ 0 →
        env.buffer + GetSubPoolSize (Count0BitsRight t._vacantSubPools) *
          t._opt.elementSizeInBytes ≤ t.pointers j ∨
        t.pointers j + GetSubPoolSize j * t._opt.elementSizeInBytes ≤ env.buffer)
    {s' : Pool} {r : AllocBytesResult} (ha : t.allocateWithTable env = some (s', r)) :
    (s' = t ∧ r = {} ∧ t.pointers (Count0BitsRight t._vacantSubPools) = 0 ∧
      (env.buffer = 0 ∨ env.bitmap = 0)) ∨
    (∃ runs0 r0 rest, runs0 (Count0BitsRight t._vacantSubPools) = r0 :: rest ∧
      (t.pointers (Count0BitsRight t._vacantSubPools) ≠ 0 → runs0 = runs ∧
        s'.pointers = t.pointers) ∧
      (t.pointers (Count0BitsRight t._vacantSubPools) = 0 →
        runs0 = upd runs (Count0BitsRight t._vacantSubPools)
          [(0, GetSubPoolSize (Count0BitsRight t._vacantSubPools))] ∧
        s'.pointers = upd t.pointers (Count0BitsRight t._vacantSubPools) env.buffer ∧
        env.buffer ≠ 0 ∧ env.bitmap ≠ 0) ∧
      r = AllocBytesResult.mk (Count0BitsRight t._vacantSubPools)
        (slotAddr (s'.pointers (Count0BitsRight t._vacantSubPools))
          t._opt.elementSizeInBytes r0.1) ∧
      s'._opt = t._opt ∧ s'._pSubPools = t._pSubPools ∧
      Inv s' (upd runs0 (Count0BitsRight t._vacantSubPools)
          (if r0.2 = 1 then rest else (r0.1 + 1, r0.2 - 1) :: rest))
        (slotAddr (s'.pointers (Count0BitsRight t._vacantSubPools))
          t._opt.elementSizeInBytes r0.1 :: live)) := by
  unfold Pool.allocateWithTable at ha
  simp only at ha
  generalize hi : Count0BitsRight t._vacantSubPools = i at *
  by_cases hlt : i < ARRAY_LEN
  · simp only [hlt, not_true_eq_false, if_false] at ha
    have hi64 : i < 64 := by simp only [ARRAY_LEN, DIGITS] at hlt; omega
    by_cases hp0 : t.pointers i = 0
    · simp only [hp0, if_true] at ha
      by_cases hb : env.buffer = 0
      · simp only [hb, if_true, Option.some.injEq, Prod.mk.injEq] at ha
        exact Or.inl ⟨ha.1.symm, ha.2.symm, hp0, Or.inl hb⟩
      · simp only [hb, if_false] at ha
        by_cases hbm : env.bitmap = 0
        · simp only [hbm, if_true, Option.some.injEq, Prod.mk.injEq] at ha
          exact Or.inl ⟨ha.1.symm, ha.2.symm, hp0, Or.inr hbm⟩
        · simp only [hbm, if_false] at ha
          obtain ⟨b1, b2, b3⟩ := hbuf hb
          obtain ⟨gA, sA, xA, mA, lA, pA, oA, tA, nA⟩ :=
            @activate_groups _ _ _ _ h _ _ env.bitmap hlt htab hp0 hb b1 b2 b3 _ rfl rfl
          have hbA : (Pool.InsertSortedPointer (Pool.ResetSubPool
              { t with pointers := upd t.pointers i env.buffer,
                       poolsPrev := upd t.poolsPrev i env.bitmap } i) i).pointers i ≠ 0 := by
            rw [pA, upd_same]; exact hb
          obtain ⟨t', hres, hinv, f1, f2, f3, _⟩ :=
            @allocFromSubPool_inv _ _ _ gA sA xA _ mA lA hbA (0, GetSubPoolSize i) []
              (upd_same _ _ _)
          rw [hres] at ha
          simp only [Option.some.injEq, Prod.mk.injEq] at ha
          obtain ⟨e1, e2⟩ := ha
          subst e1
          right
          refine ⟨_, (0, GetSubPoolSize i), [], upd_same _ _ _, fun hc => absurd hp0 hc,
            fun _ => ⟨rfl, by rw [f1, pA], hb, hbm⟩, ?_, by rw [f2, oA], by rw [f3, tA], ?_⟩
          · rw [← e2, f1, oA]
          · rw [f1, ← oA]; exact hinv
    · simp only [hp0, if_false] at ha
      have hv : t._vacantSubPools ≠ 0 := by
        intro e
        rw [e, Count0BitsRight_zero] at hi
        omega
      have hbit := (Count0BitsRight_spec hv h.vacant_lt).2.1
      rw [hi] at hbit
      have hrne : runs i ≠ [] := by
        rcases (h.vacant i hi64).1 hbit with e | e
        · exact absurd e hp0
        · exact e
      obtain ⟨r0, rest, hr⟩ : ∃ r0 rest, runs i = r0 :: rest := by
        cases hrr : runs i with
        | nil => exact absurd hrr hrne
        | cons r0 rest => exact ⟨r0, rest, rfl⟩
      obtain ⟨t', hres, hinv, f1, f2, f3, _⟩ :=
        allocFromSubPool_inv h.toGeo h.toSubsOK h.toSortedOK (h.toMasksOK.pre i) h.toLiveOK
          hp0 hr
      rw [hres] at ha
      simp only [Option.some.injEq, Prod.mk.injEq] at ha
      obtain ⟨e1, e2⟩ := ha
      subst e1
      right
      refine ⟨runs, r0, rest, hr, fun _ => ⟨rfl, f1⟩, fun hc => absurd hc hp0, ?_, f2, f3, ?_⟩
      · rw [← e2, f1]
      · rw [f1]; exact hinv
  · simp only [hlt, not_false_eq_true, if_true] at ha
    exact absurd ha (by simp)

end
end KoPool

set_option autoImplicit false
namespace KoPool
open Pool

section
variable {s : Pool} {runs : Nat → List Run} {live : List Nat}

/-- `AllocateBytes` with honest `AlignedMalloc` results keeps the invariant; the returned
pointer, when not null, joins the live pointers. -/
theorem AllocateBytes_inv (h : Inv s runs live) {env : MallocEnv} (hm : MallocOK s env)
    {s' : Pool} {r : AllocBytesResult} (ha : s.AllocateBytes env = some (s', r)) :
    ∃ runs', Inv s' runs' (if r.pMemory = 0 then live else r.pMemory :: live) := by
  obtain ⟨hm1, hm2⟩ := hm
  unfold Pool.AllocateBytes at ha
  have finish : ∀ t : Pool, Inv t runs live → t._pSubPools ≠ 0 →
      t._vacantSubPools = s._vacantSubPools → t._opt = s._opt →
      (t._pSubPools = if s._pSubPools = 0 then env.table else s._pSubPools) →
      (∀ j, t.pointers j ≠ 0 → j < ARRAY_LEN ∧ s.pointers j = t.pointers j) →
      t.allocateWithTable env = some (s', r) →
      ∃ runs', Inv s' runs' (if r.pMemory = 0 then live else r.pMemory :: live) := by
    intro t hT htab hv ho htb hpt hat
    have hbuf : env.buffer ≠ 0 →
        env.buffer + GetSubPoolSize (Count0BitsRight t._vacantSubPools) *
          t._opt.elementSizeInBytes < 2 ^ 64 ∧
        (env.buffer + GetSubPoolSize (Count0BitsRight t._vacantSubPools) *
            t._opt.elementSizeInBytes ≤ t._pSubPools ∨
          t._pSubPools + SIZEOF_SUBPOOLS ≤ env.buffer) ∧
        ∀ j, t.pointers j ≠ 0 →
          env.buffer + GetSubPoolSize (Count0BitsRight t._vacantSubPools) *
            t._opt.elementSizeInBytes ≤ t.pointers j ∨
          t.pointers j + GetSubPoolSize j * t._opt.elementSizeInBytes ≤ env.buffer := by
      intro hb
      obtain ⟨c1, c2, c3⟩ := hm2 hb
      rw [hv, ho, htb]
      refine ⟨c1, c2, ?_⟩
      intro j hj
      obtain ⟨hj1, hj2⟩ := hpt j hj
      have := c3 j hj1 (by rw [hj2]; exact hj)
      rw [hj2] at this
      exact this
    rcases allocateWithTable_inv hT htab hbuf hat with
      ⟨e1, e2, _, _⟩ | ⟨runs0, r0, rest, _, _, _, hr, ho', _, hinv⟩
    · subst e1; subst e2
      exact ⟨runs, by simpa using hT⟩
    · obtain ⟨j, k, hjk⟩ := (hinv.live_iff _).1 (List.mem_cons_self _ _)
      have hne := hjk.ne_zero
      rw [hr]
      simp only [hne, if_false]
      exact ⟨_, hinv⟩
  by_cases ht : s._pSubPools = 0
  · simp only [ht, if_true] at ha
    have hm1' := hm1 ht
    by_cases he : env.table = 0
    · simp only [he, if_true, Option.some.injEq, Prod.mk.injEq] at ha
      obtain ⟨e1, e2⟩ := ha
      subst e1; subst e2
      exact ⟨runs, by simpa using h⟩
    · simp only [he, if_false] at ha
      exact finish _ (newTable_inv h ht (hm1' he)) he rfl rfl
        (by rw [if_pos ht]; rfl)
        (fun j hj => absurd rfl hj) ha
  · simp only [ht, if_false] at ha
    exact finish s h ht rfl rfl (by simp [ht])
      (fun j hj => ⟨(h.toGeo.ctx hj).hi, rfl⟩) ha

end
end KoPool

set_option autoImplicit false
namespace KoPool
open Pool

theorem deallocAllLoop_spec : ∀ (n : Nat) (s s1 : Pool), deallocAllLoop n s = some s1 →
    (∀ j, s1.pointers j = if j < n then 0 else s.pointers j) ∧
    (∀ j, s1.numUsed j = if j < n then 0 else s.numUsed j) ∧
    (∀ j, s1.poolsPrev j = if j < n then 0 else s.poolsPrev j) ∧
    (∀ j, j < n → s1.mem (s.poolAddr j + 8) = 0) ∧
    (∀ j, j < n → s.numUsed j = 0) ∧
    s1._opt = s._opt ∧ s1._pSubPools = s._pSubPools ∧
    s1._vacantSubPools = s._vacantSubPools ∧
    s1._subPoolsWhichHaveAtLeastOneElement = s._subPoolsWhichHaveAtLeastOneElement
  | 0, s, s1, h => by
    simp only [deallocAllLoop, Option.some.injEq] at h
    subst h
    simp
  | n + 1, s, s1, h => by
    simp only [deallocAllLoop] at h
    cases hr : deallocAllLoop n s with
    | none => rw [hr] at h; exact absurd h (by simp)
    | some s0 =>
      rw [hr] at h
      obtain ⟨p0, n0, v0, m0, u0, o0, t0, vac0, ne0⟩ := deallocAllLoop_spec n s s0 hr
      unfold Pool.DeallocateSubPoolMemory at h
      by_cases hn : n < ARRAY_LEN
      · simp only [hn, not_true_eq_false, if_false] at h
        by_cases hz : s0.numUsed n = 0
        · simp only [hz, ne_eq, not_true_eq_false, if_false, Option.some.injEq] at h
          subst h
          have hzs : s.numUsed n = 0 := by
            have := n0 n
            rw [if_neg (Nat.lt_irrefl n)] at this
            rw [← this]; exact hz
          have hpa : ∀ j, s0.poolAddr j = s.poolAddr j := fun j => by
            simp [Pool.poolAddr, t0]
          refine ⟨?_, ?_, ?_, ?_, ?_, o0, t0, vac0, ne0⟩
          · intro j
            show upd s0.pointers n 0 j = _
            simp only [upd, p0 j]
            by_cases e : j = n
            · simp [e]
            · have : j < n + 1 ↔ j < n := by omega
              simp [e, this]
          · intro j
            show upd s0.numUsed n 0 j = _
            simp only [upd, n0 j]
            by_cases e : j = n
            · simp [e]
            · have : j < n + 1 ↔ j < n := by omega
              simp [e, this]
          · intro j
            show upd s0.poolsPrev n 0 j = _
            simp only [upd, v0 j]
            by_cases e : j = n
            · simp [e]
            · have : j < n + 1 ↔ j < n := by omega
              simp [e, this]
          · intro j hj
            show upd s0.mem (s0.poolAddr n + 8) 0 (s.poolAddr j + 8) = 0
            simp only [upd]
            split_ifs with e
            · rfl
            · exact m0 j (by
                rcases Nat.eq_or_lt_of_le (Nat.lt_succ_iff.1 hj) with e' | e'
                · exact absurd (by rw [e', hpa]) e
                · exact e')
          · intro j hj
            rcases Nat.eq_or_lt_of_le (Nat.lt_succ_iff.1 hj) with e' | e'
            · rw [e']; exact hzs
            · exact u0 j e'
        · simp only [hz, ne_eq, not_false_eq_true, if_true] at h
          exact absurd h (by simp)
      · simp only [hn, not_false_eq_true, if_true] at h
        exact absurd h (by simp)

/-- The loop of `DeallocateBytesAll` does not fail when no slot is in use. -/
theorem deallocAllLoop_some : ∀ (n : Nat) (s : Pool), n ≤ ARRAY_LEN →
    (∀ j, j < n → s.numUsed j = 0) → ∃ s1, deallocAllLoop n s = some s1
  | 0, s, _, _ => ⟨s, rfl⟩
  | n + 1, s, hn, hu => by
    obtain ⟨s0, h0⟩ := deallocAllLoop_some n s (by omega) (fun j hj => hu j (by omega))
    obtain ⟨_, n0, _⟩ := deallocAllLoop_spec n s s0 h0
    have hz : s0.numUsed n = 0 := by
      rw [n0 n, if_neg (Nat.lt_irrefl n)]
      exact hu n (by omega)
    simp only [deallocAllLoop, h0]
    unfold Pool.DeallocateSubPoolMemory
    have hlt : n < ARRAY_LEN := by omega
    simp only [hlt, not_true_eq_false, if_false, hz, ne_eq]
    exact ⟨_, rfl⟩

section
variable {s : Pool} {runs : Nat → List Run} {live : List Nat}

/-- `DeallocateBytesAll`, when it passes its assertions, leaves a pool with no activated
sub-pool, which satisfies the invariant with no live pointer. -/
theorem DeallocateBytesAll_inv (h : Inv s runs live) {s' : Pool}
    (ha : s.DeallocateBytesAll = some s') :
    Inv s' (fun _ => []) [] ∧ (∀ j, s'.pointers j = 0) ∧ (∀ j, s.numUsed j = 0) := by
  unfold Pool.DeallocateBytesAll at ha
  by_cases ht : s._pSubPools = 0
  · simp only [ht, if_true] at ha
    exact absurd ha (by simp)
  · simp only [ht, if_false] at ha
    cases hr : deallocAllLoop ARRAY_LEN s with
    | none => rw [hr] at ha; exact absurd ha (by simp)
    | some s1 =>
      rw [hr] at ha
      simp only [Option.some.injEq] at ha
      obtain ⟨p1, n1, _, _, u1, o1, t1, _, _⟩ := deallocAllLoop_spec _ _ _ hr
      have hp : ∀ j, s'.pointers j = 0 := by
        intro j
        rw [← ha]
        show s1.pointers j = 0
        rw [p1 j]
        split_ifs with e
        · rfl
        · exact h.ptr_hi j (by omega)
      have hus : ∀ j, s.numUsed j = 0 := by
        intro j
        by_cases e : j < ARRAY_LEN
        · exact u1 j e
        · exact h.unused j (h.ptr_hi j (by omega))
      have hn : ∀ j, s'.numUsed j = 0 := by
        intro j
        rw [← ha]
        show s1.numUsed j = 0
        rw [n1 j]
        split_ifs
        · rfl
        · exact hus j
      have hopt : s'._opt = s._opt := by rw [← ha]; exact o1
      have htab : s'._pSubPools = s._pSubPools := by rw [← ha]; exact t1
      have hac : ∀ n, activeCount s' n = 0 := by
        intro n
        induction n with
        | zero => rfl
        | succ n ih => simp [activeCount, ih, hp]
      have hvac : s'._vacantSubPools = USIZE_MAX := by rw [← ha]
      have hne : s'._subPoolsWhichHaveAtLeastOneElement = 0 := by rw [← ha]
      have hdef : s'._subPoolToDeallocate = SUB_POOL_ID_NONE := by rw [← ha]
      have hsz : s'.sortedPointersSize = 0 := by rw [← ha]
      have hsp : ∀ a, s'.sortedPointers a = {} := by intro a; rw [← ha]
      refine ⟨⟨⟨?_, fun _ => hp, ?_, fun j _ => hp j, ?_, ?_, ?_⟩, ⟨?_, fun j _ => hn j⟩,
        ⟨?_, ?_, ?_, ?_, ?_⟩, ⟨?_, ?_, ?_, Or.inl hdef, ?_⟩, ⟨?_, List.nodup_nil⟩⟩, hp, hus⟩
      · rw [hopt]; exact h.sz_ge
      · rw [htab]; exact h.table_lt
      · intro j hj; exact absurd (hp j) hj
      · intro j hj; exact absurd (hp j) hj
      · intro i j _ hi; exact absurd (hp i) hi
      · intro j hj; exact absurd (hp j) hj
      · rw [hsz, hac]
      · intro a c _ hc; rw [hsz] at hc; exact absurd hc (Nat.not_lt_zero _)
      · intro a ha'; rw [hsz] at ha'; exact absurd ha' (Nat.not_lt_zero _)
      · intro j hj; exact absurd (hp j) hj
      · intro a _; rw [hsp a]; exact ⟨rfl, rfl⟩
      · rw [hvac]; unfold USIZE_MAX; omega
      · intro j hj
        rw [hvac, testBit_USIZE_MAX hj]
        simp [hp j]
      · intro j
        rw [hne]
        simp [hp j]
      · intro j hj; exact absurd (hp j) hj
      · intro q
        simp only [List.not_mem_nil, false_iff]
        rintro ⟨i, k, hl⟩
        exact hl.1 (hp i)

end
end KoPool

set_option autoImplicit false
namespace KoPool
open Pool

/-- A pool with no activated sub-pool, full vacant mask, empty non-empty mask and no
deferred release satisfies the invariant with no live pointer. -/
theorem inv_of_inactive {s : Pool} (hsz : 16 ≤ s._opt.elementSizeInBytes)
    (htab : s._pSubPools + SIZEOF_SUBPOOLS < 2 ^ 64) (hp : ∀ j, s.pointers j = 0)
    (hn : ∀ j, s.numUsed j = 0) (hvac : s._vacantSubPools = USIZE_MAX)
    (hne : s._subPoolsWhichHaveAtLeastOneElement = 0)
    (hdef : s._subPoolToDeallocate = SUB_POOL_ID_NONE) (hsize : s.sortedPointersSize = 0)
    (hsp : ∀ a, s.sortedPointers a = {}) : Inv s (fun _ => []) [] := by
  have hac : ∀ n, activeCount s n = 0 := by
    intro n
    induction n with
    | zero => rfl
    | succ n ih => simp [activeCount, ih, hp]
  refine ⟨⟨hsz, fun _ => hp, htab, fun j _ => hp j, ?_, ?_, ?_⟩, ⟨?_, fun j _ => hn j⟩,
    ⟨?_, ?_, ?_, ?_, ?_⟩, ⟨?_, ?_, ?_, Or.inl hdef, ?_⟩, ⟨?_, List.nodup_nil⟩⟩
  · intro j hj; exact absurd (hp j) hj
  · intro j hj; exact absurd (hp j) hj
  · intro i j _ hi; exact absurd (hp i) hi
  · intro j hj; exact absurd (hp j) hj
  · rw [hsize, hac]
  · intro a c _ hc; rw [hsize] at hc; exact absurd hc (Nat.not_lt_zero _)
  · intro a ha'; rw [hsize] at ha'; exact absurd ha' (Nat.not_lt_zero _)
  · intro j hj; exact absurd (hp j) hj
  · intro a _; rw [hsp a]; exact ⟨rfl, rfl⟩
  · rw [hvac]; unfold USIZE_MAX; omega
  · intro j hj
    rw [hvac, testBit_USIZE_MAX hj]
    simp [hp j]
  · intro j
    rw [hne]
    simp [hp j]
  · intro j hj; exact absurd (hp j) hj
  · intro q
    simp only [List.not_mem_nil, false_iff]
    rintro ⟨i, k, hl⟩
    exact hl.1 (hp i)

/-- A constructed pool satisfies the invariant with no live pointer. -/
theorem construct_inv {opt : Opt} {s : Pool} (h : Pool.construct opt = some s) :
    Inv s (fun _ => []) [] := by
  unfold Pool.construct at h
  by_cases h1 : IsPowerOf2 opt.elementAlignment = true
  · by_cases h2 : opt.elementSizeInBytes ≥ 16
    · simp only [h1, h2, not_true_eq_false, if_false, Option.some.injEq] at h
      subst h
      exact inv_of_inactive h2 (by show 0 + SIZEOF_SUBPOOLS < 2 ^ 64; unfold SIZEOF_SUBPOOLS; omega)
        (fun _ => rfl) (fun _ => rfl) rfl rfl rfl rfl (fun _ => rfl)
    · simp only [h1, h2, not_true_eq_false, not_false_eq_true, if_true, if_false] at h
      exact absurd h (by simp)
  · simp only [h1, not_false_eq_true, if_true] at h
    exact absurd h (by simp)

/-- Every reachable state satisfies the invariant for some lists of free runs. -/
theorem Reachable.inv {s : Pool} {live : List Nat} (h : Reachable s live) :
    ∃ runs, Inv s runs live := by
  induction h with
  | construct opt s hc => exact ⟨_, construct_inv hc⟩
  | allocate s live env s' r _ hm ha ih =>
    obtain ⟨runs, hI⟩ := ih
    exact AllocateBytes_inv hI hm ha
  | deallocateByPtr s live p s' _ hp hd ih =>
    obtain ⟨runs, hI⟩ := ih
    obtain ⟨i, k, hl⟩ := (hI.live_iff p).1 hp
    obtain ⟨s'', rs', e, _, _, hI', _⟩ := DeallocateBytesByPtr_inv hI hl
    rw [hd] at e
    simp only [Option.some.injEq] at e
    subst e
    exact ⟨_, hI'⟩
  | deallocateByPtrAndSubPoolID s live p j s' _ hp hj hd ih =>
    obtain ⟨runs, hI⟩ := ih
    obtain ⟨i, k, hl⟩ := (hI.live_iff p).1 hp
    obtain ⟨s'', rs', e, _, _, hI', _⟩ := DeallocateBytesByPtrAndSubPoolID_inv hI hl hj
    rw [hd] at e
    simp only [Option.some.injEq] at e
    subst e
    exact ⟨_, hI'⟩
  | deallocateByID s live p j s' _ hp hj hd ih =>
    obtain ⟨runs, hI⟩ := ih
    obtain ⟨i, k, hl⟩ := (hI.live_iff p).1 hp
    obtain ⟨s'', rs', e, _, _, hI', _⟩ := DeallocateBytesByID_inv hI hl hj
    rw [hd] at e
    simp only [Option.some.injEq] at e
    subst e
    exact ⟨_, hI'⟩
  | deallocateAll s live s' _ hd ih =>
    obtain ⟨runs, hI⟩ := ih
    exact ⟨_, (DeallocateBytesAll_inv hI hd).1⟩

end KoPool

set_option autoImplicit false
namespace KoPool
open Pool

/-! ## The example states are reachable -/

theorem ex0_construct :
    Pool.construct { elementSizeInBytes := 16, elementAlignment := 8 } = some ex0 := by
  rfl

theorem ex0_reachable : Reachable ex0 [] := Reachable.construct _ _ ex0_construct

set_option maxRecDepth 100000 in
theorem env1_ok0 : MallocOK ex0 env1 := by
  unfold MallocOK
  decide

set_option maxRecDepth 100000 in
theorem ex1_alloc : ex0.AllocateBytes env1 = some (ex1, AllocBytesResult.mk 0 100000) := by
  rfl

theorem ex1_reachable : Reachable ex1 [100000] :=
  Reachable.allocate ex0 [] env1 ex1 _ ex0_reachable env1_ok0 ex1_alloc

set_option maxRecDepth 100000 in
theorem noMalloc_ok (s : Pool) : MallocOK s noMalloc :=
  ⟨fun _ h => absurd rfl h, fun h => absurd rfl h⟩

theorem env1_ok1 : MallocOK ex1 noMalloc := by
  unfold MallocOK
  decide

set_option maxRecDepth 100000 in
theorem ex2_alloc : ex1.AllocateBytes noMalloc = some (ex2, AllocBytesResult.mk 0 100016) := by
  rfl

theorem ex2_reachable : Reachable ex2 [100016, 100000] :=
  Reachable.allocate ex1 [100000] noMalloc ex2 _ ex1_reachable env1_ok1 ex2_alloc

set_option maxRecDepth 100000 in
theorem ex1d_dealloc : ex1.DeallocateBytesByPtr 100000 = some ex1d := by
  rfl

theorem ex1d_reachable : Reachable ex1d [] :=
  Reachable.deallocateByPtr ex1 [100000] 100000 ex1d ex1_reachable (by decide) ex1d_dealloc

set_option maxRecDepth 100000 in
theorem env3_ok2 : MallocOK ex2 env3 := by
  unfold MallocOK
  decide

set_option maxRecDepth 100000 in
theorem ex3_alloc : ex2.AllocateBytes env3 = some (ex3, AllocBytesResult.mk 1 100064) := by
  rfl

theorem ex3_reachable : Reachable ex3 [100064, 100016, 100000] :=
  Reachable.allocate ex2 [100016, 100000] env3 ex3 _ ex2_reachable env3_ok2 ex3_alloc

end KoPool

set_option autoImplicit false
namespace KoPool
open Pool

/-! ## More reachable example states -/

/-- One more `AllocateBytes` call with the `AlignedMalloc` results `envOf`. -/
theorem allocs_reachable {n : Nat} {live : List Nat} {r : AllocBytesResult}
    (h : Reachable (allocs n ex0) live) (hm : MallocOK (allocs n ex0) (envOf (allocs n ex0)))
    (ha : (allocs n ex0).AllocateBytes (envOf (allocs n ex0)) = some (allocs (n + 1) ex0, r)) :
    Reachable (allocs (n + 1) ex0) (if r.pMemory = 0 then live else r.pMemory :: live) :=
  Reachable.allocate _ live _ _ r h hm ha

set_option maxRecDepth 100000 in
theorem allocs1_reachable : Reachable (allocs 1 ex0) [100000] :=
  @allocs_reachable 0 [] (AllocBytesResult.mk 0 100000) ex0_reachable
    (by unfold MallocOK; decide) (by rfl)

set_option maxRecDepth 100000 in
theorem allocs2_reachable : Reachable (allocs 2 ex0) [100016, 100000] :=
  @allocs_reachable 1 _ (AllocBytesResult.mk 0 100016) allocs1_reachable
    (by unfold MallocOK; decide) (by rfl)

set_option maxRecDepth 100000 in
theorem allocs3_reachable : Reachable (allocs 3 ex0) [101000, 100016, 100000] :=
  @allocs_reachable 2 _ (AllocBytesResult.mk 1 101000) allocs2_reachable
    (by unfold MallocOK; decide) (by rfl)

set_option maxRecDepth 100000 in
theorem allocs4_reachable : Reachable (allocs 4 ex0) [101016, 101000, 100016, 100000] :=
  @allocs_reachable 3 _ (AllocBytesResult.mk 1 101016) allocs3_reachable
    (by unfold MallocOK; decide) (by rfl)

set_option maxRecDepth 100000 in
theorem allocs5_reachable :
    Reachable (allocs 5 ex0) [102000, 101016, 101000, 100016, 100000] :=
  @allocs_reachable 4 _ (AllocBytesResult.mk 2 102000) allocs4_reachable
    (by unfold MallocOK; decide) (by rfl)

set_option maxRecDepth 100000 in
theorem allocs6_reachable :
    Reachable (allocs 6 ex0) [102016, 102000, 101016, 101000, 100016, 100000] :=
  @allocs_reachable 5 _ (AllocBytesResult.mk 2 102016) allocs5_reachable
    (by unfold MallocOK; decide) (by rfl)

set_option maxRecDepth 100000 in
theorem allocs7_reachable :
    Reachable (allocs 7 ex0) [102032, 102016, 102000, 101016, 101000, 100016, 100000] :=
  @allocs_reachable 6 _ (AllocBytesResult.mk 2 102032) allocs6_reachable
    (by unfold MallocOK; decide) (by rfl)

set_option maxRecDepth 100000 in
theorem ex8_reachable :
    Reachable ex8 [102048, 102032, 102016, 102000, 101016, 101000, 100016, 100000] :=
  @allocs_reachable 7 _ (AllocBytesResult.mk 2 102048) allocs7_reachable
    (by unfold MallocOK; decide) (by rfl)

/-- A `DeallocateBytesByPtr` call whose result is `freed s p`. -/
theorem freed_reachable {s : Pool} {live : List Nat} {p : Nat} (h : Reachable s live)
    (hp : p ∈ live) (hd : s.DeallocateBytesByPtr p = some (freed s p)) :
    Reachable (freed s p) (live.erase p) :=
  Reachable.deallocateByPtr s live p _ h hp hd

set_option maxRecDepth 100000 in
theorem ex8a_reachable :
    Reachable ex8a [102048, 102032, 102000, 101016, 101000, 100016, 100000] :=
  freed_reachable ex8_reachable (by decide) (by rfl)

set_option maxRecDepth 100000 in
theorem ex8b_reachable :
    Reachable ex8b [102048, 102000, 101016, 101000, 100016, 100000] :=
  freed_reachable ex8a_reachable (by decide) (by rfl)

set_option maxRecDepth 100000 in
theorem ex8c_reachable : Reachable ex8c [102048, 101016, 101000, 100016, 100000] :=
  freed_reachable ex8b_reachable (by decide) (by rfl)

set_option maxRecDepth 100000 in
theorem ex8g_reachable : Reachable ex8g [102032, 102000, 101016, 101000, 100016, 100000] :=
  freed_reachable ex8a_reachable (by decide) (by rfl)

set_option maxRecDepth 100000 in
theorem ex3a_reachable : Reachable ex3a [100016, 100000] :=
  freed_reachable ex3_reachable (by decide) (by rfl)

set_option maxRecDepth 100000 in
theorem ex3b_reachable : Reachable ex3b [100016] :=
  freed_reachable ex3a_reachable (by decide) (by rfl)

end KoPool

set_option autoImplicit false
namespace KoPool
open Pool

/-! ## Consequences of the invariant for the masks and the deferred release -/

section
variable {s : Pool} {runs : Nat → List Run} {live : List Nat}

/-- A sub-pool counts a used slot exactly when one of its slots is live. -/
theorem Inv.used_iff_live (h : Inv s runs live) (i : Nat) :
    (s.pointers i ≠ 0 ∧ 0 < s.numUsed i) ↔ ∃ k p, LiveAt s i k p := by
  constructor
  · rintro ⟨hb, hnu⟩
    obtain ⟨k, hk⟩ := (h.sub i hb).exists_live hb hnu
    exact ⟨k, _, hk⟩
  · rintro ⟨k, p, hl⟩
    refine ⟨hl.1, ?_⟩
    rcases Nat.eq_zero_or_pos (s.numUsed i) with h0 | h0
    · exact absurd hl ((h.sub i hl.1).no_live h0)
    · exact h0

/-- With no live pointer, no sub-pool counts a used slot. -/
theorem Inv.unused_of_no_live (h : Inv s runs []) (j : Nat) : s.numUsed j = 0 := by
  by_cases hb : s.pointers j = 0
  · exact h.unused j hb
  · rcases Nat.eq_zero_or_pos (s.numUsed j) with h0 | h0
    · exact h0
    · obtain ⟨k, p, hl⟩ := (h.used_iff_live j).1 ⟨hb, h0⟩
      have : p ∈ ([] : List Nat) := (h.live_iff p).2 ⟨j, k, hl⟩
      exact absurd this (List.not_mem_nil _)

/-- A slot of an activated sub-pool is live exactly when its free-bit is clear. -/
theorem LiveAt_slot_iff {i k : Nat} (hb : s.pointers i ≠ 0) (hk : k < GetSubPoolSize i) :
    LiveAt s i k (slotAddr (s.pointers i) s._opt.elementSizeInBytes k) ↔
      s.IsSkipListNodeByIDInSubPool k i = false :=
  ⟨fun h => h.2.2.2, fun h => ⟨hb, hk, rfl, h⟩⟩

/-- The runs of an activated sub-pool are not empty exactly when one of its free-bits is
set. -/
theorem SubInv.runs_ne_nil_iff {i : Nat} {rs : List Run} (h : SubInv s i rs) :
    rs ≠ [] ↔ ∃ k, k < GetSubPoolSize i ∧ s.IsSkipListNodeByIDInSubPool k i = true := by
  constructor
  · intro hne
    cases rs with
    | nil => exact absurd rfl hne
    | cons r rest =>
      have hb := h.runs.head
      refine ⟨r.1, by omega, ?_⟩
      rw [h.bits r.1 (by omega)]
      exact ⟨r, List.mem_cons_self _ _, le_refl _, by omega⟩
  · rintro ⟨k, hk, hbit⟩ e
    rw [h.bits k hk, e] at hbit
    exact Covered_nil hbit

/-- Bit `i` of the vacant mask is set exactly when sub-pool `i` is not activated or one of
its free-bits is set. -/
theorem Inv.vacant_bit (h : Inv s runs live) {i : Nat} (hi : i < 64) :
    s._vacantSubPools.testBit i = true ↔
      (s.pointers i = 0 ∨
        ∃ k, k < GetSubPoolSize i ∧ s.IsSkipListNodeByIDInSubPool k i = true) := by
  rw [h.vacant i hi]
  by_cases hb : s.pointers i = 0
  · simp [hb]
  · rw [(h.sub i hb).runs_ne_nil_iff]

/-- Bit `i` of the vacant mask is clear exactly when sub-pool `i` is activated and all its
slots are live. -/
theorem Inv.vacant_clear (h : Inv s runs live) {i : Nat} (hi : i < 64) :
    s._vacantSubPools.testBit i = false ↔
      (s.pointers i ≠ 0 ∧ ∀ k, k < GetSubPoolSize i → ∃ p, LiveAt s i k p) := by
  rw [← Bool.not_eq_true, h.vacant_bit hi]
  constructor
  · intro hn
    have hb : s.pointers i ≠ 0 := fun e => hn (Or.inl e)
    refine ⟨hb, fun k hk => ⟨_, (LiveAt_slot_iff hb hk).2 ?_⟩⟩
    cases hbit : s.IsSkipListNodeByIDInSubPool k i with
    | false => rfl
    | true => exact absurd (Or.inr ⟨k, hk, hbit⟩) hn
  · rintro ⟨hb, hall⟩ (e | ⟨k, hk, hbit⟩)
    · exact hb e
    · obtain ⟨p, hl⟩ := hall k hk
      rw [hl.2.2.2] at hbit
      exact absurd hbit (by simp)

end

/-! ## Claims about the masks, the deferred release and the null pointer -/

/-- C19: `DeallocateBytesByPtr(nullptr)` and `DeallocateBytesByPtrAndSubPoolID(nullptr, i)`
return, and the pool afterwards is the pool before the call, in every field. -/
theorem deallocate_null_noop (s : Pool) (i : Nat) :
    s.DeallocateBytesByPtr 0 = some s ∧ s.DeallocateBytesByPtrAndSubPoolID 0 i = some s := by
  constructor
  · simp [Pool.DeallocateBytesByPtr]
  · simp [Pool.DeallocateBytesByPtrAndSubPoolID, Pool.DeallocateBytesImpl]

/-- The pool after deallocating the only live pointer of `ex1`. -/
theorem ex1_dealloc_empty :
    (ex1.DeallocateBytesByPtr 100000).map Pool.IsEmpty = some true := by
  rfl

/-- C13: in a reachable state, bit `i` of the non-empty mask is set exactly when sub-pool `i`
holds a live slot, and `IsEmpty` is true exactly when no pointer is live. The constructed
pool `ex0` is empty, `ex1` (one allocation) is not, and deallocating that pointer makes the
pool empty again. -/
theorem nonempty_mask_iff_live (s : Pool) (live : List Nat) (h : Reachable s live) :
    (∀ i, s._subPoolsWhichHaveAtLeastOneElement.testBit i = true ↔ ∃ k p, LiveAt s i k p) ∧
    (s.IsEmpty = true ↔ live = []) ∧
    ex0.IsEmpty = true ∧ ex1.IsEmpty = false ∧
    (ex1.DeallocateBytesByPtr 100000).map Pool.IsEmpty = some true := by
  obtain ⟨runs, hI⟩ := h.inv
  have hbits : ∀ i, s._subPoolsWhichHaveAtLeastOneElement.testBit i = true ↔
      ∃ k p, LiveAt s i k p := fun i => (hI.nonempty i).trans (hI.used_iff_live i)
  refine ⟨hbits, ?_, rfl, rfl, ex1_dealloc_empty⟩
  unfold Pool.IsEmpty
  rw [decide_eq_true_iff]
  constructor
  · intro h0
    apply List.eq_nil_iff_forall_not_mem.2
    intro p hp
    obtain ⟨i, k, hl⟩ := (hI.live_iff p).1 hp
    have := (hbits i).2 ⟨k, p, hl⟩
    rw [h0, Nat.zero_testBit] at this
    exact absurd this (by simp)
  · intro hl
    apply Nat.eq_of_testBit_eq
    intro i
    rw [Nat.zero_testBit]
    cases hb : s._subPoolsWhichHaveAtLeastOneElement.testBit i with
    | false => rfl
    | true =>
      obtain ⟨k, p, hp⟩ := (hbits i).1 hb
      have : p ∈ live := (hI.live_iff p).2 ⟨i, k, hp⟩
      rw [hl] at this
      exact absurd this (List.not_mem_nil _)

theorem nonempty_mask_iff_live_witness :
    (ex1.IsEmpty = true ↔ [100000] = ([] : List Nat)) :=
  (nonempty_mask_iff_live ex1 [100000] ex1_reachable).2.1

/-- C14: in a reachable state, bit `i` of the vacant mask (`i < 64`) is set exactly when
sub-pool `i` is not activated or has a slot whose free-bit is set; it is clear exactly when
sub-pool `i` is activated and every one of its `GetSubPoolSize i` slots is live. -/
theorem vacant_mask_iff (s : Pool) (live : List Nat) (h : Reachable s live) (i : Nat)
    (hi : i < SUBPOOLS_CNT) :
    (s._vacantSubPools.testBit i = true ↔
      (s.pointers i = 0 ∨
        ∃ k, k < GetSubPoolSize i ∧ s.IsSkipListNodeByIDInSubPool k i = true)) ∧
    (s._vacantSubPools.testBit i = false ↔
      (s.pointers i ≠ 0 ∧ ∀ k, k < GetSubPoolSize i → ∃ p, LiveAt s i k p)) := by
  obtain ⟨runs, hI⟩ := h.inv
  exact ⟨hI.vacant_bit hi, hI.vacant_clear hi⟩

set_option maxRecDepth 100000 in
theorem vacant_mask_iff_witness :
    (ex2._vacantSubPools.testBit 0 = false ↔
      (ex2.pointers 0 ≠ 0 ∧ ∀ k, k < GetSubPoolSize 0 → ∃ p, LiveAt ex2 0 k p)) :=
  (vacant_mask_iff ex2 [100016, 100000] ex2_reachable 0 (by decide)).2

/-- C16: in a reachable state every activated sub-pool holds a live slot or is the one
named by `_subPoolToDeallocate`; `_subPoolToDeallocate`, when not `SUB_POOL_ID_NONE`, names
an activated sub-pool without a live slot; so when no pointer is live at most one sub-pool
has a buffer. -/
theorem deferred_release_inv (s : Pool) (live : List Nat) (h : Reachable s live) :
    (∀ i, s.pointers i ≠ 0 → (∃ k p, LiveAt s i k p) ∨ i = s._subPoolToDeallocate) ∧
    (s._subPoolToDeallocate ≠ SUB_POOL_ID_NONE →
      s.pointers s._subPoolToDeallocate ≠ 0 ∧
      ∀ k p, ¬ LiveAt s s._subPoolToDeallocate k p) ∧
    (live = [] → ∀ i j, s.pointers i ≠ 0 → s.pointers j ≠ 0 → i = j) := by
  obtain ⟨runs, hI⟩ := h.inv
  have h1 : ∀ i, s.pointers i ≠ 0 →
      (∃ k p, LiveAt s i k p) ∨ i = s._subPoolToDeallocate := by
    intro i hb
    rcases hI.active i hb with hu | hd
    · exact Or.inl ((hI.used_iff_live i).1 ⟨hb, hu⟩)
    · exact Or.inr hd
  refine ⟨h1, ?_, ?_⟩
  · intro hd
    rcases hI.deferred with e | ⟨hb, hnu⟩
    · exact absurd e hd
    · exact ⟨hb, fun k p hl => (hI.sub _ hb).no_live hnu hl⟩
  · intro hl i j hi hj
    have key : ∀ i, s.pointers i ≠ 0 → i = s._subPoolToDeallocate := by
      intro i hb
      rcases h1 i hb with ⟨k, p, hp⟩ | hd
      · have : p ∈ live := (hI.live_iff p).2 ⟨i, k, hp⟩
        rw [hl] at this
        exact absurd this (List.not_mem_nil _)
      · exact hd
    rw [key i hi, key j hj]

theorem deferred_release_inv_witness :
    Reachable ex1 [100000] ∧
    (∀ i, ex1.pointers i ≠ 0 → (∃ k p, LiveAt ex1 i k p) ∨ i = ex1._subPoolToDeallocate) :=
  ⟨ex1_reachable, (deferred_release_inv ex1 [100000] ex1_reachable).1⟩

end KoPool

set_option autoImplicit false
namespace KoPool
open Pool

/-! ## Ids, reverse lookup and `DeallocateBytesAll` -/

/-- A slot-aligned pointer inside the buffer of sub-pool `i` is the address of one of its
slots. -/
theorem slot_of_aligned {b sz cap p : Nat} (hsz : 0 < sz) (h1 : b ≤ p) (h2 : p < b + cap * sz)
    (h3 : (p - b) % sz = 0) : (p - b) / sz < cap ∧ p = slotAddr b sz ((p - b) / sz) := by
  have hd : (p - b) / sz * sz = p - b := Nat.div_mul_cancel (Nat.dvd_of_mod_eq_zero h3)
  constructor
  · apply (Nat.div_lt_iff_lt_mul hsz).2
    omega
  · unfold slotAddr
    omega

/-- C8: for an activated sub-pool `i` of a reachable state and a slot-aligned pointer `p`
inside its buffer, `PtrToID(p, i)` is `baseID i + (p - pointers[i]) / elementSizeInBytes`,
`IDToPtr` maps this id back to `p` and `IDToSubPoolID` maps it to `i`; `baseID 0 = 0` and
`baseID i = 2 ^ i` otherwise. -/
theorem id_ptr_round_trip (s : Pool) (live : List Nat) (h : Reachable s live) (i p : Nat)
    (hb : s.pointers i ≠ 0) (h1 : s.pointers i ≤ p)
    (h2 : p < s.pointers i + GetSubPoolSize i * s._opt.elementSizeInBytes)
    (h3 : (p - s.pointers i) % s._opt.elementSizeInBytes = 0) :
    s.PtrToID p i = baseID i + (p - s.pointers i) / s._opt.elementSizeInBytes ∧
    s.IDToPtr (s.PtrToID p i) = p ∧ s.IDToSubPoolID (s.PtrToID p i) = i ∧
    baseID 0 = 0 ∧ ∀ j, 1 ≤ j → baseID j = 2 ^ j := by
  obtain ⟨runs, hI⟩ := h.inv
  have c := hI.toGeo.ctx hb
  obtain ⟨hk, hp⟩ := slot_of_aligned (by have := c.hsz; omega) h1 h2 h3
  have e1 : s.PtrToID p i = baseID i + (p - s.pointers i) / s._opt.elementSizeInBytes := by
    conv_lhs => rw [hp]
    exact PtrToID_slot c hk
  refine ⟨e1, ?_, ?_, rfl, ?_⟩
  · rw [e1, IDToPtr_slot c hk]
    exact hp.symm
  · rw [e1]
    exact IDToSubPoolID_slot c.hi hk
  · intro j hj
    unfold baseID
    rw [if_neg (by omega)]

set_option maxRecDepth 100000 in
theorem id_ptr_round_trip_witness :
    ex3.PtrToID 100080 1 = baseID 1 + (100080 - ex3.pointers 1) / ex3._opt.elementSizeInBytes ∧
    ex3.IDToPtr (ex3.PtrToID 100080 1) = 100080 ∧
    ex3.IDToSubPoolID (ex3.PtrToID 100080 1) = 1 ∧
    baseID 0 = 0 ∧ ∀ j, 1 ≤ j → baseID j = 2 ^ j :=
  id_ptr_round_trip ex3 [100064, 100016, 100000] ex3_reachable 1 100080 (by decide)
    (by decide) (by decide) (by decide)

/-- C9: for a live pointer `p` of a reachable state, `FindSubPoolIDByPtr(p)` returns the
index `i` of the sub-pool that holds `p` as a live slot, and `p` lies in
`[pointers[i], pointers[i] + GetSubPoolSize(i) * elementSizeInBytes)`. -/
theorem find_subpool_of_live (s : Pool) (live : List Nat) (h : Reachable s live) (p : Nat)
    (hp : p ∈ live) :
    ∃ i, s.FindSubPoolIDByPtr p = some i ∧ (∃ k, LiveAt s i k p) ∧ s.pointers i ≠ 0 ∧
      s.pointers i ≤ p ∧ p < s.pointers i + GetSubPoolSize i * s._opt.elementSizeInBytes := by
  obtain ⟨runs, hI⟩ := h.inv
  obtain ⟨i, k, hl⟩ := (hI.live_iff p).1 hp
  have hin := hl.inside hI.sz_ge
  have c := hI.toGeo.ctx hl.1
  have hfind := hI.toSortedOK.find_subpool hI.toGeo hl.1 hin.1 (by omega)
  have htab : s._pSubPools ≠ 0 := fun e => hl.1 (hI.no_table e i)
  have hi : i ≠ SUB_POOL_ID_NONE := by
    have := c.hi
    simp only [ARRAY_LEN, DIGITS, SUB_POOL_ID_NONE, SUBPOOLS_CNT] at this ⊢
    omega
  have hins : s.IsPtrInsideSubPool p i = true := by
    unfold Pool.IsPtrInsideSubPool
    simp only [Bool.and_eq_true, decide_eq_true_eq]
    exact ⟨⟨hl.1, hin.1⟩, by omega⟩
  refine ⟨i, ?_, ⟨k, hl⟩, hl.1, hin.1, by omega⟩
  unfold Pool.FindSubPoolIDByPtr
  simp only [htab, if_false, hfind, hi, hins, not_true_eq_false]

set_option maxRecDepth 100000 in
theorem find_subpool_of_live_witness :
    ∃ i, ex3.FindSubPoolIDByPtr 100064 = some i ∧ (∃ k, LiveAt ex3 i k 100064) ∧
      ex3.pointers i ≠ 0 ∧ ex3.pointers i ≤ 100064 ∧
      100064 < ex3.pointers i + GetSubPoolSize i * ex3._opt.elementSizeInBytes :=
  find_subpool_of_live ex3 [100064, 100016, 100000] ex3_reachable 100064 (by decide)

/-- `DeallocateBytesAll` on a pool with a table whose sub-pools count no used slot. -/
theorem DeallocateBytesAll_some {s : Pool} (ht : s._pSubPools ≠ 0)
    (hnu : ∀ j, s.numUsed j = 0) :
    ∃ s1 s', deallocAllLoop ARRAY_LEN s = some s1 ∧ s.DeallocateBytesAll = some s' ∧
      s'._vacantSubPools = USIZE_MAX ∧ s'._subPoolsWhichHaveAtLeastOneElement = 0 ∧
      s'._subPoolToDeallocate = SUB_POOL_ID_NONE ∧ s'.sortedPointersSize = 0 ∧
      (∀ a, s'.sortedPointers a = {}) ∧ s'.pointers = s1.pointers ∧
      s'.poolsPrev = s1.poolsPrev ∧ s'.mem = s1.mem ∧ s'._pSubPools = s1._pSubPools ∧
      s'._opt = s1._opt := by
  obtain ⟨s1, h1⟩ := deallocAllLoop_some ARRAY_LEN s (le_refl _) (fun j _ => hnu j)
  have h2 : s.DeallocateBytesAll = some (Pool.mk USIZE_MAX 0 SUB_POOL_ID_NONE s1._pSubPools
      s1._opt s1.poolsPrev s1.numUsed s1.pointers (fun _ => {}) 0 s1.mem s1.bitmap) := by
    unfold Pool.DeallocateBytesAll
    simp only [ht, if_false, h1]
  exact ⟨s1, _, h1, h2, rfl, rfl, rfl, rfl, fun _ => rfl, rfl, rfl, rfl, rfl, rfl⟩

/-- The constructed pool `ex0` has no table and `DeallocateBytesAll` dereferences it: the
call is not defined there, so the claim C18 fails as stated. -/
theorem deallocate_all_fresh_undefined :
    ex0._pSubPools = 0 ∧ ex0.DeallocateBytesAll = none := by
  constructor <;> rfl

/-- C18 (amended): in a reachable state that has a table and no live pointer,
`DeallocateBytesAll` returns; afterwards the masks, the deferred release, the buffers and
the sorted index are those of a constructed pool, the table stays in place, and the state
is reachable. -/
theorem deallocate_all_defined (s : Pool) (h : Reachable s []) (ht : s._pSubPools ≠ 0) :
    ∃ s', s.DeallocateBytesAll = some s' ∧ Reachable s' [] ∧
      s'._vacantSubPools = USIZE_MAX ∧ s'._subPoolsWhichHaveAtLeastOneElement = 0 ∧
      s'._subPoolToDeallocate = SUB_POOL_ID_NONE ∧ (∀ j, s'.pointers j = 0) ∧
      s'.sortedPointersSize = 0 ∧ s'._pSubPools = s._pSubPools ∧ s'._opt = s._opt := by
  obtain ⟨runs, hI⟩ := h.inv
  obtain ⟨s1, s', h1, h2, e1, e2, e3, e4, _, _, _, _, e5, e6⟩ :=
    DeallocateBytesAll_some ht hI.unused_of_no_live
  obtain ⟨_, hp, _⟩ := DeallocateBytesAll_inv hI h2
  obtain ⟨_, _, _, _, _, ho, htb, _, _⟩ := deallocAllLoop_spec _ _ _ h1
  exact ⟨_, h2, Reachable.deallocateAll s [] _ h h2, e1, e2, e3, hp, e4, e5.trans htb,
    e6.trans ho⟩

set_option maxRecDepth 100000 in
theorem deallocate_all_defined_witness :
    ∃ s', ex1d.DeallocateBytesAll = some s' ∧ Reachable s' [] ∧
      s'._vacantSubPools = USIZE_MAX ∧ s'._subPoolsWhichHaveAtLeastOneElement = 0 ∧
      s'._subPoolToDeallocate = SUB_POOL_ID_NONE ∧ (∀ j, s'.pointers j = 0) ∧
      s'.sortedPointersSize = 0 ∧ s'._pSubPools = ex1d._pSubPools ∧ s'._opt = ex1d._opt :=
  deallocate_all_defined ex1d ex1d_reachable (by decide)

end KoPool

set_option autoImplicit false
namespace KoPool
open Pool

section
variable {s : Pool} {runs : Nat → List Run} {live : List Nat}

/-- `AllocateBytes` with honest `AlignedMalloc` results. Either an `AlignedMalloc` call
failed: the failure value is returned and the state is the one before the call, up to a
table created by this call. Or the call returns the first slot of the first free run of
the sub-pool `Count0BitsRight _vacantSubPools`, activated by this call when it had no
buffer; the buffers of the other sub-pools stay where they are. -/
theorem AllocateBytes_spec (h : Inv s runs live) {env : MallocEnv} (hm : MallocOK s env)
    {s' : Pool} {r : AllocBytesResult} (ha : s.AllocateBytes env = some (s', r)) :
    (r = {} ∧ Inv s' runs live ∧
      (s' = s ∨ (s._pSubPools = 0 ∧ env.table ≠ 0 ∧ s' = s.newTable env.table)) ∧
      ((s._pSubPools = 0 ∧ env.table = 0) ∨
        (s.pointers (Count0BitsRight s._vacantSubPools) = 0 ∧
          (env.buffer = 0 ∨ env.bitmap = 0)))) ∨
    (∃ runs0 r0 rest, runs0 (Count0BitsRight s._vacantSubPools) = r0 :: rest ∧
      (s.pointers (Count0BitsRight s._vacantSubPools) ≠ 0 → runs0 = runs ∧
        s'.pointers = s.pointers) ∧
      (s.pointers (Count0BitsRight s._vacantSubPools) = 0 →
        runs0 = upd runs (Count0BitsRight s._vacantSubPools)
          [(0, GetSubPoolSize (Count0BitsRight s._vacantSubPools))] ∧
        s'.pointers = upd s.pointers (Count0BitsRight s._vacantSubPools) env.buffer ∧
        env.buffer ≠ 0 ∧ env.bitmap ≠ 0) ∧
      r = AllocBytesResult.mk (Count0BitsRight s._vacantSubPools)
        (slotAddr (s'.pointers (Count0BitsRight s._vacantSubPools))
          s._opt.elementSizeInBytes r0.1) ∧
      s'._opt = s._opt ∧ s'._pSubPools ≠ 0 ∧
      Inv s' (upd runs0 (Count0BitsRight s._vacantSubPools)
          (if r0.2 = 1 then rest else (r0.1 + 1, r0.2 - 1) :: rest))
        (r.pMemory :: live)) := by
  obtain ⟨hm1, hm2⟩ := hm
  unfold Pool.AllocateBytes at ha
  have finish : ∀ t : Pool, Inv t runs live → t._pSubPools ≠ 0 →
      t._vacantSubPools = s._vacantSubPools → t._opt = s._opt →
      (t._pSubPools = if s._pSubPools = 0 then env.table else s._pSubPools) →
      t.pointers = s.pointers →
      (∀ j, t.pointers j ≠ 0 → j < ARRAY_LEN) →
      t.allocateWithTable env = some (s', r) →
      (r = {} ∧ Inv s' runs live ∧ s' = t ∧
        s.pointers (Count0BitsRight s._vacantSubPools) = 0 ∧
        (env.buffer = 0 ∨ env.bitmap = 0)) ∨
      (∃ runs0 r0 rest, runs0 (Count0BitsRight s._vacantSubPools) = r0 :: rest ∧
        (s.pointers (Count0BitsRight s._vacantSubPools) ≠ 0 → runs0 = runs ∧
          s'.pointers = s.pointers) ∧
        (s.pointers (Count0BitsRight s._vacantSubPools) = 0 →
          runs0 = upd runs (Count0BitsRight s._vacantSubPools)
            [(0, GetSubPoolSize (Count0BitsRight s._vacantSubPools))] ∧
          s'.pointers = upd s.pointers (Count0BitsRight s._vacantSubPools) env.buffer ∧
          env.buffer ≠ 0 ∧ env.bitmap ≠ 0) ∧
        r = AllocBytesResult.mk (Count0BitsRight s._vacantSubPools)
          (slotAddr (s'.pointers (Count0BitsRight s._vacantSubPools))
            s._opt.elementSizeInBytes r0.1) ∧
        s'._opt = s._opt ∧ s'._pSubPools ≠ 0 ∧
        Inv s' (upd runs0 (Count0BitsRight s._vacantSubPools)
            (if r0.2 = 1 then rest else (r0.1 + 1, r0.2 - 1) :: rest))
          (r.pMemory :: live)) := by
    intro t hT htab hv ho htb hpt hlt hat
    have hbuf : env.buffer ≠ 0 →
        env.buffer + GetSubPoolSize (Count0BitsRight t._vacantSubPools) *
          t._opt.elementSizeInBytes < 2 ^ 64 ∧
        (env.buffer + GetSubPoolSize (Count0BitsRight t._vacantSubPools) *
            t._opt.elementSizeInBytes ≤ t._pSubPools ∨
          t._pSubPools + SIZEOF_SUBPOOLS ≤ env.buffer) ∧
        ∀ j, t.pointers j ≠ 0 →
          env.buffer + GetSubPoolSize (Count0BitsRight t._vacantSubPools) *
            t._opt.elementSizeInBytes ≤ t.pointers j ∨
          t.pointers j + GetSubPoolSize j * t._opt.elementSizeInBytes ≤ env.buffer := by
      intro hb
      obtain ⟨c1, c2, c3⟩ := hm2 hb
      rw [hv, ho, htb]
      refine ⟨c1, c2, ?_⟩
      intro j hj
      have := c3 j (hlt j hj) (by rw [← hpt]; exact hj)
      rw [hpt]
      exact this
    rcases allocateWithTable_inv hT htab hbuf hat with
      ⟨e1, e2, e3, e4⟩ | ⟨runs0, r0, rest, g1, g2, g3, hr, ho', htb', hinv⟩
    · subst e1
      rw [hv, hpt] at e3
      exact Or.inl ⟨e2, hT, rfl, e3, e4⟩
    · rw [hv] at g1 g2 g3 hr hinv
      rw [hpt] at g2 g3
      rw [ho] at hr hinv
      right
      refine ⟨runs0, r0, rest, g1, g2, g3, hr, ho'.trans ho, by rw [htb']; exact htab, ?_⟩
      rw [hr]
      exact hinv
  by_cases ht : s._pSubPools = 0
  · simp only [ht, if_true] at ha
    have hm1' := hm1 ht
    by_cases he : env.table = 0
    · simp only [he, if_true, Option.some.injEq, Prod.mk.injEq] at ha
      obtain ⟨e1, e2⟩ := ha
      subst e1
      exact Or.inl ⟨e2.symm, h, Or.inl rfl, Or.inl ⟨ht, he⟩⟩
    · simp only [he, if_false] at ha
      have hp0 : (s.newTable env.table).pointers = s.pointers := by
        funext j
        exact (h.no_table ht j).symm
      rcases finish _ (newTable_inv h ht (hm1' he)) he rfl rfl
        (by rw [if_pos ht]; rfl) hp0 (fun j hj => absurd rfl hj) ha with
        ⟨e1, e2, e3, e4⟩ | hright
      · exact Or.inl ⟨e1, e2, Or.inr ⟨ht, he, e3⟩, Or.inr e4⟩
      · exact Or.inr hright
  · simp only [ht, if_false] at ha
    rcases finish s h ht rfl rfl (by simp [ht]) rfl
      (fun j hj => (h.toGeo.ctx hj).hi) ha with ⟨e1, e2, e3, e4⟩ | hright
    · exact Or.inl ⟨e1, e2, Or.inl e3, Or.inr e4⟩
    · exact Or.inr hright

/-- Sub-pool 62 is never activated (its buffer would not fit below `2 ^ 64`), so the lowest
vacant sub-pool is always an index of the table's arrays. -/
theorem Inv.ctz_lt (h : Inv s runs live) : Count0BitsRight s._vacantSubPools < ARRAY_LEN := by
  have hp62 : s.pointers 62 = 0 := by
    by_contra hb
    have h1 := h.buf_lt 62 hb
    have h2 : GetSubPoolSize 62 = 2 ^ 62 := by
      rw [GetSubPoolSize_eq (by decide)]
      simp
    have h3 := h.sz_ge
    rw [h2] at h1
    have h4 : (2 : Nat) ^ 62 * 16 ≤ 2 ^ 62 * s._opt.elementSizeInBytes :=
      Nat.mul_le_mul_left _ h3
    omega
  have hbit : s._vacantSubPools.testBit 62 = true := (h.vacant 62 (by decide)).2 (Or.inl hp62)
  have hv : s._vacantSubPools ≠ 0 := by
    intro e
    rw [e, Nat.zero_testBit] at hbit
    exact absurd hbit (by simp)
  obtain ⟨_, _, hlow⟩ := Count0BitsRight_spec hv h.vacant_lt
  by_contra hge
  have := hlow 62 (by simp only [ARRAY_LEN, DIGITS] at hge; omega)
  rw [hbit] at this
  exact absurd this (by simp)

/-- `AllocateBytes` returns in every state that satisfies the invariant, whatever the
`AlignedMalloc` calls give. -/
theorem AllocateBytes_total (h : Inv s runs live) {env : MallocEnv} (hm : MallocOK s env) :
    ∃ s' r, s.AllocateBytes env = some (s', r) := by
  obtain ⟨hm1, hm2⟩ := hm
  have finish : ∀ t : Pool, Inv t runs live → t._pSubPools ≠ 0 →
      t._vacantSubPools = s._vacantSubPools → t._opt = s._opt →
      (t._pSubPools = if s._pSubPools = 0 then env.table else s._pSubPools) →
      t.pointers = s.pointers →
      (∀ j, t.pointers j ≠ 0 → j < ARRAY_LEN) →
      ∃ s' r, t.allocateWithTable env = some (s', r) := by
    intro t hT htab hv ho htb hpt hlt'
    have hlt := hT.ctz_lt
    unfold Pool.allocateWithTable
    simp only
    generalize hi : Count0BitsRight t._vacantSubPools = i at *
    have hi64 : i < 64 := by simp only [ARRAY_LEN, DIGITS] at hlt; omega
    simp only [hlt, not_true_eq_false, if_false]
    by_cases hp0 : t.pointers i = 0
    · simp only [hp0, if_true]
      by_cases hb : env.buffer = 0
      · simp only [hb, if_true]
        exact ⟨_, _, rfl⟩
      · simp only [hb, if_false]
        by_cases hbm : env.bitmap = 0
        · simp only [hbm, if_true]
          exact ⟨_, _, rfl⟩
        · simp only [hbm, if_false]
          obtain ⟨c1, c2, c3⟩ := hm2 hb
          rw [← hv, hi, ← ho] at c1 c2 c3
          rw [← htb] at c2
          have c3' : ∀ j, t.pointers j ≠ 0 →
              env.buffer + GetSubPoolSize i * t._opt.elementSizeInBytes ≤ t.pointers j ∨
              t.pointers j + GetSubPoolSize j * t._opt.elementSizeInBytes ≤ env.buffer := by
            intro j hj
            have := c3 j (hlt' j hj) (by rw [← hpt]; exact hj)
            rw [← hpt] at this
            exact this
          obtain ⟨gA, sA, xA, mA, lA, pA, oA, tA, nA⟩ :=
            @activate_groups _ _ _ _ hT _ _ env.bitmap hlt htab hp0 hb c1 c2 c3' _ rfl rfl
          have hbA : (Pool.InsertSortedPointer (Pool.ResetSubPool
              { t with pointers := upd t.pointers i env.buffer,
                       poolsPrev := upd t.poolsPrev i env.bitmap } i) i).pointers i ≠ 0 := by
            rw [pA, upd_same]; exact hb
          obtain ⟨t', hres, _⟩ :=
            @allocFromSubPool_inv _ _ _ gA sA xA _ mA lA hbA (0, GetSubPoolSize i) []
              (upd_same _ _ _)
          exact ⟨_, _, hres⟩
    · simp only [hp0, if_false]
      have hvn : t._vacantSubPools ≠ 0 := by
        intro e
        rw [e, Count0BitsRight_zero] at hi
        omega
      have hbit := (Count0BitsRight_spec hvn hT.vacant_lt).2.1
      rw [hi] at hbit
      have hrne : runs i ≠ [] := by
        rcases (hT.vacant i hi64).1 hbit with e | e
        · exact absurd e hp0
        · exact e
      obtain ⟨r0, rest, hr⟩ : ∃ r0 rest, runs i = r0 :: rest := by
        cases hrr : runs i with
        | nil => exact absurd hrr hrne
        | cons r0 rest => exact ⟨r0, rest, rfl⟩
      obtain ⟨t', hres, _⟩ :=
        allocFromSubPool_inv hT.toGeo hT.toSubsOK hT.toSortedOK (hT.toMasksOK.pre i)
          hT.toLiveOK hp0 hr
      exact ⟨_, _, hres⟩
  unfold Pool.AllocateBytes
  by_cases ht : s._pSubPools = 0
  · simp only [ht, if_true]
    by_cases he : env.table = 0
    · simp only [he, if_true]
      exact ⟨_, _, rfl⟩
    · simp only [he, if_false]
      have hp0 : (s.newTable env.table).pointers = s.pointers := by
        funext j
        exact (h.no_table ht j).symm
      exact finish _ (newTable_inv h ht (hm1 ht he)) he rfl rfl
        (by rw [if_pos ht]; rfl) hp0 (fun j hj => absurd rfl hj)
  · simp only [ht, if_false]
    exact finish s h ht rfl rfl (by simp [ht]) rfl (fun j hj => (h.toGeo.ctx hj).hi)

end
end KoPool

set_option autoImplicit false
namespace KoPool
open Pool

/-! ## Allocation -/

section
variable {s : Pool} {runs : Nat → List Run} {live : List Nat}

/-- A successful `AllocateBytes`: the sub-pool is `Count0BitsRight _vacantSubPools`, the
slot is a slot of its buffer that was covered by a free run when the sub-pool was already
activated and is slot 0 of the new buffer otherwise. -/
theorem AllocateBytes_success (h : Inv s runs live) {env : MallocEnv} (hm : MallocOK s env)
    {s' : Pool} {r : AllocBytesResult} (ha : s.AllocateBytes env = some (s', r))
    (hok : r.pMemory ≠ 0) :
    ∃ runs' k, r.subPoolID = Count0BitsRight s._vacantSubPools ∧
      r.subPoolID < ARRAY_LEN ∧ k < GetSubPoolSize r.subPoolID ∧
      r.pMemory = slotAddr (s'.pointers r.subPoolID) s._opt.elementSizeInBytes k ∧
      s'.pointers r.subPoolID ≠ 0 ∧
      (s.pointers r.subPoolID ≠ 0 → s'.pointers = s.pointers ∧
        Covered (runs r.subPoolID) k) ∧
      (s.pointers r.subPoolID = 0 →
        s'.pointers = upd s.pointers r.subPoolID env.buffer ∧ env.buffer ≠ 0 ∧ k = 0) ∧
      s'._opt = s._opt ∧ Inv s' runs' (r.pMemory :: live) := by
  rcases AllocateBytes_spec h hm ha with ⟨e, _⟩ | ⟨runs0, r0, rest, g1, g2, g3, hr, ho, _, hI⟩
  · rw [e] at hok
    exact absurd rfl hok
  · have hid : r.subPoolID = Count0BitsRight s._vacantSubPools := by rw [hr]
    have hpm : r.pMemory = slotAddr (s'.pointers (Count0BitsRight s._vacantSubPools))
        s._opt.elementSizeInBytes r0.1 := by rw [hr]
    rw [← hid] at g1 g2 g3 hpm hI
    have hb' : s'.pointers r.subPoolID ≠ 0 := by
      by_cases hp : s.pointers r.subPoolID = 0
      · obtain ⟨_, e2, e3, _⟩ := g3 hp
        rw [e2, upd_same]
        exact e3
      · rw [(g2 hp).2]
        exact hp
    have c' := hI.toGeo.ctx hb'
    have hk : r0.1 < GetSubPoolSize r.subPoolID ∧
        (s.pointers r.subPoolID ≠ 0 → Covered (runs r.subPoolID) r0.1) ∧
        (s.pointers r.subPoolID = 0 → r0.1 = 0) := by
      by_cases hp : s.pointers r.subPoolID = 0
      · obtain ⟨e1, _⟩ := g3 hp
        rw [e1, upd_same] at g1
        have e0 : r0 = (0, GetSubPoolSize r.subPoolID) := by
          have := List.cons.inj g1
          exact this.1.symm
        have := c'.cap_ge
        rw [e0]
        exact ⟨by show 0 < GetSubPoolSize r.subPoolID; omega, fun hc => absurd hp hc,
          fun _ => rfl⟩
      · obtain ⟨e1, _⟩ := g2 hp
        rw [e1] at g1
        have hsub := h.sub _ hp
        rw [g1] at hsub
        have hb0 := hsub.runs.head
        refine ⟨by omega, fun _ => ?_, fun hc => absurd hc hp⟩
        rw [g1]
        exact ⟨r0, List.mem_cons_self _ _, le_refl _, by omega⟩
    exact ⟨_, r0.1, hid, c'.hi, hk.1, hpm, hb', fun hp => ⟨(g2 hp).2, hk.2.1 hp⟩,
      fun hp => ⟨(g3 hp).2.1, (g3 hp).2.2.1, hk.2.2 hp⟩, ho, hI⟩

end

/-- C6: when `AllocateBytes` succeeds in a reachable state, the returned sub-pool index `i`
is not activated or has a slot whose free-bit is set, and every sub-pool with a smaller
index is activated and has all its slots live; so `i` is the smallest such index. -/
theorem allocate_lowest_vacant (s : Pool) (live : List Nat) (h : Reachable s live)
    (env : MallocEnv) (hm : MallocOK s env) (s' : Pool) (r : AllocBytesResult)
    (ha : s.AllocateBytes env = some (s', r)) (hok : r.pMemory ≠ 0) :
    r.subPoolID < ARRAY_LEN ∧
    (s.pointers r.subPoolID = 0 ∨
      ∃ k, k < GetSubPoolSize r.subPoolID ∧
        s.IsSkipListNodeByIDInSubPool k r.subPoolID = true) ∧
    ∀ j, j < r.subPoolID →
      s.pointers j ≠ 0 ∧ ∀ k, k < GetSubPoolSize j → ∃ p, LiveAt s j k p := by
  obtain ⟨runs, hI⟩ := h.inv
  obtain ⟨runs', k, hid, hlt, _⟩ := AllocateBytes_success hI hm ha hok
  have hi64 : r.subPoolID < 64 := by simp only [ARRAY_LEN, DIGITS] at hlt; omega
  have hv : s._vacantSubPools ≠ 0 := by
    intro e
    rw [e, Count0BitsRight_zero] at hid
    omega
  obtain ⟨_, hbit, hlow⟩ := Count0BitsRight_spec hv hI.vacant_lt
  rw [← hid] at hbit hlow
  exact ⟨hlt, (hI.vacant_bit hi64).1 hbit,
    fun j hj => (hI.vacant_clear (by omega)).1 (hlow j hj)⟩

set_option maxRecDepth 100000 in
theorem allocate_lowest_vacant_witness :
    (1 : Nat) < ARRAY_LEN ∧
    (ex2.pointers 1 = 0 ∨
      ∃ k, k < GetSubPoolSize 1 ∧ ex2.IsSkipListNodeByIDInSubPool k 1 = true) ∧
    ∀ j, j < 1 → ex2.pointers j ≠ 0 ∧ ∀ k, k < GetSubPoolSize j → ∃ p, LiveAt ex2 j k p :=
  allocate_lowest_vacant ex2 [100016, 100000] ex2_reachable env3 env3_ok2 ex3
    (AllocBytesResult.mk 1 100064) ex3_alloc (by decide)

/-- C11: a successful `AllocateBytes` in a reachable state returns a pointer that is not
live before the call (its slot has its free-bit set when the sub-pool is already
activated) and is a live slot of the returned sub-pool afterwards; the buffers of the
activated sub-pools stay where they are, every other pointer is live afterwards exactly
when it is live before, and every other slot keeps its free-bit. -/
theorem allocate_frame (s : Pool) (live : List Nat) (h : Reachable s live)
    (env : MallocEnv) (hm : MallocOK s env) (s' : Pool) (r : AllocBytesResult)
    (ha : s.AllocateBytes env = some (s', r)) (hok : r.pMemory ≠ 0) :
    r.pMemory ∉ live ∧
    (∃ k, LiveAt s' r.subPoolID k r.pMemory ∧
      (s.pointers r.subPoolID ≠ 0 →
        s.IsSkipListNodeByIDInSubPool k r.subPoolID = true ∧
        r.pMemory = slotAddr (s.pointers r.subPoolID) s._opt.elementSizeInBytes k)) ∧
    s'._opt = s._opt ∧ (∀ j, s.pointers j ≠ 0 → s'.pointers j = s.pointers j) ∧
    (∀ p, p ≠ r.pMemory → ((∃ i k, LiveAt s' i k p) ↔ ∃ i k, LiveAt s i k p)) ∧
    (∀ j k, s.pointers j ≠ 0 → k < GetSubPoolSize j →
      slotAddr (s.pointers j) s._opt.elementSizeInBytes k ≠ r.pMemory →
      s'.IsSkipListNodeByIDInSubPool k j = s.IsSkipListNodeByIDInSubPool k j) := by
  obtain ⟨runs, hI⟩ := h.inv
  obtain ⟨runs', k, hid, hlt, hk, hpm, hb', g2, g3, ho, hI'⟩ :=
    AllocateBytes_success hI hm ha hok
  have hnot : r.pMemory ∉ live := (List.nodup_cons.1 hI'.live_nodup).1
  have hptr : ∀ j, s.pointers j ≠ 0 → s'.pointers j = s.pointers j := by
    intro j hj
    by_cases hp : s.pointers r.subPoolID = 0
    · rw [(g3 hp).1, upd_other]
      intro e
      rw [e] at hj
      exact hj hp
    · rw [(g2 hp).1]
  have hlive : ∀ p, p ≠ r.pMemory → ((∃ i k, LiveAt s' i k p) ↔ ∃ i k, LiveAt s i k p) := by
    intro p hp
    rw [← hI'.live_iff p, ← hI.live_iff p, List.mem_cons]
    exact ⟨fun hc => hc.resolve_left hp, Or.inr⟩
  have hslot : ∃ k', LiveAt s' r.subPoolID k' r.pMemory ∧ k' = k := by
    obtain ⟨i2, k2, hl⟩ := (hI'.live_iff r.pMemory).1 (List.mem_cons_self _ _)
    have e := hl.2.2.1
    rw [hpm, ← ho] at e
    obtain ⟨e1, e2⟩ := hI'.toGeo.slot_unique hb' hl.1 hk hl.2.1 e
    subst e1
    rw [hpm, ← ho] at hl ⊢
    exact ⟨k2, hl, e2.symm⟩
  obtain ⟨k', hl', ek⟩ := hslot
  subst ek
  refine ⟨hnot, ⟨k', hl', fun hp => ?_⟩, ho, hptr, hlive, ?_⟩
  · refine ⟨((hI.sub _ hp).bits k' hk).2 (g2 hp).2, ?_⟩
    rw [hpm, hptr _ hp]
  · intro j q hj hq hne
    have hj' : s'.pointers j ≠ 0 := by rw [hptr j hj]; exact hj
    have key := hlive _ hne
    have e1 : (∃ i k, LiveAt s i k (slotAddr (s.pointers j) s._opt.elementSizeInBytes q)) ↔
        s.IsSkipListNodeByIDInSubPool q j = false := by
      constructor
      · rintro ⟨i2, k2, hl⟩
        obtain ⟨e1, e2⟩ := hI.toGeo.slot_unique hj hl.1 hq hl.2.1 hl.2.2.1
        subst e1; subst e2
        exact hl.2.2.2
      · intro hbit
        exact ⟨j, q, hj, hq, rfl, hbit⟩
    have e2 : (∃ i k, LiveAt s' i k (slotAddr (s.pointers j) s._opt.elementSizeInBytes q)) ↔
        s'.IsSkipListNodeByIDInSubPool q j = false := by
      have ea : slotAddr (s.pointers j) s._opt.elementSizeInBytes q =
          slotAddr (s'.pointers j) s'._opt.elementSizeInBytes q := by rw [hptr j hj, ho]
      rw [ea]
      constructor
      · rintro ⟨i2, k2, hl⟩
        obtain ⟨e1, e2⟩ := hI'.toGeo.slot_unique hj' hl.1 hq hl.2.1 hl.2.2.1
        subst e1; subst e2
        exact hl.2.2.2
      · intro hbit
        exact ⟨j, q, hj', hq, rfl, hbit⟩
    rw [e1, e2] at key
    cases h1 : s'.IsSkipListNodeByIDInSubPool q j <;>
      cases h2 : s.IsSkipListNodeByIDInSubPool q j <;> simp [h1, h2] at key ⊢

set_option maxRecDepth 100000 in
theorem allocate_frame_witness :
    (100016 : Nat) ∉ [100000] ∧
    (∃ k, LiveAt ex2 0 k 100016 ∧
      (ex1.pointers 0 ≠ 0 →
        ex1.IsSkipListNodeByIDInSubPool k 0 = true ∧
        100016 = slotAddr (ex1.pointers 0) ex1._opt.elementSizeInBytes k)) ∧
    ex2._opt = ex1._opt ∧ (∀ j, ex1.pointers j ≠ 0 → ex2.pointers j = ex1.pointers j) ∧
    (∀ p, p ≠ 100016 → ((∃ i k, LiveAt ex2 i k p) ↔ ∃ i k, LiveAt ex1 i k p)) ∧
    (∀ j k, ex1.pointers j ≠ 0 → k < GetSubPoolSize j →
      slotAddr (ex1.pointers j) ex1._opt.elementSizeInBytes k ≠ 100016 →
      ex2.IsSkipListNodeByIDInSubPool k j = ex1.IsSkipListNodeByIDInSubPool k j) :=
  allocate_frame ex1 [100000] ex1_reachable noMalloc (noMalloc_ok ex1) ex2
    (AllocBytesResult.mk 0 100016) ex2_alloc (by decide)

end KoPool

set_option autoImplicit false
namespace KoPool
open Pool

/-! ## Failing allocations and `DeallocateBytesAll` -/

/-- Lines 116-148 of `AllocateBytes` when the chosen sub-pool has no buffer and one of the
two `AlignedMalloc` calls fails. -/
theorem allocateWithTable_fail {t : Pool} {env : MallocEnv}
    (hlt : Count0BitsRight t._vacantSubPools < ARRAY_LEN)
    (hp : t.pointers (Count0BitsRight t._vacantSubPools) = 0)
    (hf : env.buffer = 0 ∨ env.bitmap = 0) : t.allocateWithTable env = some (t, {}) := by
  unfold Pool.allocateWithTable
  simp only [hlt, not_true_eq_false, if_false, hp, if_true]
  by_cases hb : env.buffer = 0
  · simp only [hb, if_true]
  · simp only [hb, if_false]
    rcases hf with e | e
    · exact absurd e hb
    · simp only [e, if_true]

/-- A state without a table has an empty sorted index. -/
theorem Inv.no_table_sorted {s : Pool} {runs : Nat → List Run} {live : List Nat}
    (h : Inv s runs live) (ht : s._pSubPools = 0) :
    s.sortedPointersSize = 0 ∧ s.sortedPointers = fun _ => {} := by
  have hp := h.no_table ht
  have hac : ∀ n, activeCount s n = 0 := by
    intro n
    induction n with
    | zero => rfl
    | succ n ih => simp [activeCount, ih, hp]
  have hsz : s.sortedPointersSize = 0 := by rw [h.sorted_size, hac]
  refine ⟨hsz, ?_⟩
  funext a
  obtain ⟨e1, e2⟩ := h.sorted_rest a (by omega)
  cases hsp : s.sortedPointers a with
  | mk pm id =>
    rw [hsp] at e1 e2
    simp only at e1 e2
    rw [e1, e2]

/-- On the constructed pool `ex0`, a call of `AllocateBytes` whose table allocation
succeeds and whose buffer allocation fails returns the failure value, and the table it
has created stays: the state is not the state before the call, so the claim C20 fails as
stated. -/
theorem allocate_failure_keeps_table :
    ex0._pSubPools = 0 ∧
    (ex0.AllocateBytes envNoBuffer).map
      (fun x => (x.1._pSubPools, x.2.subPoolID, x.2.pMemory)) =
      some (4096, SUB_POOL_ID_NONE, 0) := by
  constructor <;> rfl

/-- C20 (amended): in a reachable state, when the `AlignedMalloc` call for the table fails,
or the chosen sub-pool has no buffer and the call for its buffer or for its bitmap fails,
`AllocateBytes` returns the failure value. The state afterwards is the state before the
call, except that a table created by this call stays in place, value-initialised: the
masks, the deferred release, the buffers and the sorted index are unchanged. -/
theorem allocate_failure_state (s : Pool) (live : List Nat) (h : Reachable s live)
    (env : MallocEnv)
    (hf : (s._pSubPools = 0 ∧ env.table = 0) ∨
      (s.pointers (Count0BitsRight s._vacantSubPools) = 0 ∧
        (env.buffer = 0 ∨ env.bitmap = 0))) :
    ∃ s', s.AllocateBytes env = some (s', {}) ∧
      ((s._pSubPools ≠ 0 ∨ env.table = 0) → s' = s) ∧
      (s._pSubPools = 0 → env.table ≠ 0 → s' = s.newTable env.table) ∧
      s'._vacantSubPools = s._vacantSubPools ∧
      s'._subPoolsWhichHaveAtLeastOneElement = s._subPoolsWhichHaveAtLeastOneElement ∧
      s'._subPoolToDeallocate = s._subPoolToDeallocate ∧ s'._opt = s._opt ∧
      s'.pointers = s.pointers ∧ s'.sortedPointersSize = s.sortedPointersSize ∧
      s'.sortedPointers = s.sortedPointers := by
  obtain ⟨runs, hI⟩ := h.inv
  have hlt := hI.ctz_lt
  by_cases ht : s._pSubPools = 0
  · by_cases he : env.table = 0
    · have hcall : s.AllocateBytes env = some (s, {}) := by
        unfold Pool.AllocateBytes
        simp only [ht, he, if_true]
      exact ⟨s, hcall, fun _ => rfl, fun _ hc => absurd he hc, rfl, rfl, rfl, rfl, rfl, rfl,
        rfl⟩
    · have hfb : env.buffer = 0 ∨ env.bitmap = 0 := by
        rcases hf with ⟨_, e⟩ | ⟨_, e⟩
        · exact absurd e he
        · exact e
      have hcall : s.AllocateBytes env = some (s.newTable env.table, {}) := by
        unfold Pool.AllocateBytes
        simp only [ht, he, if_true, if_false]
        exact allocateWithTable_fail hlt rfl hfb
      obtain ⟨z1, z2⟩ := hI.no_table_sorted ht
      refine ⟨_, hcall, fun hc => ?_, fun _ _ => rfl, rfl, rfl, rfl, rfl, ?_, z1.symm,
        z2.symm⟩
      · rcases hc with hc | hc
        · exact absurd ht hc
        · exact absurd hc he
      · funext j
        exact (hI.no_table ht j).symm
  · have hfb : s.pointers (Count0BitsRight s._vacantSubPools) = 0 ∧
        (env.buffer = 0 ∨ env.bitmap = 0) := by
      rcases hf with ⟨e, _⟩ | e
      · exact absurd e ht
      · exact e
    have hcall : s.AllocateBytes env = some (s, {}) := by
      unfold Pool.AllocateBytes
      simp only [ht, if_false]
      exact allocateWithTable_fail hlt hfb.1 hfb.2
    exact ⟨s, hcall, fun _ => rfl, fun hc => absurd hc ht, rfl, rfl, rfl, rfl, rfl, rfl,
      rfl⟩

set_option maxRecDepth 100000 in
theorem allocate_failure_state_witness :
    ∃ s', ex2.AllocateBytes noMalloc = some (s', {}) ∧
      ((ex2._pSubPools ≠ 0 ∨ noMalloc.table = 0) → s' = ex2) ∧
      (ex2._pSubPools = 0 → noMalloc.table ≠ 0 → s' = ex2.newTable noMalloc.table) ∧
      s'._vacantSubPools = ex2._vacantSubPools ∧
      s'._subPoolsWhichHaveAtLeastOneElement = ex2._subPoolsWhichHaveAtLeastOneElement ∧
      s'._subPoolToDeallocate = ex2._subPoolToDeallocate ∧ s'._opt = ex2._opt ∧
      s'.pointers = ex2.pointers ∧ s'.sortedPointersSize = ex2.sortedPointersSize ∧
      s'.sortedPointers = ex2.sortedPointers :=
  allocate_failure_state ex2 [100016, 100000] ex2_reachable noMalloc
    (Or.inr ⟨by decide, Or.inl rfl⟩)

/-- With one live pointer, `DeallocateBytesAll` on `ex1` stops at the assertion
`numUsed == 0` of `DeallocateSubPoolMemory`: the call does not return although the table
exists, so the claim C17 fails as stated. -/
theorem deallocate_all_live_undefined :
    ex1._pSubPools = 4096 ∧ ex1.numUsed 0 = 1 ∧ ex1.DeallocateBytesAll = none := by
  refine ⟨rfl, rfl, ?_⟩
  rfl

/-- C17 (amended): in a reachable state with a table and without a live pointer,
`DeallocateBytesAll` returns and leaves every sub-pool de-activated (buffer pointer, bitmap
pointer and list head null), the sorted index empty, the vacant mask all ones, the non-empty
mask 0 and no deferred release; the next allocation whose `AlignedMalloc` calls succeed
returns slot 0 of sub-pool 0, which has id 0. -/
theorem deallocate_all_resets (s : Pool) (h : Reachable s []) (ht : s._pSubPools ≠ 0) :
    ∃ s', s.DeallocateBytesAll = some s' ∧
      (∀ j, j < ARRAY_LEN →
        s'.pointers j = 0 ∧ s'.poolsPrev j = 0 ∧ s'.mem (s'.poolAddr j + 8) = 0) ∧
      s'.sortedPointersSize = 0 ∧ (∀ a, s'.sortedPointers a = {}) ∧
      s'._vacantSubPools = USIZE_MAX ∧ s'._subPoolsWhichHaveAtLeastOneElement = 0 ∧
      s'._subPoolToDeallocate = SUB_POOL_ID_NONE ∧
      ∀ env : MallocEnv, MallocOK s' env → env.buffer ≠ 0 → env.bitmap ≠ 0 →
        ∃ s'', s'.AllocateBytes env = some (s'', AllocBytesResult.mk 0 env.buffer) ∧
          s''.PtrToID env.buffer 0 = 0 ∧ s''.IDToPtr 0 = env.buffer := by
  obtain ⟨runs, hI⟩ := h.inv
  obtain ⟨s1, s', h1, h2, e1, e2, e3, e4, e5, e6, e7, e8, e9, e10⟩ :=
    DeallocateBytesAll_some ht hI.unused_of_no_live
  obtain ⟨hI', hp, _⟩ := DeallocateBytesAll_inv hI h2
  obtain ⟨_, _, q3, q4, _, _, q7, _, _⟩ := deallocAllLoop_spec _ _ _ h1
  have htab' : s'._pSubPools = s._pSubPools := e9.trans q7
  refine ⟨s', h2, fun j hj => ⟨hp j, ?_, ?_⟩, e4, e5, e1, e2, e3, ?_⟩
  · rw [e7, q3 j, if_pos hj]
  · have : s'.poolAddr j = s.poolAddr j := by
      unfold Pool.poolAddr
      rw [htab']
    rw [this, e8]
    exact q4 j hj
  · intro env hm hb hbm
    obtain ⟨s'', r, ha⟩ := AllocateBytes_total hI' hm
    have hctz : Count0BitsRight s'._vacantSubPools = 0 := by rw [e1]; rfl
    have hr : r.pMemory ≠ 0 := by
      rcases AllocateBytes_spec hI' hm ha with ⟨_, _, _, hc⟩ | ⟨_, r0, _, _, _, _, hr, _, _, hX⟩
      · rcases hc with ⟨hc, _⟩ | ⟨_, hc⟩
        · rw [htab'] at hc
          exact absurd hc ht
        · rcases hc with hc | hc
          · exact absurd hc hb
          · exact absurd hc hbm
      · obtain ⟨i2, k2, hl⟩ := (hX.live_iff _).1 (List.mem_cons_self _ _)
        exact hl.ne_zero
    obtain ⟨runs', k, hid, hlt, hk, hpm, hb', _, g3, ho, hI''⟩ :=
      AllocateBytes_success hI' hm ha hr
    rw [hctz] at hid
    rw [hid] at hpm hb' g3 hk
    obtain ⟨g4, _, g5⟩ := g3 (hp 0)
    subst g5
    have hbuf : s''.pointers 0 = env.buffer := by rw [g4, upd_same]
    have hpm' : r.pMemory = env.buffer := by rw [hpm, slotAddr_zero, hbuf]
    have hre : r = AllocBytesResult.mk 0 env.buffer := by
      cases r with
      | mk a b =>
        simp only at hid hpm'
        rw [hid, hpm']
    have c := hI''.toGeo.ctx hb'
    have hid0 := PtrToID_slot c hk
    have hptr0 := IDToPtr_slot c hk
    rw [slotAddr_zero, hbuf] at hid0 hptr0
    refine ⟨s'', by rw [ha, hre], ?_, ?_⟩
    · rw [hid0]; rfl
    · have : baseID 0 + 0 = 0 := rfl
      rw [this] at hptr0
      exact hptr0

set_option maxRecDepth 100000 in
theorem deallocate_all_resets_witness :
    ∃ s', ex1d.DeallocateBytesAll = some s' ∧
      (∀ j, j < ARRAY_LEN →
        s'.pointers j = 0 ∧ s'.poolsPrev j = 0 ∧ s'.mem (s'.poolAddr j + 8) = 0) ∧
      s'.sortedPointersSize = 0 ∧ (∀ a, s'.sortedPointers a = {}) ∧
      s'._vacantSubPools = USIZE_MAX ∧ s'._subPoolsWhichHaveAtLeastOneElement = 0 ∧
      s'._subPoolToDeallocate = SUB_POOL_ID_NONE ∧
      ∀ env : MallocEnv, MallocOK s' env → env.buffer ≠ 0 → env.bitmap ≠ 0 →
        ∃ s'', s'.AllocateBytes env = some (s'', AllocBytesResult.mk 0 env.buffer) ∧
          s''.PtrToID env.buffer 0 = 0 ∧ s''.IDToPtr 0 = env.buffer :=
  deallocate_all_resets ex1d ex1d_reachable (by decide)

end KoPool

set_option autoImplicit false
namespace KoPool
open Pool

/-! ## The free list as the code reads it -/

section
variable {s : Pool} {i : Nat}

/-- A list of runs has at most as many runs as slots. -/
theorem length_le_runsLen : ∀ {rs : List Run}, (∀ r ∈ rs, 1 ≤ r.2) → rs.length ≤ runsLen rs
  | [], _ => Nat.le_refl _
  | r :: rs, h => by
    have h1 := h r (List.mem_cons_self _ _)
    have h2 := length_le_runsLen (fun x hx => h x (List.mem_cons_of_mem _ hx))
    simp only [List.length_cons, runsLen]
    omega

/-- Walking the list from the node `prev` reads the runs of the chain that starts there. -/
theorem readRuns_chain (c : SubCtx s i) {all : List Run}
    (hok : RunsOK (GetSubPoolSize i) all)
    (hbits : ∀ k, k < GetSubPoolSize i →
      (s.IsSkipListNodeByIDInSubPool k i = true ↔ Covered all k)) :
    ∀ (rs : List Run) (fuel prev : Nat), rs.length ≤ fuel → (∀ r ∈ rs, r ∈ all) →
      Chain s.mem (s.pointers i) s._opt.elementSizeInBytes prev rs →
      readRuns s i fuel prev = rs
  | [], fuel, prev, _, _, hch => by
    cases fuel with
    | zero => rfl
    | succ f =>
      have h0 : s.mem (prev + 8) = 0 := hch
      simp only [readRuns, h0, if_true]
  | r :: rest, fuel, prev, hlen, hsub, hch => by
    cases fuel with
    | zero => simp at hlen
    | succ f =>
      obtain ⟨h1, _, h3, _, h5⟩ := hch
      have hr := hsub r (List.mem_cons_self _ _)
      have hb := hok.bound r hr
      have hsz := c.hsz
      have hne : slotAddr (s.pointers i) s._opt.elementSizeInBytes r.1 ≠ 0 := by
        have := slotAddr_ge (s.pointers i) s._opt.elementSizeInBytes r.1
        have := c.hb
        omega
      have hright := isRight_of_run c hok hbits hr
      have hid := PtrToIDInSubPool_slot c (show r.1 ≤ GetSubPoolSize i by omega)
      have hlen' : (if s.IsRightSkipListNodeSafe
            (slotAddr (s.pointers i) s._opt.elementSizeInBytes r.1) i = true then
          s.mem (slotAddr (s.pointers i) s._opt.elementSizeInBytes r.1 + 8) /
            s._opt.elementSizeInBytes + 1
          else 1) = r.2 := by
        rw [hright]
        by_cases h2 : 2 ≤ r.2
        · simp only [h2, decide_True, if_true]
          rw [h3 h2, Nat.mul_div_cancel _ (by omega)]
          omega
        · simp only [h2, decide_False, Bool.false_eq_true, if_false]
          omega
      have hnext : slotAddr (s.pointers i) s._opt.elementSizeInBytes r.1 +
          (r.2 - 1) * s._opt.elementSizeInBytes =
          slotAddr (s.pointers i) s._opt.elementSizeInBytes (r.1 + r.2 - 1) := by
        rw [← slotAddr_add]
        congr 1
        omega
      have ih := readRuns_chain c hok hbits rest f
        (slotAddr (s.pointers i) s._opt.elementSizeInBytes (r.1 + r.2 - 1))
        (by simp only [List.length_cons] at hlen; omega)
        (fun x hx => hsub x (List.mem_cons_of_mem _ hx)) h5
      simp only [readRuns, h1, hne, if_false, hlen', hid, hnext, ih]

/-- The reader `freeRuns` returns the list of free runs of the invariant. -/
theorem SubInv.freeRuns_eq {rs : List Run} (h : SubInv s i rs) (c : SubCtx s i) :
    freeRuns s i = rs := by
  unfold freeRuns
  apply readRuns_chain c h.runs h.bits rs _ _ _ (fun _ hr => hr) h.chain
  exact Nat.le_trans (length_le_runsLen (fun r hr => (h.runs.bound r hr).1)) h.runs.runsLen_le

/-- Every run of a valid list is a maximal range of covered slots. -/
theorem RunsOK.maximal {cap : Nat} {rs : List Run} (h : RunsOK cap rs) {r : Run}
    (hr : r ∈ rs) :
    (r.1 = 0 ∨ ¬ Covered rs (r.1 - 1)) ∧ ¬ Covered rs (r.1 + r.2) := by
  refine ⟨?_, h.after_not_covered hr⟩
  rcases Nat.eq_zero_or_pos r.1 with h0 | h0
  · exact Or.inl h0
  · exact Or.inr (h.before_not_covered hr h0)

end

/-- C10: in a reachable state, for every activated sub-pool `i`, the runs read from its
sentinel along the tail-to-next-head links (`freeRuns`) form the doubly linked list in node
memory, lie inside the sub-pool, are pairwise separated (hence disjoint), and a slot has its
free-bit set exactly when one of these runs covers it. -/
theorem bitmap_agrees_with_runs (s : Pool) (live : List Nat) (h : Reachable s live) (i : Nat)
    (hb : s.pointers i ≠ 0) :
    Chain s.mem (s.pointers i) s._opt.elementSizeInBytes (s.poolAddr i) (freeRuns s i) ∧
    RunsOK (GetSubPoolSize i) (freeRuns s i) ∧
    (freeRuns s i).Pairwise (fun r r' => r.1 + r.2 ≤ r'.1 ∨ r'.1 + r'.2 ≤ r.1) ∧
    ∀ k, k < GetSubPoolSize i →
      (s.IsSkipListNodeByIDInSubPool k i = true ↔ Covered (freeRuns s i) k) := by
  obtain ⟨runs, hI⟩ := h.inv
  have hsub := hI.sub i hb
  rw [hsub.freeRuns_eq (hI.toGeo.ctx hb)]
  refine ⟨hsub.chain, hsub.runs, ?_, hsub.bits⟩
  exact hsub.runs.sep.imp (fun hs => by rcases hs with hs | hs <;> [left; right] <;> omega)

set_option maxRecDepth 100000 in
theorem bitmap_agrees_with_runs_witness :
    freeRuns ex8b 2 = [(1, 2)] ∧
    ∀ k, k < GetSubPoolSize 2 →
      (ex8b.IsSkipListNodeByIDInSubPool k 2 = true ↔ Covered (freeRuns ex8b 2) k) :=
  ⟨by rfl, (bitmap_agrees_with_runs ex8b _ ex8b_reachable 2 (by decide)).2.2.2⟩

/-- C12: deallocating a live pointer `p`, slot `k` of sub-pool `i`, in a reachable state
returns; when sub-pool `i` keeps its buffer, its free-bits afterwards are those before plus
the bit of slot `k`, and the runs of its list cover exactly the slots whose free-bit is
set, are pairwise separated by a live slot and are maximal. With the four slots of
sub-pool 2 live (`ex8`), deallocating slots 1, 2, 0, 3 gives the lists `[1..1]`, `[1..2]`,
`[0..2]`, `[0..3]`. -/
theorem dealloc_maximal_runs (s : Pool) (live : List Nat) (h : Reachable s live)
    (i k p : Nat) (hl : LiveAt s i k p) :
    (∃ s', s.DeallocateBytesByPtr p = some s' ∧
      (s'.pointers i ≠ 0 →
        (∀ k', k' < GetSubPoolSize i →
          (s'.IsSkipListNodeByIDInSubPool k' i = true ↔
            (s.IsSkipListNodeByIDInSubPool k' i = true ∨ k' = k))) ∧
        (∀ k', k' < GetSubPoolSize i →
          (Covered (freeRuns s' i) k' ↔ s'.IsSkipListNodeByIDInSubPool k' i = true)) ∧
        RunsOK (GetSubPoolSize i) (freeRuns s' i) ∧
        ∀ r ∈ freeRuns s' i,
          (r.1 = 0 ∨ s'.IsSkipListNodeByIDInSubPool (r.1 - 1) i = false) ∧
          (r.1 + r.2 = GetSubPoolSize i ∨
            s'.IsSkipListNodeByIDInSubPool (r.1 + r.2) i = false))) ∧
    freeRuns ex8a 2 = [(1, 1)] ∧ freeRuns ex8b 2 = [(1, 2)] ∧
    freeRuns ex8c 2 = [(0, 3)] ∧ freeRuns ex8d 2 = [(0, 4)] := by
  refine ⟨?_, by rfl, by rfl, by rfl, by rfl⟩
  obtain ⟨runs, hI⟩ := h.inv
  obtain ⟨s', rs', hd, hok, hcov, hI', _, _⟩ := DeallocateBytesByPtr_inv hI hl
  refine ⟨s', hd, fun hb' => ?_⟩
  have hsub' := hI'.sub i hb'
  rw [upd_same] at hsub'
  have hfr := hsub'.freeRuns_eq (hI'.toGeo.ctx hb')
  have hsub := hI.sub i hl.1
  rw [hfr]
  have hbit' : ∀ k', k' < GetSubPoolSize i →
      (s'.IsSkipListNodeByIDInSubPool k' i = false ↔ ¬ Covered rs' k') := by
    intro k' hk'
    rw [← hsub'.bits k' hk']
    simp
  refine ⟨fun k' hk' => ?_, fun k' hk' => (hsub'.bits k' hk').symm, hok, fun r hr => ?_⟩
  · rw [hsub'.bits k' hk', hcov k', hsub.bits k' hk']
  · obtain ⟨m1, m2⟩ := hok.maximal hr
    have hbr := hok.bound r hr
    constructor
    · rcases m1 with e | e
      · exact Or.inl e
      · rcases Nat.eq_zero_or_pos r.1 with h0 | h0
        · exact Or.inl h0
        · exact Or.inr ((hbit' _ (by omega)).2 e)
    · rcases Nat.lt_or_ge (r.1 + r.2) (GetSubPoolSize i) with hlt | hge
      · exact Or.inr ((hbit' _ hlt).2 m2)
      · exact Or.inl (by omega)

set_option maxRecDepth 100000 in
theorem dealloc_maximal_runs_witness :
    LiveAt ex8 2 1 102016 ∧ (ex8.DeallocateBytesByPtr 102016).isSome = true ∧
    freeRuns ex8a 2 = [(1, 1)] :=
  ⟨by unfold LiveAt; decide, by rfl,
    (dealloc_maximal_runs ex8 _ ex8_reachable 2 1 102016 (by unfold LiveAt; decide)).2.1⟩

end KoPool

set_option autoImplicit false
namespace KoPool
open Pool

/-! ## The deferred release -/

open Classical in
/-- A valid list of runs that leaves exactly one slot uncovered is one slot short of the
capacity. -/
theorem RunsOK.runsLen_of_one_uncovered {cap : Nat} {rs : List Run} (h : RunsOK cap rs)
    {k : Nat} (hk : k < cap) (hnk : ¬ Covered rs k)
    (hall : ∀ k', k' < cap → ¬ Covered rs k' → k' = k) : runsLen rs + 1 = cap := by
  have h1 := h.card_covered
  have h2 : (Finset.range cap).filter (fun k' => ¬ Covered rs k') = {k} := by
    ext x
    simp only [Finset.mem_filter, Finset.mem_range, Finset.mem_singleton]
    constructor
    · rintro ⟨a, b⟩
      exact hall x a b
    · rintro rfl
      exact ⟨hk, hnk⟩
  have h3 := Finset.filter_card_add_filter_neg_card_eq_card (s := Finset.range cap)
    (fun k' => Covered rs k')
  rw [h1, h2, Finset.card_singleton, Finset.card_range] at h3
  exact h3

section
variable {s : Pool} {runs : Nat → List Run} {live : List Nat}

/-- A sub-pool whose only live slot is `p` counts one used slot. -/
theorem Inv.numUsed_one (h : Inv s runs live) {i k p : Nat} (hl : LiveAt s i k p)
    (honly : ∀ k' p', LiveAt s i k' p' → p' = p) : s.numUsed i = 1 := by
  have hsub := h.sub i hl.1
  have c := h.toGeo.ctx hl.1
  have hnk : ¬ Covered (runs i) k := by
    rw [← hsub.bits k hl.2.1, hl.2.2.2]
    simp
  have hall : ∀ k', k' < GetSubPoolSize i → ¬ Covered (runs i) k' → k' = k := by
    intro k' hk' hn
    have hbit : s.IsSkipListNodeByIDInSubPool k' i = false := by
      cases hb : s.IsSkipListNodeByIDInSubPool k' i with
      | false => rfl
      | true => exact absurd ((hsub.bits k' hk').1 hb) hn
    have e := honly k' _ ⟨hl.1, hk', rfl, hbit⟩
    rw [hl.2.2.1] at e
    exact (slotAddr_inj c.hsz).1 e
  have := hsub.runs.runsLen_of_one_uncovered hl.2.1 hnk hall
  have := hsub.used
  omega

end

/-- C15: in a reachable state, deallocating the only live slot `p` of sub-pool `i` returns.
With `d = _subPoolToDeallocate`: if `d` is `SUB_POOL_ID_NONE`, it becomes `i` and no buffer
is released; otherwise `d ≠ i`, the sub-pool `max i d` is released (buffer pointer and
bitmap pointer null, no entry in the sorted index) and `_subPoolToDeallocate` becomes
`min i d`. Example: from `ex3` (slots in sub-pools 0, 0, 1), freeing the slot of sub-pool 1
defers sub-pool 1 (`ex3a`), and freeing both slots of sub-pool 0 releases sub-pool 1 and
defers sub-pool 0 (`ex3c`). -/
theorem deferred_release_policy (s : Pool) (live : List Nat) (h : Reachable s live)
    (i k p : Nat) (hl : LiveAt s i k p) (honly : ∀ k' p', LiveAt s i k' p' → p' = p) :
    (∃ s', s.DeallocateBytesByPtr p = some s' ∧
      (s._subPoolToDeallocate = SUB_POOL_ID_NONE →
        s'._subPoolToDeallocate = i ∧ s'.pointers = s.pointers ∧
        s'.poolsPrev = s.poolsPrev) ∧
      (s._subPoolToDeallocate ≠ SUB_POOL_ID_NONE →
        s._subPoolToDeallocate ≠ i ∧
        s'.pointers = upd s.pointers (max i s._subPoolToDeallocate) 0 ∧
        s'.poolsPrev = upd s.poolsPrev (max i s._subPoolToDeallocate) 0 ∧
        (∀ a, a < s'.sortedPointersSize →
          (s'.sortedPointers a).subPoolID ≠ max i s._subPoolToDeallocate) ∧
        s'._subPoolToDeallocate = min i s._subPoolToDeallocate)) ∧
    ex3a._subPoolToDeallocate = 1 ∧ ex3a.pointers 1 = 100064 ∧
    ex3c._subPoolToDeallocate = 0 ∧ ex3c.pointers 1 = 0 ∧ ex3c.poolsPrev 1 = 0 ∧
    ex3c.pointers 0 = 100000 ∧ ex3c.sortedPointersSize = 1 := by
  refine ⟨?_, by rfl, by rfl, by rfl, by rfl, by rfl, by rfl, by rfl⟩
  obtain ⟨runs, hI⟩ := h.inv
  have hone := hI.numUsed_one hl honly
  obtain ⟨s', rs', hd, _, _, hI', hpol, _⟩ := DeallocateBytesByPtr_inv hI hl
  have hdi : s._subPoolToDeallocate ≠ SUB_POOL_ID_NONE → s._subPoolToDeallocate ≠ i := by
    intro hn e
    rcases hI.deferred with hc | ⟨_, hc⟩
    · exact hn hc
    · rw [e, hone] at hc
      exact absurd hc (by decide)
  have hsorted : ∀ j, s'.pointers j = 0 → ∀ a, a < s'.sortedPointersSize →
      (s'.sortedPointers a).subPoolID ≠ j := by
    intro j hj a ha e
    obtain ⟨e1, e2⟩ := hI'.sorted_entry a ha
    rw [e, hj] at e2
    exact e1 e2.symm
  refine ⟨s', hd, ?_, ?_⟩
  · intro hn
    rcases hpol with ⟨hc, _⟩ | ⟨_, _, hc⟩
    · omega
    · rcases hc with ⟨_, e1, e2, e3⟩ | ⟨hc, _⟩ | ⟨hc, _⟩
      · exact ⟨e3, e1, e2⟩
      · exact absurd hn hc
      · exact absurd hn hc
  · intro hn
    have hne := hdi hn
    rcases hpol with ⟨hc, _⟩ | ⟨_, _, hc⟩
    · omega
    · rcases hc with ⟨hc, _⟩ | ⟨_, hlt, e1, e2, e3⟩ | ⟨_, hlt, e1, e2, e3⟩
      · exact absurd hc hn
      · have hmax : max i s._subPoolToDeallocate = s._subPoolToDeallocate :=
          Nat.max_eq_right (by omega)
        have hmin : min i s._subPoolToDeallocate = i := Nat.min_eq_left (by omega)
        rw [hmax, hmin]
        refine ⟨hne, e1, e2, hsorted _ ?_, e3⟩
        rw [e1, upd_same]
      · have hmax : max i s._subPoolToDeallocate = i := Nat.max_eq_left (by omega)
        have hmin : min i s._subPoolToDeallocate = s._subPoolToDeallocate :=
          Nat.min_eq_right (by omega)
        rw [hmax, hmin]
        refine ⟨hne, e1, e2, hsorted _ ?_, e3⟩
        rw [e1, upd_same]

set_option maxRecDepth 100000 in
theorem deferred_release_policy_witness :
    LiveAt ex3b 0 1 100016 ∧
    ∃ s', ex3b.DeallocateBytesByPtr 100016 = some s' ∧
      (ex3b._subPoolToDeallocate = SUB_POOL_ID_NONE →
        s'._subPoolToDeallocate = 0 ∧ s'.pointers = ex3b.pointers ∧
        s'.poolsPrev = ex3b.poolsPrev) ∧
      (ex3b._subPoolToDeallocate ≠ SUB_POOL_ID_NONE →
        ex3b._subPoolToDeallocate ≠ 0 ∧
        s'.pointers = upd ex3b.pointers (max 0 ex3b._subPoolToDeallocate) 0 ∧
        s'.poolsPrev = upd ex3b.poolsPrev (max 0 ex3b._subPoolToDeallocate) 0 ∧
        (∀ a, a < s'.sortedPointersSize →
          (s'.sortedPointers a).subPoolID ≠ max 0 ex3b._subPoolToDeallocate) ∧
        s'._subPoolToDeallocate = min 0 ex3b._subPoolToDeallocate) :=
  ⟨by unfold LiveAt; decide,
    (deferred_release_policy ex3b [100016] ex3b_reachable 0 1 100016
      (by unfold LiveAt; decide)
      (fun k' p' hl' => by
        have hm : p' ∈ [100016] :=
          (ex3b_reachable.inv.choose_spec.live_iff p').2 ⟨0, k', hl'⟩
        simpa using hm)).1⟩

end KoPool

set_option autoImplicit false
namespace KoPool
open Pool

/-! ## Dense ids of an allocation-only run -/

section
variable {s : Pool} {runs : Nat → List Run} {live : List Nat}

/-- One successful `AllocateBytes` in a dense state returns slot `k` of sub-pool `c` and
leads to the next dense state. -/
theorem dense_step (h : Inv s runs live) {c k : Nat} (hd : DenseAt s runs c k)
    {env : MallocEnv} (hm : MallocOK s env) {s' : Pool} {r : AllocBytesResult}
    (ha : s.AllocateBytes env = some (s', r)) (hok : r.pMemory ≠ 0) :
    r.subPoolID = c ∧ c < ARRAY_LEN ∧ s'.pointers c ≠ 0 ∧ s'._opt = s._opt ∧
    r.pMemory = slotAddr (s'.pointers c) s._opt.elementSizeInBytes k ∧
    ∃ runs', Inv s' runs' (r.pMemory :: live) ∧
      (k + 1 < GetSubPoolSize c → DenseAt s' runs' c (k + 1)) ∧
      (¬ k + 1 < GetSubPoolSize c → DenseAt s' runs' (c + 1) 0) := by
  obtain ⟨d1, d2, d3, d4, d5⟩ := hd
  rcases AllocateBytes_spec h hm ha with ⟨e, _⟩ | ⟨runs0, r0, rest, g1, g2, g3, hr, ho, _, hI⟩
  · rw [e] at hok
    exact absurd rfl hok
  · have hlt := h.ctz_lt
    have hi64 : Count0BitsRight s._vacantSubPools < 64 := by
      simp only [ARRAY_LEN, DIGITS] at hlt; omega
    have hv : s._vacantSubPools ≠ 0 := by
      intro e
      rw [e, Count0BitsRight_zero] at hi64
      omega
    obtain ⟨_, hbit, hlow⟩ := Count0BitsRight_spec hv h.vacant_lt
    have hic : Count0BitsRight s._vacantSubPools = c := by
      have hge : c ≤ Count0BitsRight s._vacantSubPools := by
        by_contra hlt'
        have hj := d1 _ (Nat.lt_of_not_le hlt')
        rcases (h.vacant _ hi64).1 hbit with e | e
        · exact hj.1 e
        · exact e hj.2
      rcases Nat.eq_or_lt_of_le hge with e | hlt'
      · exact e.symm
      · have hclear := hlow c hlt'
        have hset : s._vacantSubPools.testBit c = true := by
          apply (h.vacant c (by omega)).2
          rcases Nat.eq_zero_or_pos k with hk | hk
          · exact Or.inl (d3 hk)
          · right
            rw [(d4 hk).2]
            simp
        rw [hset] at hclear
        exact absurd hclear (by simp)
    rw [hic] at g1 g2 g3 hr hI hlt
    have hid : r.subPoolID = c := by rw [hr]
    have hpm : r.pMemory = slotAddr (s'.pointers c) s._opt.elementSizeInBytes r0.1 := by
      rw [hr]
    have hc64 : c < 64 := by simp only [ARRAY_LEN, DIGITS] at hlt; omega
    have hcap := GetSubPoolSize_ge hc64
    have hcap1 := GetSubPoolSize_ge (show c + 1 < 64 by
      simp only [ARRAY_LEN, DIGITS] at hlt; omega)
    by_cases hp : s.pointers c = 0
    · have hk0 : k = 0 := by
        rcases Nat.eq_zero_or_pos k with hk | hk
        · exact hk
        · exact absurd hp (d4 hk).1
      obtain ⟨e1, e2, e3, _⟩ := g3 hp
      rw [e1, upd_same] at g1
      obtain ⟨er, erest⟩ := List.cons.inj g1
      have er1 : r0.1 = 0 := by rw [← er]
      have er2 : r0.2 = GetSubPoolSize c := by rw [← er]
      have hb' : s'.pointers c ≠ 0 := by rw [e2, upd_same]; exact e3
      subst hk0
      refine ⟨hid, hlt, hb', ho, by rw [hpm, er1], _, by rw [hr] at hI ⊢; exact hI, ?_, ?_⟩
      · intro _
        refine ⟨fun j hj => ?_, fun j hj => ?_, fun hc => absurd hc (by omega), fun _ => ?_,
          by omega⟩
        · have hjc : j ≠ c := by omega
          rw [e2, upd_other _ _ hjc, upd_other _ _ hjc, e1, upd_other _ _ hjc]
          exact d1 j hj
        · have hjc : j ≠ c := by omega
          rw [e2, upd_other _ _ hjc]
          exact d2 j hj
        · refine ⟨hb', ?_⟩
          rw [upd_same, er1, er2, ← erest, if_neg (by omega)]
      · intro hn
        omega
    · have hkpos : 0 < k := by
        rcases Nat.eq_zero_or_pos k with hk | hk
        · exact absurd (d3 hk) hp
        · exact hk
      obtain ⟨hbc, hrc⟩ := d4 hkpos
      obtain ⟨e1, e2⟩ := g2 hp
      rw [e1, hrc] at g1
      obtain ⟨er, erest⟩ := List.cons.inj g1
      have er1 : r0.1 = k := by rw [← er]
      have er2 : r0.2 = GetSubPoolSize c - k := by rw [← er]
      have hb' : s'.pointers c ≠ 0 := by rw [e2]; exact hp
      refine ⟨hid, hlt, hb', ho, by rw [hpm, er1], _, by rw [hr] at hI ⊢; exact hI, ?_, ?_⟩
      · intro hk1
        refine ⟨fun j hj => ?_, fun j hj => ?_, fun hc => absurd hc (by omega), fun _ => ?_,
          hk1⟩
        · have hjc : j ≠ c := by omega
          rw [e2, upd_other _ _ hjc, e1]
          exact d1 j hj
        · rw [e2]
          exact d2 j hj
        · refine ⟨hb', ?_⟩
          rw [upd_same, er1, er2, ← erest, if_neg (by omega)]
          congr 2
      · intro hk1
        refine ⟨fun j hj => ?_, fun j hj => ?_, fun _ => ?_, fun hc => absurd hc (by omega),
          by omega⟩
        · rcases Nat.eq_or_lt_of_le (Nat.le_of_lt_succ hj) with hjc | hjc
          · subst hjc
            refine ⟨hb', ?_⟩
            rw [upd_same, er2, ← erest, if_pos (by omega)]
          · have hjc' : j ≠ c := by omega
            rw [e2, upd_other _ _ hjc', e1]
            exact d1 j hjc
        · rw [e2]
          exact d2 j (by omega)
        · rw [e2]
          exact d2 (c + 1) (by omega)

/-- First ids of consecutive sub-pools. -/
theorem baseID_succ {c : Nat} (hc : c < 64) : baseID (c + 1) = baseID c + GetSubPoolSize c := by
  rw [GetSubPoolSize_eq hc]
  unfold baseID
  by_cases h0 : c = 0
  · subst h0
    rfl
  · simp only [h0, if_false, Nat.succ_ne_zero, Nat.add_eq_zero, one_ne_zero, and_false]
    rw [Nat.pow_succ]
    omega

end

/-- An allocation-only state is dense: its `n` allocations fill the sub-pools in order. -/
theorem AllocOnly.dense {s : Pool} {n : Nat} (h : AllocOnly s n) :
    ∃ runs live c k, Inv s runs live ∧ DenseAt s runs c k ∧ n = baseID c + k := by
  induction h with
  | construct opt s hc =>
    have hI := construct_inv hc
    have hp : ∀ j, s.pointers j = 0 := by
      intro j
      unfold Pool.construct at hc
      split at hc
      · exact absurd hc (by simp)
      · split at hc
        · exact absurd hc (by simp)
        · simp only [Option.some.injEq] at hc
          rw [← hc]
    exact ⟨_, _, 0, 0, hI, ⟨fun j hj => absurd hj (Nat.not_lt_zero _), fun j _ => hp j,
      fun _ => hp 0, fun hc => absurd hc (Nat.lt_irrefl _), by decide⟩, rfl⟩
  | reset s live s' hr hd =>
    obtain ⟨runs, hI⟩ := hr.inv
    obtain ⟨hI', hp, _⟩ := DeallocateBytesAll_inv hI hd
    exact ⟨_, _, 0, 0, hI', ⟨fun j hj => absurd hj (Nat.not_lt_zero _), fun j _ => hp j,
      fun _ => hp 0, fun hc => absurd hc (Nat.lt_irrefl _), by decide⟩, rfl⟩
  | allocate s n env s' r _ hm ha hok ih =>
    obtain ⟨runs, live, c, k, hI, hd, hn⟩ := ih
    obtain ⟨_, hlt, _, _, _, runs', hI', n1, n2⟩ := dense_step hI hd hm ha hok
    by_cases hk : k + 1 < GetSubPoolSize c
    · exact ⟨_, _, c, k + 1, hI', n1 hk, by omega⟩
    · refine ⟨_, _, c + 1, 0, hI', n2 hk, ?_⟩
      have := hd.2.2.2.2
      rw [baseID_succ (by simp only [ARRAY_LEN, DIGITS] at hlt; omega)]
      omega

/-- C7: after `n` successful allocations from a constructed pool (or from a pool just reset
by `DeallocateBytesAll`) and nothing else, the next successful allocation returns
`(subPoolID, p)` with `PtrToID(p, subPoolID) = n`, `IDToPtr(n) = p` and
`IDToSubPoolID(n) = subPoolID`; for `n = 0..7` the sub-pool ids are 0, 0, 1, 1, 2, 2, 2, 2. -/
theorem dense_ids (s : Pool) (n : Nat) (h : AllocOnly s n) (env : MallocEnv)
    (hm : MallocOK s env) (s' : Pool) (r : AllocBytesResult)
    (ha : s.AllocateBytes env = some (s', r)) (hok : r.pMemory ≠ 0) :
    s'.PtrToID r.pMemory r.subPoolID = n ∧ s'.IDToPtr n = r.pMemory ∧
    s'.IDToSubPoolID n = r.subPoolID ∧
    (n < 8 → r.subPoolID = [0, 0, 1, 1, 2, 2, 2, 2].getD n 0) := by
  obtain ⟨runs, live, c, k, hI, hd, hn⟩ := h.dense
  obtain ⟨hid, hlt, hb', ho, hpm, runs', hI', _, _⟩ := dense_step hI hd hm ha hok
  have hk := hd.2.2.2.2
  have c' := hI'.toGeo.ctx hb'
  rw [← ho] at hpm
  have e3 : s'.IDToSubPoolID n = r.subPoolID := by
    rw [hid, hn]
    exact IDToSubPoolID_slot hlt hk
  refine ⟨?_, ?_, e3, fun h8 => ?_⟩
  · rw [hid, hpm, hn]
    exact PtrToID_slot c' hk
  · rw [hpm, hn]
    exact IDToPtr_slot c' hk
  · rw [← e3]
    show Log2 n = _
    interval_cases n <;> decide

set_option maxRecDepth 100000 in
theorem dense_ids_witness :
    AllocOnly ex1 1 ∧
    ex2.PtrToID 100016 0 = 1 ∧ ex2.IDToPtr 1 = 100016 ∧ ex2.IDToSubPoolID 1 = 0 ∧
    ((1 : Nat) < 8 → (0 : Nat) = [0, 0, 1, 1, 2, 2, 2, 2].getD 1 0) :=
  have h1 : AllocOnly ex1 1 :=
    AllocOnly.allocate ex0 0 env1 ex1 _ (AllocOnly.construct _ _ ex0_construct) env1_ok0
      ex1_alloc (by decide)
  ⟨h1, dense_ids ex1 1 h1 noMalloc (noMalloc_ok ex1) ex2 (AllocBytesResult.mk 0 100016)
    ex2_alloc (by decide)⟩

end KoPool

set_option autoImplicit false
namespace KoPool
open Pool

/-! ## Repairing an iterator: the code at three inputs -/

set_option maxRecDepth 100000 in
/-- C3 (the code at the failing input): on `ex2`, whose sub-pool 0 holds the live slots
100000 and 100016, a new iterator returns 100000; after deallocating 100016 and repairing
the iterator with `GetFixedIteratorAfterDeallocate`, the iteration returns 100000 a second
time, although a new iterator on the pool after the deallocation returns only 100000,
which was already emitted. -/
theorem fixed_after_deallocate_reyields :
    nextPtr ex2 (KoPoolIteratorCore.ofPool ex2) = 100000 ∧
    ex2.DeallocateBytesByPtr 100016 = some ex2f ∧
    (it2a.GetFixedIteratorAfterDeallocate ex2f 100016).bind (iterate ex2f 4) =
      some [100000] ∧
    iterate ex2f 4 (KoPoolIteratorCore.ofPool ex2f) = some [100000] := by
  refine ⟨by rfl, by rfl, by rfl, by rfl⟩

set_option maxRecDepth 100000 in
/-- C4 (the code at the failing input): on `ex2` a new iterator returns 100000 and stands
at slot 1 of sub-pool 0; after one `AllocateBytes` (slot 100064 of sub-pool 1) and
`GetFixedIteratorAfterAllocate`, the iteration returns 100016, then 100000 and 100016
again, then 100064: the live slots of sub-pool 0 are returned a second time. -/
theorem fixed_after_allocate_reyields :
    nextPtr ex2 (KoPoolIteratorCore.ofPool ex2) = 100000 ∧
    it2a._subPoolID = 0 ∧ it2a._idInSubPool = 1 ∧
    ex2.AllocateBytes env3 = some (ex3, AllocBytesResult.mk 1 100064) ∧
    iterate ex3 8 (it2a.GetFixedIteratorAfterAllocate ex3) =
      some [100016, 100000, 100016, 100064] := by
  refine ⟨by rfl, by rfl, by rfl, by rfl, by rfl⟩

set_option maxRecDepth 100000 in
/-- C29 (the code at the failing input): for the iterator `it2a`, which has entered
sub-pool 0, the mask computed by `GetFixedIteratorAfterAllocate` and the mask computed by
`GetFixedIteratorAfterDeallocate` both have bit 0 set: the bit of the current sub-pool is
kept, not masked out. -/
theorem fixed_mask_keeps_current :
    it2a._subPoolID = 0 ∧ it2a._subPoolsWhichHaveAtLeastOneElement = 0 ∧
    (it2a.GetFixedIteratorAfterAllocate ex3)._subPoolsWhichHaveAtLeastOneElement.testBit 0 =
      true ∧
    (it2a.GetFixedIteratorAfterDeallocate ex2f 100016).map
      (fun it => it._subPoolsWhichHaveAtLeastOneElement.testBit 0) = some true := by
  refine ⟨by rfl, by rfl, by rfl, by rfl⟩

end KoPool

set_option autoImplicit false
namespace KoPool
open Pool

/-! ## Word helpers, exhaustion and moves -/

/-- A word between `2 ^ i` and `2 ^ (i + 1)` has bit `i` set. -/
theorem testBit_of_range {y i : Nat} (h1 : 2 ^ i ≤ y) (h2 : y < 2 ^ (i + 1)) :
    y.testBit i = true := by
  rw [Nat.testBit_to_div_mod, decide_eq_true_iff]
  have hpos : 0 < 2 ^ i := Nat.pow_pos (by decide)
  have hd : y / 2 ^ i = 1 := by
    apply Nat.div_eq_of_lt_le
    · simpa using h1
    · rw [Nat.pow_succ] at h2
      omega
  rw [hd]

/-- The position of the highest set bit of a non-zero word. -/
theorem log2_bounds {x : Nat} (h0 : x ≠ 0) (hx : x < 2 ^ 64) :
    Nat.log2 x < 64 ∧ 2 ^ Nat.log2 x ≤ x ∧ x < 2 ^ (Nat.log2 x + 1) :=
  ⟨(Nat.log2_lt h0).2 hx, Nat.log2_self_le h0, Nat.lt_log2_self⟩

/-- `Count0BitsLeft` of a non-zero word. -/
theorem Count0BitsLeft_spec {x : Nat} (h0 : x ≠ 0) (hx : x < 2 ^ 64) :
    Count0BitsLeft x = 63 - Nat.log2 x := by
  obtain ⟨h1, h2, h3⟩ := log2_bounds h0 hx
  unfold Count0BitsLeft
  simp only [h0, ne_eq, not_false_eq_true, if_true]
  rw [bitLength_spec 64 x _ h1 h2 h3]
  omega

/-- `IsPowerOf2` holds exactly for the powers of two. -/
theorem IsPowerOf2_iff {x : Nat} (hx : x < 2 ^ 64) :
    IsPowerOf2 x = true ↔ ∃ i, x = 2 ^ i := by
  unfold IsPowerOf2
  simp only [Bool.and_eq_true, decide_eq_true_eq]
  constructor
  · rintro ⟨h0, hand⟩
    obtain ⟨h1, h2, h3⟩ := log2_bounds h0 hx
    refine ⟨Nat.log2 x, ?_⟩
    by_contra hne
    have hw : wsub x 1 = x - 1 := wsub_eq (by omega) hx
    rw [hw] at hand
    have hb1 := testBit_of_range h2 h3
    have hb2 : (x - 1).testBit (Nat.log2 x) = true :=
      testBit_of_range (by omega) (by omega)
    have : (x &&& (x - 1)).testBit (Nat.log2 x) = true := by
      rw [Nat.testBit_and, hb1, hb2]
      rfl
    rw [hand, Nat.zero_testBit] at this
    exact absurd this (by simp)
  · rintro ⟨i, rfl⟩
    have hpos : 0 < 2 ^ i := Nat.pow_pos (by decide)
    refine ⟨by omega, ?_⟩
    have hw : wsub (2 ^ i) 1 = 2 ^ i - 1 := wsub_eq (by omega) hx
    rw [hw]
    apply Nat.eq_of_testBit_eq
    intro j
    rw [Nat.testBit_and, Nat.testBit_two_pow, Nat.testBit_two_pow_sub_one, Nat.zero_testBit]
    by_cases hij : i = j
    · subst hij
      simp
    · simp [hij]

/-- C23: for every 64-bit word `x`: if `x = 0`, `Count0BitsRight x = 64`,
`Count0BitsLeft x = 64` and `Log2 x = 0`; otherwise `Count0BitsRight x` is the index of the
lowest set bit, `Log2 x` is the index `i` of the highest set bit, that is
`2 ^ i ≤ x < 2 ^ (i + 1)`, and `Count0BitsLeft x = 63 - i`, so
`Log2 x = 63 - Count0BitsLeft x`. -/
theorem bit_counts (x : Nat) (hx : x < 2 ^ 64) :
    (x = 0 → Count0BitsRight x = 64 ∧ Count0BitsLeft x = 64 ∧ Log2 x = 0) ∧
    (x ≠ 0 →
      x.testBit (Count0BitsRight x) = true ∧
      (∀ j, j < Count0BitsRight x → x.testBit j = false) ∧
      x.testBit (Log2 x) = true ∧ (∀ j, Log2 x < j → x.testBit j = false) ∧
      2 ^ Log2 x ≤ x ∧ x < 2 ^ (Log2 x + 1) ∧
      Count0BitsLeft x = 63 - Log2 x ∧ Log2 x = DIGITS - 1 - Count0BitsLeft x) := by
  constructor
  · rintro rfl
    exact ⟨Count0BitsRight_zero, by unfold Count0BitsLeft; simp, Log2_zero⟩
  · intro h0
    obtain ⟨h1, h2, h3⟩ := log2_bounds h0 hx
    obtain ⟨_, hb, hlow⟩ := Count0BitsRight_spec h0 hx
    have hlog : Log2 x = Nat.log2 x := Log2_spec h1 h2 h3
    have hclz := Count0BitsLeft_spec h0 hx
    rw [hlog]
    refine ⟨hb, hlow, testBit_of_range h2 h3, fun j hj => ?_, h2, h3, hclz, ?_⟩
    · apply Nat.testBit_lt_two_pow
      exact Nat.lt_of_lt_of_le h3 (Nat.pow_le_pow_right (by decide) hj)
    · rw [hclz]
      simp only [DIGITS]
      omega

theorem bit_counts_witness :
    (40 : Nat) < 2 ^ 64 ∧ Count0BitsRight 40 = 3 ∧ Log2 40 = 5 ∧ Count0BitsLeft 40 = 58 ∧
    2 ^ Log2 40 ≤ 40 ∧ 40 < 2 ^ (Log2 40 + 1) :=
  ⟨by decide, by decide, by decide, by decide,
    ((bit_counts 40 (by decide)).2 (by decide)).2.2.2.2.1,
    ((bit_counts 40 (by decide)).2 (by decide)).2.2.2.2.2.1⟩

/-- For the word 0, `RoundUpToPowerOf2` returns 1, not 0: the claim C24 fails as stated. -/
theorem round_up_zero : RoundUpToPowerOf2 0 = 1 ∧ IsPowerOf2 0 = false := by
  constructor <;> decide

/-- C24 (amended): `RoundUpToPowerOf2 x` is `x` when `x` is a power of two or the maximum
word, is 1 when `x = 0`, and is the least power of two greater than `x` for every other
`x` below `2 ^ 63`. -/
theorem round_up_pow2 (x : Nat) (hx : x < 2 ^ 64) :
    (x = 0 → RoundUpToPowerOf2 x = 1) ∧
    ((∃ i, x = 2 ^ i) → RoundUpToPowerOf2 x = x) ∧
    (x = USIZE_MAX → RoundUpToPowerOf2 x = x) ∧
    (0 < x → x < 2 ^ 63 → (¬ ∃ i, x = 2 ^ i) →
      ∃ i, RoundUpToPowerOf2 x = 2 ^ i ∧ x < 2 ^ i ∧ ∀ j, x < 2 ^ j → 2 ^ i ≤ 2 ^ j) := by
  refine ⟨?_, ?_, ?_, ?_⟩
  · rintro rfl
    decide
  · intro hp
    have hpow := (IsPowerOf2_iff hx).2 hp
    unfold RoundUpToPowerOf2
    split
    · rfl
    · simp only [hpow, if_true]
  · intro e
    unfold RoundUpToPowerOf2
    simp only [e, if_true]
  · intro h0 h63 hnp
    have h0' : x ≠ 0 := by omega
    obtain ⟨h1, h2, h3⟩ := log2_bounds h0' hx
    have hnpow : IsPowerOf2 x = false := by
      cases hb : IsPowerOf2 x with
      | false => rfl
      | true => exact absurd ((IsPowerOf2_iff hx).1 hb) hnp
    have hmax : x ≠ USIZE_MAX := by
      simp only [USIZE_MAX]
      omega
    have hl62 : Nat.log2 x < 63 := (Nat.log2_lt h0').2 h63
    have hr : RoundUpToPowerOf2 x = 2 ^ (Nat.log2 x + 1) := by
      unfold RoundUpToPowerOf2
      simp only [hmax, if_false, hnpow, Bool.false_eq_true]
      rw [Count0BitsLeft_spec h0' hx]
      have : DIGITS - (63 - Nat.log2 x) = Nat.log2 x + 1 := by
        simp only [DIGITS]
        omega
      rw [this, shl1_eq (by omega)]
    refine ⟨Nat.log2 x + 1, hr, h3, fun j hj => ?_⟩
    apply Nat.pow_le_pow_right (by decide)
    by_contra hlt
    have : 2 ^ j ≤ 2 ^ Nat.log2 x := Nat.pow_le_pow_right (by decide) (by omega)
    omega

theorem round_up_pow2_witness :
    (5 : Nat) < 2 ^ 64 ∧ RoundUpToPowerOf2 5 = 8 ∧
    ((∃ i, (8 : Nat) = 2 ^ i) → RoundUpToPowerOf2 8 = 8) :=
  ⟨by decide, by decide, (round_up_pow2 8 (by decide)).2.1⟩

/-- C25: for every id below `2 ^ 63`, `IDToSubPoolID id` is `floor(log2 id)` (0 for
`id = 0`), `IDToPtrImpl` uses the slot index `id - baseID (IDToSubPoolID id)`, and this
index is below `GetSubPoolSize (IDToSubPoolID id)`; `GetSubPoolSize 0 = 2` and
`GetSubPoolSize i = 2 ^ i` for `1 ≤ i < 64`. -/
theorem id_to_subpool (s : Pool) (id : Nat) (h : id < 2 ^ 63) :
    s.IDToSubPoolID id = Nat.log2 id ∧
    (id ≠ 0 → 2 ^ s.IDToSubPoolID id ≤ id ∧ id < 2 ^ (s.IDToSubPoolID id + 1)) ∧
    s.IDToSubPoolID id < ARRAY_LEN ∧
    baseID (s.IDToSubPoolID id) ≤ id ∧
    id - baseID (s.IDToSubPoolID id) < GetSubPoolSize (s.IDToSubPoolID id) ∧
    (s.IDToPtrImpl id).pMemory = s.pointers (s.IDToSubPoolID id) +
      wmul (id - baseID (s.IDToSubPoolID id)) s._opt.elementSizeInBytes ∧
    GetSubPoolSize 0 = 2 ∧ ∀ i, 1 ≤ i → i < 64 → GetSubPoolSize i = 2 ^ i := by
  have hsz : ∀ i, 1 ≤ i → i < 64 → GetSubPoolSize i = 2 ^ i := by
    intro i h1 h2
    rw [GetSubPoolSize_eq h2, if_neg (by omega)]
  have hid : s.IDToSubPoolID id = Log2 id := rfl
  by_cases h0 : id = 0
  · subst h0
    have e : s.IDToSubPoolID 0 = 0 := by rw [hid, Log2_zero]
    rw [e]
    refine ⟨by simp, fun hc => absurd rfl hc, by decide, by decide, by decide, ?_, by decide,
      hsz⟩
    show (s.IDToPtrImpl 0).pMemory = _
    unfold Pool.IDToPtrImpl Pool.IDToSubPoolIDImpl
    simp only [Log2_zero, if_true]
    rfl
  · obtain ⟨h1, h2, h3⟩ := log2_bounds h0 (by omega)
    have hl : Nat.log2 id < 63 := (Nat.log2_lt h0).2 h
    have e : s.IDToSubPoolID id = Nat.log2 id := by rw [hid]; exact Log2_spec h1 h2 h3
    have hlt : Nat.log2 id < ARRAY_LEN := by simp only [ARRAY_LEN, DIGITS]; omega
    rw [e]
    have hbase : baseID (Nat.log2 id) ≤ id ∧
        id - baseID (Nat.log2 id) < GetSubPoolSize (Nat.log2 id) := by
      rw [GetSubPoolSize_eq h1]
      unfold baseID
      by_cases hz : Nat.log2 id = 0
      · rw [hz] at h2 h3
        simp only [hz, if_true]
        simp at h3
        omega
      · simp only [hz, if_false]
        rw [Nat.pow_succ] at h3
        omega
    refine ⟨rfl, fun _ => ⟨h2, h3⟩, hlt, hbase.1, hbase.2, ?_, by decide, hsz⟩
    have hcode : (s.IDToPtrImpl id).pMemory = s.pointers (Log2 id) +
        wmul (wsub id (if Log2 id = 0 then 0 else shl1 (Log2 id)))
          s._opt.elementSizeInBytes := rfl
    rw [hcode, Log2_spec h1 h2 h3, baseID_eq_code hlt, wsub_eq hbase.1 (by omega)]

theorem id_to_subpool_witness :
    (5 : Nat) < 2 ^ 63 ∧ ex3.IDToSubPoolID 5 = Nat.log2 5 ∧
    5 - baseID (ex3.IDToSubPoolID 5) < GetSubPoolSize (ex3.IDToSubPoolID 5) :=
  ⟨by decide, (id_to_subpool ex3 5 (by decide)).1,
    (id_to_subpool ex3 5 (by decide)).2.2.2.2.1⟩

end KoPool

set_option autoImplicit false
namespace KoPool
open Pool

/-! ## Exhaustion, moves, the sorted index and the list nodes -/

/-- In a reachable state the vacant mask is never 0: sub-pool 62 is never activated (its
buffer would not fit below `2 ^ 64`), so its bit stays set. `AllocateBytes` selects an index
below `ARRAY_LEN` and returns. -/
theorem vacant_mask_nonzero (s : Pool) (live : List Nat) (h : Reachable s live) :
    s._vacantSubPools ≠ 0 ∧ Count0BitsRight s._vacantSubPools < ARRAY_LEN ∧
    (∀ env, MallocOK s env → ∃ s' r, s.AllocateBytes env = some (s', r)) := by
  obtain ⟨runs, hI⟩ := h.inv
  have hlt := hI.ctz_lt
  refine ⟨?_, hlt, fun env hm => AllocateBytes_total hI hm⟩
  intro e
  rw [e, Count0BitsRight_zero] at hlt
  exact absurd hlt (by decide)

/-- The deleter's loop agrees with the loop of `DeallocateBytesAll` when no sub-pool counts
a used slot. -/
theorem deleterLoop_eq : ∀ (n : Nat) (s : Pool), n ≤ ARRAY_LEN →
    (∀ j, j < n → s.numUsed j = 0) → deleterLoop n s = deallocAllLoop n s
  | 0, _, _, _ => rfl
  | n + 1, s, hn, hu => by
    have ih := deleterLoop_eq n s (by omega) (fun j hj => hu j (by omega))
    obtain ⟨s1, h1⟩ := deallocAllLoop_some n s (by omega) (fun j hj => hu j (by omega))
    obtain ⟨_, n0, _⟩ := deallocAllLoop_spec n s s1 h1
    have hz : s1.numUsed n = 0 := by
      rw [n0 n, if_neg (Nat.lt_irrefl _)]
      exact hu n (Nat.lt_succ_self _)
    simp only [deleterLoop, deallocAllLoop, ih, h1, hz, ne_eq, not_true_eq_false, if_false]

/-- Move-assigning to `ex1`, which has a live slot, stops at the deleter's assertion
`numUsed == 0`: the assignment does not complete, so the claim C22 fails as stated. -/
theorem move_assign_live_undefined :
    ex1._pSubPools = 4096 ∧ ex1.numUsed 0 = 1 ∧ ex1.moveAssign ex2 = none := by
  refine ⟨by rfl, by rfl, by rfl⟩

/-- C22 (amended): the move constructor, and the move assignment to a pool `b` that has no
table or whose sub-pools count no used slot, leave the source `a` equal to a
default-constructed pool (no table, vacant mask all ones, non-empty mask 0, no deferred
release, default options) and give the destination exactly the state `a` had. -/
theorem move_resets_source (a b : Pool)
    (hb : b._pSubPools = 0 ∨ ∀ j, j < ARRAY_LEN → b.numUsed j = 0) :
    a.moveConstruct = (a, Pool.default) ∧ b.moveAssign a = some (a, Pool.default) ∧
    Pool.default._pSubPools = 0 ∧ Pool.default._vacantSubPools = USIZE_MAX ∧
    Pool.default._subPoolsWhichHaveAtLeastOneElement = 0 ∧
    Pool.default._subPoolToDeallocate = SUB_POOL_ID_NONE ∧
    Pool.default._opt.elementSizeInBytes = 8 ∧ Pool.default._opt.elementAlignment = 8 := by
  refine ⟨rfl, ?_, rfl, rfl, rfl, rfl, rfl, rfl⟩
  have hdel : b.SubPoolsUniquePtrDeleter = some () := by
    unfold Pool.SubPoolsUniquePtrDeleter
    by_cases h0 : b._pSubPools = 0
    · simp only [h0, if_true]
    · have hu : ∀ j, j < ARRAY_LEN → b.numUsed j = 0 := by
        rcases hb with c | c
        · exact absurd c h0
        · exact c
      obtain ⟨s1, h1⟩ := deallocAllLoop_some ARRAY_LEN b (le_refl _) hu
      simp only [h0, if_false, deleterLoop_eq ARRAY_LEN b (le_refl _) hu, h1]
  unfold Pool.moveAssign
  simp only [hdel]
  rfl

set_option maxRecDepth 100000 in
theorem move_resets_source_witness :
    ex1d.moveAssign ex2 = some (ex2, Pool.default) ∧ ex2.moveConstruct = (ex2, Pool.default) :=
  ⟨(move_resets_source ex2 ex1d (Or.inr (by decide))).2.1,
    (move_resets_source ex2 ex1d (Or.inr (by decide))).1⟩

/-- C27: in a reachable state the entries `[0, sortedPointersSize)` of the sorted index are
strictly increasing by `pMemory`; every one is `(pointers[i], i)` for an activated sub-pool
`i`; every activated sub-pool has exactly one entry; every entry from `sortedPointersSize`
on is the default one. `InsertSortedPointer`, called for a sub-pool whose buffer pointer has
just been set, and `RemoveSortedPointer`, called for an activated sub-pool whose buffer
pointer is set to null right after (the call returns), give a sorted index with these
properties (`SortedOK`) again. -/
theorem sorted_index_inv (s : Pool) (live : List Nat) (h : Reachable s live) :
    (∀ a c, a < c → c < s.sortedPointersSize →
      (s.sortedPointers a).pMemory < (s.sortedPointers c).pMemory) ∧
    (∀ a, a < s.sortedPointersSize →
      (s.sortedPointers a).pMemory ≠ 0 ∧
      s.pointers (s.sortedPointers a).subPoolID = (s.sortedPointers a).pMemory) ∧
    (∀ i, s.pointers i ≠ 0 →
      ∃ a, a < s.sortedPointersSize ∧ (s.sortedPointers a).subPoolID = i ∧
        ∀ c, c < s.sortedPointersSize → (s.sortedPointers c).subPoolID = i → c = a) ∧
    (∀ a, s.sortedPointersSize ≤ a → s.sortedPointers a = {}) ∧
    (∀ i b, i < ARRAY_LEN → s.pointers i = 0 → b ≠ 0 →
      Geo { s with pointers := upd s.pointers i b } →
      SortedOK (Pool.InsertSortedPointer { s with pointers := upd s.pointers i b } i)) ∧
    (∀ j, s.pointers j ≠ 0 →
      ∃ r, s.RemoveSortedPointer j = some r ∧
        SortedOK { r with pointers := upd s.pointers j 0 }) := by
  obtain ⟨runs, hI⟩ := h.inv
  have hS := hI.toSortedOK
  refine ⟨hS.sorted_lt, hS.sorted_entry, fun i hi => ?_, fun a ha => ?_, ?_, ?_⟩
  · obtain ⟨a, ha, e⟩ := hS.sorted_all i hi
    exact ⟨a, ha, e, fun c hc ec => hS.entry_inj hc ha (ec.trans e.symm)⟩
  · obtain ⟨e1, e2⟩ := hS.sorted_rest a ha
    cases hsp : s.sortedPointers a with
    | mk pm id =>
      rw [hsp] at e1 e2
      simp only at e1 e2
      rw [e1, e2]
  · intro i b hi hp0 hb hg
    refine hS.insert (Geo.congr_geo hg rfl rfl rfl) hi hp0 hb rfl rfl ?_ rfl
    unfold Pool.InsertSortedPointer
    simp only [upd_same]
  · intro j hj
    obtain ⟨r, hr, _, hso⟩ := hS.remove hI.toGeo hj
    exact ⟨r, hr, hso _ rfl rfl rfl⟩

theorem sorted_index_inv_witness :
    Reachable ex3 [100064, 100016, 100000] ∧
    (∀ a c, a < c → c < ex3.sortedPointersSize →
      (ex3.sortedPointers a).pMemory < (ex3.sortedPointers c).pMemory) :=
  ⟨ex3_reachable, (sorted_index_inv ex3 _ ex3_reachable).1⟩

end KoPool

set_option autoImplicit false
namespace KoPool
open Pool

/-! ## The words of the list nodes -/

/-- The second word of the last node of a chain: the head of the next run, or null. -/
theorem Chain_next_word {m : Nat → Nat} {b sz prev : Nat} {ys : List Run}
    (h : Chain m b sz prev ys) :
    m (prev + 8) = (ys.head?.map (fun y => slotAddr b sz y.1)).getD 0 := by
  cases ys with
  | nil => exact h
  | cons y rest => exact h.1

set_option maxRecDepth 100000 in
/-- In the reachable state `ex8g` the list of sub-pool 2 starts with the run `[3..3]` of
length 1, and the second word of its slot is 102016, the address of the next run's head,
not `(1 - 1) * 16 = 0`: the claim C28 fails for runs of length 1. -/
theorem single_run_second_word :
    Reachable ex8g [102032, 102000, 101016, 101000, 100016, 100000] ∧
    freeRuns ex8g 2 = [(3, 1), (1, 1)] ∧
    ex8g.mem (slotAddr (ex8g.pointers 2) ex8g._opt.elementSizeInBytes 3 + 8) = 102016 ∧
    (1 - 1) * ex8g._opt.elementSizeInBytes = 0 :=
  ⟨ex8g_reachable, by rfl, by rfl, by rfl⟩

/-- C28 (amended): in a reachable state, for every free run of length `L ≥ 2` of an
activated sub-pool, the second word of the run's first slot (`numBytesToTail`) is
`(L - 1) * elementSizeInBytes`. -/
theorem head_bytes_to_tail (s : Pool) (live : List Nat) (h : Reachable s live) (i : Nat)
    (hb : s.pointers i ≠ 0) (r : Run) (hr : r ∈ freeRuns s i) (hL : 2 ≤ r.2) :
    s.mem (slotAddr (s.pointers i) s._opt.elementSizeInBytes r.1 + 8) =
      (r.2 - 1) * s._opt.elementSizeInBytes := by
  obtain ⟨runs, hI⟩ := h.inv
  have hsub := hI.sub i hb
  rw [hsub.freeRuns_eq (hI.toGeo.ctx hb)] at hr
  obtain ⟨xs, ys, e⟩ := mem_split_run hr
  have hch := hsub.chain
  rw [e] at hch
  exact (Chain_mid hch).2.2.1 hL

set_option maxRecDepth 100000 in
theorem head_bytes_to_tail_witness :
    freeRuns ex8b 2 = [(1, 2)] ∧
    ex8b.mem (slotAddr (ex8b.pointers 2) ex8b._opt.elementSizeInBytes 1 + 8) =
      (2 - 1) * ex8b._opt.elementSizeInBytes :=
  ⟨by rfl, head_bytes_to_tail ex8b _ ex8b_reachable 2 (by decide) (1, 2) (by decide)
    (by decide)⟩

/-- C30: in a reachable state, for every run `r` of the free list of an activated sub-pool
`i` (the list being `xs ++ r :: ys`): the first and the last slot of `r` hold the same
`pPrevFreeSkipNodeTail`, the last node before `r`; when `r` has two or more slots, the
second word of its first slot (`numBytesToTail`) is `(L - 1) * elementSizeInBytes`; the
second word of its last slot (`pNextFreeSkipNodeHead`) is the first slot of the next run,
or null when `r` is the last run; so a run of one slot carries the tail layout. -/
theorem node_words (s : Pool) (live : List Nat) (h : Reachable s live) (i : Nat)
    (hb : s.pointers i ≠ 0) (xs : List Run) (r : Run) (ys : List Run)
    (he : freeRuns s i = xs ++ r :: ys) :
    s.mem (slotAddr (s.pointers i) s._opt.elementSizeInBytes r.1) =
      lastTail (s.pointers i) s._opt.elementSizeInBytes (s.poolAddr i) xs ∧
    s.mem (slotAddr (s.pointers i) s._opt.elementSizeInBytes (r.1 + r.2 - 1)) =
      s.mem (slotAddr (s.pointers i) s._opt.elementSizeInBytes r.1) ∧
    (2 ≤ r.2 → s.mem (slotAddr (s.pointers i) s._opt.elementSizeInBytes r.1 + 8) =
      (r.2 - 1) * s._opt.elementSizeInBytes) ∧
    s.mem (slotAddr (s.pointers i) s._opt.elementSizeInBytes (r.1 + r.2 - 1) + 8) =
      (ys.head?.map (fun y => slotAddr (s.pointers i) s._opt.elementSizeInBytes y.1)).getD
        0 ∧
    (r.2 = 1 → s.mem (slotAddr (s.pointers i) s._opt.elementSizeInBytes r.1 + 8) =
      (ys.head?.map (fun y => slotAddr (s.pointers i) s._opt.elementSizeInBytes y.1)).getD
        0) := by
  obtain ⟨runs, hI⟩ := h.inv
  have hsub := hI.sub i hb
  rw [hsub.freeRuns_eq (hI.toGeo.ctx hb)] at he
  have hch := hsub.chain
  rw [he] at hch
  obtain ⟨_, c2, c3, c4, c5⟩ := Chain_mid hch
  have hnext := Chain_next_word c5
  refine ⟨c2, c4.trans c2.symm, c3, hnext, fun h1 => ?_⟩
  have e : r.1 + r.2 - 1 = r.1 := by omega
  rw [e] at hnext
  exact hnext

set_option maxRecDepth 100000 in
theorem node_words_witness :
    freeRuns ex8g 2 = [] ++ (3, 1) :: [(1, 1)] ∧
    ex8g.mem (slotAddr (ex8g.pointers 2) ex8g._opt.elementSizeInBytes 3) =
      lastTail (ex8g.pointers 2) ex8g._opt.elementSizeInBytes (ex8g.poolAddr 2) [] ∧
    ex8g.mem (slotAddr (ex8g.pointers 2) ex8g._opt.elementSizeInBytes (3 + 1 - 1) + 8) =
      slotAddr (ex8g.pointers 2) ex8g._opt.elementSizeInBytes 1 :=
  have hw := node_words ex8g _ ex8g_reachable 2 (by decide) [] (3, 1) [(1, 1)] (by rfl)
  ⟨by rfl, hw.1, hw.2.2.2.1⟩

end KoPool

set_option autoImplicit false
namespace KoPool
open Pool

/-! ## The iterator: lists of positions -/

/-- Filtering a range may skip an initial stretch where the predicate fails. -/
theorem filter_range_skip (p : Nat → Bool) : ∀ (m lo n : Nat), m ≤ n →
    (∀ k, lo ≤ k → k < lo + m → p k = false) →
    (List.range' lo n).filter p = (List.range' (lo + m) (n - m)).filter p
  | 0, lo, n, _, _ => by simp
  | m + 1, lo, n, hm, h => by
    obtain ⟨n', rfl⟩ : ∃ n', n = n' + 1 := ⟨n - 1, by omega⟩
    rw [List.range'_succ, List.filter_cons, h lo (Nat.le_refl _) (by omega)]
    simp only [Bool.false_eq_true, if_false]
    rw [filter_range_skip p m (lo + 1) n' (by omega) (fun k h1 h2 => h k (by omega) (by omega))]
    have e1 : lo + 1 + m = lo + (m + 1) := by omega
    have e2 : n' - m = n' + 1 - (m + 1) := by omega
    rw [e1, e2]

theorem liveIdx_skip (s : Pool) (i : Nat) {m lo n : Nat} (hm : m ≤ n)
    (h : ∀ k, lo ≤ k → k < lo + m → s.IsSkipListNodeByIDInSubPool k i = true) :
    liveIdx s i lo n = liveIdx s i (lo + m) (n - m) := by
  unfold liveIdx
  exact filter_range_skip _ m lo n hm (fun k h1 h2 => by simp [h k h1 h2])

theorem liveIdx_cons (s : Pool) (i : Nat) {lo n : Nat} (hn : 0 < n)
    (h : s.IsSkipListNodeByIDInSubPool lo i = false) :
    liveIdx s i lo n = lo :: liveIdx s i (lo + 1) (n - 1) := by
  obtain ⟨n', rfl⟩ : ∃ n', n = n' + 1 := ⟨n - 1, by omega⟩
  unfold liveIdx
  rw [List.range'_succ, List.filter_cons]
  simp [h]

theorem liveIdx_zero (s : Pool) (i lo : Nat) : liveIdx s i lo 0 = [] := by
  unfold liveIdx; simp

theorem mem_liveIdx {s : Pool} {i lo n k : Nat} :
    k ∈ liveIdx s i lo n ↔
      (lo ≤ k ∧ k < lo + n) ∧ s.IsSkipListNodeByIDInSubPool k i = false := by
  unfold liveIdx
  simp [List.mem_filter]

theorem liveIdx_pairwise (s : Pool) (i lo n : Nat) :
    (liveIdx s i lo n).Pairwise (fun a b => a < b) := by
  unfold liveIdx
  exact (List.pairwise_lt_range' lo n).sublist (List.filter_sublist _)

/-- The slots of a sub-pool from index `lo` on, when the first slot with a clear free-bit
at or after `lo` is `k0`. -/
theorem liveIdx_first (s : Pool) (i : Nat) {lo k0 size : Nat} (h1 : lo ≤ k0) (h2 : k0 < size)
    (hfree : ∀ k, lo ≤ k → k < k0 → s.IsSkipListNodeByIDInSubPool k i = true)
    (h : s.IsSkipListNodeByIDInSubPool k0 i = false) :
    liveIdx s i lo (size - lo) = k0 :: liveIdx s i (k0 + 1) (size - (k0 + 1)) := by
  rw [@liveIdx_skip s i (k0 - lo) lo (size - lo) (by omega)
    (fun k a b => hfree k a (by omega))]
  have e1 : lo + (k0 - lo) = k0 := by omega
  have e2 : size - lo - (k0 - lo) = size - k0 := by omega
  rw [e1, e2, liveIdx_cons s i (by omega) h]
  have e3 : size - k0 - 1 = size - (k0 + 1) := by omega
  rw [e3]

/-- No slot with a clear free-bit is left from index `lo` on. -/
theorem liveIdx_none (s : Pool) (i : Nat) {lo size : Nat}
    (hfree : ∀ k, lo ≤ k → k < size → s.IsSkipListNodeByIDInSubPool k i = true) :
    liveIdx s i lo (size - lo) = [] := by
  rw [@liveIdx_skip s i (size - lo) lo (size - lo) (Nat.le_refl _)
    (fun k a b => hfree k a (by omega))]
  simp [liveIdx_zero]

theorem maskBits_pairwise (m : Nat) : (maskBits m).Pairwise (fun a b => a < b) := by
  unfold maskBits
  exact (List.pairwise_lt_range' 0 64).sublist (List.filter_sublist _)

theorem mem_maskBits {m j : Nat} : j ∈ maskBits m ↔ j < 64 ∧ m.testBit j = true := by
  unfold maskBits
  simp [List.mem_filter]

/-- The set bits of a word: the lowest one, then the set bits of the word without it. -/
theorem maskBits_lowest {m : Nat} (h0 : m ≠ 0) (hlt : m < 2 ^ 64) :
    maskBits m = Count0BitsRight m :: maskBits (m &&& bnot (shl1 (Count0BitsRight m))) := by
  obtain ⟨h1, h2, h3⟩ := Count0BitsRight_spec h0 hlt
  generalize Count0BitsRight m = c at h1 h2 h3
  have hbit : ∀ j, j < 64 → (m &&& bnot (shl1 c)).testBit j = (m.testBit j && decide (j ≠ c)) := by
    intro j hj
    rw [Nat.testBit_and, testBit_bnot, testBit_shl1 h1]
    by_cases e : j = c
    · simp [e]
    · have e' : c ≠ j := fun x => e x.symm
      simp [e, e', hj]
  unfold maskBits
  rw [filter_range_skip _ c 0 64 (by omega) (fun k _ hk => h3 k (by omega))]
  rw [filter_range_skip (fun j => (m &&& bnot (shl1 c)).testBit j) (c + 1) 0 64 (by omega)
    (fun k _ hk => by
      show (m &&& bnot (shl1 c)).testBit k = false
      rw [hbit k (by omega)]
      by_cases e : k = c
      · simp [e]
      · simp [e, h3 k (by omega)])]
  obtain ⟨n', hn'⟩ : ∃ n', 64 - c = n' + 1 := ⟨63 - c, by omega⟩
  have e1 : 64 - (c + 1) = n' := by omega
  rw [Nat.zero_add, Nat.zero_add, hn', e1, List.range'_succ, List.filter_cons]
  simp only [h2, if_true]
  congr 1
  apply List.filter_congr
  intro j hj
  rw [List.mem_range'_1] at hj
  rw [hbit j (by omega)]
  have : j ≠ c := by omega
  simp [this]

theorem maskBits_zero : maskBits 0 = [] := by
  unfold maskBits
  simp

theorem mem_posOf {s : Pool} {q : Nat × Nat} : ∀ {js : List Nat},
    q ∈ posOf s js ↔
      q.1 ∈ js ∧ q.2 < GetSubPoolSize q.1 ∧ s.IsSkipListNodeByIDInSubPool q.2 q.1 = false
  | [] => by simp [posOf]
  | j :: js => by
    rw [posOf, List.mem_append, @mem_posOf s q js, List.mem_map, List.mem_cons]
    constructor
    · rintro (⟨k, hk, rfl⟩ | ⟨h1, h2⟩)
      · rw [mem_liveIdx] at hk
        exact ⟨Or.inl rfl, by simpa using hk.1, hk.2⟩
      · exact ⟨Or.inr h1, h2⟩
    · rintro ⟨h1 | h1, h2, h3⟩
      · refine Or.inl ⟨q.2, ?_, ?_⟩
        · rw [mem_liveIdx]; rw [h1] at h2 h3; exact ⟨⟨Nat.zero_le _, by omega⟩, h3⟩
        · rw [← h1]
      · exact Or.inr ⟨h1, h2, h3⟩

theorem posOf_pairwise (s : Pool) : ∀ {js : List Nat}, js.Pairwise (fun a b => a < b) →
    (posOf s js).Pairwise posLt
  | [], _ => by simp [posOf]
  | j :: js, h => by
    rw [List.pairwise_cons] at h
    rw [posOf, List.pairwise_append]
    refine ⟨?_, posOf_pairwise s h.2, ?_⟩
    · rw [List.pairwise_map]
      exact (liveIdx_pairwise s j 0 _).imp (fun hab => Or.inr ⟨rfl, hab⟩)
    · intro a ha b hb
      rw [List.mem_map] at ha
      obtain ⟨k, _, rfl⟩ := ha
      exact Or.inl (h.1 b.1 (mem_posOf.1 hb).1)

theorem posLt_irrefl (q : Nat × Nat) : ¬ posLt q q := by
  rintro (h | ⟨_, h⟩) <;> omega

theorem nodup_of_pairwise_posLt {l : List (Nat × Nat)} (h : l.Pairwise posLt) : l.Nodup := by
  refine List.Pairwise.imp ?_ h
  intro a b hab e
  subst e
  exact posLt_irrefl a hab

end KoPool

set_option autoImplicit false
namespace KoPool
open Pool KoPoolIteratorCore

/-! ## The iterator: one call of `Next` -/

/-- A free slot at the cursor of a fitting iterator is the first slot of its run. -/
theorem run_at_cursor {cap : Nat} {rs : List Run} (hok : RunsOK cap rs) {id : Nat}
    (hc : Covered rs id) (hbd : id = 0 ∨ ¬ Covered rs (id - 1)) : ∃ r ∈ rs, r.1 = id := by
  rcases hbd with rfl | hbd
  · obtain ⟨r, hr, h1, _⟩ := hc
    exact ⟨r, hr, by omega⟩
  · by_cases h0 : id = 0
    · subst h0
      obtain ⟨r, hr, h1, _⟩ := hc
      exact ⟨r, hr, by omega⟩
    · obtain ⟨k, rfl⟩ : ∃ k, id = k + 1 := ⟨id - 1, by omega⟩
      exact hok.run_starting_at hc hbd

/-- One pass of the loop of `Next` with the cursor inside an activated sub-pool, at a live
slot or at the first slot of a free run: it returns
the first live slot `k0` at or after the cursor and moves the cursor behind it, or, when no
live slot is left, goes on with the cursor at the end of the sub-pool. -/
theorem nextLoop_in {s : Pool} {rs : List Run} (it : KoPoolIteratorCore) (fuel : Nat)
    (c : SubCtx s it._subPoolID) (htab : s._pSubPools ≠ 0) (h : SubInv s it._subPoolID rs)
    (hlt : it._idInSubPool < GetSubPoolSize it._subPoolID)
    (hrun : Covered rs it._idInSubPool → ∃ r ∈ rs, r.1 = it._idInSubPool) :
    ∃ k0, it._idInSubPool ≤ k0 ∧
      (∀ k, it._idInSubPool ≤ k → k < k0 →
        s.IsSkipListNodeByIDInSubPool k it._subPoolID = true) ∧
      ((k0 < GetSubPoolSize it._subPoolID ∧
          s.IsSkipListNodeByIDInSubPool k0 it._subPoolID = false ∧
          nextLoop s (fuel + 1) it =
            some (slotAddr (s.pointers it._subPoolID) s._opt.elementSizeInBytes k0,
              KoPoolIteratorCore.mk it._subPoolID (k0 + 1)
                it._subPoolsWhichHaveAtLeastOneElement)) ∨
       (k0 = GetSubPoolSize it._subPoolID ∧
          nextLoop s (fuel + 1) it =
            nextLoop s fuel (KoPoolIteratorCore.mk it._subPoolID
              (GetSubPoolSize it._subPoolID) it._subPoolsWhichHaveAtLeastOneElement))) := by
  obtain ⟨ci, id, mask⟩ := it
  simp only at c h hlt hrun ⊢
  have hci : ci < ARRAY_LEN := c.hi
  have hb := c.hb
  have hsz := c.hsz
  have hnl : ¬ GetSubPoolSize ci ≤ id := by omega
  rw [nextLoop]
  simp only [ge_iff_le, hnl, false_and, if_false, htab, decide_False, Bool.false_eq_true,
    hci, not_true_eq_false, hb]
  by_cases h0 : s.IsSkipListNodeByIDInSubPool id ci = true
  · simp only [h0, if_true]
    obtain ⟨r, hr, hr1⟩ := hrun ((h.bits id hlt).1 h0)
    have hrb := h.runs.bound r hr
    by_cases h1 : id + 1 = GetSubPoolSize ci
    · simp only [h1, if_true]
      refine ⟨GetSubPoolSize ci, by omega, fun k a b => ?_, Or.inr ⟨rfl, trivial⟩⟩
      have : k = id := by omega
      rw [this]; exact h0
    · simp only [h1, if_false]
      by_cases h2 : s.IsSkipListNodeByIDInSubPool (id + 1) ci = true
      · simp only [h2, if_true]
        have hright := isRight_of_run c h.runs h.bits hr
        rw [IsRight_slot c (by omega), hr1, h2] at hright
        have hlt1 : id + 1 < GetSubPoolSize ci := by omega
        simp only [hlt1, decide_True, Bool.and_self] at hright
        have h2r : 2 ≤ r.2 := by simpa using hright.symm
        obtain ⟨xs, ys, e⟩ := mem_split_run hr
        have hch := h.chain
        rw [e] at hch
        have hw := (Chain_mid hch).2.2.1 h2r
        rw [hr1] at hw
        unfold slotAddr at hw
        rw [hw]
        have hpos : 0 < s._opt.elementSizeInBytes := by omega
        have hdiv : (r.2 - 1) * s._opt.elementSizeInBytes / s._opt.elementSizeInBytes + 1 = r.2 := by
          rw [Nat.mul_div_cancel _ hpos]; omega
        rw [hdiv]
        have hcov : ∀ k, id ≤ k → k < id + r.2 → s.IsSkipListNodeByIDInSubPool k ci = true := by
          intro k a b
          exact (h.bits k (by omega)).2 ⟨r, hr, by omega, by omega⟩
        by_cases h3 : id + r.2 = GetSubPoolSize ci
        · simp only [h3, if_true]
          exact ⟨GetSubPoolSize ci, by omega, fun k a b => hcov k a (by omega), Or.inr ⟨rfl, trivial⟩⟩
        · simp only [h3, if_false]
          have hn := h.runs.after_not_covered hr
          rw [hr1] at hn
          have hlt3 : id + r.2 < GetSubPoolSize ci := by omega
          refine ⟨id + r.2, by omega, hcov, Or.inl ⟨hlt3, ?_, rfl⟩⟩
          exact not_free_of_not_covered h.bits hlt3 hn
      · simp only [h2, if_false]
        have hlt1 : id + 1 < GetSubPoolSize ci := by omega
        refine ⟨id + 1, by omega, fun k a b => ?_, Or.inl ⟨hlt1, by simpa using h2, rfl⟩⟩
        have : k = id := by omega
        rw [this]; exact h0
  · simp only [h0, if_false]
    exact ⟨id, Nat.le_refl _, fun k a b => by omega, Or.inl ⟨hlt, by simpa using h0, rfl⟩⟩

/-- A pass of the loop of `Next` with the cursor at or beyond the end of the current
sub-pool enters the lowest sub-pool of the mask at slot 0. -/
theorem nextLoop_adv {s : Pool} (it : KoPoolIteratorCore) (fuel : Nat)
    (hge : GetSubPoolSize it._subPoolID ≤ it._idInSubPool)
    (hm : it._subPoolsWhichHaveAtLeastOneElement ≠ 0)
    (hml : it._subPoolsWhichHaveAtLeastOneElement < 2 ^ 64) :
    nextLoop s (fuel + 1) it =
      nextLoop s (fuel + 1) (KoPoolIteratorCore.mk
        (Count0BitsRight it._subPoolsWhichHaveAtLeastOneElement) 0
        (it._subPoolsWhichHaveAtLeastOneElement &&&
          bnot (shl1 (Count0BitsRight it._subPoolsWhichHaveAtLeastOneElement)))) := by
  obtain ⟨ci, id, mask⟩ := it
  simp only at hge hm hml ⊢
  have hpos : ¬ GetSubPoolSize (Count0BitsRight mask) ≤ 0 := by
    have := GetSubPoolSize_ge (Count0BitsRight_spec hm hml).1; omega
  rw [nextLoop, nextLoop]
  simp only [ge_iff_le, hge, hm, and_false, if_false, decide_True, if_true, hpos, false_and,
    decide_False, Bool.false_eq_true]

/-- With the cursor at or beyond the end and an empty mask, `Next` returns `nullptr`. -/
theorem nextLoop_end {s : Pool} (it : KoPoolIteratorCore) (fuel : Nat)
    (hge : GetSubPoolSize it._subPoolID ≤ it._idInSubPool)
    (hm : it._subPoolsWhichHaveAtLeastOneElement = 0) :
    nextLoop s (fuel + 1) it = some (0, it) := by
  rw [nextLoop]
  simp only [ge_iff_le, hge, hm, and_self, if_true]

end KoPool

set_option autoImplicit false
namespace KoPool
open Pool KoPoolIteratorCore

/-! ## The iterator: the sequence of results -/

section
variable {s : Pool} {runs : Nat → List Run} {live : List Nat}

theorem yields_at (h : Inv s runs live) {ci id mask k0 : Nat}
    (hb : s.pointers ci ≠ 0)
    (hml : mask < 2 ^ 64)
    (hms : ∀ j, mask.testBit j = true → s.pointers j ≠ 0 ∧ 0 < s.numUsed j)
    (hmc : ∀ j, mask.testBit j = true → ci < j)
    (h1 : id ≤ k0) (h2 : k0 < GetSubPoolSize ci)
    (hfree : ∀ k, id ≤ k → k < k0 → s.IsSkipListNodeByIDInSubPool k ci = true)
    (hk : s.IsSkipListNodeByIDInSubPool k0 ci = false)
    (it : KoPoolIteratorCore)
    (hrem : remainingPos s it =
      (liveIdx s ci id (GetSubPoolSize ci - id)).map (fun k => (ci, k)) ++ posOf s (maskBits mask)) :
    Yields s runs it
      (some (slotAddr (s.pointers ci) s._opt.elementSizeInBytes k0,
        KoPoolIteratorCore.mk ci (k0 + 1) mask)) := by
  refine ⟨(ci, k0), _, _, ?_, rfl, ⟨hml, hms, fun _ => ⟨hb, hmc, Or.inr ?_⟩⟩, rfl,
    ⟨hb, h2, rfl, hk⟩⟩
  · rw [hrem, liveIdx_first s ci h1 h2 hfree hk]
    simp only [remainingPos, List.map_cons, List.cons_append]
  · intro hc
    have := (((h.sub ci hb).bits k0 h2).2 hc)
    simp only [Nat.add_sub_cancel] at this hc
    rw [hk] at this
    exact Bool.false_ne_true this

/-- A call with the cursor inside the current sub-pool yields, or goes on with the cursor at
the end of the sub-pool and the same positions left. -/
theorem next_inside (h : Inv s runs live) {it : KoPoolIteratorCore} (ok : ItOK s runs it)
    (hlt : it._idInSubPool < GetSubPoolSize it._subPoolID) (fuel : Nat) :
    Yields s runs it (nextLoop s (fuel + 1) it) ∨
    (∃ it', nextLoop s (fuel + 1) it = nextLoop s fuel it' ∧ ItOK s runs it' ∧
      remainingPos s it' = remainingPos s it ∧
      GetSubPoolSize it'._subPoolID ≤ it'._idInSubPool) := by
  obtain ⟨hb, hmc, hbd⟩ := ok.inside hlt
  obtain ⟨k0, h1, hfree, hc | hc⟩ :=
    nextLoop_in it fuel (h.ctx hb) (h.toGeo.table_ne hb) (h.sub _ hb) hlt
      (fun hc => run_at_cursor (h.sub _ hb).runs hc hbd)
  · obtain ⟨h2, hk, e⟩ := hc
    left
    rw [e]
    exact yields_at h hb ok.mask_lt ok.mask_sub hmc h1 h2 hfree hk it rfl
  · obtain ⟨rfl, e⟩ := hc
    right
    refine ⟨_, e, ⟨ok.mask_lt, ok.mask_sub, fun hx => absurd hx (Nat.lt_irrefl _)⟩, ?_,
      Nat.le_refl _⟩
    simp only [remainingPos, Nat.sub_self, liveIdx_zero, List.map_nil, List.nil_append]
    rw [liveIdx_none s _ hfree]
    rfl

/-- A call with the cursor at or beyond the end of the current sub-pool returns `nullptr`
when no position is left, and yields otherwise. -/
theorem next_end (h : Inv s runs live) {it : KoPoolIteratorCore} (ok : ItOK s runs it)
    (hge : GetSubPoolSize it._subPoolID ≤ it._idInSubPool) (fuel : Nat) :
    (remainingPos s it = [] ∧ nextLoop s (fuel + 1) it = some (0, it) ∧
      it._subPoolsWhichHaveAtLeastOneElement = 0) ∨
    Yields s runs it (nextLoop s (fuel + 1) it) := by
  have hrem0 : remainingPos s it = posOf s (maskBits it._subPoolsWhichHaveAtLeastOneElement) := by
    have e : GetSubPoolSize it._subPoolID - it._idInSubPool = 0 := by omega
    simp only [remainingPos, e, liveIdx_zero, List.map_nil, List.nil_append]
  by_cases hm : it._subPoolsWhichHaveAtLeastOneElement = 0
  · left
    refine ⟨?_, nextLoop_end it fuel hge hm, hm⟩
    rw [hrem0, hm, maskBits_zero]; rfl
  · right
    have hml := ok.mask_lt
    obtain ⟨c1, c2, c3⟩ := Count0BitsRight_spec hm hml
    obtain ⟨hb, hnu⟩ := ok.mask_sub _ c2
    rw [nextLoop_adv it fuel hge hm hml]
    have hsub := h.sub _ hb
    have hpos : 0 < GetSubPoolSize (Count0BitsRight it._subPoolsWhichHaveAtLeastOneElement) := by
      have := GetSubPoolSize_ge c1; omega
    have hbit : ∀ j, (it._subPoolsWhichHaveAtLeastOneElement &&&
        bnot (shl1 (Count0BitsRight it._subPoolsWhichHaveAtLeastOneElement))).testBit j = true →
        it._subPoolsWhichHaveAtLeastOneElement.testBit j = true ∧
        j ≠ Count0BitsRight it._subPoolsWhichHaveAtLeastOneElement := by
      intro j hj
      rw [Nat.testBit_and, testBit_bnot, testBit_shl1 c1] at hj
      simp only [Bool.and_eq_true, decide_eq_true_eq, Bool.not_eq_true', decide_eq_false_iff_not] at hj
      exact ⟨hj.1, fun e => hj.2.2 e.symm⟩
    obtain ⟨k0, h1, hfree, hc | hc⟩ :=
      nextLoop_in (KoPoolIteratorCore.mk
        (Count0BitsRight it._subPoolsWhichHaveAtLeastOneElement) 0
        (it._subPoolsWhichHaveAtLeastOneElement &&&
          bnot (shl1 (Count0BitsRight it._subPoolsWhichHaveAtLeastOneElement))))
        fuel (h.ctx hb) (h.toGeo.table_ne hb) hsub hpos
        (fun hc => run_at_cursor hsub.runs hc (Or.inl rfl))
    · obtain ⟨h2, hk, e⟩ := hc
      rw [e]
      refine yields_at h hb (Nat.lt_of_le_of_lt Nat.and_le_left hml)
        (fun j hj => ok.mask_sub j (hbit j hj).1) (fun j hj => ?_) h1 h2 hfree hk it ?_
      · have a := hbit j hj
        by_contra hle
        have := c3 j (by omega)
        rw [a.1] at this
        exact Bool.noConfusion this
      · rw [hrem0, maskBits_lowest hm hml, posOf]
        simp only [Nat.sub_zero]
    · exfalso
      obtain ⟨e, _⟩ := hc
      obtain ⟨k, _, hk, _, hkb⟩ := hsub.exists_live hb hnu
      have := hfree k (Nat.zero_le _) (by simp only at e ⊢; omega)
      simp only at this
      rw [hkb] at this
      exact Bool.false_ne_true this

/-- A call of `Next` on an iterator that fits the pool: it returns `nullptr` when no
position is left, and otherwise yields the first remaining position. -/
theorem Next_spec (h : Inv s runs live) {it : KoPoolIteratorCore} (ok : ItOK s runs it) :
    (remainingPos s it = [] ∧ ∃ it', Next s it = some (0, it') ∧ ItOK s runs it' ∧
      GetSubPoolSize it'._subPoolID ≤ it'._idInSubPool ∧
      it'._subPoolsWhichHaveAtLeastOneElement = 0) ∨
    Yields s runs it (Next s it) := by
  have e : Next s it = nextLoop s (128 + 1 + 1) it := rfl
  rw [e]
  by_cases hlt : it._idInSubPool < GetSubPoolSize it._subPoolID
  · rcases next_inside h ok hlt (128 + 1) with hy | ⟨it', e1, ok', hr, hge⟩
    · exact Or.inr hy
    · rw [e1]
      rcases next_end h ok' hge 128 with ⟨a, b, hm⟩ | hy
      · exact Or.inl ⟨hr ▸ a, _, b, ok', hge, hm⟩
      · right
        obtain ⟨q, rest, it2, a1, a2, a3, a4, a5⟩ := hy
        exact ⟨q, rest, it2, hr ▸ a1, a2, a3, a4, a5⟩
  · rcases next_end h ok (by omega) (128 + 1) with ⟨a, b, hm⟩ | hy
    · exact Or.inl ⟨a, _, b, ok, by omega, hm⟩
    · exact Or.inr hy

/-- Repeating `Next` collects the pointers of the remaining positions in their order. -/
theorem iterate_spec (h : Inv s runs live) : ∀ (fuel : Nat) (it : KoPoolIteratorCore),
    ItOK s runs it → (remainingPos s it).length < fuel →
    iterate s fuel it = some ((remainingPos s it).map (posAddr s))
  | 0, _, _, hf => absurd hf (Nat.not_lt_zero _)
  | fuel + 1, it, ok, hf => by
    rw [iterate]
    rcases Next_spec h ok with ⟨a, it', b, _⟩ | ⟨q, rest, it', a1, a2, a3, a4, a5⟩
    · rw [b, a]
      simp
    · rw [a2]
      have hne := a5.ne_zero
      simp only [hne, if_false]
      rw [a1] at hf ⊢
      simp only [List.length_cons] at hf
      rw [iterate_spec h fuel it' a3 (by rw [a4]; omega), a4]
      simp

/-- A fresh iterator fits the pool. -/
theorem ItOK_ofPool (h : Inv s runs live) : ItOK s runs (ofPool s) := by
  refine ⟨?_, fun j hj => (h.nonempty j).1 hj, fun hx => ?_⟩
  · apply Nat.lt_pow_two_of_testBit
    intro j hj
    exact h.nonempty_hi hj
  · exfalso
    have e : GetSubPoolSize 0 = 2 := by decide
    simp only [ofPool, e, USIZE_MAX] at hx
    exact absurd hx (by decide)

theorem remainingPos_ofPool (s : Pool) :
    remainingPos s (ofPool s) = posOf s (maskBits s._subPoolsWhichHaveAtLeastOneElement) := by
  have e : GetSubPoolSize 0 - USIZE_MAX = 0 := by decide
  simp only [remainingPos, ofPool, e, liveIdx_zero, List.map_nil, List.nil_append]

/-- The positions a fresh iterator has to visit are the live slots. -/
theorem mem_remaining_ofPool (h : Inv s runs live) (q : Nat × Nat) :
    q ∈ remainingPos s (ofPool s) ↔ LiveAt s q.1 q.2 (posAddr s q) := by
  rw [remainingPos_ofPool, mem_posOf, mem_maskBits]
  constructor
  · rintro ⟨⟨_, hb⟩, h2, h3⟩
    exact ⟨((h.nonempty _).1 hb).1, h2, rfl, h3⟩
  · rintro ⟨hb, h2, _, h3⟩
    have hi := (h.ctx hb).hi
    simp only [ARRAY_LEN, DIGITS] at hi
    exact ⟨⟨by omega, (h.nonempty _).2 ((h.used_iff_live q.1).2 ⟨q.2, _, hb, h2, rfl, h3⟩)⟩,
      h2, h3⟩

end

end KoPool

set_option autoImplicit false
namespace KoPool
open Pool KoPoolIteratorCore

/-! ## A full iteration without mutation -/

/-- A full iteration of a fresh iterator: the positions visited are in increasing order,
their pointers are pairwise different and are the live pointers, and `live.length + 1`
calls of `Next` complete the iteration. -/
theorem fresh_iteration {s : Pool} {runs : Nat → List Run} {live : List Nat}
    (h : Inv s runs live) :
    (remainingPos s (ofPool s)).Pairwise posLt ∧
    ((remainingPos s (ofPool s)).map (posAddr s)).Nodup ∧
    (∀ p, p ∈ (remainingPos s (ofPool s)).map (posAddr s) ↔ p ∈ live) ∧
    (∀ fuel, live.length < fuel →
      iterate s fuel (ofPool s) = some ((remainingPos s (ofPool s)).map (posAddr s))) := by
  have hpw : (remainingPos s (ofPool s)).Pairwise posLt := by
    rw [remainingPos_ofPool]
    exact posOf_pairwise s (maskBits_pairwise _)
  have hnd : ((remainingPos s (ofPool s)).map (posAddr s)).Nodup := by
    refine List.Nodup.map_on ?_ (nodup_of_pairwise_posLt hpw)
    intro x hx y hy e
    obtain ⟨a1, a2, _, _⟩ := (mem_remaining_ofPool h x).1 hx
    obtain ⟨b1, b2, _, _⟩ := (mem_remaining_ofPool h y).1 hy
    obtain ⟨e1, e2⟩ := h.toGeo.slot_unique a1 b1 a2 b2 e
    exact Prod.ext e1 e2
  have hmem : ∀ p, p ∈ (remainingPos s (ofPool s)).map (posAddr s) ↔ p ∈ live := by
    intro p
    rw [h.live_iff p, List.mem_map]
    constructor
    · rintro ⟨q, hq, rfl⟩
      exact ⟨q.1, q.2, (mem_remaining_ofPool h q).1 hq⟩
    · rintro ⟨i, k, hl⟩
      have e : p = posAddr s (i, k) := hl.2.2.1
      exact ⟨(i, k), (mem_remaining_ofPool h (i, k)).2 (e ▸ hl), e.symm⟩
  refine ⟨hpw, hnd, hmem, fun fuel hf => ?_⟩
  have hlen : (remainingPos s (ofPool s)).length = live.length := by
    have := ((List.perm_ext_iff_of_nodup hnd h.live_nodup).2 hmem).length_eq
    rwa [List.length_map] at this
  exact iterate_spec h fuel (ofPool s) (ItOK_ofPool h) (by omega)

/-- C1: in every reachable state, a fresh iterator driven by `Next` until it returns
`nullptr`, with no mutation in between, comes to its end (`live.length + 1` calls suffice)
and yields every live slot exactly once and no free slot: the list of the yielded pointers
has no duplicates and its elements are exactly the live pointers. -/
theorem iterate_yields_live (s : Pool) (live : List Nat) (h : Reachable s live)
    (fuel : Nat) (hf : live.length < fuel) :
    ∃ ys, iterate s fuel (ofPool s) = some ys ∧ ys.Nodup ∧ ∀ p, p ∈ ys ↔ p ∈ live := by
  obtain ⟨runs, hinv⟩ := h.inv
  obtain ⟨_, h2, h3, h4⟩ := fresh_iteration hinv
  exact ⟨_, h4 fuel hf, h2, h3⟩

set_option maxRecDepth 100000 in
theorem iterate_yields_live_witness :
    Reachable ex3 [100064, 100016, 100000] ∧
    iterate ex3 4 (ofPool ex3) = some [100000, 100016, 100064] ∧
    ∃ ys, iterate ex3 4 (ofPool ex3) = some ys ∧ ys.Nodup ∧
      ∀ p, p ∈ ys ↔ p ∈ [100064, 100016, 100000] :=
  ⟨ex3_reachable, by rfl, iterate_yields_live ex3 _ ex3_reachable 4 (by decide)⟩

/-- C2: in every reachable state, the pointers yielded by a full iteration of a fresh
iterator without mutation are the pointers of a list of positions `(sub-pool, slot)` of live
slots that is strictly increasing: every position comes before every later one, in a lower
sub-pool or in the same sub-pool at a lower slot index. -/
theorem iterate_increasing (s : Pool) (live : List Nat) (h : Reachable s live)
    (fuel : Nat) (hf : live.length < fuel) :
    ∃ ps : List (Nat × Nat), iterate s fuel (ofPool s) = some (ps.map (posAddr s)) ∧
      ps.Pairwise posLt ∧ ∀ q ∈ ps, LiveAt s q.1 q.2 (posAddr s q) := by
  obtain ⟨runs, hinv⟩ := h.inv
  obtain ⟨h1, _, _, h4⟩ := fresh_iteration hinv
  exact ⟨_, h4 fuel hf, h1, fun q hq => (mem_remaining_ofPool hinv q).1 hq⟩

set_option maxRecDepth 100000 in
theorem iterate_increasing_witness :
    Reachable ex8a [102048, 102032, 102000, 101016, 101000, 100016, 100000] ∧
    iterate ex8a 8 (ofPool ex8a) =
      some [100000, 100016, 101000, 101016, 102000, 102032, 102048] ∧
    ∃ ps : List (Nat × Nat), iterate ex8a 8 (ofPool ex8a) = some (ps.map (posAddr ex8a)) ∧
      ps.Pairwise posLt ∧ ∀ q ∈ ps, LiveAt ex8a q.1 q.2 (posAddr ex8a q) :=
  ⟨ex8a_reachable, by rfl, iterate_increasing ex8a _ ex8a_reachable 8 (by decide)⟩

end KoPool

set_option autoImplicit false
namespace KoPool
open Pool KoPoolIteratorCore

/-! ## Draining the pool through a repaired iterator -/

/-- Releasing a buffer keeps the table, the options and all memory outside the table. -/
theorem DeallocateSubPoolMemory_frame {s s' : Pool} {j : Nat}
    (h : s.DeallocateSubPoolMemory j = some s') :
    s'._pSubPools = s._pSubPools ∧ s'._opt = s._opt ∧
    ∀ a, (a < s._pSubPools ∨ s._pSubPools + SIZEOF_SUBPOOLS ≤ a) → s'.mem a = s.mem a := by
  unfold Pool.DeallocateSubPoolMemory at h
  by_cases h1 : j < ARRAY_LEN
  · by_cases h2 : s.numUsed j = 0
    · simp only [h1, not_true_eq_false, if_false, h2, ne_eq, Option.some.injEq] at h
      subst h
      refine ⟨rfl, rfl, fun a ha => ?_⟩
      show upd s.mem (s.poolAddr j + 8) 0 a = s.mem a
      apply upd_other
      unfold Pool.poolAddr
      simp only [ARRAY_LEN, DIGITS, SIZEOF_POOL, SIZEOF_SUBPOOLS] at h1 ha ⊢
      omega
    · simp [h1, h2] at h
  · simp [h1] at h

/-- The `defer` block of `DeallocateBytesImpl` keeps the table, the options and all memory
outside the table. -/
theorem deallocDefer_frame {s s' : Pool} {p i : Nat} (h : s.deallocDefer p i = some s') :
    s'._pSubPools = s._pSubPools ∧ s'._opt = s._opt ∧
    ∀ a, (a < s._pSubPools ∨ s._pSubPools + SIZEOF_SUBPOOLS ≤ a) → s'.mem a = s.mem a := by
  unfold Pool.deallocDefer at h
  simp only at h
  split at h
  · cases h
  · cases h
    exact ⟨rfl, rfl, fun _ _ => rfl⟩
  · split_ifs at h
    · cases h
      exact ⟨rfl, rfl, fun _ _ => rfl⟩
    · split at h
      · cases h
      · rename_i r hr
        split at h
        · cases h
        · rename_i s4 heq
          cases h
          have hf := DeallocateSubPoolMemory_frame heq
          rw [RemoveSortedPointer_frame hr] at hf
          exact hf
    · split at h
      · cases h
      · rename_i r hr
        have hf := DeallocateSubPoolMemory_frame h
        rw [RemoveSortedPointer_frame hr] at hf
        exact hf

section
variable {s : Pool} {runs : Nat → List Run} {live : List Nat}

/-- `DeallocateBytesByPtr` on a live slot keeps the table and the options, and outside the
table leaves the node memory as the linking step has written it. -/
theorem DeallocateBytesByPtr_frame (h : Inv s runs live) {i k p : Nat} (hl : LiveAt s i k p)
    {s' : Pool} (hd : s.DeallocateBytesByPtr p = some s') :
    s'._pSubPools = s._pSubPools ∧ s'._opt = s._opt ∧
    ∀ a, (a < s._pSubPools ∨ s._pSubPools + SIZEOF_SUBPOOLS ≤ a) →
      s'.mem a = s.deallocLink p i a := by
  have hp := hl.ne_zero
  have ht := h.toGeo.table_ne hl.1
  have hi := (h.toGeo.ctx hl.1).hi
  obtain ⟨a1, a2⟩ := hl.inside h.sz_ge
  have hfind := h.toSortedOK.find_subpool h.toGeo hl.1 a1 (by omega)
  unfold Pool.DeallocateBytesByPtr at hd
  simp only [hp, ht, if_false, hfind] at hd
  unfold Pool.DeallocateBytesImpl at hd
  simp only [hp, ht, hi, not_true_eq_false, if_false] at hd
  exact deallocDefer_frame hd

/-- The mask `~((1 << c) - 1)` has the bits from `c` on. -/
theorem testBit_from (c j : Nat) (hc : c < 64) :
    (bnot (wsub (shl1 c) 1)).testBit j = (decide (j < 64) && decide (c ≤ j)) := by
  have h1 : 1 ≤ 2 ^ c := Nat.one_le_two_pow
  have h2 : 2 ^ c < 2 ^ 64 := Nat.pow_lt_pow_right (by decide) hc
  rw [testBit_bnot, shl1_eq hc, wsub_eq h1 h2, Nat.testBit_two_pow_sub_one]
  by_cases h : j < c
  · have : ¬ c ≤ j := by omega
    simp [h, this]
  · have : c ≤ j := by omega
    simp [h, this]

/-- A call of `Next` in the draining loop: it returns `nullptr` when the pool is empty, and
otherwise yields the first live slot `k0` of a sub-pool `c` below which every sub-pool is
empty, with the cursor behind `k0`. -/
theorem drain_next (h : Inv s runs live) {it : KoPoolIteratorCore} (ok : DrainOK s it) :
    (s._subPoolsWhichHaveAtLeastOneElement = 0 ∧ ∃ it', Next s it = some (0, it')) ∨
    ∃ c k0 m1, Next s it = some (slotAddr (s.pointers c) s._opt.elementSizeInBytes k0,
        KoPoolIteratorCore.mk c (k0 + 1) m1) ∧
      s.pointers c ≠ 0 ∧ k0 < GetSubPoolSize c ∧
      s.IsSkipListNodeByIDInSubPool k0 c = false ∧
      (∀ k, k < k0 → s.IsSkipListNodeByIDInSubPool k c = true) ∧
      (∀ j, j < c → s._subPoolsWhichHaveAtLeastOneElement.testBit j = false) := by
  have e : Next s it = nextLoop s (129 + 1) it := rfl
  rw [e]
  obtain ⟨ci, id, mask⟩ := it
  have hmask : mask = s._subPoolsWhichHaveAtLeastOneElement := ok.mask_eq
  subst hmask
  by_cases hlt : id < GetSubPoolSize ci
  · obtain ⟨hb, hbit, hpre, hlow⟩ := ok.inside hlt
    simp only at hb hbit hpre hlow
    have hsub := h.sub _ hb
    obtain ⟨k0, h1, hfree, hc | hc⟩ :=
      nextLoop_in (KoPoolIteratorCore.mk ci id s._subPoolsWhichHaveAtLeastOneElement) 129
        (h.ctx hb) (h.toGeo.table_ne hb) hsub hlt
        (fun hc => by
          have := (hsub.bits _ hlt).2 hc
          simp only at this
          rw [hbit] at this
          exact absurd this Bool.false_ne_true)
    · obtain ⟨h2, hk, e1⟩ := hc
      right
      refine ⟨ci, k0, _, e1, hb, h2, hk, fun k hk' => ?_, hlow⟩
      by_cases hki : k < id
      · exact hpre k hki
      · exact hfree k (by simp only; omega) hk'
    · exfalso
      obtain ⟨e0, _⟩ := hc
      have := hfree id (Nat.le_refl _) (by rw [e0]; exact hlt)
      simp only at this
      rw [hbit] at this
      exact Bool.false_ne_true this
  · have hge : GetSubPoolSize ci ≤ id := by omega
    by_cases hm : s._subPoolsWhichHaveAtLeastOneElement = 0
    · left
      exact ⟨hm, _, nextLoop_end _ 129 hge hm⟩
    · right
      have hml : s._subPoolsWhichHaveAtLeastOneElement < 2 ^ 64 :=
        Nat.lt_pow_two_of_testBit _ (fun j hj => h.nonempty_hi hj)
      obtain ⟨c1, c2, c3⟩ := Count0BitsRight_spec hm hml
      obtain ⟨hb, hnu⟩ := (h.nonempty _).1 c2
      rw [nextLoop_adv _ 129 hge hm hml]
      have hsub := h.sub _ hb
      have hpos : 0 < GetSubPoolSize (Count0BitsRight s._subPoolsWhichHaveAtLeastOneElement) := by
        have := GetSubPoolSize_ge c1; omega
      obtain ⟨k0, h1, hfree, hc | hc⟩ :=
        nextLoop_in (KoPoolIteratorCore.mk
          (Count0BitsRight s._subPoolsWhichHaveAtLeastOneElement) 0
          (s._subPoolsWhichHaveAtLeastOneElement &&&
            bnot (shl1 (Count0BitsRight s._subPoolsWhichHaveAtLeastOneElement))))
          129 (h.ctx hb) (h.toGeo.table_ne hb) hsub hpos
          (fun hc => run_at_cursor hsub.runs hc (Or.inl rfl))
      · obtain ⟨h2, hk, e1⟩ := hc
        exact ⟨_, k0, _, e1, hb, h2, hk, fun k hk' => hfree k (Nat.zero_le _) hk', c3⟩
      · exfalso
        obtain ⟨e0, _⟩ := hc
        obtain ⟨k, _, hk, _, hkb⟩ := hsub.exists_live hb hnu
        have := hfree k (Nat.zero_le _) (by simp only at e0 ⊢; omega)
        simp only at this
        rw [hkb] at this
        exact Bool.false_ne_true this

/-- An iterator with the pool's mask and a cursor behind a free stretch fits the draining
loop. -/
theorem DrainOK.of_cursor {s1 : Pool} {c id : Nat} (hb : s1.pointers c ≠ 0)
    (hlow : ∀ j, j < c → s1._subPoolsWhichHaveAtLeastOneElement.testBit j = false)
    (hpre : ∀ k, k < id → k < GetSubPoolSize c → s1.IsSkipListNodeByIDInSubPool k c = true)
    (hcur : id < GetSubPoolSize c → s1.IsSkipListNodeByIDInSubPool id c = false) :
    DrainOK s1 (KoPoolIteratorCore.mk c id s1._subPoolsWhichHaveAtLeastOneElement) :=
  ⟨rfl, fun hx => ⟨hb, hcur hx, fun k hk => hpre k hk (Nat.lt_trans hk hx), hlow⟩⟩

end

end KoPool

set_option autoImplicit false
namespace KoPool
open Pool KoPoolIteratorCore

section
variable {s : Pool} {runs : Nat → List Run} {live : List Nat}

set_option maxHeartbeats 1000000 in
/-- One round of the draining loop after `Next` has yielded the live slot `k0` of sub-pool
`c`: `DeallocateBytesByPtr` gives the slot back, and `GetFixedIteratorAfterDeallocate` moves
the cursor to the next live slot of `c` or to the end of `c`, with the non-empty mask of the
pool as the iterator's mask. -/
theorem fix_drain (h : Inv s runs live) {c k0 m1 : Nat}
    (hb : s.pointers c ≠ 0) (hk : k0 < GetSubPoolSize c)
    (hbit : s.IsSkipListNodeByIDInSubPool k0 c = false)
    (hpre : ∀ k, k < k0 → s.IsSkipListNodeByIDInSubPool k c = true)
    (hlow : ∀ j, j < c → s._subPoolsWhichHaveAtLeastOneElement.testBit j = false) :
    ∃ s1 runs1 it2,
      s.DeallocateBytesByPtr (slotAddr (s.pointers c) s._opt.elementSizeInBytes k0) = some s1 ∧
      Inv s1 runs1 (live.erase (slotAddr (s.pointers c) s._opt.elementSizeInBytes k0)) ∧
      (KoPoolIteratorCore.mk c (k0 + 1) m1).GetFixedIteratorAfterDeallocate s1
        (slotAddr (s.pointers c) s._opt.elementSizeInBytes k0) = some it2 ∧
      DrainOK s1 it2 := by
  have hl : LiveAt s c k0 (slotAddr (s.pointers c) s._opt.elementSizeInBytes k0) :=
    ⟨hb, hk, rfl, hbit⟩
  obtain ⟨s1, rs', hd, hok', hcov, hinv1, hpol, hnu⟩ := DeallocateBytesByPtr_inv h hl
  obtain ⟨ftab, fopt, fmem⟩ := DeallocateBytesByPtr_frame h hl hd
  have cx := h.ctx hb
  have hc63 : c < ARRAY_LEN := cx.hi
  have hc64 : c < 64 := by simp only [ARRAY_LEN, DIGITS] at hc63; omega
  have hsz := cx.hsz
  have hsub := h.sub c hb
  have hlive : ¬ Covered (runs c) k0 := fun hc => by
    have := (hsub.bits k0 hk).2 hc
    rw [hbit] at this
    exact Bool.false_ne_true this
  have htab1 : s1._pSubPools ≠ 0 := by rw [ftab]; exact h.toGeo.table_ne hb
  -- the sub-pools below `c` stay empty
  have hlow1 : ∀ j, j < c → s1._subPoolsWhichHaveAtLeastOneElement.testBit j = false := by
    intro j hj
    cases hv : s1._subPoolsWhichHaveAtLeastOneElement.testBit j
    · rfl
    · exfalso
      obtain ⟨_, hpos⟩ := (hinv1.nonempty j).1 hv
      rw [hnu, upd_other _ _ (by omega : j ≠ c)] at hpos
      by_cases hbj : s.pointers j = 0
      · have := h.unused j hbj
        omega
      · have := (h.nonempty j).2 ⟨hbj, hpos⟩
        rw [hlow j hj] at this
        exact Bool.false_ne_true this
  have hmask : (s1._subPoolsWhichHaveAtLeastOneElement &&& bnot (wsub (shl1 c) 1)) |||
      (m1 &&& s1._subPoolsWhichHaveAtLeastOneElement) =
      s1._subPoolsWhichHaveAtLeastOneElement := by
    apply Nat.eq_of_testBit_eq
    intro j
    rw [Nat.testBit_or, Nat.testBit_and, Nat.testBit_and, testBit_from c j hc64]
    cases hN : s1._subPoolsWhichHaveAtLeastOneElement.testBit j
    · simp
    · have h64 : j < 64 := by
        by_contra hge
        have := hinv1.nonempty_hi (j := j) (by omega)
        rw [hN] at this
        exact Bool.noConfusion this
      have hcj : c ≤ j := by
        by_contra hlt
        have := hlow1 j (by omega)
        rw [hN] at this
        exact Bool.noConfusion this
      simp [h64, hcj]
  have key : ∃ it2, (KoPoolIteratorCore.mk c (k0 + 1) m1).GetFixedIteratorAfterDeallocate s1
        (slotAddr (s.pointers c) s._opt.elementSizeInBytes k0) = some it2 ∧
      DrainOK s1 it2 := by
    unfold KoPoolIteratorCore.GetFixedIteratorAfterDeallocate
    simp only [hmask, htab1, if_false, hc63, not_true_eq_false]
    by_cases hp1 : s1.pointers c = 0
    · simp only [hp1, if_true]
      exact ⟨_, rfl, ⟨rfl, fun hx => absurd hx (Nat.lt_irrefl _)⟩⟩
    · simp only [hp1, if_false]
      have hptr : s1.pointers c = s.pointers c := by
        rcases hpol with ⟨_, e, _⟩ | ⟨_, _, ⟨_, e, _⟩ | ⟨_, hlt, e, _⟩ | ⟨_, _, e, _⟩⟩
        · rw [e]
        · rw [e]
        · rw [e, upd_other _ _ (by omega)]
        · rw [e, upd_same] at hp1
          exact absurd rfl hp1
      have cx1 : SubCtx s1 c := hinv1.ctx hp1
      have hsub1 := hinv1.sub c hp1
      rw [upd_same] at hsub1
      have hbit0 : s1.IsSkipListNodeByIDInSubPool k0 c = true :=
        (hsub1.bits k0 hk).2 ((hcov k0).2 (Or.inr rfl))
      have hbits1 : ∀ k, k < GetSubPoolSize c → k ≠ k0 →
          s1.IsSkipListNodeByIDInSubPool k c = s.IsSkipListNodeByIDInSubPool k c := by
        intro k hk' hne
        rw [Bool.eq_iff_iff, hsub1.bits k hk', hsub.bits k hk', hcov k]
        constructor
        · rintro (hc | hc)
          · exact hc
          · exact absurd hc hne
        · exact Or.inl
      have hp' : slotAddr (s.pointers c) s._opt.elementSizeInBytes k0 =
          slotAddr (s1.pointers c) s1._opt.elementSizeInBytes k0 := by rw [hptr, fopt]
      have f1 : s1.IsPtrInsideSubPool (slotAddr (s.pointers c) s._opt.elementSizeInBytes k0) c
          = true := by
        obtain ⟨a1, a2⟩ := hl.inside h.sz_ge
        unfold Pool.IsPtrInsideSubPool
        rw [hptr, fopt]
        simp only [Bool.and_eq_true, decide_eq_true_eq]
        exact ⟨⟨hb, a1⟩, by omega⟩
      have f2 : s1.IsSkipListNode (slotAddr (s.pointers c) s._opt.elementSizeInBytes k0) c
          = true := by
        rw [hp', IsSkipListNode_slot cx1 (Nat.le_of_lt hk)]; exact hbit0
      have f3 : s1.PtrToIDInSubPool (slotAddr (s.pointers c) s._opt.elementSizeInBytes k0) c
          = k0 := by
        rw [hp', PtrToIDInSubPool_slot cx1 (Nat.le_of_lt hk)]
      have f4 : s1.IsRightSkipListNodeSafe
          (slotAddr (s.pointers c) s._opt.elementSizeInBytes k0) c =
          (decide (k0 + 1 < GetSubPoolSize c) && s1.IsSkipListNodeByIDInSubPool (k0 + 1) c) := by
        rw [hp', IsRight_slot cx1 hk]
      have hsucc : slotAddr (s.pointers c) s._opt.elementSizeInBytes k0 +
          s1._opt.elementSizeInBytes =
          slotAddr (s1.pointers c) s1._opt.elementSizeInBytes (k0 + 1) := by
        rw [hp', slotAddr_succ]
      have hne : ¬ k0 = k0 + 1 := by omega
      simp only [f1, f2, f3, not_true_eq_false, if_false, hne, true_and, f4, hsucc]
      by_cases hR : k0 + 1 < GetSubPoolSize c ∧ s.IsSkipListNodeByIDInSubPool (k0 + 1) c = true
      · obtain ⟨hk1, hb1⟩ := hR
        have hb1' : s1.IsSkipListNodeByIDInSubPool (k0 + 1) c = true := by
          rw [hbits1 (k0 + 1) hk1 (by omega)]; exact hb1
        rw [IsRight_slot cx1 hk1]
        simp only [hk1, hb1', decide_True, Bool.and_self, if_true]
        obtain ⟨r, hrm, hr1⟩ := hsub.runs.run_starting_at ((hsub.bits _ hk1).1 hb1) hlive
        have hrb := hsub.runs.bound r hrm
        have hafter := hsub.runs.after_not_covered hrm
        have hcovr : ∀ k, k0 < k → k < k0 + 1 + r.2 → k < GetSubPoolSize c →
            s1.IsSkipListNodeByIDInSubPool k c = true := by
          intro k a1 a2 a3
          rw [hbits1 k a3 (by omega)]
          exact (hsub.bits k a3).2 ⟨r, hrm, by omega, by omega⟩
        by_cases hRR : k0 + 1 + 1 < GetSubPoolSize c ∧
            s.IsSkipListNodeByIDInSubPool (k0 + 1 + 1) c = true
        · obtain ⟨hk2, hb2⟩ := hRR
          have hb2' : s1.IsSkipListNodeByIDInSubPool (k0 + 1 + 1) c = true := by
            rw [hbits1 (k0 + 1 + 1) hk2 (by omega)]; exact hb2
          simp only [hk2, hb2', decide_True, Bool.and_self, if_true]
          have hright := isRight_of_run cx hsub.runs hsub.bits hrm
          rw [hr1, IsRight_slot cx hk1] at hright
          simp only [hk2, hb2, decide_True, Bool.and_self] at hright
          have h2r : 2 ≤ r.2 := by simpa using hright.symm
          obtain ⟨xs, ys, e⟩ := mem_split_run hrm
          have hch := hsub.chain
          rw [e] at hch
          have hw := (Chain_mid hch).2.2.1 h2r
          rw [hr1] at hw
          have hst := deallocLink_stale cx hsub.runs hsub.chain hsub.bits hlive hrm hr1 h2r
          have hout : slotAddr (s.pointers c) s._opt.elementSizeInBytes (k0 + 1) + 8 <
                s._pSubPools ∨
              s._pSubPools + SIZEOF_SUBPOOLS ≤
                slotAddr (s.pointers c) s._opt.elementSizeInBytes (k0 + 1) + 8 := by
            have g1 := slotAddr_ge (s.pointers c) s._opt.elementSizeInBytes (k0 + 1)
            have g2 := @slotAddr_lt_end (s.pointers c) s._opt.elementSizeInBytes _ _ hk1
            rcases h.buf_table c hb with g | g
            · left; omega
            · right; omega
          have hm := fmem _ hout
          rw [hst, hw] at hm
          rw [hptr, fopt, hm]
          have hpos : 0 < s._opt.elementSizeInBytes := by omega
          have hdiv : (r.2 - 1) * s._opt.elementSizeInBytes / s._opt.elementSizeInBytes + 1 =
              r.2 := by
            rw [Nat.mul_div_cancel _ hpos]; omega
          rw [hdiv]
          refine ⟨_, rfl, DrainOK.of_cursor hp1 hlow1 (fun k a1 a2 => ?_) (fun hx => ?_)⟩
          · by_cases hkk : k < k0
            · rw [hbits1 k a2 (by omega)]; exact hpre k hkk
            · by_cases hke : k = k0
              · rw [hke]; exact hbit0
              · exact hcovr k (by omega) a1 a2
          · rw [hbits1 _ hx (by omega)]
            have : k0 + 1 + r.2 = r.1 + r.2 := by omega
            rw [this]
            exact not_free_of_not_covered hsub.bits (by omega) hafter
        · have hf : (decide (k0 + 1 + 1 < GetSubPoolSize c) &&
              s1.IsSkipListNodeByIDInSubPool (k0 + 1 + 1) c) = false := by
            by_cases hk2 : k0 + 1 + 1 < GetSubPoolSize c
            · rw [hbits1 _ hk2 (by omega)]
              have : ¬ s.IsSkipListNodeByIDInSubPool (k0 + 1 + 1) c = true :=
                fun hx => hRR ⟨hk2, hx⟩
              simp [this]
            · simp [hk2]
          simp only [hf, Bool.false_eq_true, if_false]
          refine ⟨_, rfl, DrainOK.of_cursor hp1 hlow1 (fun k a1 a2 => ?_) (fun hx => ?_)⟩
          · by_cases hkk : k < k0
            · rw [hbits1 k a2 (by omega)]; exact hpre k hkk
            · by_cases hke : k = k0
              · rw [hke]; exact hbit0
              · have : k = k0 + 1 := by omega
                rw [this]; exact hb1'
          · rw [hbits1 _ hx (by omega)]
            cases hv : s.IsSkipListNodeByIDInSubPool (k0 + 1 + 1) c
            · rfl
            · exact absurd ⟨hx, hv⟩ hRR
      · have hf : (decide (k0 + 1 < GetSubPoolSize c) &&
            s1.IsSkipListNodeByIDInSubPool (k0 + 1) c) = false := by
          by_cases hk1 : k0 + 1 < GetSubPoolSize c
          · rw [hbits1 _ hk1 (by omega)]
            have : ¬ s.IsSkipListNodeByIDInSubPool (k0 + 1) c = true :=
              fun hx => hR ⟨hk1, hx⟩
            simp [this]
          · simp [hk1]
        simp only [hf, Bool.false_eq_true, if_false]
        refine ⟨_, rfl, DrainOK.of_cursor hp1 hlow1 (fun k a1 a2 => ?_) (fun hx => ?_)⟩
        · by_cases hkk : k < k0
          · rw [hbits1 k a2 (by omega)]; exact hpre k hkk
          · have : k = k0 := by omega
            rw [this]; exact hbit0
        · rw [hbits1 _ hx (by omega)]
          cases hv : s.IsSkipListNodeByIDInSubPool (k0 + 1) c
          · rfl
          · exact absurd ⟨hx, hv⟩ hR
  obtain ⟨it2, e2, ok2⟩ := key
  exact ⟨s1, _, it2, hd, hinv1, e2, ok2⟩

end

end KoPool

set_option autoImplicit false
namespace KoPool
open Pool KoPoolIteratorCore

section
variable {s : Pool} {runs : Nat → List Run} {live : List Nat}

/-- A pool with an empty non-empty mask has no live pointer. -/
theorem Inv.live_nil_of_mask (h : Inv s runs live)
    (h0 : s._subPoolsWhichHaveAtLeastOneElement = 0) : live = [] := by
  rw [List.eq_nil_iff_forall_not_mem]
  intro p hp
  obtain ⟨i, k, hl⟩ := (h.live_iff p).1 hp
  have := (h.nonempty i).2 ((h.used_iff_live i).2 ⟨k, p, hl⟩)
  rw [h0, Nat.zero_testBit] at this
  exact Bool.false_ne_true this

/-- A fresh iterator fits the draining loop. -/
theorem DrainOK_ofPool (s : Pool) : DrainOK s (ofPool s) := by
  refine ⟨rfl, fun hx => ?_⟩
  exfalso
  have e : GetSubPoolSize 0 = 2 := by decide
  simp only [ofPool, e, USIZE_MAX] at hx
  exact absurd hx (by decide)

end

/-- The draining loop from an iterator that fits the pool: it comes to its end after one
call of `Next` for every live pointer and one more, yields the live pointers, each once, and
leaves the pool empty. -/
theorem drain_spec : ∀ (fuel : Nat) (s : Pool) (it : KoPoolIteratorCore)
    (runs : Nat → List Run) (live : List Nat),
    Inv s runs live → DrainOK s it → live.length < fuel →
    ∃ ys s', drain fuel s it = some (ys, s') ∧ ys.Perm live ∧ s'.IsEmpty = true
  | 0, _, _, _, _, _, _, hf => absurd hf (Nat.not_lt_zero _)
  | fuel + 1, s, it, runs, live, h, ok, hf => by
    rw [drain]
    rcases drain_next h ok with ⟨hN, it', e⟩ | ⟨c, k0, m1, e, hb, hk, hbit, hpre, hlow⟩
    · rw [e]
      have hnil := h.live_nil_of_mask hN
      refine ⟨[], s, by simp, by rw [hnil], ?_⟩
      unfold Pool.IsEmpty
      simp [hN]
    · rw [e]
      have hl : LiveAt s c k0 (slotAddr (s.pointers c) s._opt.elementSizeInBytes k0) :=
        ⟨hb, hk, rfl, hbit⟩
      have hne := hl.ne_zero
      have hmem : slotAddr (s.pointers c) s._opt.elementSizeInBytes k0 ∈ live :=
        (h.live_iff _).2 ⟨c, k0, hl⟩
      obtain ⟨s1, runs1, it2, hd, hinv1, e2, ok2⟩ := @fix_drain s runs live h c k0 m1 hb hk hbit hpre hlow
      have hlen : (live.erase (slotAddr (s.pointers c) s._opt.elementSizeInBytes k0)).length
          < fuel := by
        rw [List.length_erase_of_mem hmem]
        have : 0 < live.length := List.length_pos_of_mem hmem
        omega
      obtain ⟨ys, s2, e3, hperm, hemp⟩ := drain_spec fuel s1 it2 runs1 _ hinv1 ok2 hlen
      simp only [hne, if_false, hd, e2, e3]
      exact ⟨_, s2, rfl, (List.Perm.cons _ hperm).trans (List.perm_cons_erase hmem).symm, hemp⟩

set_option maxRecDepth 100000 in
/-- The draining loop on the pool with the two live slots of sub-pool 0. -/
theorem drain_two_slots :
    (drain 3 ex2 (ofPool ex2)).map (fun r => (r.1, r.2.IsEmpty)) =
      some ([100000, 100016], true) := by rfl

/-- C5: starting from a reachable pool with the live pointers `live` and a fresh iterator,
the loop `p = Next(); Deallocate(p); it = it.GetFixedIteratorAfterDeallocate(p)`, repeated
until `Next` returns `nullptr`, comes to its end (`live.length + 1` calls of `Next`
suffice), yields every live pointer exactly once, `live.length` pointers in total, and
leaves a pool for which `IsEmpty` is true. -/
theorem drain_all (s : Pool) (live : List Nat) (h : Reachable s live)
    (fuel : Nat) (hf : live.length < fuel) :
    ∃ ys s', drain fuel s (ofPool s) = some (ys, s') ∧ ys.Nodup ∧
      (∀ p, p ∈ ys ↔ p ∈ live) ∧ ys.length = live.length ∧ s'.IsEmpty = true := by
  obtain ⟨runs, hinv⟩ := h.inv
  obtain ⟨ys, s', e, hperm, hemp⟩ :=
    drain_spec fuel s (ofPool s) runs live hinv (DrainOK_ofPool s) hf
  exact ⟨ys, s', e, hperm.nodup_iff.2 hinv.live_nodup, fun p => hperm.mem_iff,
    hperm.length_eq, hemp⟩

theorem drain_all_witness :
    Reachable ex3 [100064, 100016, 100000] ∧
    ∃ ys s', drain 4 ex3 (ofPool ex3) = some (ys, s') ∧ ys.Nodup ∧
      (∀ p, p ∈ ys ↔ p ∈ [100064, 100016, 100000]) ∧
      ys.length = [100064, 100016, 100000].length ∧ s'.IsEmpty = true :=
  ⟨ex3_reachable, drain_all ex3 _ ex3_reachable 4 (by decide)⟩

end KoPool

set_option autoImplicit false
namespace KoPool
open Pool KoPoolIteratorCore

/-! ## Dense ids and default options -/

/-- C38: the dense id ranges of the sub-pools follow one another: `baseID 0 = 0` and
`baseID (i + 1) = baseID i + GetSubPoolSize i` for `i < 63`; in a reachable state `PtrToID`
maps slot `k` of an activated sub-pool `i` to `baseID i + k`, and two slots of activated
sub-pools with the same id are the same slot of the same sub-pool. -/
theorem dense_id_partition (s : Pool) (live : List Nat) (h : Reachable s live) :
    baseID 0 = 0 ∧ (∀ i, i < 63 → baseID (i + 1) = baseID i + GetSubPoolSize i) ∧
    (∀ i k, s.pointers i ≠ 0 → k < GetSubPoolSize i →
      s.PtrToID (slotAddr (s.pointers i) s._opt.elementSizeInBytes k) i = baseID i + k) ∧
    ∀ i j k k', s.pointers i ≠ 0 → s.pointers j ≠ 0 →
      k < GetSubPoolSize i → k' < GetSubPoolSize j →
      s.PtrToID (slotAddr (s.pointers i) s._opt.elementSizeInBytes k) i =
        s.PtrToID (slotAddr (s.pointers j) s._opt.elementSizeInBytes k') j →
      i = j ∧ k = k' := by
  obtain ⟨runs, hI⟩ := h.inv
  refine ⟨rfl, fun i hi => baseID_succ (by omega), fun i k hb hk =>
    PtrToID_slot (hI.toGeo.ctx hb) hk, ?_⟩
  intro i j k k' hi hj hk hk' e
  have ci := hI.toGeo.ctx hi
  have cj := hI.toGeo.ctx hj
  rw [PtrToID_slot ci hk, PtrToID_slot cj hk'] at e
  have e1 := IDToSubPoolID_slot (s := s) ci.hi hk
  have e2 := IDToSubPoolID_slot (s := s) cj.hi hk'
  rw [e] at e1
  have hij : i = j := e1.symm.trans e2
  subst hij
  exact ⟨rfl, by omega⟩

set_option maxRecDepth 100000 in
theorem dense_id_partition_witness :
    Reachable ex3 [100064, 100016, 100000] ∧
    ex3.PtrToID 100016 0 = 1 ∧ ex3.PtrToID 100064 1 = 2 ∧ ex3.PtrToID 100080 1 = 3 ∧
    baseID 0 = 0 ∧ (∀ i, i < 63 → baseID (i + 1) = baseID i + GetSubPoolSize i) ∧
    (∀ i k, ex3.pointers i ≠ 0 → k < GetSubPoolSize i →
      ex3.PtrToID (slotAddr (ex3.pointers i) ex3._opt.elementSizeInBytes k) i = baseID i + k) ∧
    ∀ i j k k', ex3.pointers i ≠ 0 → ex3.pointers j ≠ 0 →
      k < GetSubPoolSize i → k' < GetSubPoolSize j →
      ex3.PtrToID (slotAddr (ex3.pointers i) ex3._opt.elementSizeInBytes k) i =
        ex3.PtrToID (slotAddr (ex3.pointers j) ex3._opt.elementSizeInBytes k') j →
      i = j ∧ k = k' :=
  ⟨ex3_reachable, by rfl, by rfl, by rfl,
    dense_id_partition ex3 [100064, 100016, 100000] ex3_reachable⟩

/-- C39: the default options `Opt{}` have `elementSizeInBytes = sizeof(USize) = 8`, less
than the 16 bytes of a `SkipNodeHead`: the constructor `KoPoolIteratable(const Opt&)` stops
at its assertion on them, and a default-constructed pool and a moved-from pool carry them. -/
theorem default_opt_too_small :
    ({} : Opt).elementSizeInBytes = 8 ∧ ({} : Opt).elementAlignment = 8 ∧
    Pool.construct {} = none ∧
    Pool.default._opt.elementSizeInBytes = 8 ∧
    (moveConstruct ex1).2._opt.elementSizeInBytes = 8 ∧
    (moveConstruct ex1).1._opt.elementSizeInBytes = 16 := by
  refine ⟨rfl, rfl, by rfl, rfl, rfl, rfl⟩

/-! ## The positions read by the search in the sorted index -/

end KoPool

set_option autoImplicit false
namespace KoPool
open Pool KoPoolIteratorCore

/-! ## The free list of a sub-pool -/

section
variable {s : Pool} {i : Nat} {rs : List Run}

theorem RunsOK.nodup {cap : Nat} (h : RunsOK cap rs) : rs.Nodup := by
  refine List.Pairwise.imp_of_mem ?_ h.sep
  intro a b ha _ hs e
  subst e
  have := (h.bound a ha).1
  rcases hs with hs | hs <;> omega

/-- No slot of a sub-pool is in use exactly when every free-bit is set. -/
theorem SubInv.empty_iff (hs : SubInv s i rs) :
    s.numUsed i = 0 ↔ ∀ k, k < GetSubPoolSize i → s.IsSkipListNodeByIDInSubPool k i = true := by
  have hu := hs.used
  have hle := hs.runs.runsLen_le
  have hx := hs.runs.exists_uncovered_iff
  constructor
  · intro h0 k hk
    by_contra hn
    have : runsLen rs < GetSubPoolSize i := hx.1 ⟨k, hk, fun hc => hn ((hs.bits k hk).2 hc)⟩
    omega
  · intro hall
    by_contra hn
    obtain ⟨k, hk, hc⟩ := hx.2 (by omega)
    exact hc ((hs.bits k hk).1 (hall k hk))

end

/-- C31: in a reachable state the free list of an activated sub-pool `i` is a well-formed
doubly linked list. The word `next` of the sentinel is the first slot of the first run
read, or null when no run is read; the runs read are pairwise different and cover every
slot whose free-bit is set; and for every run `r` of the list (the list being
`xs ++ r :: ys`): the `prev` pointer of `r` is the sentinel when `r` is the first run, and
otherwise the last slot of the run `x` read just before `r`, whose `next` pointer is the
first slot of `r`; the `next` pointer of the last slot of the last run is null. -/
theorem free_list_well_formed (s : Pool) (live : List Nat) (h : Reachable s live) (i : Nat)
    (hb : s.pointers i ≠ 0) :
    s.mem (s.poolAddr i + 8) =
      ((freeRuns s i).head?.map
        (fun y => slotAddr (s.pointers i) s._opt.elementSizeInBytes y.1)).getD 0 ∧
    (freeRuns s i).Nodup ∧
    (∀ k, k < GetSubPoolSize i → s.IsSkipListNodeByIDInSubPool k i = true →
      ∃ r ∈ freeRuns s i, r.1 ≤ k ∧ k < r.1 + r.2) ∧
    ∀ xs r ys, freeRuns s i = xs ++ r :: ys →
      (xs = [] →
        s.mem (slotAddr (s.pointers i) s._opt.elementSizeInBytes r.1) = s.poolAddr i) ∧
      (∀ zs x, xs = zs ++ [x] →
        s.mem (slotAddr (s.pointers i) s._opt.elementSizeInBytes r.1) =
          slotAddr (s.pointers i) s._opt.elementSizeInBytes (x.1 + x.2 - 1) ∧
        s.mem (slotAddr (s.pointers i) s._opt.elementSizeInBytes (x.1 + x.2 - 1) + 8) =
          slotAddr (s.pointers i) s._opt.elementSizeInBytes r.1) ∧
      (ys = [] →
        s.mem (slotAddr (s.pointers i) s._opt.elementSizeInBytes (r.1 + r.2 - 1) + 8) = 0) := by
  obtain ⟨runs, hI⟩ := h.inv
  have hsub := hI.sub i hb
  rw [hsub.freeRuns_eq (hI.toGeo.ctx hb)]
  refine ⟨Chain_next_word hsub.chain, hsub.runs.nodup, fun k hk hbit => (hsub.bits k hk).1 hbit,
    fun xs r ys he => ?_⟩
  have hch := hsub.chain
  rw [he] at hch
  obtain ⟨c1, c2, _, _, c5⟩ := Chain_mid hch
  refine ⟨fun e => ?_, fun zs x e => ?_, fun e => ?_⟩
  · rw [c2, e]; rfl
  · have hl : lastTail (s.pointers i) s._opt.elementSizeInBytes (s.poolAddr i) xs =
        slotAddr (s.pointers i) s._opt.elementSizeInBytes (x.1 + x.2 - 1) := by
      rw [e, lastTail_append]; rfl
    rw [hl] at c1 c2
    exact ⟨c2, c1⟩
  · rw [e] at c5
    exact c5

set_option maxRecDepth 100000 in
theorem free_list_well_formed_witness :
    Reachable ex8g [102032, 102000, 101016, 101000, 100016, 100000] ∧
    freeRuns ex8g 2 = [(3, 1), (1, 1)] ∧
    ex8g.mem (ex8g.poolAddr 2 + 8) = 102048 ∧ ex8g.mem 102048 = ex8g.poolAddr 2 ∧
    ex8g.mem (102048 + 8) = 102016 ∧ ex8g.mem 102016 = 102048 ∧ ex8g.mem (102016 + 8) = 0 ∧
    (freeRuns ex8g 2).Nodup :=
  ⟨ex8g_reachable, by rfl, by rfl, by rfl, by rfl, by rfl, by rfl,
    (free_list_well_formed ex8g _ ex8g_reachable 2 (by decide)).2.1⟩

/-- C32: in a reachable state, when `DeallocateBytesImpl` gives back the live slot `k` of
sub-pool `i`, the call of `IsSubPoolEmpty(i)` in its `defer` block (after the free-bit of
the slot has been set) passes its assertion and returns true exactly when every slot of
sub-pool `i` is free; the same holds in every reachable state for an activated sub-pool
with a free slot. -/
theorem is_subpool_empty_iff (s : Pool) (live : List Nat) (h : Reachable s live)
    (i k p : Nat) (hl : LiveAt s i k p) :
    (∃ b, (deallocMarked s p i).IsSubPoolEmpty i = some b ∧
      (b = true ↔ ∀ k', k' < GetSubPoolSize i →
        (deallocMarked s p i).IsSkipListNodeByIDInSubPool k' i = true)) ∧
    (freeRuns s i ≠ [] → ∃ b, s.IsSubPoolEmpty i = some b ∧
      (b = true ↔ ∀ k', k' < GetSubPoolSize i →
        s.IsSkipListNodeByIDInSubPool k' i = true) ∧ b = false) := by
  obtain ⟨runs, hI⟩ := h.inv
  have hb := hl.1
  have c := hI.toGeo.ctx hb
  constructor
  · obtain ⟨rs', hne, _, _, gT, _, sT, _, _, _⟩ :=
      dealloc_groups hI hl _ (deallocMarked s p i) rfl rfl
    have e_ptr : (deallocMarked s p i).pointers = s.pointers := rfl
    have hbT : (deallocMarked s p i).pointers i ≠ 0 := by rw [e_ptr]; exact hb
    have hsubT := sT.sub i hbT
    rw [upd_same] at hsubT
    refine ⟨_, IsSubPoolEmpty_spec (gT.ctx hbT) hsubT hne, ?_⟩
    rw [decide_eq_true_iff]
    exact hsubT.empty_iff
  · intro hne
    have hsub := hI.sub i hb
    rw [hsub.freeRuns_eq c] at hne
    refine ⟨_, IsSubPoolEmpty_spec c hsub hne, ?_, ?_⟩
    · rw [decide_eq_true_iff]
      exact hsub.empty_iff
    · rw [decide_eq_false_iff_not]
      intro h0
      have := (hsub.empty_iff.1 h0) k hl.2.1
      rw [hl.2.2.2] at this
      exact Bool.false_ne_true this

set_option maxRecDepth 100000 in
theorem is_subpool_empty_iff_witness :
    LiveAt ex1 0 0 100000 ∧
    (deallocMarked ex1 100000 0).IsSubPoolEmpty 0 = some true ∧
    (deallocMarked ex2 100000 0).IsSubPoolEmpty 0 = some false ∧
    ∃ b, (deallocMarked ex1 100000 0).IsSubPoolEmpty 0 = some b ∧
      (b = true ↔ ∀ k', k' < GetSubPoolSize 0 →
        (deallocMarked ex1 100000 0).IsSkipListNodeByIDInSubPool k' 0 = true) :=
  ⟨by unfold LiveAt; decide, by rfl, by rfl,
    (is_subpool_empty_iff ex1 _ ex1_reachable 0 0 100000 (by unfold LiveAt; decide)).1⟩

/-- C33: `ResetSubPool(i)` on a sub-pool with a buffer (the context of an activation: the
index is below 63, the buffer lies below `2 ^ 64` and does not hold the sentinel) sets
every free-bit of the sub-pool and leaves a list of exactly one run over the slots
`0 .. GetSubPoolSize(i) - 1`: the head at slot 0 has `prev` = sentinel and
`numBytesToTail = (GetSubPoolSize(i) - 1) * elementSizeInBytes`, the tail at the last slot
has `prev` = sentinel and `next` = null, and `next` of the sentinel is slot 0. -/
theorem reset_single_run (s : Pool) (i : Nat) (c : SubCtx s i) :
    (∀ k, k < GetSubPoolSize i → (s.ResetSubPool i).IsSkipListNodeByIDInSubPool k i = true) ∧
    freeRuns (s.ResetSubPool i) i = [(0, GetSubPoolSize i)] ∧
    (s.ResetSubPool i).mem (s.pointers i) = s.poolAddr i ∧
    (s.ResetSubPool i).mem (s.pointers i + 8) =
      (GetSubPoolSize i - 1) * s._opt.elementSizeInBytes ∧
    (s.ResetSubPool i).mem
      (slotAddr (s.pointers i) s._opt.elementSizeInBytes (GetSubPoolSize i - 1)) =
        s.poolAddr i ∧
    (s.ResetSubPool i).mem
      (slotAddr (s.pointers i) s._opt.elementSizeInBytes (GetSubPoolSize i - 1) + 8) = 0 ∧
    (s.ResetSubPool i).mem (s.poolAddr i + 8) = s.pointers i := by
  have c0 : SubCtx ({ s with numUsed := fun _ => 0 } : Pool) i := c.congr_ctx rfl rfl rfl
  obtain ⟨hs0, _, _⟩ := ResetSubPool_spec c0 rfl
  have hcap := c.cap_ge
  have ct : SubCtx (s.ResetSubPool i) i := c.congr_ctx rfl rfl rfl
  have hbits : ∀ k, k < GetSubPoolSize i →
      ((s.ResetSubPool i).IsSkipListNodeByIDInSubPool k i = true ↔
        Covered [(0, GetSubPoolSize i)] k) := hs0.bits
  have hch : Chain (s.ResetSubPool i).mem (s.pointers i) s._opt.elementSizeInBytes
      (s.poolAddr i) [(0, GetSubPoolSize i)] := hs0.chain
  have hfr : freeRuns (s.ResetSubPool i) i = [(0, GetSubPoolSize i)] := by
    unfold freeRuns
    exact readRuns_chain ct hs0.runs hbits _ _ _ (by simp only [List.length_singleton]; omega)
      (fun _ hr => hr) hch
  simp only [Chain] at hch
  obtain ⟨h1, h2, h3, h4, h5⟩ := hch
  have e0 : slotAddr (s.pointers i) s._opt.elementSizeInBytes 0 = s.pointers i :=
    slotAddr_zero _ _
  simp only [e0, Nat.zero_add] at h1 h2 h3 h4 h5
  exact ⟨fun k hk => (hbits k hk).2 ⟨_, List.mem_singleton.2 rfl, Nat.zero_le _, by simpa using hk⟩,
    hfr, h2, h3 (by omega), h4, h5, h1⟩

set_option maxRecDepth 100000 in
theorem reset_single_run_witness :
    SubCtx ex8 2 ∧ freeRuns (ex8.ResetSubPool 2) 2 = [(0, 4)] ∧
    (ex8.ResetSubPool 2).mem (ex8.pointers 2 + 8) = (GetSubPoolSize 2 - 1) * 16 ∧
    (ex8.ResetSubPool 2).mem (ex8.poolAddr 2 + 8) = ex8.pointers 2 :=
  have c : SubCtx ex8 2 := by
    obtain ⟨runs, hI⟩ := ex8_reachable.inv
    exact hI.toGeo.ctx (by decide)
  ⟨c, by rfl, (reset_single_run ex8 2 c).2.2.2.1, (reset_single_run ex8 2 c).2.2.2.2.2.2⟩

end KoPool

set_option autoImplicit false
namespace KoPool
open Pool KoPoolIteratorCore

/-! ## The order of the free list under allocation and deallocation -/

/-- C35: in a reachable state, a successful `AllocateBytes` takes the first slot of the
first run `r0` of the list of the selected sub-pool `c = Count0BitsRight _vacantSubPools`
(the list of `c` being the single run over all slots when `c` is activated by this call):
it returns this slot, and the list afterwards is the rest of the list when `r0` has one
slot, and otherwise the run `(r0.1 + 1, r0.2 - 1)`, whose `prev` pointer is the sentinel,
followed by the rest of the list; the vacant bit of `c` stays set exactly when a free run
remains. -/
theorem allocate_takes_first_slot (s : Pool) (live : List Nat) (h : Reachable s live)
    (env : MallocEnv) (hm : MallocOK s env) (s' : Pool) (r : AllocBytesResult)
    (ha : s.AllocateBytes env = some (s', r)) (hok : r.pMemory ≠ 0) :
    ∃ r0 rest,
      (if s.pointers (Count0BitsRight s._vacantSubPools) ≠ 0
        then freeRuns s (Count0BitsRight s._vacantSubPools)
        else [(0, GetSubPoolSize (Count0BitsRight s._vacantSubPools))]) = r0 :: rest ∧
      r.subPoolID = Count0BitsRight s._vacantSubPools ∧
      r.pMemory = slotAddr (s'.pointers (Count0BitsRight s._vacantSubPools))
        s'._opt.elementSizeInBytes r0.1 ∧
      freeRuns s' (Count0BitsRight s._vacantSubPools) =
        (if r0.2 = 1 then rest else (r0.1 + 1, r0.2 - 1) :: rest) ∧
      (r0.2 ≠ 1 → s'.mem (slotAddr (s'.pointers (Count0BitsRight s._vacantSubPools))
        s'._opt.elementSizeInBytes (r0.1 + 1)) =
          s'.poolAddr (Count0BitsRight s._vacantSubPools)) ∧
      (s'._vacantSubPools.testBit (Count0BitsRight s._vacantSubPools) = true ↔
        freeRuns s' (Count0BitsRight s._vacantSubPools) ≠ []) := by
  obtain ⟨runs, hI⟩ := h.inv
  rcases AllocateBytes_spec hI hm ha with ⟨e, _⟩ | ⟨runs0, r0, rest, g1, g2, g3, hr, ho, _, hI'⟩
  · rw [e] at hok
    exact absurd rfl hok
  · have hlt := hI.ctz_lt
    generalize Count0BitsRight s._vacantSubPools = c at *
    have hc64 : c < 64 := by simp only [ARRAY_LEN, DIGITS] at hlt; omega
    have hb' : s'.pointers c ≠ 0 := by
      by_cases hp : s.pointers c = 0
      · obtain ⟨_, e2, e3, _⟩ := g3 hp
        rw [e2, upd_same]
        exact e3
      · rw [(g2 hp).2]
        exact hp
    have hsub' := hI'.sub c hb'
    rw [upd_same] at hsub'
    have hfr' := hsub'.freeRuns_eq (hI'.toGeo.ctx hb')
    have hbefore : (if s.pointers c ≠ 0 then freeRuns s c else [(0, GetSubPoolSize c)]) =
        r0 :: rest := by
      by_cases hp : s.pointers c = 0
      · obtain ⟨e1, _⟩ := g3 hp
        rw [e1, upd_same] at g1
        simp only [hp, ne_eq, not_true_eq_false, if_false]
        exact g1
      · obtain ⟨e1, _⟩ := g2 hp
        rw [e1] at g1
        simp only [hp, ne_eq, not_false_eq_true, if_true]
        rw [(hI.sub c hp).freeRuns_eq (hI.toGeo.ctx hp)]
        exact g1
    refine ⟨r0, rest, hbefore, by rw [hr], by rw [hr, ho], hfr', fun hne => ?_, ?_⟩
    · have hch := hsub'.chain
      simp only [hne, if_false, Chain] at hch
      exact hch.2.1
    · rw [hfr']
      have hv := hI'.vacant c hc64
      rw [upd_same] at hv
      rw [hv]
      constructor
      · rintro (h0 | h0)
        · exact absurd h0 hb'
        · exact h0
      · exact Or.inr

set_option maxRecDepth 100000 in
theorem allocate_takes_first_slot_witness :
    Reachable ex8b [102048, 102000, 101016, 101000, 100016, 100000] ∧
    freeRuns ex8b 2 = [(1, 2)] ∧ Count0BitsRight ex8b._vacantSubPools = 2 ∧
    (ex8b.AllocateBytes noMalloc).map (fun x => (x.2.subPoolID, x.2.pMemory)) =
      some (2, 102016) ∧
    freeRuns (poolOf (ex8b.AllocateBytes noMalloc)) 2 = [(2, 1)] ∧
    ∃ r0 rest,
      (if ex8b.pointers (Count0BitsRight ex8b._vacantSubPools) ≠ 0
        then freeRuns ex8b (Count0BitsRight ex8b._vacantSubPools)
        else [(0, GetSubPoolSize (Count0BitsRight ex8b._vacantSubPools))]) = r0 :: rest ∧
      (2 : Nat) = Count0BitsRight ex8b._vacantSubPools ∧
      (102016 : Nat) = slotAddr ((poolOf (ex8b.AllocateBytes noMalloc)).pointers
          (Count0BitsRight ex8b._vacantSubPools))
        (poolOf (ex8b.AllocateBytes noMalloc))._opt.elementSizeInBytes r0.1 ∧
      freeRuns (poolOf (ex8b.AllocateBytes noMalloc)) (Count0BitsRight ex8b._vacantSubPools) =
        (if r0.2 = 1 then rest else (r0.1 + 1, r0.2 - 1) :: rest) ∧
      (r0.2 ≠ 1 → (poolOf (ex8b.AllocateBytes noMalloc)).mem
        (slotAddr ((poolOf (ex8b.AllocateBytes noMalloc)).pointers
            (Count0BitsRight ex8b._vacantSubPools))
          (poolOf (ex8b.AllocateBytes noMalloc))._opt.elementSizeInBytes (r0.1 + 1)) =
          (poolOf (ex8b.AllocateBytes noMalloc)).poolAddr
            (Count0BitsRight ex8b._vacantSubPools)) ∧
      ((poolOf (ex8b.AllocateBytes noMalloc))._vacantSubPools.testBit
          (Count0BitsRight ex8b._vacantSubPools) = true ↔
        freeRuns (poolOf (ex8b.AllocateBytes noMalloc))
          (Count0BitsRight ex8b._vacantSubPools) ≠ []) :=
  ⟨ex8b_reachable, by rfl, by rfl, by rfl, by rfl,
    allocate_takes_first_slot ex8b _ ex8b_reachable noMalloc (noMalloc_ok ex8b)
      (poolOf (ex8b.AllocateBytes noMalloc)) ⟨2, 102016⟩ (by rfl) (by decide)⟩

/-- Releasing a buffer changes node memory only at the `next` word of the sentinel of the
released sub-pool. -/
theorem DeallocateSubPoolMemory_mem {s s' : Pool} {j : Nat}
    (h : s.DeallocateSubPoolMemory j = some s') (a : Nat) :
    s'.mem a = s.mem a ∨ (j < ARRAY_LEN ∧ s'.pointers j = 0 ∧ a = s.poolAddr j + 8) := by
  unfold Pool.DeallocateSubPoolMemory at h
  by_cases h1 : j < ARRAY_LEN
  · by_cases h2 : s.numUsed j = 0
    · simp only [h1, not_true_eq_false, if_false, h2, ne_eq, Option.some.injEq] at h
      subst h
      by_cases ha : a = s.poolAddr j + 8
      · exact Or.inr ⟨h1, upd_same _ _ _, ha⟩
      · exact Or.inl (upd_other _ _ ha)
    · simp [h1, h2] at h
  · simp [h1] at h

/-- The `defer` block of `DeallocateBytesImpl` changes node memory only at the `next` word of
the sentinel of a sub-pool it releases. -/
theorem deallocDefer_mem {s s' : Pool} {p i : Nat} (h : s.deallocDefer p i = some s')
    (a : Nat) :
    s'.mem a = s.mem a ∨ ∃ d, d < ARRAY_LEN ∧ s'.pointers d = 0 ∧ a = s.poolAddr d + 8 := by
  unfold Pool.deallocDefer at h
  simp only at h
  split at h
  · cases h
  · cases h
    exact Or.inl rfl
  · split_ifs at h
    · cases h
      exact Or.inl rfl
    · split at h
      · cases h
      · rename_i r hr
        split at h
        · cases h
        · rename_i s4 heq
          cases h
          have hm := DeallocateSubPoolMemory_mem heq a
          rw [RemoveSortedPointer_frame hr] at hm
          rcases hm with hm | hm
          · exact Or.inl hm
          · exact Or.inr ⟨_, hm⟩
    · split at h
      · cases h
      · rename_i r hr
        have hm := DeallocateSubPoolMemory_mem h a
        rw [RemoveSortedPointer_frame hr] at hm
        rcases hm with hm | hm
        · exact Or.inl hm
        · exact Or.inr ⟨_, hm⟩

section
variable {s : Pool} {runs : Nat → List Run} {live : List Nat}

/-- After `DeallocateBytesByPtr` on a live slot of sub-pool `i` that keeps its buffer, the
words of the free list of `i` are as the linking step has written them. -/
theorem DeallocateBytesByPtr_foot (h : Inv s runs live) {i k p : Nat} (hl : LiveAt s i k p)
    {s' : Pool} (hd : s.DeallocateBytesByPtr p = some s') (hb' : s'.pointers i ≠ 0)
    {a : Nat} (ha : InFoot s i a) : s'.mem a = s.deallocLink p i a := by
  have hp := hl.ne_zero
  have ht := h.toGeo.table_ne hl.1
  have c := h.toGeo.ctx hl.1
  have hi := c.hi
  obtain ⟨a1, a2⟩ := hl.inside h.sz_ge
  have hfind := h.toSortedOK.find_subpool h.toGeo hl.1 a1 (by omega)
  unfold Pool.DeallocateBytesByPtr at hd
  simp only [hp, ht, if_false, hfind] at hd
  unfold Pool.DeallocateBytesImpl at hd
  simp only [hp, ht, hi, not_true_eq_false, if_false] at hd
  rcases deallocDefer_mem hd a with hm | ⟨d, hd1, hd2, hd3⟩
  · exact hm
  · exfalso
    have hd3' : a = s._pSubPools + SIZEOF_POOL * d + 8 := hd3
    rcases ha with ha | ⟨q, hq, ha⟩
    · have ha' : a = s._pSubPools + SIZEOF_POOL * i + 8 := ha
      have : d = i := by simp only [SIZEOF_POOL] at hd3' ha'; omega
      rw [this] at hd2
      exact hb' hd2
    · have g1 := slotAddr_ge (s.pointers i) s._opt.elementSizeInBytes q
      have g2 := @slotAddr_lt_end (s.pointers i) s._opt.elementSizeInBytes _ _ hq
      have hsz := c.hsz
      simp only [ARRAY_LEN, DIGITS] at hd1
      simp only [SIZEOF_POOL] at hd3'
      have hbt := h.buf_table i hl.1
      simp only [SIZEOF_SUBPOOLS] at hbt
      rcases hbt with g | g <;> rcases ha with ha | ha <;> omega

end

/-- C34: in a reachable state, deallocating a live slot `k` of sub-pool `i` whose left and
right neighbours are live, or absent at the end of the buffer, returns; when sub-pool `i`
keeps its buffer, its list afterwards is the run of the one slot `k` followed by the list
before; and when `i` is then the lowest vacant sub-pool, the next `AllocateBytes` returns
the deallocated pointer `p`. -/
theorem dealloc_single_run_front (s : Pool) (live : List Nat) (h : Reachable s live)
    (i k p : Nat) (hl : LiveAt s i k p)
    (hleft : k = 0 ∨ s.IsSkipListNodeByIDInSubPool (k - 1) i = false)
    (hright : k + 1 = GetSubPoolSize i ∨ s.IsSkipListNodeByIDInSubPool (k + 1) i = false) :
    ∃ s', s.DeallocateBytesByPtr p = some s' ∧
      (s'.pointers i ≠ 0 →
        freeRuns s' i = (k, 1) :: freeRuns s i ∧
        (Count0BitsRight s'._vacantSubPools = i → ∀ env, MallocOK s' env →
          ∃ s'', s'.AllocateBytes env = some (s'', AllocBytesResult.mk i p))) := by
  obtain ⟨runs, hI⟩ := h.inv
  have hb := hl.1
  have hk := hl.2.1
  have c := hI.toGeo.ctx hb
  have hsub := hI.sub i hb
  have hlive := hl.not_covered hI.toSubsOK
  have hL : k = 0 ∨ ¬ Covered (runs i) (k - 1) := by
    rcases hleft with h0 | h0
    · exact Or.inl h0
    · by_cases hk0 : k = 0
      · exact Or.inl hk0
      · right
        intro hc
        have := (hsub.bits (k - 1) (by omega)).2 hc
        rw [h0] at this
        exact Bool.false_ne_true this
  have hR : k + 1 = GetSubPoolSize i ∨ ¬ Covered (runs i) (k + 1) := by
    rcases hright with h0 | h0
    · exact Or.inl h0
    · by_cases hk1 : k + 1 = GetSubPoolSize i
      · exact Or.inl hk1
      · right
        intro hc
        have := (hsub.bits (k + 1) (by omega)).2 hc
        rw [h0] at this
        exact Bool.false_ne_true this
  obtain ⟨s', rs', hd, hok', hcov, hI', hpol, hnu⟩ := DeallocateBytesByPtr_inv hI hl
  obtain ⟨ftab, fopt, _⟩ := DeallocateBytesByPtr_frame hI hl hd
  refine ⟨s', hd, fun hb' => ?_⟩
  have hptr : s'.pointers i = s.pointers i := by
    rcases hpol with ⟨_, e, _⟩ | ⟨_, _, ⟨_, e, _⟩ | ⟨_, hlt, e, _⟩ | ⟨_, _, e, _⟩⟩
    · rw [e]
    · rw [e]
    · rw [e, upd_other _ _ (by omega)]
    · rw [e, upd_same] at hb'
      exact absurd rfl hb'
  have hpa : s'.poolAddr i = s.poolAddr i := by unfold Pool.poolAddr; rw [ftab]
  have c' := hI'.toGeo.ctx hb'
  have hsub' := hI'.sub i hb'
  rw [upd_same] at hsub'
  have hp : p = slotAddr (s.pointers i) s._opt.elementSizeInBytes k := hl.2.2.1
  have hok1 := hsub.runs.push_single hk hlive hL hR
  obtain ⟨hch, _⟩ := deallocLink_none c hsub.runs hsub.chain hsub.bits hk hlive hL hR
  rw [← hp] at hch
  have hch' : Chain s'.mem (s'.pointers i) s'._opt.elementSizeInBytes (s'.poolAddr i)
      ((k, 1) :: runs i) := by
    rw [hptr, fopt, hpa]
    refine Chain_congr _ _ (fun a ha => ?_) hch
    exact DeallocateBytesByPtr_foot hI hl hd hb' (footChain_InFoot hok1 ha)
  have hbits' : ∀ k', k' < GetSubPoolSize i →
      (s'.IsSkipListNodeByIDInSubPool k' i = true ↔ Covered ((k, 1) :: runs i) k') := by
    intro k' hk'
    rw [hsub'.bits k' hk', hcov k', Covered_push_single]
  have hfr' : freeRuns s' i = (k, 1) :: runs i := by
    unfold freeRuns
    refine readRuns_chain c' hok1 hbits' _ _ _ ?_ (fun _ hr => hr) hch'
    exact Nat.le_trans (length_le_runsLen (fun r hr => (hok1.bound r hr).1)) hok1.runsLen_le
  have hrs' : rs' = (k, 1) :: runs i := by
    rw [← hfr']
    exact (hsub'.freeRuns_eq c').symm
  refine ⟨by rw [hfr', hsub.freeRuns_eq c], fun hctz env hm => ?_⟩
  obtain ⟨s'', r, ha⟩ := AllocateBytes_total hI' hm
  refine ⟨s'', ?_⟩
  rw [ha]
  rcases AllocateBytes_spec hI' hm ha with ⟨_, _, _, hf⟩ | ⟨runs0, r0, rest, g1, g2, _, hr, _, _, _⟩
  · exfalso
    rw [hctz] at hf
    rcases hf with ⟨h0, _⟩ | ⟨h0, _⟩
    · rw [ftab] at h0
      exact hI.toGeo.table_ne hb h0
    · exact hb' h0
  · rw [hctz] at g1 g2 hr
    obtain ⟨e1, e2⟩ := g2 hb'
    rw [e1, upd_same, hrs'] at g1
    simp only [List.cons.injEq] at g1
    rw [hr, e2, hptr, fopt, ← g1.1, hp]

set_option maxRecDepth 100000 in
theorem dealloc_single_run_front_witness :
    LiveAt ex8a 2 3 102048 ∧ freeRuns ex8a 2 = [(1, 1)] ∧ freeRuns ex8g 2 = [(3, 1), (1, 1)] ∧
    ex8a.DeallocateBytesByPtr 102048 = some ex8g ∧
    Count0BitsRight ex8g._vacantSubPools = 2 ∧
    (ex8g.AllocateBytes noMalloc).map (fun x => (x.2.subPoolID, x.2.pMemory)) =
      some (2, 102048) ∧
    ∃ s', ex8a.DeallocateBytesByPtr 102048 = some s' ∧
      (s'.pointers 2 ≠ 0 →
        freeRuns s' 2 = (3, 1) :: freeRuns ex8a 2 ∧
        (Count0BitsRight s'._vacantSubPools = 2 → ∀ env, MallocOK s' env →
          ∃ s'', s'.AllocateBytes env = some (s'', AllocBytesResult.mk 2 102048))) :=
  ⟨by unfold LiveAt; decide, by rfl, by rfl, by rfl, by rfl, by rfl,
    dealloc_single_run_front ex8a _ ex8a_reachable 2 3 102048 (by unfold LiveAt; decide)
      (Or.inr (by rfl)) (Or.inl (by rfl))⟩

end KoPool

set_option autoImplicit false
namespace KoPool
open Pool KoPoolIteratorCore

/-! ## The loop of `Next`, iteration by iteration -/

/-- The loop of `Next` is the sequence of its iterations. -/
theorem nextLoop_eq_passLoop (s : Pool) : ∀ (fuel : Nat) (it : KoPoolIteratorCore),
    nextLoop s fuel it = passLoop s fuel it
  | 0, _ => rfl
  | fuel + 1, it => by
    have ih := nextLoop_eq_passLoop s fuel
    obtain ⟨ci, id, mask⟩ := it
    rw [nextLoop, passLoop]
    unfold nextPass advanceIt
    by_cases c1 : id ≥ GetSubPoolSize ci ∧ mask = 0
    · simp only [c1, and_self, if_true]
    · simp only [c1, if_false]
      by_cases c2 : s._pSubPools = 0
      · simp only [c2, if_true]
      · simp only [c2, if_false]
        generalize (if (decide (id ≥ GetSubPoolSize ci)) = true then Count0BitsRight mask
          else ci) = c'
        generalize (if (decide (id ≥ GetSubPoolSize ci)) = true then 0 else id) = id'
        generalize (if (decide (id ≥ GetSubPoolSize ci)) = true then
            mask &&& bnot (shl1 (Count0BitsRight mask)) else mask) = m'
        by_cases c3 : c' < ARRAY_LEN
        · simp only [c3, not_true_eq_false, if_false]
          by_cases c4 : s.pointers c' = 0
          · simp only [c4, if_true]
          · simp only [c4, if_false]
            by_cases c5 : s.IsSkipListNodeByIDInSubPool id' c' = true
            · simp only [c5, if_true]
              by_cases c6 : id' + 1 = GetSubPoolSize c'
              · simp only [c6, if_true, ih]
              · simp only [c6, if_false]
                by_cases c7 : s.IsSkipListNodeByIDInSubPool (id' + 1) c' = true
                · simp only [c7, if_true]
                  split_ifs
                  · simp only [ih]
                  · rfl
                · simp only [c7, Bool.false_eq_true, if_false]
            · simp only [c5, Bool.false_eq_true, if_false]
        · simp only [c3, not_false_eq_true, if_true]

/-- An iteration with the cursor at or beyond the end and an empty mask returns
`nullptr`. -/
theorem nextPass_end {s : Pool} (it : KoPoolIteratorCore)
    (hge : GetSubPoolSize it._subPoolID ≤ it._idInSubPool)
    (hm : it._subPoolsWhichHaveAtLeastOneElement = 0) :
    nextPass s it = some (PassResult.ret 0 it) := by
  unfold nextPass
  simp only [ge_iff_le, hge, hm, and_self, if_true]

/-- An iteration with the cursor at or beyond the end and a non-empty mask is the iteration
from slot 0 of the lowest sub-pool of the mask. -/
theorem nextPass_adv {s : Pool} (it : KoPoolIteratorCore)
    (hge : GetSubPoolSize it._subPoolID ≤ it._idInSubPool)
    (hm : it._subPoolsWhichHaveAtLeastOneElement ≠ 0)
    (hml : it._subPoolsWhichHaveAtLeastOneElement < 2 ^ 64) :
    nextPass s it = nextPass s (advanceIt it) ∧
    advanceIt it = KoPoolIteratorCore.mk
        (Count0BitsRight it._subPoolsWhichHaveAtLeastOneElement) 0
        (it._subPoolsWhichHaveAtLeastOneElement &&&
          bnot (shl1 (Count0BitsRight it._subPoolsWhichHaveAtLeastOneElement))) := by
  obtain ⟨ci, id, mask⟩ := it
  simp only at hge hm hml ⊢
  have hpos : ¬ GetSubPoolSize (Count0BitsRight mask) ≤ 0 := by
    have := GetSubPoolSize_ge (Count0BitsRight_spec hm hml).1; omega
  have e : advanceIt (KoPoolIteratorCore.mk ci id mask) = KoPoolIteratorCore.mk
      (Count0BitsRight mask) 0 (mask &&& bnot (shl1 (Count0BitsRight mask))) := by
    unfold advanceIt
    simp only [ge_iff_le, hge, decide_True, if_true]
  refine ⟨?_, e⟩
  rw [e]
  unfold nextPass advanceIt
  simp only [ge_iff_le, hge, hm, and_false, if_false, decide_True, if_true, hpos, false_and,
    decide_False, Bool.false_eq_true]

/-- With the cursor inside the sub-pool no advance takes place. -/
theorem advanceIt_inside (it : KoPoolIteratorCore)
    (hlt : it._idInSubPool < GetSubPoolSize it._subPoolID) : advanceIt it = it := by
  obtain ⟨ci, id, mask⟩ := it
  have hnl : ¬ GetSubPoolSize ci ≤ id := by simp only at hlt; omega
  unfold advanceIt
  simp only [ge_iff_le, hnl, decide_False, Bool.false_eq_true, if_false]

/-- One iteration of the loop with the cursor inside an activated sub-pool, at a live slot or
at the first slot of a free run `r`: a live slot at the cursor is returned; otherwise the
iteration moves the cursor by the length of `r`, that is to the slot after `r`, and returns
this slot, or goes on at the end of the sub-pool. -/
theorem nextPass_in {s : Pool} {rs : List Run} (it : KoPoolIteratorCore)
    (c : SubCtx s it._subPoolID) (htab : s._pSubPools ≠ 0) (h : SubInv s it._subPoolID rs)
    (hlt : it._idInSubPool < GetSubPoolSize it._subPoolID)
    (hrun : Covered rs it._idInSubPool → ∃ r ∈ rs, r.1 = it._idInSubPool) :
    ∃ k0, it._idInSubPool ≤ k0 ∧
      (∀ k, it._idInSubPool ≤ k → k < k0 →
        s.IsSkipListNodeByIDInSubPool k it._subPoolID = true) ∧
      ((k0 < GetSubPoolSize it._subPoolID ∧
          s.IsSkipListNodeByIDInSubPool k0 it._subPoolID = false ∧
          nextPass s it =
            some (PassResult.ret
              (slotAddr (s.pointers it._subPoolID) s._opt.elementSizeInBytes k0)
              (KoPoolIteratorCore.mk it._subPoolID (k0 + 1)
                it._subPoolsWhichHaveAtLeastOneElement))) ∨
       (k0 = GetSubPoolSize it._subPoolID ∧
          nextPass s it =
            some (PassResult.again (KoPoolIteratorCore.mk it._subPoolID
              (GetSubPoolSize it._subPoolID) it._subPoolsWhichHaveAtLeastOneElement)))) := by
  obtain ⟨ci, id, mask⟩ := it
  simp only at c h hlt hrun ⊢
  have hci : ci < ARRAY_LEN := c.hi
  have hb := c.hb
  have hsz := c.hsz
  have hnl : ¬ GetSubPoolSize ci ≤ id := by omega
  unfold nextPass advanceIt
  simp only [ge_iff_le, hnl, false_and, if_false, htab, decide_False, Bool.false_eq_true,
    hci, not_true_eq_false, hb]
  by_cases h0 : s.IsSkipListNodeByIDInSubPool id ci = true
  · simp only [h0, if_true]
    obtain ⟨r, hr, hr1⟩ := hrun ((h.bits id hlt).1 h0)
    have hrb := h.runs.bound r hr
    by_cases h1 : id + 1 = GetSubPoolSize ci
    · simp only [h1, if_true]
      refine ⟨GetSubPoolSize ci, by omega, fun k a b => ?_, Or.inr ⟨rfl, trivial⟩⟩
      have : k = id := by omega
      rw [this]; exact h0
    · simp only [h1, if_false]
      by_cases h2 : s.IsSkipListNodeByIDInSubPool (id + 1) ci = true
      · simp only [h2, if_true]
        have hright := isRight_of_run c h.runs h.bits hr
        rw [IsRight_slot c (by omega), hr1, h2] at hright
        have hlt1 : id + 1 < GetSubPoolSize ci := by omega
        simp only [hlt1, decide_True, Bool.and_self] at hright
        have h2r : 2 ≤ r.2 := by simpa using hright.symm
        obtain ⟨xs, ys, e⟩ := mem_split_run hr
        have hch := h.chain
        rw [e] at hch
        have hw := (Chain_mid hch).2.2.1 h2r
        rw [hr1] at hw
        unfold slotAddr at hw
        rw [hw]
        have hpos : 0 < s._opt.elementSizeInBytes := by omega
        have hdiv : (r.2 - 1) * s._opt.elementSizeInBytes / s._opt.elementSizeInBytes + 1 = r.2 := by
          rw [Nat.mul_div_cancel _ hpos]; omega
        rw [hdiv]
        have hcov : ∀ k, id ≤ k → k < id + r.2 → s.IsSkipListNodeByIDInSubPool k ci = true := by
          intro k a b
          exact (h.bits k (by omega)).2 ⟨r, hr, by omega, by omega⟩
        by_cases h3 : id + r.2 = GetSubPoolSize ci
        · simp only [h3, if_true]
          exact ⟨GetSubPoolSize ci, by omega, fun k a b => hcov k a (by omega), Or.inr ⟨rfl, trivial⟩⟩
        · simp only [h3, if_false]
          have hn := h.runs.after_not_covered hr
          rw [hr1] at hn
          have hlt3 : id + r.2 < GetSubPoolSize ci := by omega
          refine ⟨id + r.2, by omega, hcov, Or.inl ⟨hlt3, ?_, rfl⟩⟩
          exact not_free_of_not_covered h.bits hlt3 hn
      · simp only [h2, if_false]
        have hlt1 : id + 1 < GetSubPoolSize ci := by omega
        refine ⟨id + 1, by omega, fun k a b => ?_, Or.inl ⟨hlt1, by simpa using h2, rfl⟩⟩
        have : k = id := by omega
        rw [this]; exact h0
  · simp only [h0, if_false]
    exact ⟨id, Nat.le_refl _, fun k a b => by omega, Or.inl ⟨hlt, by simpa using h0, rfl⟩⟩

end KoPool

set_option autoImplicit false
namespace KoPool
open Pool KoPoolIteratorCore

/-! ## The loop of `Next`: the jump over a free run, and termination -/

section
variable {s : Pool} {runs : Nat → List Run} {live : List Nat}

/-- The iterator states reached by calls of `Next` fit the pool. -/
theorem IterReach.fits_pool (h : Inv s runs live) {it : KoPoolIteratorCore} (hr : IterReach s it) :
    ItOK s runs it := by
  induction hr with
  | fresh => exact ItOK_ofPool h
  | next it p it1 _ hn ih =>
    rcases Next_spec h ih with ⟨_, it', e, ok', _⟩ | ⟨q, rest, it', _, e, ok', _⟩
    · rw [hn] at e
      simp only [Option.some.injEq, Prod.mk.injEq] at e
      rw [e.2]; exact ok'
    · rw [hn] at e
      simp only [Option.some.injEq, Prod.mk.injEq] at e
      rw [e.2]; exact ok'

/-- One iteration of the loop from an iterator that fits the pool: it returns `nullptr` at
the end, returns a live slot, or goes on at the end of the current sub-pool. -/
theorem nextPass_cases (h : Inv s runs live) {it : KoPoolIteratorCore} (ok : ItOK s runs it) :
    (GetSubPoolSize it._subPoolID ≤ it._idInSubPool ∧
      it._subPoolsWhichHaveAtLeastOneElement = 0 ∧
      nextPass s it = some (PassResult.ret 0 it)) ∨
    (∃ p it1, p ≠ 0 ∧ nextPass s it = some (PassResult.ret p it1)) ∨
    (it._idInSubPool < GetSubPoolSize it._subPoolID ∧
      nextPass s it = some (PassResult.again (KoPoolIteratorCore.mk it._subPoolID
        (GetSubPoolSize it._subPoolID) it._subPoolsWhichHaveAtLeastOneElement))) := by
  by_cases hlt : it._idInSubPool < GetSubPoolSize it._subPoolID
  · obtain ⟨hb, _, hbd⟩ := ok.inside hlt
    obtain ⟨k0, _, _, hc | hc⟩ :=
      nextPass_in it (h.ctx hb) (h.toGeo.table_ne hb) (h.sub _ hb) hlt
        (fun hc => run_at_cursor (h.sub _ hb).runs hc hbd)
    · obtain ⟨h2, hk, e⟩ := hc
      have hl : LiveAt s it._subPoolID k0
          (slotAddr (s.pointers it._subPoolID) s._opt.elementSizeInBytes k0) :=
        ⟨hb, h2, rfl, hk⟩
      exact Or.inr (Or.inl ⟨_, _, hl.ne_zero, e⟩)
    · exact Or.inr (Or.inr ⟨hlt, hc.2⟩)
  · have hge : GetSubPoolSize it._subPoolID ≤ it._idInSubPool := by omega
    by_cases hm : it._subPoolsWhichHaveAtLeastOneElement = 0
    · exact Or.inl ⟨hge, hm, nextPass_end it hge hm⟩
    · right; left
      have hml := ok.mask_lt
      obtain ⟨c1, c2, _⟩ := Count0BitsRight_spec hm hml
      obtain ⟨hb, hnu⟩ := ok.mask_sub _ c2
      obtain ⟨e1, e2⟩ := @nextPass_adv s it hge hm hml
      rw [e1, e2]
      have hsub := h.sub _ hb
      have hpos : 0 < GetSubPoolSize (Count0BitsRight it._subPoolsWhichHaveAtLeastOneElement) := by
        have := GetSubPoolSize_ge c1; omega
      obtain ⟨k0, _, hfree, hc | hc⟩ :=
        nextPass_in (KoPoolIteratorCore.mk
          (Count0BitsRight it._subPoolsWhichHaveAtLeastOneElement) 0
          (it._subPoolsWhichHaveAtLeastOneElement &&&
            bnot (shl1 (Count0BitsRight it._subPoolsWhichHaveAtLeastOneElement))))
          (h.ctx hb) (h.toGeo.table_ne hb) hsub hpos
          (fun hc => run_at_cursor hsub.runs hc (Or.inl rfl))
      · obtain ⟨h2, hk, e⟩ := hc
        have hl : LiveAt s (Count0BitsRight it._subPoolsWhichHaveAtLeastOneElement) k0
            (slotAddr (s.pointers (Count0BitsRight it._subPoolsWhichHaveAtLeastOneElement))
              s._opt.elementSizeInBytes k0) := ⟨hb, h2, rfl, hk⟩
        exact ⟨_, _, hl.ne_zero, e⟩
      · exfalso
        obtain ⟨e0, _⟩ := hc
        obtain ⟨k, _, hk, _, hkb⟩ := hsub.exists_live hb hnu
        have := hfree k (Nat.zero_le _) (by simp only at e0 ⊢; omega)
        simp only at this
        rw [hkb] at this
        exact Bool.false_ne_true this

/-- The iterator values at the top of the loop fit the pool. -/
theorem LoopTop.fits_top (h : Inv s runs live) {it0 it : KoPoolIteratorCore}
    (ok : ItOK s runs it0) (ht : LoopTop s it0 it) : ItOK s runs it := by
  induction ht with
  | start => exact ok
  | again it it1 _ hn ih =>
    rcases nextPass_cases h ih with ⟨_, _, e⟩ | ⟨p, it', _, e⟩ | ⟨_, e⟩
    · rw [hn] at e; cases e
    · rw [hn] at e; cases e
    · rw [hn] at e
      simp only [Option.some.injEq, PassResult.again.injEq] at e
      rw [e]
      exact ⟨ih.mask_lt, ih.mask_sub, fun hx => absurd hx (Nat.lt_irrefl _)⟩

/-- A free run that starts at slot `id`: where it ends, and what its first slot holds. -/
theorem run_jump {i id : Nat} {rs : List Run} (c : SubCtx s i) (hs : SubInv s i rs)
    {r : Run} (hr : r ∈ rs) (hr1 : r.1 = id) :
    (r.1 = 0 ∨ s.IsSkipListNodeByIDInSubPool (r.1 - 1) i = false) ∧
    (r.1 + r.2 = GetSubPoolSize i ∨ s.IsSkipListNodeByIDInSubPool (r.1 + r.2) i = false) ∧
    r.1 + r.2 ≤ GetSubPoolSize i ∧
    (id + 1 < GetSubPoolSize i → s.IsSkipListNodeByIDInSubPool (id + 1) i = true →
      s.mem (s.pointers i + id * s._opt.elementSizeInBytes + 8) / s._opt.elementSizeInBytes + 1
        = r.2) := by
  have hrb := hs.runs.bound r hr
  obtain ⟨m1, m2⟩ := hs.runs.maximal hr
  refine ⟨?_, ?_, hrb.2, fun hlt1 h2 => ?_⟩
  · rcases m1 with m1 | m1
    · exact Or.inl m1
    · by_cases h0 : r.1 = 0
      · exact Or.inl h0
      · exact Or.inr (not_free_of_not_covered hs.bits (by omega) m1)
  · by_cases he : r.1 + r.2 = GetSubPoolSize i
    · exact Or.inl he
    · exact Or.inr (not_free_of_not_covered hs.bits (by omega) m2)
  · have hright := isRight_of_run c hs.runs hs.bits hr
    rw [IsRight_slot c (by omega), hr1, h2] at hright
    simp only [hlt1, decide_True, Bool.and_self] at hright
    have h2r : 2 ≤ r.2 := by simpa using hright.symm
    obtain ⟨xs, ys, e⟩ := mem_split_run hr
    have hch := hs.chain
    rw [e] at hch
    have hw := (Chain_mid hch).2.2.1 h2r
    rw [hr1] at hw
    unfold slotAddr at hw
    rw [hw]
    have hpos : 0 < s._opt.elementSizeInBytes := by have := c.hsz; omega
    rw [Nat.mul_div_cancel _ hpos]
    omega

theorem advCount_ret {it : KoPoolIteratorCore} {p : Nat} {it1 : KoPoolIteratorCore}
    (e : nextPass s it = some (PassResult.ret p it1)) (fuel : Nat) :
    advCount s fuel it ≤ 1 := by
  cases fuel with
  | zero => simp [advCount]
  | succ f =>
    rw [advCount, e]
    split_ifs <;> simp

end

set_option maxRecDepth 100000 in
theorem ex8c_iter : IterReach ex8c itEx8c :=
  IterReach.next (KoPoolIteratorCore.mk 1 1 4) 101016 _
    (IterReach.next (KoPoolIteratorCore.mk 0 2 6) 101000 _
      (IterReach.next (KoPoolIteratorCore.mk 0 1 6) 100016 _
        (IterReach.next (ofPool ex8c) 100000 _ IterReach.fresh (by rfl)) (by rfl)) (by rfl))
    (by rfl)

/-- C36: in a reachable state, during every call of `Next` on an iterator reached from a
fresh iterator by calls of `Next`, every iteration of the loop that does not return
`nullptr` examines a slot of an activated sub-pool (the cursor after the advance, if one
takes place); when the free-bit of this slot is set, the slot is the first slot of a run
`r` of the free list, the run is maximal (the slot before it, if any, is live, and it ends
at the end of the buffer or before a live slot), and when the next slot is free as well,
`numBytesToTail / elementSizeInBytes + 1` is the length of `r`: the jump lands on the slot
after the last slot of `r`, not beyond the end of the buffer and not on a free slot. -/
theorem jump_lands_after_run (s : Pool) (live : List Nat) (h : Reachable s live)
    (it0 : KoPoolIteratorCore) (hr : IterReach s it0) (it : KoPoolIteratorCore)
    (ht : LoopTop s it0 it)
    (hgo : ¬ (it._idInSubPool ≥ GetSubPoolSize it._subPoolID ∧
      it._subPoolsWhichHaveAtLeastOneElement = 0)) :
    (advanceIt it)._subPoolID < ARRAY_LEN ∧ s.pointers (advanceIt it)._subPoolID ≠ 0 ∧
    (advanceIt it)._idInSubPool < GetSubPoolSize (advanceIt it)._subPoolID ∧
    (s.IsSkipListNodeByIDInSubPool (advanceIt it)._idInSubPool (advanceIt it)._subPoolID = true →
      ∃ r ∈ freeRuns s (advanceIt it)._subPoolID, r.1 = (advanceIt it)._idInSubPool ∧
        (r.1 = 0 ∨ s.IsSkipListNodeByIDInSubPool (r.1 - 1) (advanceIt it)._subPoolID = false) ∧
        (r.1 + r.2 = GetSubPoolSize (advanceIt it)._subPoolID ∨
          s.IsSkipListNodeByIDInSubPool (r.1 + r.2) (advanceIt it)._subPoolID = false) ∧
        r.1 + r.2 ≤ GetSubPoolSize (advanceIt it)._subPoolID ∧
        ((advanceIt it)._idInSubPool + 1 < GetSubPoolSize (advanceIt it)._subPoolID →
          s.IsSkipListNodeByIDInSubPool ((advanceIt it)._idInSubPool + 1)
            (advanceIt it)._subPoolID = true →
          s.mem (s.pointers (advanceIt it)._subPoolID +
              (advanceIt it)._idInSubPool * s._opt.elementSizeInBytes + 8) /
            s._opt.elementSizeInBytes + 1 = r.2)) := by
  obtain ⟨runs, hI⟩ := h.inv
  have ok := LoopTop.fits_top hI (hr.fits_pool hI) ht
  have key : ∀ cur : KoPoolIteratorCore, s.pointers cur._subPoolID ≠ 0 →
      cur._idInSubPool < GetSubPoolSize cur._subPoolID →
      (cur._idInSubPool = 0 ∨ ¬ Covered (runs cur._subPoolID) (cur._idInSubPool - 1)) →
      cur._subPoolID < ARRAY_LEN ∧ s.pointers cur._subPoolID ≠ 0 ∧
      cur._idInSubPool < GetSubPoolSize cur._subPoolID ∧
      (s.IsSkipListNodeByIDInSubPool cur._idInSubPool cur._subPoolID = true →
        ∃ r ∈ freeRuns s cur._subPoolID, r.1 = cur._idInSubPool ∧
          (r.1 = 0 ∨ s.IsSkipListNodeByIDInSubPool (r.1 - 1) cur._subPoolID = false) ∧
          (r.1 + r.2 = GetSubPoolSize cur._subPoolID ∨
            s.IsSkipListNodeByIDInSubPool (r.1 + r.2) cur._subPoolID = false) ∧
          r.1 + r.2 ≤ GetSubPoolSize cur._subPoolID ∧
          (cur._idInSubPool + 1 < GetSubPoolSize cur._subPoolID →
            s.IsSkipListNodeByIDInSubPool (cur._idInSubPool + 1) cur._subPoolID = true →
            s.mem (s.pointers cur._subPoolID +
                cur._idInSubPool * s._opt.elementSizeInBytes + 8) /
              s._opt.elementSizeInBytes + 1 = r.2)) := by
    intro cur hb hlt hbd
    have c := hI.toGeo.ctx hb
    have hsub := hI.sub _ hb
    refine ⟨c.hi, hb, hlt, fun hbit => ?_⟩
    obtain ⟨r, hrm, hr1⟩ := run_at_cursor hsub.runs ((hsub.bits _ hlt).1 hbit) hbd
    rw [hsub.freeRuns_eq c]
    exact ⟨r, hrm, hr1, run_jump c hsub hrm hr1⟩
  by_cases hlt : it._idInSubPool < GetSubPoolSize it._subPoolID
  · obtain ⟨hb, _, hbd⟩ := ok.inside hlt
    rw [advanceIt_inside it hlt]
    exact key it hb hlt hbd
  · have hge : GetSubPoolSize it._subPoolID ≤ it._idInSubPool := by omega
    have hm : it._subPoolsWhichHaveAtLeastOneElement ≠ 0 := fun e => hgo ⟨hge, e⟩
    have hml := ok.mask_lt
    obtain ⟨c1, c2, _⟩ := Count0BitsRight_spec hm hml
    obtain ⟨hb, _⟩ := ok.mask_sub _ c2
    rw [(@nextPass_adv s it hge hm hml).2]
    refine key _ hb ?_ (Or.inl rfl)
    have := GetSubPoolSize_ge c1
    simp only
    omega

set_option maxRecDepth 100000 in
theorem jump_lands_after_run_witness :
    IterReach ex8c itEx8c ∧ LoopTop ex8c itEx8c itEx8c ∧
    advanceIt itEx8c = KoPoolIteratorCore.mk 2 0 0 ∧ freeRuns ex8c 2 = [(0, 3)] ∧
    ex8c.IsSkipListNodeByIDInSubPool 0 2 = true ∧
    ex8c.mem (ex8c.pointers 2 + 0 * ex8c._opt.elementSizeInBytes + 8) /
      ex8c._opt.elementSizeInBytes + 1 = 3 ∧
    ex8c.IsSkipListNodeByIDInSubPool 3 2 = false ∧
    (advanceIt itEx8c)._subPoolID < ARRAY_LEN ∧
    ex8c.pointers (advanceIt itEx8c)._subPoolID ≠ 0 ∧
    (advanceIt itEx8c)._idInSubPool < GetSubPoolSize (advanceIt itEx8c)._subPoolID :=
  have hw := jump_lands_after_run ex8c _ ex8c_reachable itEx8c ex8c_iter itEx8c
    LoopTop.start (by decide)
  ⟨ex8c_iter, LoopTop.start, by rfl, by rfl, by rfl, by rfl, by rfl, hw.1, hw.2.1, hw.2.2.1⟩

/-- C37: in a reachable state, every call of `Next` on an iterator reached from a fresh
iterator by calls of `Next` returns: its loop ends after two iterations at most and moves on
to another sub-pool at most once (so not more often than the number of set bits of the
iterator's mask plus one); and when the call returns `nullptr`, a call on the iterator it
leaves returns `nullptr` again and leaves the iterator as it is. -/
theorem next_terminates (s : Pool) (live : List Nat) (h : Reachable s live)
    (it0 : KoPoolIteratorCore) (hr : IterReach s it0) :
    ∃ p it1, Next s it0 = some (p, it1) ∧
      (∀ fuel, 2 ≤ fuel → passLoop s fuel it0 = some (p, it1)) ∧
      advCount s (2 * DIGITS + 2) it0 ≤
        (maskBits it0._subPoolsWhichHaveAtLeastOneElement).length + 1 ∧
      advCount s (2 * DIGITS + 2) it0 ≤ 1 ∧
      (p = 0 → Next s it1 = some (0, it1)) := by
  obtain ⟨runs, hI⟩ := h.inv
  have ok := hr.fits_pool hI
  have hloop : ∃ p it1, (∀ fuel, 2 ≤ fuel → passLoop s fuel it0 = some (p, it1)) ∧
      ∀ fuel, advCount s fuel it0 ≤ 1 := by
    rcases nextPass_cases hI ok with ⟨_, _, e⟩ | ⟨p, it', _, e⟩ | ⟨hlt, e⟩
    · refine ⟨0, it0, fun fuel hf => ?_, advCount_ret e⟩
      obtain ⟨f, rfl⟩ : ∃ f, fuel = f + 1 := ⟨fuel - 1, by omega⟩
      rw [passLoop, e]
    · refine ⟨p, it', fun fuel hf => ?_, advCount_ret e⟩
      obtain ⟨f, rfl⟩ : ∃ f, fuel = f + 1 := ⟨fuel - 1, by omega⟩
      rw [passLoop, e]
    · have ok1 : ItOK s runs (KoPoolIteratorCore.mk it0._subPoolID
          (GetSubPoolSize it0._subPoolID) it0._subPoolsWhichHaveAtLeastOneElement) :=
        ⟨ok.mask_lt, ok.mask_sub, fun hx => absurd hx (Nat.lt_irrefl _)⟩
      have hnadv : ¬ (it0._idInSubPool ≥ GetSubPoolSize it0._subPoolID ∧
          it0._subPoolsWhichHaveAtLeastOneElement ≠ 0) := fun hx => by
        have := hx.1; omega
      rcases nextPass_cases hI ok1 with ⟨_, _, e1⟩ | ⟨p, it', _, e1⟩ | ⟨hlt1, _⟩
      · refine ⟨0, KoPoolIteratorCore.mk it0._subPoolID
          (GetSubPoolSize it0._subPoolID) it0._subPoolsWhichHaveAtLeastOneElement,
          fun fuel hf => ?_, fun fuel => ?_⟩
        · obtain ⟨f, rfl⟩ : ∃ f, fuel = f + 2 := ⟨fuel - 2, by omega⟩
          rw [passLoop, e]
          simp only
          rw [passLoop, e1]
        · cases fuel with
          | zero => simp [advCount]
          | succ f =>
            rw [advCount, e]
            simp only [hnadv, if_false, Nat.zero_add]
            exact advCount_ret e1 f
      · refine ⟨p, it', fun fuel hf => ?_, fun fuel => ?_⟩
        · obtain ⟨f, rfl⟩ : ∃ f, fuel = f + 2 := ⟨fuel - 2, by omega⟩
          rw [passLoop, e]
          simp only
          rw [passLoop, e1]
        · cases fuel with
          | zero => simp [advCount]
          | succ f =>
            rw [advCount, e]
            simp only [hnadv, if_false, Nat.zero_add]
            exact advCount_ret e1 f
      · exact absurd hlt1 (Nat.lt_irrefl _)
  obtain ⟨p, it1, hp, hadv⟩ := hloop
  have hnext : Next s it0 = some (p, it1) := by
    have e : Next s it0 = nextLoop s (2 * DIGITS + 2) it0 := rfl
    rw [e, nextLoop_eq_passLoop]
    exact hp _ (by simp only [DIGITS]; omega)
  refine ⟨p, it1, hnext, hp, Nat.le_trans (hadv _) (Nat.le_add_left _ _), hadv _, fun h0 => ?_⟩
  rcases Next_spec hI ok with ⟨_, it', e, _, hge, hm⟩ | ⟨q, rest, it', _, e, _, _, hl⟩
  · rw [hnext] at e
    simp only [Option.some.injEq, Prod.mk.injEq] at e
    rw [e.2]
    show nextLoop s (129 + 1) it' = some (0, it')
    exact nextLoop_end it' 129 hge hm
  · rw [hnext] at e
    simp only [Option.some.injEq, Prod.mk.injEq] at e
    exact absurd (e.1.symm.trans h0) hl.ne_zero

set_option maxRecDepth 100000 in
theorem next_terminates_witness :
    IterReach ex8c itEx8c ∧
    Next ex8c itEx8c = some (102048, KoPoolIteratorCore.mk 2 4 0) ∧
    Next ex8c (KoPoolIteratorCore.mk 2 4 0) = some (0, KoPoolIteratorCore.mk 2 4 0) ∧
    ∃ p it1, Next ex8c itEx8c = some (p, it1) ∧
      (∀ fuel, 2 ≤ fuel → passLoop ex8c fuel itEx8c = some (p, it1)) ∧
      advCount ex8c (2 * DIGITS + 2) itEx8c ≤
        (maskBits itEx8c._subPoolsWhichHaveAtLeastOneElement).length + 1 ∧
      advCount ex8c (2 * DIGITS + 2) itEx8c ≤ 1 ∧
      (p = 0 → Next ex8c it1 = some (0, it1)) :=
  ⟨ex8c_iter, by rfl, by rfl, next_terminates ex8c _ ex8c_reachable itEx8c ex8c_iter⟩

end KoPool
